import Mathlib

/-! LionCloud block file system: register codec, block cache, device table and file layer.

Shallow embedding of `lcloud_filesys.c` and `lcloud_cache.c`.

Conventions of the embedding.
* C `int` values are `Int` and sizes (`size_t`, file positions) are `Nat`; the counters of the
  program are far below `2^31` in every run considered, so no wrap-around is modelled for them.
  `uint64_t` arithmetic of the register codec is modelled exactly, modulo `2^64`, and so are
  the two tests of `lcread` on its `size_t` length (a sum, and a conversion to `int`).
* An array that the source leaves uninitialised has its first content as a parameter, and an
  index outside an array gives a call no result.
* Memory reached through a `char *` is a function `Nat → Nat` from offsets to byte values.
* The controller behind `client_lcloud_bus_request` is a parameter `bus` acting on a world state.
-/

namespace LCloud

/-- Memory reached through a `char *`: offset to byte value. -/
abbrev Buf := Nat → Nat

/-- The C call `memcpy(&dst[doff], &src[soff], n)`, returning the new content of `dst`. -/
def memcpy (dst : Buf) (doff : Nat) (src : Buf) (soff n : Nat) : Buf :=
  fun j => if doff ≤ j ∧ j < doff + n then src (soff + (j - doff)) else dst j

/-- Content of a block buffer that has not been written yet. -/
def zeroBuf : Buf := fun _ => 0

/-! ## Register codec (`lcloud_filesys.c`, lines 85-89 and 165-175) -/

/-- Left shift of a `uint64_t`. -/
def shl64 (x k : Nat) : Nat := (x <<< k) % 2 ^ 64

/-- Conversion of a C `int` argument to `uint64_t`. -/
def u64 (x : Int) : Nat := (x % 2 ^ 64).toNat

/-- Conversion of a C `int` argument to `uint16_t`, kept as an integer. -/
def u16 (x : Int) : Int := x % 65536

/-- Source function `create_lcloud_registers`: the fields are or-ed together, `d0` lowest. -/
def create_lcloud_registers (b0 b1 c0 c1 c2 d0 d1 : Nat) : Nat :=
  (d0 % 2 ^ 64) ||| shl64 d1 16 ||| shl64 c2 32 ||| shl64 c1 40 ||| shl64 c0 48 |||
    shl64 b1 56 ||| shl64 b0 60

/-- The seven output registers of `extract_lcloud_registers`. -/
structure Registers where
  b0 : Nat
  b1 : Nat
  c0 : Nat
  c1 : Nat
  c2 : Nat
  d0 : Nat
  d1 : Nat
  deriving DecidableEq, Repr

/-- Source function `extract_lcloud_registers`; it always returns 0, so only the registers are
kept. Each field is a left shift followed by a right shift of the 64-bit frame. -/
def extract_lcloud_registers (resp : Nat) : Registers :=
  { b0 := resp >>> 60
    b1 := shl64 resp 4 >>> 60
    c0 := shl64 resp 8 >>> 56
    c1 := shl64 resp 16 >>> 56
    c2 := shl64 resp 24 >>> 56
    d0 := shl64 resp 32 >>> 48
    d1 := shl64 resp 48 >>> 48 }

/-- The value `-1` as the file layer sees it in a `uint64_t` frame. -/
def frameError : Nat := 2 ^ 64 - 1

/-! ## Block cache (`lcloud_cache.c`) -/

/-- Source structure `cacheBlock`. -/
structure cacheBlock where
  device : Int
  sector : Int
  block : Int
  data : Buf
  time : Int

/-- The globals of `lcloud_cache.c`. The array `cache` has `cacheSize` entries: both are set
together by `lcloud_initcache` and by nothing else. -/
structure CacheState where
  cache : List cacheBlock
  cacheHits : Int
  cacheMisses : Int
  cacheSize : Int
  cacheAccess : Int

/-- The key test `cache[i].device == did && cache[i].block == blk && cache[i].sector == sec`. -/
def keyMatch (e : cacheBlock) (did sec blk : Int) : Bool :=
  e.device == did && e.block == blk && e.sector == sec

/-- The loop of `lcloud_getcache`: index of the first slot holding the key. -/
def getcacheLoop (did sec blk : Int) : List cacheBlock → Nat → Option Nat
  | [], _ => none
  | e :: rest, i => if keyMatch e did sec blk then some i else getcacheLoop did sec blk rest (i + 1)

/-- Source function `lcloud_getcache`. The parameters `sec` and `blk` are `uint16_t`. A hit
returns the 256 data bytes of the slot (the caller copies them at once). -/
def lcloud_getcache (did sec blk : Int) (s : CacheState) : Option Buf × CacheState :=
  match getcacheLoop did (u16 sec) (u16 blk) s.cache 0 with
  | some i =>
    match s.cache.get? i with
    | some e =>
      (some e.data,
        { s with cache := s.cache.set i { e with time := s.cacheAccess }
                 cacheAccess := s.cacheAccess + 1
                 cacheHits := s.cacheHits + 1 })
    | none => (none, { s with cacheMisses := s.cacheMisses + 1 })
  | none => (none, { s with cacheMisses := s.cacheMisses + 1 })

/-- Result of the scan in the first branch of `lcloud_putcache`. -/
inductive FullScan where
  | hit (i : Nat)
  | victim (oldestIndex : Option Nat)
  deriving DecidableEq, Repr

/-- The loop of the first branch of `lcloud_putcache` (lines 89-106): stop at the key, else
track the first slot with the smallest `time` below `oldest`. `oldestIndex` starts
uninitialised (`none`). -/
def putcacheFullLoop (did sec blk : Int) : List cacheBlock → Nat → Int → Option Nat → FullScan
  | [], _, _, oldestIndex => FullScan.victim oldestIndex
  | e :: rest, i, oldest, oldestIndex =>
    if keyMatch e did sec blk then FullScan.hit i
    else if e.time < oldest then putcacheFullLoop did sec blk rest (i + 1) e.time (some i)
    else putcacheFullLoop did sec blk rest (i + 1) oldest oldestIndex

/-- Result of the scan in the second branch of `lcloud_putcache`. -/
inductive FreeScan where
  | hit (i : Nat)
  | empty (i : Nat)
  | fail
  deriving DecidableEq, Repr

/-- The loop of the second branch of `lcloud_putcache` (lines 127-156): stop at the key or at
the first slot whose `block` is `-1`. -/
def putcacheFreeLoop (did sec blk : Int) : List cacheBlock → Nat → FreeScan
  | [], _ => FreeScan.fail
  | e :: rest, i =>
    if keyMatch e did sec blk then FreeScan.hit i
    else if e.block = -1 then FreeScan.empty i
    else putcacheFreeLoop did sec blk rest (i + 1)

/-- The slot update on a key hit in `lcloud_putcache`: new data, new stamp. -/
def restamp (s : CacheState) (i : Nat) (block : Buf) : CacheState :=
  match s.cache.get? i with
  | some e =>
    { s with cache := s.cache.set i { e with data := memcpy e.data 0 block 0 256
                                             time := s.cacheAccess }
             cacheAccess := s.cacheAccess + 1 }
  | none => s

/-- The local `newBlock` of `lcloud_putcache` once filled in. -/
def newCacheBlock (did sec blk : Int) (block : Buf) (time : Int) : cacheBlock :=
  { device := did, sector := sec, block := blk, data := memcpy zeroBuf 0 block 0 256, time := time }

/-- Source function `lcloud_putcache`. The parameters `sec` and `blk` are `uint16_t`. When the
first branch ends with `oldestIndex` never assigned, the C store goes through an uninitialised
index; the model then stores nothing. -/
def lcloud_putcache (did sec blk : Int) (block : Buf) (s : CacheState) : Int × CacheState :=
  if s.cacheAccess ≥ s.cacheSize - 1 then
    match putcacheFullLoop did (u16 sec) (u16 blk) s.cache 0 s.cacheAccess none with
    | FullScan.hit i => (0, restamp s i block)
    | FullScan.victim oldestIndex =>
      let newBlock := newCacheBlock did (u16 sec) (u16 blk) block s.cacheAccess
      (0, { s with cache := (match oldestIndex with
                             | some i => s.cache.set i newBlock
                             | none => s.cache)
                   cacheAccess := s.cacheAccess + 1
                   cacheMisses := s.cacheMisses + 1 })
  else
    match putcacheFreeLoop did (u16 sec) (u16 blk) s.cache 0 with
    | FreeScan.hit i => (0, restamp s i block)
    | FreeScan.empty i =>
      let newBlock := newCacheBlock did (u16 sec) (u16 blk) block s.cacheAccess
      (0, { s with cache := s.cache.set i newBlock
                   cacheAccess := s.cacheAccess + 1
                   cacheMisses := s.cacheMisses + 1 })
    | FreeScan.fail => (-1, s)

/-- The slot value written by `lcloud_initcache`: location `-1,-1,-1`, stamp `-1`. -/
def emptyCacheBlock : cacheBlock :=
  { device := -1, sector := -1, block := -1, data := zeroBuf, time := -1 }

/-- Source function `lcloud_initcache` (it returns 0). -/
def lcloud_initcache (maxblocks : Int) : CacheState :=
  { cache := List.replicate maxblocks.toNat emptyCacheBlock
    cacheHits := 0
    cacheMisses := 0
    cacheSize := maxblocks
    cacheAccess := 0 }

/-! ## Device table and block allocation (`lcloud_filesys.c`) -/

/-- Source structure `block`. -/
structure block where
  device : Int
  sector : Int
  blockNum : Int
  deriving DecidableEq, Repr

/-- Source structure `device`; `online` is the field `on` (a reserved word here) and
`usedBlocks` is the array behind the pointer. -/
structure device where
  online : Int
  sectors : Int
  blocks : Int
  usedBlocks : List Int
  deriving DecidableEq, Repr

/-- The read `*(devOn[i].usedBlocks + sector*devOn[i].blocks + block)`. -/
def usedAt (d : device) (sector blk : Int) : Int :=
  d.usedBlocks.getD (sector * d.blocks + blk).toNat 0

/-- The `while` loop of `get_Next_Block` (lines 117-131) from `(currentSector, currentBlock)`.
Every turn that continues moves one cell further in the bitmap, so `sectors * blocks` turns
are enough whenever both dimensions are at least 1; with a zero dimension the C loop reads
outside the array, and the model just stops. -/
def scanDevice (d : device) : Nat → Int → Int → Int × Int
  | 0, currentSector, currentBlock => (currentSector, currentBlock)
  | fuel + 1, currentSector, currentBlock =>
    if usedAt d currentSector currentBlock = 1 then
      if currentSector = d.sectors - 1 ∧ currentBlock = d.blocks - 1 then
        (currentSector, currentBlock)
      else if currentBlock ≠ d.blocks - 1 then scanDevice d fuel currentSector (currentBlock + 1)
      else if currentSector ≠ d.sectors - 1 then scanDevice d fuel (currentSector + 1) 0
      else scanDevice d fuel currentSector currentBlock
    else (currentSector, currentBlock)

/-- The value returned when no block is available. -/
def noBlock : block := { device := -1, sector := -1, blockNum := -1 }

/-- The `for` loop of `get_Next_Block` over the devices from index `i` on. -/
def nextBlockLoop : List device → Int → block
  | [], _ => noBlock
  | d :: rest, i =>
    if d.online = 1 then
      let r := scanDevice d (d.sectors * d.blocks).toNat 0 0
      if ¬ (r.1 = d.sectors - 1 ∧ r.2 = d.blocks - 1) then
        { device := i, sector := r.1, blockNum := r.2 }
      else nextBlockLoop rest (i + 1)
    else nextBlockLoop rest (i + 1)

/-- Source function `get_Next_Block`. -/
def get_Next_Block (devOn : List device) : block := nextBlockLoop devOn 0

end LCloud

namespace LCloud

/-! ## File layer (`lcloud_filesys.c`) -/

/-- Constants of the headers `lcloud_controller.h` and `lcloud_cache.h`, which are not part of
the sources at hand: the opcodes, the two transfer directions and the cache capacity. -/
structure Consts where
  LC_POWER_ON : Nat
  LC_DEVPROBE : Nat
  LC_DEVINIT : Nat
  LC_BLOCK_XFER : Nat
  LC_POWER_OFF : Nat
  LC_XFER_READ : Nat
  LC_XFER_WRITE : Nat
  LC_CACHE_MAXBLOCKS : Int

/-- Source structure `file`. `opened` is the field `open` (a reserved word here). The field
`blockCount` is neither written nor read by the source and is left out.

The C array `blocks[10000]` is the pair of `blocks` and `garbage`. The source never
initialises the array: `lcopen` copies the local `newFile`, of which only the name, the
handle, `open`, `position` and `size` were assigned (lines 279-293), so every entry starts with
whatever the stack held. `garbage i` is that first content of entry `i`, and `blocks` holds the
entries from index 0 up to the last index the program has stored into; entry `i` of the array
is `blockAt f i`. An index at or above 10000 is outside the array (see `IoResult.undef`). -/
structure file where
  name : String
  handle : Int
  position : Nat
  size : Nat
  blocks : List block
  opened : Int
  garbage : Nat → block

/-- The read `fhTable[fh].blocks[i]`: the entry stored there, or what the array held when the
descriptor was made. -/
def blockAt (f : file) (i : Nat) : block := f.blocks.getD i (f.garbage i)

/-- The store `fhTable[fh].blocks[i] = b` into the array made of `bl` and `garbage`: the
entries between the last one stored so far and index `i` keep their first content. -/
def setBlock (garbage : Nat → block) (bl : List block) (i : Nat) (b : block) : List block :=
  if i < bl.length then bl.set i b
  else bl ++ (List.range' bl.length (i - bl.length)).map garbage ++ [b]

/-- The globals of `lcloud_filesys.c` and `lcloud_cache.c`, and the state `world` of what is
behind `client_lcloud_bus_request` (connection and controller). -/
structure FsState (σ : Type) where
  firstOpen : Int
  fileHandleCounter : Nat
  devOn : List device
  fhTable : List file
  cs : CacheState
  world : σ

/-- The call `client_lcloud_bus_request(reg, buf)`: from the world state, the request frame and
the buffer behind `buf`, to the returned frame, the buffer afterwards and the new world. -/
abbrev Bus (σ : Type) := σ → Nat → Buf → Nat × Buf × σ

/-- The failure test on a response, `(instructionFrame == -1) || (resultFrame == -1) ||
extract_lcloud_registers(...) || (b0 != 1) || (b1 != 1) || (c0 != op)`. -/
def respBad (instructionFrame resultFrame op : Nat) : Bool :=
  instructionFrame == frameError || resultFrame == frameError ||
    (extract_lcloud_registers resultFrame).b0 != 1 ||
    (extract_lcloud_registers resultFrame).b1 != 1 ||
    (extract_lcloud_registers resultFrame).c0 != op

/-- The machine state before the first call: `firstOpen = 1`, zeroed globals. -/
def bootState {σ : Type} (w : σ) : FsState σ :=
  { firstOpen := 1
    fileHandleCounter := 0
    devOn := List.replicate 16 { online := 0, sectors := 0, blocks := 0, usedBlocks := [] }
    fhTable := []
    cs := { cache := [], cacheHits := 0, cacheMisses := 0, cacheSize := 0, cacheAccess := 0 }
    world := w }

/-- The device loop of `lcopen` (lines 229-272) from device `i` on, over the remaining entries
of `devOn`; the flag is false on the early `return -1`, with the table as it is at that
point. -/
def initDevices {σ : Type} (K : Consts) (bus : Bus σ) :
    List device → Nat → Nat → List device → σ → Bool × List device × σ
  | [], _, _, done, w => (true, done, w)
  | d :: rest, i, listOfDevices, done, w =>
    if listOfDevices &&& 1 = 1 then
      let instructionFrame := create_lcloud_registers 0 0 K.LC_DEVINIT i 0 0 0
      let r := bus w instructionFrame zeroBuf
      if respBad instructionFrame r.1 K.LC_DEVINIT then
        (false, done ++ { d with online := 1 } :: rest, r.2.2)
      else
        let d0 := (extract_lcloud_registers r.1).d0
        let d1 := (extract_lcloud_registers r.1).d1
        initDevices K bus rest (i + 1) (listOfDevices >>> 1)
          (done ++ [{ online := 1, sectors := d0, blocks := d1,
                      usedBlocks := List.replicate (d0 * d1) 0 }]) r.2.2
    else
      initDevices K bus rest (i + 1) (listOfDevices >>> 1) (done ++ [{ d with online := 0 }]) w

/-- The first-call part of `lcopen` (lines 193-276); the flag is false on `return -1`. -/
def lcopenInit {σ : Type} (K : Consts) (bus : Bus σ) (s : FsState σ) : Bool × FsState σ :=
  let cs := lcloud_initcache K.LC_CACHE_MAXBLOCKS
  let instructionFrame := create_lcloud_registers 0 0 K.LC_POWER_ON 0 0 0 0
  let r := bus s.world instructionFrame zeroBuf
  if respBad instructionFrame r.1 0 then (false, { s with cs := cs, world := r.2.2 })
  else
    let instructionFrame2 := create_lcloud_registers 0 0 K.LC_DEVPROBE 0 0 0 0
    let r2 := bus r.2.2 instructionFrame2 zeroBuf
    if respBad instructionFrame2 r2.1 1 then (false, { s with cs := cs, world := r2.2.2 })
    else
      let listOfDevices := (extract_lcloud_registers r2.1).d0
      let r3 := initDevices K bus s.devOn 0 listOfDevices [] r2.2.2
      if r3.1 then (true, { s with cs := cs, devOn := r3.2.1, world := r3.2.2, firstOpen := 0 })
      else (false, { s with cs := cs, devOn := r3.2.1, world := r3.2.2 })

/-- The descriptor part of `lcopen` (lines 278-299). `garbage` is the content of the array
`blocks` of the uninitialised local `newFile`. `strncpy` writes 128 bytes from the start of
`name[120]`: the array gets the first 120 characters of the path, and the 8 bytes that fall
on `handle` and `position` are replaced by the assignments that follow. -/
def lcopenFile {σ : Type} (path : String) (garbage : Nat → block) (s : FsState σ) :
    Int × FsState σ :=
  let newFile : file :=
    { name := String.mk (path.data.take 120), handle := s.fileHandleCounter, position := 0,
      size := 0, blocks := [], opened := 1, garbage := garbage }
  (newFile.handle,
    { s with fhTable := s.fhTable ++ [newFile], fileHandleCounter := s.fileHandleCounter + 1 })

/-- Source function `lcopen`. -/
def lcopen {σ : Type} (K : Consts) (bus : Bus σ) (path : String) (garbage : Nat → block)
    (s : FsState σ) : Int × FsState σ :=
  if s.firstOpen ≠ 0 then
    let r := lcopenInit K bus s
    if r.1 then lcopenFile path garbage r.2 else (-1, r.2)
  else lcopenFile path garbage s

/-- Source function `lcseek` on the descriptor `fhTable[fh]`. -/
def seekFile (f : file) (off : Nat) : Int × file :=
  if f.opened = 0 then (-1, f)
  else if f.size < off then (-1, f)
  else (off, { f with position := off })

/-- What `lcread` leaves behind: return value, the caller's buffer, the descriptor
`fhTable[fh]`, the cache and the world. The flag `undef` tells that the call has no result
that C defines: it has used an entry `blocks[i]` with `i >= 10000`, outside the array, or its
loop has not come to an end (see `lcreadLoop`); the other fields mean nothing then. -/
structure IoResult (σ : Type) where
  ret : Int
  buf : Buf
  f : file
  cs : CacheState
  world : σ
  undef : Bool := false

/-- The result `r`, without defined result when `c` holds. -/
def IoResult.mark {σ : Type} (c : Bool) (r : IoResult σ) : IoResult σ :=
  { r with undef := r.undef || c }

/-- Conversion of a `size_t` value to `int`: the low 32 bits, read in two's complement. -/
def toInt32 (x : Nat) : Int :=
  if x % 2 ^ 32 < 2 ^ 31 then ((x % 2 ^ 32 : Nat) : Int) else ((x % 2 ^ 32 : Nat) : Int) - 2 ^ 32

/-- Block load of `lcread` (lines 339-359, 377-397 and 436-456, which are the same code):
cache lookup, on a miss a block-read request, the response test and the cache insertion.
The flag is false on `return -1`; the buffer is `buf_256` afterwards. -/
def loadBlock {σ : Type} (K : Consts) (bus : Bus σ) (b : block) (buf_256 : Buf)
    (cs : CacheState) (w : σ) : Bool × Buf × CacheState × σ :=
  let g := lcloud_getcache b.device b.sector b.blockNum cs
  match g.1 with
  | some cacheCheck => (true, memcpy buf_256 0 cacheCheck 0 256, g.2, w)
  | none =>
    let instructionFrame := create_lcloud_registers 0 0 K.LC_BLOCK_XFER (u64 b.device)
      K.LC_XFER_READ (u64 b.blockNum) (u64 b.sector)
    let r := bus w instructionFrame buf_256
    if respBad instructionFrame r.1 K.LC_BLOCK_XFER then (false, r.2.1, g.2, r.2.2)
    else (true, r.2.1, (lcloud_putcache b.device b.sector b.blockNum r.2.1 g.2).2, r.2.2)

/-- Block load of the third branch of `lcread` (lines 409-423), which bypasses the cache. -/
def loadBlockDirect {σ : Type} (K : Consts) (bus : Bus σ) (b : block) (buf_256 : Buf)
    (w : σ) : Bool × Buf × σ :=
  let instructionFrame := create_lcloud_registers 0 0 K.LC_BLOCK_XFER (u64 b.device)
    K.LC_XFER_READ (u64 b.blockNum) (u64 b.sector)
  let r := bus w instructionFrame buf_256
  (!respBad instructionFrame r.1 K.LC_BLOCK_XFER, r.2.1, r.2.2)

/-- The `while` loop of `lcread` (lines 332-465). Arguments after the fuel: descriptor, cache,
world, the caller's buffer, `bytesRead`, `len`, the block counter `i`, the local `buf_256`.
`len` is a `size_t`: the sum in the first test is taken modulo `2^64`, and the second test
looks at `len / 256` after its conversion to `int`. The loop condition reads `blocks[i]` when
`len > 0`, and the third test reads `blocks[i + 1]` when `len > 256`; a read at index 10000 or
above marks the result. Every turn that continues makes `len` smaller, except a turn of the
last branch with `len % 256 = 0`, which is only reached with `len >= 2^39` and after which
the C loop repeats the same turn for as long as the load succeeds; so `len + 1` turns are
enough whenever the loop ends, and a loop that has not ended by then has no result. -/
def lcreadLoop {σ : Type} (K : Consts) (bus : Bus σ) :
    Nat → file → CacheState → σ → Buf → Nat → Nat → Nat → Buf → IoResult σ
  | 0, f, cs, w, buf, bytesRead, _, _, _ =>
    { ret := bytesRead, buf := buf, f := f, cs := cs, world := w, undef := true }
  | fuel + 1, f, cs, w, buf, bytesRead, len, i, buf_256 =>
    IoResult.mark (decide (len > 0 ∧ 10000 ≤ i))
      (if len > 0 ∧ (blockAt f i).blockNum ≠ -1 then
        if f.position % 256 ≠ 0 ∧ (f.position % 256 + len) % 2 ^ 64 > 256 then
          let l := loadBlock K bus (blockAt f i) buf_256 cs w
          if l.1 then
            lcreadLoop K bus fuel { f with position := f.position + (256 - f.position % 256) }
              l.2.2.1 l.2.2.2
              (memcpy buf bytesRead l.2.1 (f.position % 256) (256 - f.position % 256))
              (bytesRead + (256 - f.position % 256)) (len - (256 - f.position % 256)) (i + 1)
              l.2.1
          else { ret := -1, buf := buf, f := f, cs := l.2.2.1, world := l.2.2.2 }
        else if toInt32 (len / 256) > 0 then
          let l := loadBlock K bus (blockAt f i) buf_256 cs w
          if l.1 then
            lcreadLoop K bus fuel { f with position := f.position + 256 } l.2.2.1 l.2.2.2
              (memcpy buf bytesRead l.2.1 0 256) (bytesRead + 256) (len - 256) (i + 1) l.2.1
          else { ret := -1, buf := buf, f := f, cs := l.2.2.1, world := l.2.2.2 }
        else
          IoResult.mark (decide (len > 256 ∧ 10000 ≤ i + 1))
            (if len > 256 ∧ (blockAt f (i + 1)).blockNum = -1 then
              let l := loadBlockDirect K bus (blockAt f i) buf_256 w
              if l.1 then
                { ret := bytesRead + f.size % 256
                  buf := memcpy buf bytesRead l.2.1 0 (f.size % 256)
                  f := { f with position := f.position + f.size % 256 }
                  cs := cs
                  world := l.2.2 }
              else { ret := -1, buf := buf, f := f, cs := cs, world := l.2.2 }
            else
              let l := loadBlock K bus (blockAt f i) buf_256 cs w
              if l.1 then
                lcreadLoop K bus fuel { f with position := f.position + len % 256 } l.2.2.1
                  l.2.2.2 (memcpy buf bytesRead l.2.1 (f.position % 256) (len % 256))
                  (bytesRead + len % 256) (len - len % 256) i l.2.1
              else { ret := -1, buf := buf, f := f, cs := l.2.2.1, world := l.2.2.2 })
      else { ret := bytesRead, buf := buf, f := f, cs := cs, world := w })

/-- Source function `lcread` on the descriptor `fhTable[fh]`. `junk` is the content of the
uninitialised local `buf_256`. -/
def readFile {σ : Type} (K : Consts) (bus : Bus σ) (junk : Buf) (f : file) (cs : CacheState)
    (w : σ) (buf : Buf) (len : Nat) : IoResult σ :=
  if f.opened = 0 then { ret := -1, buf := buf, f := f, cs := cs, world := w }
  else lcreadLoop K bus (len + 1) f cs w buf 0 len (f.position / 256) junk

end LCloud

namespace LCloud

/-- The locals and globals that `lcwrite` works on. The flag `undef` tells that the call has
used an entry `blocks[i]` with `i >= 10000`, outside the array, or that a `lcread` it made has
no defined result: the call has no result that C defines then. -/
structure WState (σ : Type) where
  f : file
  devOn : List device
  cs : CacheState
  world : σ
  bytesWrote : Nat
  len : Nat
  buf_256 : Buf
  undef : Bool := false

/-- The store `*(devOn[dev_Num].usedBlocks + sector*devOn[dev_Num].blocks + currentBlock) = 1`.
A store outside the table or outside the bitmap is dropped. -/
def markUsed (devOn : List device) (dev_Num sector currentBlock : Int) : List device :=
  if 0 ≤ dev_Num then
    match devOn.get? dev_Num.toNat with
    | some d =>
      if 0 ≤ sector * d.blocks + currentBlock then
        devOn.set dev_Num.toNat
          { d with usedBlocks := d.usedBlocks.set (sector * d.blocks + currentBlock).toNat 1 }
      else devOn
    | none => devOn
  else devOn

/-- The pre-fetch of `lcwrite` (lines 512-522, 637-647, 686-696, 752-762, 800-810): save the
position, `lcseek` to `target`, `lcread` 256 bytes into `buf_256`, restore the position. The
return values of both calls are ignored by the source. -/
def prefetch {σ : Type} (K : Consts) (bus : Bus σ) (junk : Buf) (target : Nat)
    (st : WState σ) : WState σ :=
  let tempPosition := st.f.position
  let sk := seekFile st.f target
  let rd := readFile K bus junk sk.2 st.cs st.world st.buf_256 256
  { st with f := { rd.f with position := tempPosition }, cs := rd.cs, world := rd.world,
            buf_256 := rd.buf, undef := st.undef || rd.undef }

/-- The block-write request of `lcwrite` with its response test (lines 533-539 and the four
copies of it); the bus is not called when the request frame itself is `-1`. The flag is false
on `return -1`. -/
def sendBlock {σ : Type} (K : Consts) (bus : Bus σ) (b : block) (buf_256 : Buf) (w : σ) :
    Bool × Buf × σ :=
  let instructionFrame := create_lcloud_registers 0 0 K.LC_BLOCK_XFER (u64 b.device)
    K.LC_XFER_WRITE (u64 b.blockNum) (u64 b.sector)
  if instructionFrame = frameError then (false, buf_256, w)
  else
    let r := bus w instructionFrame buf_256
    (!respBad instructionFrame r.1 K.LC_BLOCK_XFER, r.2.1, r.2.2)

/-- The size update `if (size < position + bytesWrote) size = position + bytesWrote`. -/
def growSize (f : file) (bytesWrote : Nat) : file :=
  if f.size < f.position + bytesWrote then { f with size := f.position + bytesWrote } else f

/-- A chunk of `lcwrite` that rewrites part of an existing block (lines 507-553, 681-726 and
796-841): take `blocks[idx]`, pre-fetch from `target`, overlay `n` bytes of the caller's data
at offset `position % 256`, send the block, update the cache and the counters. The read of
`blocks[idx]` is outside the array when `idx >= 10000`. -/
def writeInBlock {σ : Type} (K : Consts) (bus : Bus σ) (junk buf : Buf) (idx target n : Nat)
    (st : WState σ) : Bool × WState σ :=
  let nextBlock := blockAt st.f idx
  let st1 := prefetch K bus junk target st
  let buf1 := memcpy st1.buf_256 (st1.f.position % 256) buf st1.bytesWrote n
  let r := sendBlock K bus nextBlock buf1 st1.world
  if r.1 then
    let cs2 := (lcloud_putcache nextBlock.device nextBlock.sector nextBlock.blockNum r.2.1
      st1.cs).2
    (true, { st1 with f := growSize st1.f (st1.bytesWrote + n), cs := cs2, world := r.2.2,
                      bytesWrote := st1.bytesWrote + n, len := st1.len - n, buf_256 := r.2.1,
                      undef := st1.undef || decide (10000 ≤ idx) })
  else
    (false, { st1 with world := r.2.2, buf_256 := r.2.1,
                       undef := st1.undef || decide (10000 ≤ idx) })

/-- The choice of `nextBlock` in a chunk of `lcwrite` that starts on a block boundary (lines
557-564, 615-622 and 730-737): a new block from `get_Next_Block` at or past the end of the
file, else the block of the file at that place. -/
def chosenBlock {σ : Type} (st : WState σ) : block :=
  if st.f.position + st.bytesWrote ≥ st.f.size then get_Next_Block st.devOn
  else blockAt st.f ((st.f.position + st.bytesWrote) / 256)

/-- A chunk of `lcwrite` that starts on a block boundary (lines 555-608, 613-677 and 730-793):
the block is `chosenBlock`; `pre` tells whether the chunk has the pre-fetch of a block that is
overwritten in part; then `n` bytes of the caller's data go to the start of `buf_256`, the
block is sent, cached, stored in `blocks` and marked used. With the index
`(position + bytesWrote) / 256` at 10000 or above, the read of the block of the file (made
below the size) and the store after a successful transfer are outside the array. -/
def writeAtBoundary {σ : Type} (K : Consts) (bus : Bus σ) (junk buf : Buf) (pre : Bool) (n : Nat)
    (st : WState σ) : Bool × WState σ :=
  let nextBlock := chosenBlock st
  let outside := decide (st.f.position + st.bytesWrote < st.f.size ∧
    10000 ≤ (st.f.position + st.bytesWrote) / 256)
  if nextBlock.sector = -1 then (false, { st with undef := st.undef || outside })
  else
    let st1 :=
      if pre ∧ st.f.position + st.bytesWrote < st.f.size then
        prefetch K bus junk (st.f.position + st.bytesWrote) st
      else st
    let buf1 := memcpy st1.buf_256 0 buf st1.bytesWrote n
    let r := sendBlock K bus nextBlock buf1 st1.world
    if r.1 then
      let cs2 := (lcloud_putcache nextBlock.device nextBlock.sector nextBlock.blockNum r.2.1
        st1.cs).2
      let f2 := { st1.f with
        blocks := setBlock st1.f.garbage st1.f.blocks ((st1.f.position + st1.bytesWrote) / 256)
          nextBlock }
      (true, { st1 with f := growSize f2 (st1.bytesWrote + n)
                        devOn := markUsed st1.devOn nextBlock.device nextBlock.sector
                          nextBlock.blockNum
                        cs := cs2, world := r.2.2
                        bytesWrote := st1.bytesWrote + n, len := st1.len - n
                        buf_256 := r.2.1
                        undef := st1.undef ||
                          decide (10000 ≤ (st1.f.position + st1.bytesWrote) / 256) })
    else (false, { st1 with world := r.2.2, buf_256 := r.2.1, undef := st1.undef || outside })

/-- The `while (len >= 256)` loop of `lcwrite` (lines 505-609). Every turn that continues
makes `len` smaller, so `len + 1` turns are enough. -/
def lcwriteLoop {σ : Type} (K : Consts) (bus : Bus σ) (junk buf : Buf) :
    Nat → WState σ → Bool × WState σ
  | 0, st => (true, st)
  | fuel + 1, st =>
    if st.len ≥ 256 then
      if (st.f.position + st.bytesWrote) % 256 ≠ 0 then
        let r := writeInBlock K bus junk buf (st.f.position / 256)
          (st.f.position - st.f.position % 256) (256 - st.f.position % 256) st
        if r.1 then lcwriteLoop K bus junk buf fuel r.2 else r
      else
        let r := writeAtBoundary K bus junk buf false 256 st
        if r.1 then lcwriteLoop K bus junk buf fuel r.2 else r
    else (true, st)

/-- The part of `lcwrite` after the loop (lines 611-844), for the last `len < 256` bytes. -/
def lcwriteTail {σ : Type} (K : Consts) (bus : Bus σ) (junk buf : Buf) (st : WState σ) :
    Bool × WState σ :=
  if st.len > 0 then
    if (st.f.position + st.bytesWrote) % 256 = 0 then
      writeAtBoundary K bus junk buf true st.len st
    else if st.len > 256 - (st.f.position + st.bytesWrote) % 256 then
      let r := writeInBlock K bus junk buf ((st.f.position + st.bytesWrote) / 256)
        (st.f.position + st.bytesWrote - st.f.position % 256) (256 - st.f.position % 256) st
      if r.1 then writeAtBoundary K bus junk buf true r.2.len r.2 else r
    else
      writeInBlock K bus junk buf (st.f.position / 256) (st.f.position - st.f.position % 256)
        st.len st
  else (true, st)

/-- What `lcwrite` leaves behind: return value, descriptor, device table, cache and world,
and the flag `undef` of `WState`. -/
structure WriteResult (σ : Type) where
  ret : Int
  f : file
  devOn : List device
  cs : CacheState
  world : σ
  undef : Bool := false

/-- The chunks of `lcwrite` (lines 505-844): the loop, then the part after it unless the loop
ended in `return -1`. The flag is false on `return -1`. -/
def lcwriteBody {σ : Type} (K : Consts) (bus : Bus σ) (junk buf : Buf) (st : WState σ) :
    Bool × WState σ :=
  let r := lcwriteLoop K bus junk buf (st.len + 1) st
  if r.1 then lcwriteTail K bus junk buf r.2 else r

/-- Source function `lcwrite` on the descriptor `fhTable[fh]`. `junk` is the content of the
uninitialised locals `buf_256` of `lcwrite` and of the `lcread` it calls. The position moves
only at the very end (line 847), after all chunks succeeded. -/
def writeFile {σ : Type} (K : Consts) (bus : Bus σ) (junk : Buf) (f : file)
    (devOn : List device) (cs : CacheState) (w : σ) (buf : Buf) (len : Nat) : WriteResult σ :=
  if f.opened = 0 then { ret := -1, f := f, devOn := devOn, cs := cs, world := w }
  else
    let t := lcwriteBody K bus junk buf
      { f := f, devOn := devOn, cs := cs, world := w, bytesWrote := 0, len := len,
        buf_256 := junk }
    if t.1 then
      { ret := t.2.bytesWrote
        f := { t.2.f with position := t.2.f.position + t.2.bytesWrote }
        devOn := t.2.devOn, cs := t.2.cs, world := t.2.world, undef := t.2.undef }
    else
      { ret := -1, f := t.2.f, devOn := t.2.devOn, cs := t.2.cs, world := t.2.world,
        undef := t.2.undef }

/-! ### The five calls on the whole state

A handle outside `fhTable` makes `lcread`, `lcwrite` and `lcseek` index the table out of
bounds, which C leaves undefined: these three return `none` there. `lcread` and `lcwrite`
also return `none` when the call is marked `undef`. Handles are taken non-negative. -/

/-- Source function `lcread`. -/
def lcread {σ : Type} (K : Consts) (bus : Bus σ) (junk : Buf) (fh : Nat) (buf : Buf) (len : Nat)
    (s : FsState σ) : Option (Int × Buf × FsState σ) :=
  match s.fhTable.get? fh with
  | none => none
  | some f =>
    let r := readFile K bus junk f s.cs s.world buf len
    if r.undef then none
    else
      some (r.ret, r.buf, { s with fhTable := s.fhTable.set fh r.f, cs := r.cs, world := r.world })

/-- Source function `lcwrite`. -/
def lcwrite {σ : Type} (K : Consts) (bus : Bus σ) (junk : Buf) (fh : Nat) (buf : Buf) (len : Nat)
    (s : FsState σ) : Option (Int × FsState σ) :=
  match s.fhTable.get? fh with
  | none => none
  | some f =>
    let r := writeFile K bus junk f s.devOn s.cs s.world buf len
    if r.undef then none
    else
      some (r.ret, { s with fhTable := s.fhTable.set fh r.f, devOn := r.devOn, cs := r.cs,
                            world := r.world })

/-- Source function `lcseek`. -/
def lcseek {σ : Type} (fh : Nat) (off : Nat) (s : FsState σ) : Option (Int × FsState σ) :=
  match s.fhTable.get? fh with
  | none => none
  | some f => some ((seekFile f off).1, { s with fhTable := s.fhTable.set fh (seekFile f off).2 })

/-- Source function `lcclose`: the handle is compared with `fileHandleCounter` before the
table is read. -/
def lcclose {σ : Type} (fh : Nat) (s : FsState σ) : Int × FsState σ :=
  if fh ≥ s.fileHandleCounter then (-1, s)
  else
    match s.fhTable.get? fh with
    | some f =>
      if f.opened = 0 then (-1, s)
      else (0, { s with fhTable := s.fhTable.set fh { f with opened := 0 } })
    | none => (-1, s)

end LCloud

namespace LCloud

/-! ## A controller that stores what is written

The controller is outside the sources. `simBus` is a small executable stand-in for it, used to
run the file layer on concrete inputs: it answers every request with `b0 = b1 = 1` and the
opcode of the request, reports the devices of `mask` with one geometry, and keeps the 256
bytes of every block written. It reads the request fields where `create_lcloud_registers`
puts them and writes the response fields where `extract_lcloud_registers` looks for them. -/

/-- State of the stand-in controller: block contents by device and by the low 32 bits of the
request frame. -/
structure SimWorld where
  mem : Nat → Nat → Buf

/-- Response frame with `b0 = b1 = 1`, opcode `op`, and `hi`, `lo` in bits 16-31 and 0-15. -/
def simResponse (op hi lo : Nat) : Nat := 2 ^ 60 + 2 ^ 56 + op * 2 ^ 48 + hi * 2 ^ 16 + lo

/-- The stand-in controller behind `client_lcloud_bus_request`. -/
def simBus (K : Consts) (mask sectors blocks : Nat) : Bus SimWorld :=
  fun w reg buf =>
    let op := (reg >>> 48) % 256
    let dev := (reg >>> 40) % 256
    let dir := (reg >>> 32) % 256
    let addr := reg % 2 ^ 32
    if op = K.LC_BLOCK_XFER ∧ dir = K.LC_XFER_READ then
      (simResponse op 0 0, memcpy buf 0 (w.mem dev addr) 0 256, w)
    else if op = K.LC_BLOCK_XFER ∧ dir = K.LC_XFER_WRITE then
      (simResponse op 0 0, buf,
        { mem := fun d a => if d = dev ∧ a = addr then memcpy zeroBuf 0 buf 0 256 else w.mem d a })
    else if op = K.LC_DEVPROBE then (simResponse op mask 0, buf, w)
    else if op = K.LC_DEVINIT then (simResponse op sectors blocks, buf, w)
    else (simResponse op 0 0, buf, w)

/-- Opcode values used to run the model: power-on 0 and probe 1 as `lcopen` expects them. -/
def simConsts : Consts :=
  { LC_POWER_ON := 0, LC_DEVPROBE := 1, LC_DEVINIT := 2, LC_BLOCK_XFER := 3, LC_POWER_OFF := 4,
    LC_XFER_READ := 0, LC_XFER_WRITE := 1, LC_CACHE_MAXBLOCKS := 4 }

/-- Empty controller memory. -/
def simWorld0 : SimWorld := { mem := fun _ _ => zeroBuf }

/-- A source buffer holding the byte `v` everywhere. -/
def constBuf (v : Nat) : Buf := fun _ => v

end LCloud

namespace LCloud

/-! ## Runs of the program -/

/-- States reachable from the boot state by calls of `lcopen`, `lcread`, `lcwrite`, `lcseek`
and `lcclose` that have a defined result (handles inside the descriptor table, indices inside
the arrays `blocks`), whatever the calls return and whatever the arrays `blocks` hold when the
descriptors are made. -/
inductive Reachable {σ : Type} (K : Consts) (bus : Bus σ) : FsState σ → Prop
  | boot (w : σ) : Reachable K bus (bootState w)
  | opn {s : FsState σ} (path : String) (garbage : Nat → block) :
      Reachable K bus s → Reachable K bus (lcopen K bus path garbage s).2
  | read {s : FsState σ} (junk : Buf) (fh : Nat) (buf : Buf) (len : Nat)
      (r : Int × Buf × FsState σ) :
      Reachable K bus s → lcread K bus junk fh buf len s = some r → Reachable K bus r.2.2
  | write {s : FsState σ} (junk : Buf) (fh : Nat) (buf : Buf) (len : Nat) (r : Int × FsState σ) :
      Reachable K bus s → lcwrite K bus junk fh buf len s = some r → Reachable K bus r.2
  | seek {s : FsState σ} (fh off : Nat) (r : Int × FsState σ) :
      Reachable K bus s → lcseek fh off s = some r → Reachable K bus r.2
  | close {s : FsState σ} (fh : Nat) : Reachable K bus s → Reachable K bus (lcclose fh s).2

/-- The runs of `Reachable` in which every `lcread` ends inside the blocks stored so far: the
position plus the length asked for is not past the end of the last stored block. Such a read
never looks at an entry of `blocks` that the program has not stored. -/
inductive InBlocks {σ : Type} (K : Consts) (bus : Bus σ) : FsState σ → Prop
  | boot (w : σ) : InBlocks K bus (bootState w)
  | opn {s : FsState σ} (path : String) (garbage : Nat → block) :
      InBlocks K bus s → InBlocks K bus (lcopen K bus path garbage s).2
  | read {s : FsState σ} (junk : Buf) (fh : Nat) (buf : Buf) (len : Nat) (f : file)
      (r : Int × Buf × FsState σ) :
      InBlocks K bus s → s.fhTable.get? fh = some f →
      f.position + len ≤ 256 * f.blocks.length →
      lcread K bus junk fh buf len s = some r → InBlocks K bus r.2.2
  | write {s : FsState σ} (junk : Buf) (fh : Nat) (buf : Buf) (len : Nat) (r : Int × FsState σ) :
      InBlocks K bus s → lcwrite K bus junk fh buf len s = some r → InBlocks K bus r.2
  | seek {s : FsState σ} (fh off : Nat) (r : Int × FsState σ) :
      InBlocks K bus s → lcseek fh off s = some r → InBlocks K bus r.2
  | close {s : FsState σ} (fh : Nat) : InBlocks K bus s → InBlocks K bus (lcclose fh s).2

/-- Every accepted answer to a device-init request reports at least one sector and at least
one block. -/
def GoodGeometry {σ : Type} (K : Consts) (bus : Bus σ) : Prop :=
  ∀ (w : σ) (i : Nat) (b : Buf),
    respBad (create_lcloud_registers 0 0 K.LC_DEVINIT i 0 0 0)
      (bus w (create_lcloud_registers 0 0 K.LC_DEVINIT i 0 0 0) b).1 K.LC_DEVINIT = false →
    1 ≤ (extract_lcloud_registers
          (bus w (create_lcloud_registers 0 0 K.LC_DEVINIT i 0 0 0) b).1).d0 ∧
    1 ≤ (extract_lcloud_registers
          (bus w (create_lcloud_registers 0 0 K.LC_DEVINIT i 0 0 0) b).1).d1

/-- The request frame of a block transfer as `lcread` and `lcwrite` build it. -/
def xferFrame (K : Consts) (dir : Nat) (b : block) : Nat :=
  create_lcloud_registers 0 0 K.LC_BLOCK_XFER (u64 b.device) dir (u64 b.blockNum) (u64 b.sector)

/-- A block address that fits the request frame: device below 16, sector and block number
below `2^16`. -/
def Addressable (b : block) : Prop :=
  0 ≤ b.device ∧ b.device < 16 ∧ 0 ≤ b.sector ∧ b.sector < 65536 ∧
    0 ≤ b.blockNum ∧ b.blockNum < 65536

/-- A controller that stores what is written and answers every block transfer successfully.
`mem w b` is the content the world `w` holds for block `b`. A write request is accepted,
leaves the buffer alone and makes the 256 bytes sent the content of that block only; a read
request is accepted, delivers the content of the block and changes no content. -/
structure StoringBus {σ : Type} (K : Consts) (bus : Bus σ) (mem : σ → block → Buf) : Prop where
  write_ok : ∀ (w : σ) (b : block) (buf : Buf), Addressable b →
    respBad (xferFrame K K.LC_XFER_WRITE b) (bus w (xferFrame K K.LC_XFER_WRITE b) buf).1
      K.LC_BLOCK_XFER = false
  write_buf : ∀ (w : σ) (b : block) (buf : Buf), Addressable b →
    (bus w (xferFrame K K.LC_XFER_WRITE b) buf).2.1 = buf
  write_mem : ∀ (w : σ) (b : block) (buf : Buf), Addressable b → ∀ j, j < 256 →
    mem (bus w (xferFrame K K.LC_XFER_WRITE b) buf).2.2 b j = buf j
  write_other : ∀ (w : σ) (b c : block) (buf : Buf), Addressable b → Addressable c → c ≠ b →
    ∀ j, j < 256 → mem (bus w (xferFrame K K.LC_XFER_WRITE b) buf).2.2 c j = mem w c j
  read_ok : ∀ (w : σ) (b : block) (buf : Buf), Addressable b →
    respBad (xferFrame K K.LC_XFER_READ b) (bus w (xferFrame K K.LC_XFER_READ b) buf).1
      K.LC_BLOCK_XFER = false
  read_buf : ∀ (w : σ) (b : block) (buf : Buf), Addressable b → ∀ j, j < 256 →
    (bus w (xferFrame K K.LC_XFER_READ b) buf).2.1 j = mem w b j
  read_mem : ∀ (w : σ) (b c : block) (buf : Buf), Addressable b → Addressable c →
    ∀ j, j < 256 → mem (bus w (xferFrame K K.LC_XFER_READ b) buf).2.2 c j = mem w c j

/-- Runs made of `lcopen`, successful `lcwrite`, `lcseek`, `lcclose` and of `lcread` calls that
stay inside the file, all with a defined result (handles inside the descriptor table, indices
inside the arrays `blocks`), together with the bytes last written at each position of each
file: `g` has one buffer per handle, and a successful write of `len` bytes at position `p`
puts the caller's bytes at `[p, p + len)` of the buffer of its handle. -/
inductive Written {σ : Type} (K : Consts) (bus : Bus σ) : FsState σ → List Buf → Prop
  | boot (w : σ) : Written K bus (bootState w) []
  | opn {s : FsState σ} {g : List Buf} (path : String) (garbage : Nat → block) :
      Written K bus s g →
      Written K bus (lcopen K bus path garbage s).2
        (if 0 ≤ (lcopen K bus path garbage s).1 then g ++ [zeroBuf] else g)
  | write {s : FsState σ} {g : List Buf} (junk : Buf) (fh : Nat) (buf : Buf) (len : Nat)
      (f : file) (r : Int × FsState σ) :
      Written K bus s g → s.fhTable.get? fh = some f →
      lcwrite K bus junk fh buf len s = some r → 0 ≤ r.1 →
      Written K bus r.2 (g.set fh (memcpy (g.getD fh zeroBuf) f.position buf 0 len))
  | seek {s : FsState σ} {g : List Buf} (fh off : Nat) (r : Int × FsState σ) :
      Written K bus s g → lcseek fh off s = some r → Written K bus r.2 g
  | close {s : FsState σ} {g : List Buf} (fh : Nat) :
      Written K bus s g → Written K bus (lcclose fh s).2 g
  | read {s : FsState σ} {g : List Buf} (junk : Buf) (fh : Nat) (buf : Buf) (len : Nat)
      (f : file) (r : Int × Buf × FsState σ) :
      Written K bus s g → s.fhTable.get? fh = some f → f.position + len ≤ f.size →
      lcread K bus junk fh buf len s = some r → Written K bus r.2.2 g

/-! ## Runs of the cache alone -/

/-- A call of the cache interface. -/
inductive CacheCall where
  | get (did sec blk : Int)
  | put (did sec blk : Int) (data : Buf)

/-- The cache after a call. -/
def runCache (c : CacheCall) (s : CacheState) : CacheState :=
  match c with
  | CacheCall.get did sec blk => (lcloud_getcache did sec blk s).2
  | CacheCall.put did sec blk data => (lcloud_putcache did sec blk data s).2

/-- Cache states reachable from `lcloud_initcache maxblocks` by calls of `lcloud_getcache` and
`lcloud_putcache`. -/
inductive CacheReachable (maxblocks : Int) : CacheState → Prop
  | init : CacheReachable maxblocks (lcloud_initcache maxblocks)
  | step {s : CacheState} (c : CacheCall) :
      CacheReachable maxblocks s → CacheReachable maxblocks (runCache c s)

/-- The call is a `lcloud_putcache` of the key `(did, sec, blk)`; the two `uint16_t`
parameters are compared after conversion. -/
def CacheCall.putsKey (did sec blk : Int) : CacheCall → Prop
  | CacheCall.get _ _ _ => False
  | CacheCall.put d s b _ => d = did ∧ u16 s = u16 sec ∧ u16 b = u16 blk

/-! ## Concrete runs -/

/-- Stand-in controller with devices 0 and 1, each of 2 sectors by 3 blocks. -/
def demoBus : Bus SimWorld := simBus simConsts 3 2 3

/-- Stand-in controller with the single device 0 of 1 sector by 2 blocks (512 bytes). -/
def tinyBus : Bus SimWorld := simBus simConsts 1 1 2

/-- An array `blocks` whose bytes are all zero when the descriptor is made: every entry reads
as the triple `(0, 0, 0)`. -/
def zeroGarbage : Nat → block := fun _ => { device := 0, sector := 0, blockNum := 0 }

/-- State after `lcopen("x")` on the two-device controller. -/
def demoOpened : FsState SimWorld :=
  (lcopen simConsts demoBus "x" zeroGarbage (bootState simWorld0)).2

/-- The state of a call that returned, or the state before it. -/
def stateAfter {α : Type} (r : Option (Int × α)) (s : α) : α :=
  match r with
  | some p => p.2
  | none => s

/-- State after `lcopen("x")` and a write of 100 bytes `0x41`. -/
def demoWritten : FsState SimWorld :=
  stateAfter (lcwrite simConsts demoBus zeroBuf 0 (constBuf 65) 100 demoOpened) demoOpened

/-- State after `lcopen("x")`, a write of 100 bytes `0x41` and `lcseek` to 0. -/
def demoRewound : FsState SimWorld := stateAfter (lcseek 0 0 demoWritten) demoWritten

/-- State after `lcopen("x")`, a write of 100 bytes, `lcseek` to 0 and a read of 256 bytes. -/
def demoOverRead : FsState SimWorld :=
  match lcread simConsts demoBus zeroBuf 0 zeroBuf 256 demoRewound with
  | some r => r.2.2
  | none => demoRewound

/-- State after `lcopen("x")` and a write of 256 bytes to it. -/
def demoOneBlock : FsState SimWorld :=
  stateAfter (lcwrite simConsts demoBus zeroBuf 0 (constBuf 65) 256 demoOpened) demoOpened

end LCloud

namespace LCloud

/-! ## Invariants -/

/-- The descriptor `g` is `f` with the position moved forward, by `n` at most. -/
def MovedOn (f : file) (n : Nat) (g : file) : Prop :=
  g.size = f.size ∧ g.blocks = f.blocks ∧ g.opened = f.opened ∧ g.name = f.name ∧
    g.handle = f.handle ∧ g.garbage = f.garbage ∧ f.position ≤ g.position ∧
    g.position ≤ f.position + n

/-- The descriptor after the store `blocks[i] = b`. -/
def storeBlock (f : file) (i : Nat) (b : block) : file :=
  { f with blocks := setBlock f.garbage f.blocks i b }

end LCloud

namespace LCloud

/-- Bookkeeping of a running `lcwrite` on a descriptor that had position `p0` and size `s0`,
for a request of `n0` bytes: position untouched, `bytesWrote + len = n0`, the next chunk
starts on a block boundary once something was written, and the size follows the bytes
written. -/
def WriteCount {σ : Type} (p0 s0 n0 : Nat) (r : Bool × WState σ) : Prop :=
  r.2.f.position = p0 ∧ r.2.bytesWrote + r.2.len = n0 ∧
    (r.2.bytesWrote = 0 ∨ (p0 + r.2.bytesWrote) % 256 = 0 ∨ r.2.len = 0) ∧
    r.2.f.size = (if r.2.bytesWrote = 0 then s0 else max s0 (p0 + r.2.bytesWrote))

/-- Shape of a descriptor: as many blocks as the size needs, position not past the last
block. -/
def FileOK (f : file) : Prop :=
  f.blocks.length = (f.size + 255) / 256 ∧ f.position ≤ 256 * f.blocks.length

/-- The shape of the descriptor during `lcwrite`, with the bytes written so far counted in. -/
def WriteShape {σ : Type} (p0 s0 n0 : Nat) (r : Bool × WState σ) : Prop :=
  WriteCount p0 s0 n0 r ∧ r.2.f.blocks.length = (r.2.f.size + 255) / 256 ∧
    r.2.f.position + r.2.bytesWrote ≤ 256 * r.2.f.blocks.length

end LCloud

namespace LCloud

/-- An online device has at least one sector and one block, and a bitmap with one cell per
block. -/
def DevOK (d : device) : Prop :=
  d.online = 1 → 1 ≤ d.sectors ∧ 1 ≤ d.blocks ∧ d.sectors < 65536 ∧ d.blocks < 65536 ∧
    d.usedBlocks.length = (d.sectors * d.blocks).toNat

/-- The triple `b` names a block of the online device `d`, which is entry `b.device` of the
table. -/
def InRange (devOn : List device) (b : block) (d : device) : Prop :=
  0 ≤ b.device ∧ devOn.get? b.device.toNat = some d ∧ d.online = 1 ∧
    0 ≤ b.sector ∧ b.sector < d.sectors ∧ 0 ≤ b.blockNum ∧ b.blockNum < d.blocks

/-- The triple `b` names a block of an online device whose allocation bit is set. -/
def Claimed (devOn : List device) (b : block) : Prop :=
  ∃ d, InRange devOn b d ∧ usedAt d b.sector b.blockNum = 1

/-- The block lists `bls` (one per descriptor) and the device table agree: every listed block
is a block of an online device with its allocation bit set, and no block is listed twice,
neither in one list nor in two. -/
def BlocksOK (bls : List (List block)) (devOn : List device) : Prop :=
  (∀ bl ∈ bls, ∀ b ∈ bl, Claimed devOn b) ∧
  (∀ (i j a c : Nat) (l m : List block) (x : block), bls.get? i = some l → bls.get? j = some m →
    l.get? a = some x → m.get? c = some x → i = j ∧ a = c)

/-- Invariant of the file layer: no descriptor before the first successful `lcopen`; after it
a well-formed device table; descriptors of the right shape; block lists and allocation bits
in agreement. -/
def StateOK {σ : Type} (s : FsState σ) : Prop :=
  (s.firstOpen ≠ 0 → s.fhTable = []) ∧
  (s.firstOpen = 0 → ∀ d ∈ s.devOn, DevOK d) ∧
  (∀ f ∈ s.fhTable, FileOK f) ∧
  BlocksOK (s.fhTable.map (fun f => f.blocks)) s.devOn

end LCloud

namespace LCloud

/-- Invariant of the cache with `k` occupied slots: the array has `cacheSize >= 1` slots; the
first `k` hold a key (non-negative block number) and a stamp in `[0, cacheAccess)`; the others
are as `lcloud_initcache` left them; `k <= cacheAccess`; occupied slots have pairwise
different keys. -/
def CacheFill (cs : CacheState) (k : Nat) : Prop :=
  cs.cache.length = cs.cacheSize.toNat ∧ 1 ≤ cs.cacheSize ∧ k ≤ cs.cache.length ∧
  (k : Int) ≤ cs.cacheAccess ∧
  (∀ i e, cs.cache.get? i = some e → i < k →
    0 ≤ e.block ∧ 0 ≤ e.time ∧ e.time < cs.cacheAccess) ∧
  (∀ i e, cs.cache.get? i = some e → k ≤ i → e.block = -1 ∧ e.time = -1) ∧
  (∀ i j e1 e2, cs.cache.get? i = some e1 → cs.cache.get? j = some e2 →
    e1.device = e2.device → e1.sector = e2.sector → e1.block = e2.block →
    0 ≤ e1.block → i = j)

/-- Invariant of the cache. -/
def CacheOK (cs : CacheState) : Prop := ∃ k, CacheFill cs k

/-- What the scan of the first branch of `lcloud_putcache` leaves in `oldestIndex` when the
key is not in `l`: the index it started with if no stamp is below `oldest`, else the first
slot among those with the smallest stamp. -/
def IsVictim (l : List cacheBlock) (i : Nat) (oldest : Int) (oldestIndex r : Option Nat) :
    Prop :=
  (r = oldestIndex ∧ ∀ m e, l.get? m = some e → oldest ≤ e.time) ∨
  ∃ m e, l.get? m = some e ∧ r = some (i + m) ∧ e.time < oldest ∧
    (∀ m2 e2, l.get? m2 = some e2 → e.time ≤ e2.time) ∧
    (∀ m2 e2, l.get? m2 = some e2 → m2 < m → e.time < e2.time)

/-- The 256 bytes of a block buffer, as a list. -/
def blockBytes (b : Buf) : List Nat := (List.range 256).map b

/-- The cache after a sequence of calls. -/
def runCacheCalls (calls : List CacheCall) (s : CacheState) : CacheState :=
  calls.foldl (fun t c => runCache c t) s

/-- A lookup of the key `(did, sec, blk)` in the cache `s` finds the 256 bytes of `data`, or
finds nothing. -/
def HoldsOrGone (did sec blk : Int) (data : Buf) (s : CacheState) : Prop :=
  (lcloud_getcache did sec blk s).1.map blockBytes = some (blockBytes data) ∨
    (lcloud_getcache did sec blk s).1 = none

end LCloud

namespace LCloud

/-- The block address held by a cache slot. -/
def slotKey (e : cacheBlock) : block :=
  { device := e.device, sector := e.sector, blockNum := e.block }

/-- Cache coherence: the cache satisfies its invariant, and every occupied slot holds an
address that fits the request frame and the 256 bytes that the world `w` holds for it. -/
def Coherent {σ : Type} (mem : σ → block → Buf) (cs : CacheState) (w : σ) : Prop :=
  CacheOK cs ∧ ∀ i e, cs.cache.get? i = some e → 0 ≤ e.block →
    Addressable (slotKey e) ∧ ∀ x, x < 256 → e.data x = mem w (slotKey e) x

/-- The worlds `w` and `w2` hold the same bytes for every block. -/
def SameMem {σ : Type} (mem : σ → block → Buf) (w w2 : σ) : Prop :=
  ∀ c, Addressable c → ∀ x, x < 256 → mem w2 c x = mem w c x

/-- What the program and the run say about one file: its block list, its size, and the bytes
last written at each of its positions. -/
structure View where
  blocks : List block
  size : Nat
  ghost : Buf

/-- The world holds, for every position below the size of every file, the byte last written
there, in the block of the file that covers the position. -/
def ContentOK {σ : Type} (mem : σ → block → Buf) (w : σ) (views : List View) : Prop :=
  ∀ i v, views.get? i = some v → ∀ p, p < v.size →
    mem w (v.blocks.getD (p / 256) noBlock) (p % 256) = v.ghost p

/-- The views of a state: the descriptors paired with the bytes last written. -/
def viewsOf (tbl : List file) (g : List Buf) : List View :=
  List.zipWith (fun f b => { blocks := f.blocks, size := f.size, ghost := b }) tbl g

/-- The invariant behind read-after-write: the invariant of the file layer, one buffer of
written bytes per descriptor, positions inside the files, a table of 16 devices, and after
the first successful `lcopen` a coherent cache and the written bytes in the world. -/
def DataOK {σ : Type} (mem : σ → block → Buf) (s : FsState σ) (g : List Buf) : Prop :=
  StateOK s ∧ g.length = s.fhTable.length ∧ (∀ f ∈ s.fhTable, f.position ≤ f.size) ∧
  s.devOn.length = 16 ∧
  (s.firstOpen = 0 → Coherent mem s.cs s.world ∧ ContentOK mem s.world (viewsOf s.fhTable g))

/-- The invariant behind read-after-write during `lcwrite` on the descriptor of handle `fh`,
which had position `p0`: `views` are the views of all descriptors at the start of the call
and `g0` the bytes last written to this file before it. -/
def WriteData {σ : Type} (mem : σ → block → Buf) (views : List View) (fh : Nat) (p0 : Nat)
    (g0 buf : Buf) (s : WState σ) : Prop :=
  s.f.opened ≠ 0 ∧ s.devOn.length = 16 ∧ (∀ d ∈ s.devOn, DevOK d) ∧
  BlocksOK ((views.map (fun v => v.blocks)).set fh s.f.blocks) s.devOn ∧
  p0 + s.bytesWrote ≤ s.f.size ∧
  Coherent mem s.cs s.world ∧
  ContentOK mem s.world
    (views.set fh { blocks := s.f.blocks, size := s.f.size,
                    ghost := memcpy g0 p0 buf 0 s.bytesWrote })

end LCloud

namespace LCloud

/-- Content of a block in the stand-in controller: it keeps blocks by device and by the low
32 bits of the request frame, which hold the block number and, from bit 16 on, the sector. -/
def simMem (w : SimWorld) (b : block) : Buf :=
  w.mem b.device.toNat (b.blockNum.toNat + b.sector.toNat * 2 ^ 16)

end LCloud

namespace LCloud

/-- A source buffer holding `j % 251` at index `j`. -/
def rampBuf : Buf := fun j => j % 251

/-- State after `lcopen("x")` and a write of 600 bytes of `rampBuf`. -/
def demoBig : FsState SimWorld :=
  stateAfter (lcwrite simConsts demoBus zeroBuf 0 rampBuf 600 demoOpened) demoOpened

/-- The bytes written in the run to `demoBig`: one file, 600 bytes of `rampBuf` from 0 on. -/
def demoBigGhost : List Buf := [memcpy zeroBuf 0 rampBuf 0 600]

end LCloud

namespace LCloud

/-- Handles and table agree: `fileHandleCounter` is the number of descriptors, and the
descriptor at index `i` has handle `i`. -/
def HandlesOK {σ : Type} (s : FsState σ) : Prop :=
  s.fileHandleCounter = s.fhTable.length ∧
  ∀ i f, s.fhTable.get? i = some f → f.handle = (i : Int)

/-! ## Allocation bits and block lists -/

/-- Every allocation bit that is set, of a block inside the geometry of its device, belongs to
a block of one of the lists `bls`. -/
def BitsListed (bls : List (List block)) (devOn : List device) : Prop :=
  ∀ (i : Nat) (d : device) (sec blk : Int), devOn.get? i = some d →
    0 ≤ sec → sec < d.sectors → 0 ≤ blk → blk < d.blocks → usedAt d sec blk = 1 →
    ∃ l ∈ bls, ({ device := (i : Int), sector := sec, blockNum := blk } : block) ∈ l

/-- All allocation cells of all devices are zero. -/
def ZeroBits (devOn : List device) : Prop :=
  ∀ d ∈ devOn, ∀ x ∈ d.usedBlocks, x = 0

/-- Invariant of the allocation bits: all zero before the first successful `lcopen`, and
every set bit listed in a descriptor. -/
def BitsOK {σ : Type} (s : FsState σ) : Prop :=
  (s.firstOpen ≠ 0 → ZeroBits s.devOn) ∧
  BitsListed (s.fhTable.map (fun f => f.blocks)) s.devOn

/-! ## Counting cache calls -/

/-- The key is in the cache: the scan of `lcloud_getcache` finds it. -/
def resident (did sec blk : Int) (s : CacheState) : Bool :=
  (getcacheLoop did (u16 sec) (u16 blk) s.cache 0).isSome

/-- Number of `lcloud_getcache` calls in a sequence of calls. -/
def getCalls : List CacheCall → Nat
  | [] => 0
  | CacheCall.get _ _ _ :: rest => getCalls rest + 1
  | CacheCall.put _ _ _ _ :: rest => getCalls rest

/-- Number of `lcloud_putcache` calls in a sequence of calls, run from the cache `s`, whose key
is not in the cache when the call is made. -/
def insertingPuts : List CacheCall → CacheState → Nat
  | [], _ => 0
  | CacheCall.get did sec blk :: rest, s =>
    insertingPuts rest (runCache (CacheCall.get did sec blk) s)
  | CacheCall.put did sec blk data :: rest, s =>
    insertingPuts rest (runCache (CacheCall.put did sec blk data) s) +
      (if resident did sec blk s then 0 else 1)

/-- A slot is occupied when its `block` is not the empty mark `-1` that `lcloud_putcache`
tests for. -/
def occupied (e : cacheBlock) : Bool := e.block != -1

/-- Number of occupied slots. -/
def occupiedCount (s : CacheState) : Nat := (s.cache.filter occupied).length

/-! ## The insertion rule of the specification -/

/-- Index of the slot with the smallest `time`, the first of them if there are several; `t`
and `best` are the smallest stamp so far and its index, `i` the index of the head. -/
def oldestFrom : List cacheBlock → Nat → Int → Nat → Nat
  | [], _, _, best => best
  | e :: rest, i, t, best =>
    if e.time < t then oldestFrom rest (i + 1) e.time i else oldestFrom rest (i + 1) t best

/-- Index of the slot with the smallest `time`. -/
def oldestSlot : List cacheBlock → Option Nat
  | [] => none
  | e :: rest => some (oldestFrom rest 1 e.time 0)

/-- The stand-in controller with one unreadable block: as `simBus`, but a block-read request
whose low 32 bits (sector and block number) are `bad` is answered with `b1 = 0`. -/
def simBusBad (K : Consts) (mask sectors blocks bad : Nat) : Bus SimWorld :=
  fun w reg buf =>
    if (reg >>> 48) % 256 = K.LC_BLOCK_XFER ∧ (reg >>> 32) % 256 = K.LC_XFER_READ ∧
        reg % 2 ^ 32 = bad then
      (2 ^ 60 + ((reg >>> 48) % 256) * 2 ^ 48, buf, w)
    else simBus K mask sectors blocks w reg buf

/-- The constants of `simConsts` with a cache of one slot. -/
def oneSlotConsts : Consts := { simConsts with LC_CACHE_MAXBLOCKS := 1 }

/-- Two devices of 2 sectors by 3 blocks; block 1 of sector 0 cannot be read. -/
def badBus : Bus SimWorld := simBusBad oneSlotConsts 3 2 3 1

/-- State after `lcopen("x")` with a cache of one slot on the controller with the unreadable
block. -/
def badOpened : FsState SimWorld :=
  (lcopen oneSlotConsts badBus "x" zeroGarbage (bootState simWorld0)).2

/-- State after `lcopen("x")` and a write of 512 bytes. -/
def badWritten : FsState SimWorld :=
  stateAfter (lcwrite oneSlotConsts badBus zeroBuf 0 rampBuf 512 badOpened) badOpened

/-- State after `lcopen("x")`, a write of 512 bytes and `lcseek` to 0. -/
def badRewound : FsState SimWorld := stateAfter (lcseek 0 0 badWritten) badWritten

end LCloud

namespace LCloud

/-! ## Further concrete runs -/

/-- The way `lcread` uses the cache for one block (`loadBlock`): `lcloud_getcache` of the key,
and on a miss `lcloud_putcache` of the key with the bytes `data` that were fetched. -/
def touch (did sec blk : Int) (data : Buf) (s : CacheState) : CacheState :=
  match (lcloud_getcache did sec blk s).1 with
  | some _ => (lcloud_getcache did sec blk s).2
  | none => (lcloud_putcache did sec blk data (lcloud_getcache did sec blk s).2).2

/-- The keys of the slots, in slot order. -/
def slotKeys (s : CacheState) : List (Int × Int × Int) :=
  s.cache.map (fun e => (e.device, e.sector, e.block))

/-- A cache of two slots after `lcloud_putcache` of the key `(0, 0, 0)`. -/
def demoCache : CacheState :=
  runCache (CacheCall.put 0 0 0 (constBuf 65)) (lcloud_initcache 2)

/-- State after `lcopen("x")` on the controller with the single device of 1 sector by 2
blocks. -/
def tinyOpened : FsState SimWorld :=
  (lcopen simConsts tinyBus "x" zeroGarbage (bootState simWorld0)).2

/-- State after `lcopen("x")` on the two-device controller and `n` successive writes of 256
bytes `0x41` to the file, each appending at the position the one before left. -/
def appendBlocks : Nat → FsState SimWorld
  | 0 => demoOpened
  | n + 1 =>
    stateAfter (lcwrite simConsts demoBus zeroBuf 0 (constBuf 65) 256 (appendBlocks n))
      (appendBlocks n)

/-- State after `lcopen("x")`, a write of 512 bytes, `lcseek` to 0 and a read of 256 bytes,
with a cache of one slot on the controller with the unreadable block: the slot now holds the
first block of the file. -/
def badRead : FsState SimWorld :=
  match lcread oneSlotConsts badBus zeroBuf 0 zeroBuf 256 badRewound with
  | some r => r.2.2
  | none => badRewound

/-- The state `badRead` after `lcseek` to offset 300, inside the second block of the file. -/
def badSeek : FsState SimWorld := stateAfter (lcseek 0 300 badRead) badRead

/-- The state `demoOneBlock` (a file of 256 bytes `0x41`) after `lcseek` to offset 100. -/
def demoAt100 : FsState SimWorld := stateAfter (lcseek 0 100 demoOneBlock) demoOneBlock

/-- The state `demoAt100` after a write of 10 bytes `0xFF`, which covers the offsets 100 to
109 of the file. -/
def demoPatched : FsState SimWorld :=
  stateAfter (lcwrite simConsts demoBus zeroBuf 0 (constBuf 255) 10 demoAt100) demoAt100

end LCloud

namespace LCloud

/-! ## Stamps of the cache -/

/-- The stamps of the occupied slots are pairwise distinct. -/
def StampsOK (s : CacheState) : Prop :=
  ∀ i j e1 e2, s.cache.get? i = some e1 → s.cache.get? j = some e2 →
    occupied e1 = true → occupied e2 = true → e1.time = e2.time → i = j

/-! ## The cells that the scan of `get_Next_Block` reads -/

/-- The cells `(currentSector, currentBlock)` whose allocation bit the `while` condition of
`get_Next_Block` (line 117) reads, in order: the loop of `scanDevice` with the reads written
down. -/
def scanCells (d : device) : Nat → Int → Int → List (Int × Int)
  | 0, _, _ => []
  | fuel + 1, currentSector, currentBlock =>
    (currentSector, currentBlock) ::
      (if usedAt d currentSector currentBlock = 1 then
        if currentSector = d.sectors - 1 ∧ currentBlock = d.blocks - 1 then []
        else if currentBlock ≠ d.blocks - 1 then scanCells d fuel currentSector (currentBlock + 1)
        else if currentSector ≠ d.sectors - 1 then scanCells d fuel (currentSector + 1) 0
        else scanCells d fuel currentSector currentBlock
      else [])

/-! ## A controller that answers with given frames -/

/-- The stand-in controller that answers a probe request with the frame `probeFrame` and a
device-init request with the frame `initFrame`, and every other request as `simBus` does. -/
def replyBus (K : Consts) (probeFrame initFrame : Nat) : Bus SimWorld :=
  fun w reg buf =>
    if (reg >>> 48) % 256 = K.LC_DEVPROBE then (probeFrame, buf, w)
    else if (reg >>> 48) % 256 = K.LC_DEVINIT then (initFrame, buf, w)
    else simBus K 0 0 0 w reg buf

/-- The bits `[lo, lo + n)` of a frame. -/
def bitsOf (frame lo n : Nat) : Nat := frame / 2 ^ lo % 2 ^ n

/-! ## Transport (`lcloud_client.c`) -/

/-- What the system calls made during one `client_lcloud_bus_request` return: the results of
`inet_aton`, `socket` and `connect`, of the `write` of the 8 bytes of the frame and of the 256
bytes of the block, of the `read` of the 8 bytes of the response and of the 256 bytes of the
block, the response frame as `ntohll64` gives it, and the bytes that the `read` of the block
delivers. -/
structure NetCalls where
  inet_aton : Int
  socket : Int
  connect : Int
  writeFrame : Int
  writeBlock : Int
  readFrame : Int
  readBlock : Int
  frame : Nat
  block : Buf

/-- The connection part of `client_lcloud_bus_request` (lines 55-71): the flag is false on
`return -1`; the second component is `socket_handle` afterwards. -/
def connectIfClosed (o : NetCalls) (socket_handle : Int) : Bool × Int :=
  if socket_handle = -1 then
    if o.inet_aton = 0 then (false, socket_handle)
    else if o.connect = -1 then (false, o.socket)
    else (true, o.socket)
  else (true, socket_handle)

/-- Source function `client_lcloud_bus_request`, from `socket_handle`, the request frame and
the buffer to the returned frame, the buffer and `socket_handle` afterwards. The value `-1`
is `frameError`. -/
def client_lcloud_bus_request (K : Consts) (o : NetCalls) (socket_handle : Int) (reg : Nat)
    (buf : Buf) : Nat × Buf × Int :=
  let c := connectIfClosed o socket_handle
  if c.1 = false then (frameError, buf, c.2)
  else
    let c0 := (extract_lcloud_registers reg).c0
    let c2 := (extract_lcloud_registers reg).c2
    if c0 = K.LC_BLOCK_XFER ∧ c2 = K.LC_XFER_READ then
      if o.writeFrame ≠ 8 then (frameError, buf, c.2)
      else if o.readFrame ≠ 8 then (frameError, buf, c.2)
      else if o.readBlock ≠ 256 then
        (frameError, memcpy buf 0 o.block 0 o.readBlock.toNat, c.2)
      else (o.frame, memcpy buf 0 o.block 0 256, c.2)
    else if c0 = K.LC_BLOCK_XFER ∧ c2 = K.LC_XFER_WRITE then
      if o.writeFrame ≠ 8 then (frameError, buf, c.2)
      else if o.writeBlock ≠ 256 then (frameError, buf, c.2)
      else if o.readFrame ≠ 8 then (frameError, buf, c.2)
      else (o.frame, buf, c.2)
    else if c0 = K.LC_POWER_OFF then
      if o.writeFrame ≠ 8 then (frameError, buf, c.2)
      else if o.readFrame ≠ 8 then (frameError, buf, c.2)
      else (o.frame, buf, -1)
    else
      if o.writeFrame ≠ 8 then (frameError, buf, c.2)
      else if o.readFrame ≠ 8 then (frameError, buf, c.2)
      else (o.frame, buf, c.2)

/-- System calls that all succeed, with a socket numbered 3, except `connect`, which returns
`-1`. -/
def connectRefused : NetCalls :=
  { inet_aton := 1, socket := 3, connect := -1, writeFrame := 8, writeBlock := 256,
    readFrame := 8, readBlock := 256, frame := simResponse 0 0 0, block := zeroBuf }

/-- System calls that all succeed, with a socket numbered 3, except the `write` of the frame,
which sends 4 of the 8 bytes. -/
def shortWrite : NetCalls :=
  { inet_aton := 1, socket := 3, connect := 0, writeFrame := 4, writeBlock := 256,
    readFrame := 8, readBlock := 256, frame := simResponse 0 0 0, block := zeroBuf }

end LCloud

namespace LCloud

/-! ## A read that fails -/

/-- The result `full` of a `lcread` on the descriptor `f` is that of a load that fails after
`k` bytes, where `short` is the result of the `lcread` of `k` bytes only from the same state:
`short` delivers the `k` bytes and moves the position by `k`, to the start of a block unless
`k = 0`; the block at that position is not the end marker, and its load, with some content
`B` of `buf_256`, fails in the cache and the world that `short` left; and `full` is `-1` with
the descriptor and the caller's buffer as in `short`, and the cache and the world as after the
failed load. -/
def FailedAfter {σ : Type} (K : Consts) (bus : Bus σ) (full short : IoResult σ) (f : file)
    (bytesRead k : Nat) (B : Buf) : Prop :=
  short.ret = ((bytesRead + k : Nat) : Int) ∧
  short.f = { f with position := f.position + k } ∧
  (k = 0 ∨ (f.position + k) % 256 = 0) ∧
  (blockAt f ((f.position + k) / 256)).blockNum ≠ -1 ∧
  (loadBlock K bus (blockAt f ((f.position + k) / 256)) B short.cs short.world).1 = false ∧
  full.ret = -1 ∧
  full.f = { f with position := f.position + k } ∧
  full.buf = short.buf ∧
  full.cs = (loadBlock K bus (blockAt f ((f.position + k) / 256)) B short.cs short.world).2.2.1 ∧
  full.world =
    (loadBlock K bus (blockAt f ((f.position + k) / 256)) B short.cs short.world).2.2.2

end LCloud

namespace LCloud

/-! ## Runs with a read past the stored blocks -/

/-- The state of a `lcread` that returned, or the state before it. -/
def stateAfterRead {σ : Type} (r : Option (Int × Buf × FsState σ)) (s : FsState σ) :
    FsState σ :=
  match r with
  | some p => p.2.2
  | none => s

/-- State after `lcopen("x")`, a write of 100 bytes, `lcseek` to 0 and a read of 300 bytes,
the array `blocks` being all zero when the descriptor was made. -/
def demoRead300 : FsState SimWorld :=
  stateAfterRead (lcread simConsts demoBus zeroBuf 0 zeroBuf 300 demoRewound) demoRewound

/-- State after the run to `demoRead300` and a write of 10 bytes. -/
def demoGrown : FsState SimWorld :=
  stateAfter (lcwrite simConsts demoBus zeroBuf 0 (constBuf 66) 10 demoRead300) demoRead300

/-- An array `blocks` whose entries all read as the triple `(0, 1, 2)` when the descriptor is
made. -/
def lastCellGarbage : Nat → block := fun _ => { device := 0, sector := 1, blockNum := 2 }

/-- An array `blocks` whose entries all read as the triple `(0, 0, 65536)` when the
descriptor is made. -/
def wideGarbage : Nat → block := fun _ => { device := 0, sector := 0, blockNum := 65536 }

/-- State after `lcopen("x")` with the array `blocks` holding `garbage`, a write of 100 bytes,
`lcseek` to 0, a read of 512 bytes and a write of 256 bytes. -/
def overReadRun (garbage : Nat → block) : FsState SimWorld :=
  let s0 := (lcopen simConsts demoBus "x" garbage (bootState simWorld0)).2
  let s1 := stateAfter (lcwrite simConsts demoBus zeroBuf 0 (constBuf 65) 100 s0) s0
  let s2 := stateAfter (lcseek 0 0 s1) s1
  let s3 := stateAfterRead (lcread simConsts demoBus zeroBuf 0 zeroBuf 512 s2) s2
  stateAfter (lcwrite simConsts demoBus zeroBuf 0 (constBuf 66) 256 s3) s3

/-- State after the run to `overReadRun zeroGarbage`, `lcseek` to 256 and a second write of
256 bytes. -/
def demoTwice : FsState SimWorld :=
  let s5 := stateAfter (lcseek 0 256 (overReadRun zeroGarbage)) (overReadRun zeroGarbage)
  stateAfter (lcwrite simConsts demoBus zeroBuf 0 (constBuf 67) 256 s5) s5

/-- State after `lcopen("x")` with the array `blocks` holding `wideGarbage`, and a write of
1280 bytes of `rampBuf`. -/
def wideWritten : FsState SimWorld :=
  let s0 := (lcopen simConsts demoBus "x" wideGarbage (bootState simWorld0)).2
  stateAfter (lcwrite simConsts demoBus zeroBuf 0 rampBuf 1280 s0) s0

/-- State after the run to `wideWritten` and a read of 256 bytes. -/
def wideRead : FsState SimWorld :=
  stateAfterRead (lcread simConsts demoBus zeroBuf 0 zeroBuf 256 wideWritten) wideWritten

end LCloud

namespace LCloud

/-! ## Evaluations of the source on concrete inputs -/

/-- C5: the register codec is not a round trip on the code. With `d0 = 1` and `d1 = 2`, all other
fields zero, `create_lcloud_registers` puts `d0` in bits 0-15 and `d1` in bits 16-31 (frame
`131073 = 2 * 2^16 + 1`), and `extract_lcloud_registers` returns `d0 = 2` and `d1 = 1`: it reads
`d0` from bits 16-31 and `d1` from bits 0-15, so the two fields come back exchanged. -/
theorem C5_extract_create_exchanges_d0_d1 :
    create_lcloud_registers 0 0 0 0 0 1 2 = 131073 ∧
    extract_lcloud_registers (create_lcloud_registers 0 0 0 0 0 1 2) =
      { b0 := 0, b1 := 0, c0 := 0, c1 := 0, c2 := 0, d0 := 2, d1 := 1 } := by
  decide

/-- C6: `get_Next_Block` does not return the first free block when that block is the last one of
its device. On a table whose only online device has 2 sectors of 2 blocks with the bits
`1, 1, 1, 0`, block `(0, 1, 1)` is free (its bit is 0), yet the function returns
`(-1, -1, -1)`: the scan stops on the last cell and the test after the loop takes "stopped on
the last cell" for "device full". -/
theorem C6_last_free_block_not_returned :
    usedAt { online := 1, sectors := 2, blocks := 2, usedBlocks := [1, 1, 1, 0] } 1 1 = 0 ∧
    get_Next_Block
      ({ online := 1, sectors := 2, blocks := 2, usedBlocks := [1, 1, 1, 0] } ::
        List.replicate 15 { online := 0, sectors := 0, blocks := 0, usedBlocks := [] }) =
      { device := -1, sector := -1, blockNum := -1 } := by
  decide

/-- C1: the round trip fails for a byte string as long as the device capacity. The controller
reports one device of 1 sector by 2 blocks (capacity 512 bytes) and accepts and stores every
block; after `lcopen`, `lcwrite` of 512 bytes returns `-1` instead of 512, because
`get_Next_Block` never hands out the last block of a device. -/
theorem C1_write_of_device_capacity_fails :
    (lcopen simConsts tinyBus "x" zeroGarbage (bootState simWorld0)).1 = 0 ∧
    ((lcopen simConsts tinyBus "x" zeroGarbage (bootState simWorld0)).2.devOn.filter
        (fun d => d.online = 1)).map (fun d => 256 * (d.sectors * d.blocks)) = [512] ∧
    (lcwrite simConsts tinyBus zeroBuf 0 (constBuf 65) 512
        (lcopen simConsts tinyBus "x" zeroGarbage (bootState simWorld0)).2).map (fun r => r.1) =
      some (-1) := by
  decide

/-- C4: a read that extends past the end of the file is not cut at the file size. After
`lcopen`, a write of 100 bytes and `lcseek` to 0 the descriptor has position 0 and size 100;
`lcread` of 256 bytes then returns 256, not `min 256 (100 - 0) = 100`: the length test
`(int)(len / 256) > 0` sends the call to the whole-block branch, and the branch written for reads
past the end of the file is never entered. -/
theorem C4_read_past_end_returns_whole_block :
    demoRewound.fhTable.map (fun f => (f.opened, f.position, f.size)) = [(1, 0, 100)] ∧
    (lcread simConsts demoBus zeroBuf 0 zeroBuf 256 demoRewound).map (fun r => r.1) =
      some 256 := by
  decide

/-- Reachability of the states of the concrete run: open, write 100 bytes, seek to 0, read 256
bytes. -/
theorem demo_reachable :
    Reachable simConsts demoBus demoOpened ∧ Reachable simConsts demoBus demoWritten ∧
    Reachable simConsts demoBus demoRewound ∧ Reachable simConsts demoBus demoOverRead := by
  have h1 : Reachable simConsts demoBus demoOpened :=
    Reachable.opn "x" zeroGarbage (Reachable.boot simWorld0)
  have h2 : Reachable simConsts demoBus demoWritten :=
    Reachable.write zeroBuf 0 (constBuf 65) 100 (100, demoWritten) h1 (by rfl)
  have h3 : Reachable simConsts demoBus demoRewound :=
    Reachable.seek 0 0 (0, demoRewound) h2 (by rfl)
  have h4 : Reachable simConsts demoBus demoOverRead := by
    have e : lcread simConsts demoBus zeroBuf 0 zeroBuf 256 demoRewound =
        some (256, (readFile simConsts demoBus zeroBuf
          { name := "x", handle := 0, position := 0, size := 100,
            blocks := [{ device := 0, sector := 0, blockNum := 0 }], opened := 1,
            garbage := zeroGarbage }
          demoRewound.cs demoRewound.world zeroBuf 256).buf, demoOverRead) := by rfl
    exact Reachable.read zeroBuf 0 zeroBuf 256 _ h3 e
  exact ⟨h1, h2, h3, h4⟩

/-- C8: `position <= size` is not an invariant of the code. The state after `lcopen`, a write
of 100 bytes, `lcseek` to 0 and `lcread` of 256 bytes is reachable, and its descriptor has
position 256 and size 100: the read advanced the position to the end of the block. -/
theorem C8_position_exceeds_size_after_read :
    Reachable simConsts demoBus demoOverRead ∧
    demoOverRead.fhTable.map (fun f => (f.position, f.size)) = [(256, 100)] := by
  refine ⟨demo_reachable.2.2.2, ?_⟩
  decide

/-- C3: a successful `lcwrite` does not always leave the size `max s (p + n)`. In the reachable
state after `lcopen`, a write of 100 bytes, `lcseek` to 0 and `lcread` of 256 bytes the open
descriptor has position 256 and size 100, because the read went on to the end of the block;
`lcwrite` of 0 bytes there returns 0 and leaves the size at 100, which is not
`max 100 (256 + 0)`. -/
theorem C3_zero_length_write_past_size :
    Reachable simConsts demoBus demoOverRead ∧
    demoOverRead.fhTable.map (fun f => (f.opened, f.position, f.size)) = [(1, 256, 100)] ∧
    (lcwrite simConsts demoBus zeroBuf 0 (constBuf 66) 0 demoOverRead).map
        (fun r => (r.1, r.2.fhTable.map (fun f => (f.position, f.size)))) =
      some (0, [(256, 100)]) ∧
    max 100 (256 + 0) ≠ 100 := by
  refine ⟨demo_reachable.2.2.2, ?_, ?_, ?_⟩ <;> decide

end LCloud

namespace LCloud

/-! ## Descriptor effects of `lcseek` and `lcread` -/

theorem blockAt_of_lt (f : file) (i : Nat) (h : i < f.blocks.length) :
    blockAt f i = f.blocks.get ⟨i, h⟩ := by
  simp [blockAt, List.getD_eq_getElem, h]

/-- A stored entry is read from the list, whatever the default. -/
theorem blockAt_getD (f : file) (i : Nat) (d : block) (h : i < f.blocks.length) :
    blockAt f i = f.blocks.getD i d := by
  unfold blockAt
  rw [List.getD_eq_getElem _ _ h, List.getD_eq_getElem _ _ h]

/-- An entry that the program has not stored reads as the first content of the array. -/
theorem blockAt_of_ge (f : file) (i : Nat) (h : f.blocks.length ≤ i) :
    blockAt f i = f.garbage i := by
  unfold blockAt
  rw [List.getD_eq_default _ _ h]

/-- The whole-block test of `lcread` holds only with at least 256 bytes left. -/
theorem le_of_whole (len : Nat) (h : toInt32 (len / 256) > 0) : 256 ≤ len := by
  unfold toInt32 at h
  split_ifs at h <;> omega

/-- Below `2^39` the conversion to `int` changes nothing in the whole-block test. -/
theorem whole_of_le (len : Nat) (hl : len < 2 ^ 39) (h : 256 ≤ len) :
    toInt32 (len / 256) > 0 := by
  unfold toInt32
  split_ifs <;> omega

theorem lt_256_of_not_whole (len : Nat) (hl : len < 2 ^ 39) (h : ¬ toInt32 (len / 256) > 0) :
    len < 256 := by
  by_contra hc
  exact h (whole_of_le len hl (by omega))

theorem mark_ret {σ : Type} (c : Bool) (r : IoResult σ) : (IoResult.mark c r).ret = r.ret := rfl

theorem mark_buf {σ : Type} (c : Bool) (r : IoResult σ) : (IoResult.mark c r).buf = r.buf := rfl

theorem mark_f {σ : Type} (c : Bool) (r : IoResult σ) : (IoResult.mark c r).f = r.f := rfl

theorem mark_cs {σ : Type} (c : Bool) (r : IoResult σ) : (IoResult.mark c r).cs = r.cs := rfl

theorem mark_world {σ : Type} (c : Bool) (r : IoResult σ) :
    (IoResult.mark c r).world = r.world := rfl

theorem mark_false {σ : Type} (r : IoResult σ) : IoResult.mark false r = r := by
  cases r
  simp [IoResult.mark]

/-- One turn of the loop of `lcread` for a length below `2^39`: the sum of the first test does
not wrap, the conversion to `int` changes nothing in the second, and the branch for reads
past the end of the file is not entered. -/
theorem lcreadLoop_small {σ : Type} (K : Consts) (bus : Bus σ) (fuel : Nat) (f : file)
    (cs : CacheState) (w : σ) (buf : Buf) (bytesRead len i : Nat) (buf_256 : Buf)
    (hl : len < 2 ^ 39) :
    lcreadLoop K bus (fuel + 1) f cs w buf bytesRead len i buf_256 =
      IoResult.mark (decide (len > 0 ∧ 10000 ≤ i))
        (if len > 0 ∧ (blockAt f i).blockNum ≠ -1 then
          if f.position % 256 ≠ 0 ∧ f.position % 256 + len > 256 then
            if (loadBlock K bus (blockAt f i) buf_256 cs w).1 then
              lcreadLoop K bus fuel { f with position := f.position + (256 - f.position % 256) }
                (loadBlock K bus (blockAt f i) buf_256 cs w).2.2.1
                (loadBlock K bus (blockAt f i) buf_256 cs w).2.2.2
                (memcpy buf bytesRead (loadBlock K bus (blockAt f i) buf_256 cs w).2.1
                  (f.position % 256) (256 - f.position % 256))
                (bytesRead + (256 - f.position % 256)) (len - (256 - f.position % 256)) (i + 1)
                (loadBlock K bus (blockAt f i) buf_256 cs w).2.1
            else
              { ret := -1, buf := buf, f := f
                cs := (loadBlock K bus (blockAt f i) buf_256 cs w).2.2.1
                world := (loadBlock K bus (blockAt f i) buf_256 cs w).2.2.2 }
          else if len / 256 > 0 then
            if (loadBlock K bus (blockAt f i) buf_256 cs w).1 then
              lcreadLoop K bus fuel { f with position := f.position + 256 }
                (loadBlock K bus (blockAt f i) buf_256 cs w).2.2.1
                (loadBlock K bus (blockAt f i) buf_256 cs w).2.2.2
                (memcpy buf bytesRead (loadBlock K bus (blockAt f i) buf_256 cs w).2.1 0 256)
                (bytesRead + 256) (len - 256) (i + 1)
                (loadBlock K bus (blockAt f i) buf_256 cs w).2.1
            else
              { ret := -1, buf := buf, f := f
                cs := (loadBlock K bus (blockAt f i) buf_256 cs w).2.2.1
                world := (loadBlock K bus (blockAt f i) buf_256 cs w).2.2.2 }
          else
            if (loadBlock K bus (blockAt f i) buf_256 cs w).1 then
              lcreadLoop K bus fuel { f with position := f.position + len % 256 }
                (loadBlock K bus (blockAt f i) buf_256 cs w).2.2.1
                (loadBlock K bus (blockAt f i) buf_256 cs w).2.2.2
                (memcpy buf bytesRead (loadBlock K bus (blockAt f i) buf_256 cs w).2.1
                  (f.position % 256) (len % 256))
                (bytesRead + len % 256) (len - len % 256) i
                (loadBlock K bus (blockAt f i) buf_256 cs w).2.1
            else
              { ret := -1, buf := buf, f := f
                cs := (loadBlock K bus (blockAt f i) buf_256 cs w).2.2.1
                world := (loadBlock K bus (blockAt f i) buf_256 cs w).2.2.2 }
        else { ret := bytesRead, buf := buf, f := f, cs := cs, world := w }) := by
  have e1 : (f.position % 256 + len) % 2 ^ 64 = f.position % 256 + len :=
    Nat.mod_eq_of_lt (by omega)
  rw [lcreadLoop]
  dsimp only
  rw [e1]
  by_cases h2 : len / 256 > 0
  · have h3 : toInt32 (len / 256) > 0 := whole_of_le len hl (by omega)
    rw [if_pos h2, if_pos h3]
  · have h3 : ¬ toInt32 (len / 256) > 0 := fun h => by
      have := le_of_whole len h
      omega
    have h4 : len < 256 := lt_256_of_not_whole len hl h3
    have h5 : decide (len > 256 ∧ 10000 ≤ i + 1) = false := by
      rw [decide_eq_false_iff_not]
      omega
    rw [if_neg h2, if_neg h3, h5, mark_false, if_neg (by omega : ¬ (len > 256 ∧ _))]

theorem movedOn_refl (f : file) (n : Nat) : MovedOn f n f :=
  ⟨rfl, rfl, rfl, rfl, rfl, rfl, le_refl _, by omega⟩

theorem movedOn_step {f g r : file} {n m : Nat} (h : MovedOn g m r)
    (h1 : g.size = f.size) (h2 : g.blocks = f.blocks) (h3 : g.opened = f.opened)
    (h4 : g.name = f.name) (h5 : g.handle = f.handle) (h6 : g.garbage = f.garbage)
    (h7 : f.position ≤ g.position) (h8 : g.position + m ≤ f.position + n) :
    MovedOn f n r := by
  obtain ⟨a1, a2, a3, a4, a5, a6, a7, a8⟩ := h
  exact ⟨a1.trans h1, a2.trans h2, a3.trans h3, a4.trans h4, a5.trans h5, a6.trans h6,
    le_trans h7 a7, by omega⟩

/-- The loop of `lcread` changes nothing of the descriptor but the position, which it only
moves forward, by `len` at most. -/
theorem lcreadLoop_file {σ : Type} (K : Consts) (bus : Bus σ) (fuel : Nat) :
    ∀ (f : file) (cs : CacheState) (w : σ) (buf : Buf) (bytesRead len i : Nat) (buf_256 : Buf),
      MovedOn f len (lcreadLoop K bus fuel f cs w buf bytesRead len i buf_256).f := by
  induction fuel with
  | zero => intro f cs w buf bytesRead len i buf_256; exact movedOn_refl f _
  | succ fuel ih =>
    intro f cs w buf bytesRead len i buf_256
    unfold lcreadLoop
    simp only [mark_f]
    split_ifs with h1 h2 h3 h4 h5 h6 h7 h8
    all_goals first
      | exact movedOn_refl f _
      | skip
    · -- head of a block
      refine movedOn_step (ih _ _ _ _ _ _ _ _) rfl rfl rfl rfl rfl rfl ?_ ?_
      · show f.position ≤ f.position + (256 - f.position % 256)
        omega
      · show f.position + (256 - f.position % 256) + (len - (256 - f.position % 256)) ≤ _
        omega
    · -- whole block
      have hlen := le_of_whole len h4
      refine movedOn_step (ih _ _ _ _ _ _ _ _) rfl rfl rfl rfl rfl rfl ?_ ?_
      · show f.position ≤ f.position + 256
        omega
      · show f.position + 256 + (len - 256) ≤ _
        omega
    · -- the branch for reads past the end
      refine ⟨rfl, rfl, rfl, rfl, rfl, rfl, ?_, ?_⟩
      · show f.position ≤ f.position + f.size % 256
        omega
      · show f.position + f.size % 256 ≤ f.position + len
        omega
    · -- last part of a block
      refine movedOn_step (ih _ _ _ _ _ _ _ _) rfl rfl rfl rfl rfl rfl ?_ ?_
      · show f.position ≤ f.position + len % 256
        omega
      · show f.position + len % 256 + (len - len % 256) ≤ _
        omega

theorem readFile_file {σ : Type} (K : Consts) (bus : Bus σ) (junk : Buf) (f : file)
    (cs : CacheState) (w : σ) (buf : Buf) (len : Nat) :
    MovedOn f len (readFile K bus junk f cs w buf len).f := by
  unfold readFile
  split_ifs with h
  · exact movedOn_refl f _
  · exact lcreadLoop_file K bus _ _ _ _ _ _ _ _ _

theorem seekFile_file (f : file) (off : Nat) :
    (seekFile f off).2.size = f.size ∧ (seekFile f off).2.blocks = f.blocks ∧
    (seekFile f off).2.opened = f.opened ∧ (seekFile f off).2.name = f.name ∧
    (seekFile f off).2.handle = f.handle ∧ (seekFile f off).2.garbage = f.garbage ∧
    ((seekFile f off).2.position = f.position ∨
      ((seekFile f off).2.position = off ∧ off ≤ f.size)) := by
  unfold seekFile
  split_ifs with h1 h2
  · exact ⟨rfl, rfl, rfl, rfl, rfl, rfl, Or.inl rfl⟩
  · exact ⟨rfl, rfl, rfl, rfl, rfl, rfl, Or.inl rfl⟩
  · exact ⟨rfl, rfl, rfl, rfl, rfl, rfl, Or.inr ⟨rfl, by omega⟩⟩

theorem file_eq_of_fields {f g : file} (h1 : g.size = f.size) (h2 : g.blocks = f.blocks)
    (h3 : g.opened = f.opened) (h4 : g.name = f.name) (h5 : g.handle = f.handle)
    (h6 : g.position = f.position) (h7 : g.garbage = f.garbage) : g = f := by
  cases f; cases g; simp_all

/-- The pre-fetch of `lcwrite` leaves the descriptor, the device table and the counters of the
write as they are: only the cache, the world and `buf_256` change. -/
theorem prefetch_frame {σ : Type} (K : Consts) (bus : Bus σ) (junk : Buf) (target : Nat)
    (st : WState σ) :
    (prefetch K bus junk target st).f = st.f ∧
    (prefetch K bus junk target st).devOn = st.devOn ∧
    (prefetch K bus junk target st).bytesWrote = st.bytesWrote ∧
    (prefetch K bus junk target st).len = st.len := by
  refine ⟨?_, rfl, rfl, rfl⟩
  obtain ⟨a1, a2, a3, a4, a5, a6, -⟩ := seekFile_file st.f target
  obtain ⟨b1, b2, b3, b4, b5, b6, -, -⟩ :=
    readFile_file K bus junk (seekFile st.f target).2 st.cs st.world st.buf_256 256
  exact file_eq_of_fields (b1.trans a1) (b2.trans a2) (b3.trans a3) (b4.trans a4)
    (b5.trans a5) rfl (b6.trans a6)

/-! ## Calls that have a result -/

theorem lcread_get {σ : Type} {K : Consts} {bus : Bus σ} {junk : Buf} {fh : Nat} {buf : Buf}
    {len : Nat} {s : FsState σ} {r : Int × Buf × FsState σ}
    (h : lcread K bus junk fh buf len s = some r) : ∃ f, s.fhTable.get? fh = some f := by
  unfold lcread at h
  cases hg : s.fhTable.get? fh with
  | none => rw [hg] at h; simp at h
  | some f => exact ⟨f, rfl⟩

/-- A `lcread` that has a result is not marked, and its result is that of `readFile`. -/
theorem lcread_some {σ : Type} {K : Consts} {bus : Bus σ} {junk : Buf} {fh : Nat} {buf : Buf}
    {len : Nat} {s : FsState σ} {f : file} {r : Int × Buf × FsState σ}
    (hf : s.fhTable.get? fh = some f) (h : lcread K bus junk fh buf len s = some r) :
    (readFile K bus junk f s.cs s.world buf len).undef = false ∧
    r = ((readFile K bus junk f s.cs s.world buf len).ret,
      (readFile K bus junk f s.cs s.world buf len).buf,
      { s with fhTable := s.fhTable.set fh (readFile K bus junk f s.cs s.world buf len).f
               cs := (readFile K bus junk f s.cs s.world buf len).cs
               world := (readFile K bus junk f s.cs s.world buf len).world }) := by
  unfold lcread at h
  rw [hf] at h
  dsimp only at h
  cases hu : (readFile K bus junk f s.cs s.world buf len).undef with
  | true => rw [hu] at h; simp at h
  | false =>
    rw [hu] at h
    simp only [Bool.false_eq_true, if_false, Option.some.injEq] at h
    exact ⟨rfl, h.symm⟩

theorem lcwrite_get {σ : Type} {K : Consts} {bus : Bus σ} {junk : Buf} {fh : Nat} {buf : Buf}
    {len : Nat} {s : FsState σ} {r : Int × FsState σ}
    (h : lcwrite K bus junk fh buf len s = some r) : ∃ f, s.fhTable.get? fh = some f := by
  unfold lcwrite at h
  cases hg : s.fhTable.get? fh with
  | none => rw [hg] at h; simp at h
  | some f => exact ⟨f, rfl⟩

/-- A `lcwrite` that has a result is not marked, and its result is that of `writeFile`. -/
theorem lcwrite_some {σ : Type} {K : Consts} {bus : Bus σ} {junk : Buf} {fh : Nat} {buf : Buf}
    {len : Nat} {s : FsState σ} {f : file} {r : Int × FsState σ}
    (hf : s.fhTable.get? fh = some f) (h : lcwrite K bus junk fh buf len s = some r) :
    (writeFile K bus junk f s.devOn s.cs s.world buf len).undef = false ∧
    r = ((writeFile K bus junk f s.devOn s.cs s.world buf len).ret,
      { s with fhTable := s.fhTable.set fh (writeFile K bus junk f s.devOn s.cs s.world buf len).f
               devOn := (writeFile K bus junk f s.devOn s.cs s.world buf len).devOn
               cs := (writeFile K bus junk f s.devOn s.cs s.world buf len).cs
               world := (writeFile K bus junk f s.devOn s.cs s.world buf len).world }) := by
  unfold lcwrite at h
  rw [hf] at h
  dsimp only at h
  cases hu : (writeFile K bus junk f s.devOn s.cs s.world buf len).undef with
  | true => rw [hu] at h; simp at h
  | false =>
    rw [hu] at h
    simp only [Bool.false_eq_true, if_false, Option.some.injEq] at h
    exact ⟨rfl, h.symm⟩

/-- A call that is not marked has the result of `readFile`. -/
theorem lcread_of_defined {σ : Type} (K : Consts) (bus : Bus σ) (junk : Buf) (fh : Nat)
    (buf : Buf) (len : Nat) (s : FsState σ) (f : file) (hf : s.fhTable.get? fh = some f)
    (hu : (readFile K bus junk f s.cs s.world buf len).undef = false) :
    lcread K bus junk fh buf len s =
      some ((readFile K bus junk f s.cs s.world buf len).ret,
        (readFile K bus junk f s.cs s.world buf len).buf,
        { s with fhTable := s.fhTable.set fh (readFile K bus junk f s.cs s.world buf len).f
                 cs := (readFile K bus junk f s.cs s.world buf len).cs
                 world := (readFile K bus junk f s.cs s.world buf len).world }) := by
  unfold lcread
  rw [hf]
  dsimp only
  rw [hu]
  rfl

/-- A call that is not marked has the result of `writeFile`. -/
theorem lcwrite_of_defined {σ : Type} (K : Consts) (bus : Bus σ) (junk : Buf) (fh : Nat)
    (buf : Buf) (len : Nat) (s : FsState σ) (f : file) (hf : s.fhTable.get? fh = some f)
    (hu : (writeFile K bus junk f s.devOn s.cs s.world buf len).undef = false) :
    lcwrite K bus junk fh buf len s =
      some ((writeFile K bus junk f s.devOn s.cs s.world buf len).ret,
        { s with
          fhTable := s.fhTable.set fh (writeFile K bus junk f s.devOn s.cs s.world buf len).f
          devOn := (writeFile K bus junk f s.devOn s.cs s.world buf len).devOn
          cs := (writeFile K bus junk f s.devOn s.cs s.world buf len).cs
          world := (writeFile K bus junk f s.devOn s.cs s.world buf len).world }) := by
  unfold lcwrite
  rw [hf]
  dsimp only
  rw [hu]
  rfl

end LCloud

namespace LCloud

/-! ## Descriptor and device-table effects of the chunks of `lcwrite` -/

theorem writeInBlock_frame {σ : Type} (K : Consts) (bus : Bus σ) (junk buf : Buf)
    (idx target n : Nat) (st : WState σ) :
    (writeInBlock K bus junk buf idx target n st).2.devOn = st.devOn ∧
    ((writeInBlock K bus junk buf idx target n st).1 = true →
      (writeInBlock K bus junk buf idx target n st).2.f = growSize st.f (st.bytesWrote + n) ∧
      (writeInBlock K bus junk buf idx target n st).2.bytesWrote = st.bytesWrote + n ∧
      (writeInBlock K bus junk buf idx target n st).2.len = st.len - n) ∧
    ((writeInBlock K bus junk buf idx target n st).1 = false →
      (writeInBlock K bus junk buf idx target n st).2.f = st.f ∧
      (writeInBlock K bus junk buf idx target n st).2.bytesWrote = st.bytesWrote ∧
      (writeInBlock K bus junk buf idx target n st).2.len = st.len) := by
  obtain ⟨p1, p2, p3, p4⟩ := prefetch_frame K bus junk target st
  unfold writeInBlock
  dsimp only
  split_ifs with h
  · refine ⟨p2, fun _ => ⟨?_, ?_, ?_⟩, fun hf => by simp at hf⟩
    · show growSize (prefetch K bus junk target st).f
        ((prefetch K bus junk target st).bytesWrote + n) = _
      rw [p1, p3]
    · show (prefetch K bus junk target st).bytesWrote + n = _
      rw [p3]
    · show (prefetch K bus junk target st).len - n = _
      rw [p4]
  · exact ⟨p2, fun hf => by simp at hf, fun _ => ⟨p1, p3, p4⟩⟩

theorem writeAtBoundary_frame {σ : Type} (K : Consts) (bus : Bus σ) (junk buf : Buf)
    (pre : Bool) (n : Nat) (st : WState σ) :
    ((writeAtBoundary K bus junk buf pre n st).1 = true →
      (chosenBlock st).sector ≠ -1 ∧
      (writeAtBoundary K bus junk buf pre n st).2.f =
        growSize (storeBlock st.f ((st.f.position + st.bytesWrote) / 256) (chosenBlock st))
          (st.bytesWrote + n) ∧
      (writeAtBoundary K bus junk buf pre n st).2.devOn =
        markUsed st.devOn (chosenBlock st).device (chosenBlock st).sector
          (chosenBlock st).blockNum ∧
      (writeAtBoundary K bus junk buf pre n st).2.bytesWrote = st.bytesWrote + n ∧
      (writeAtBoundary K bus junk buf pre n st).2.len = st.len - n) ∧
    ((writeAtBoundary K bus junk buf pre n st).1 = false →
      (writeAtBoundary K bus junk buf pre n st).2.f = st.f ∧
      (writeAtBoundary K bus junk buf pre n st).2.devOn = st.devOn ∧
      (writeAtBoundary K bus junk buf pre n st).2.bytesWrote = st.bytesWrote ∧
      (writeAtBoundary K bus junk buf pre n st).2.len = st.len) := by
  obtain ⟨p1, p2, p3, p4⟩ := prefetch_frame K bus junk (st.f.position + st.bytesWrote) st
  unfold writeAtBoundary
  dsimp only
  split_ifs with h1 h2 h3 h4
  · exact ⟨fun hf => by simp at hf, fun _ => ⟨rfl, rfl, rfl, rfl⟩⟩
  · refine ⟨fun _ => ⟨h1, ?_, ?_, ?_, ?_⟩, fun hf => by simp at hf⟩
    · show growSize (storeBlock (prefetch K bus junk (st.f.position + st.bytesWrote) st).f
          (((prefetch K bus junk (st.f.position + st.bytesWrote) st).f.position +
              (prefetch K bus junk (st.f.position + st.bytesWrote) st).bytesWrote) / 256)
          (chosenBlock st))
          ((prefetch K bus junk (st.f.position + st.bytesWrote) st).bytesWrote + n) = _
      rw [p1, p3]
    · show markUsed (prefetch K bus junk (st.f.position + st.bytesWrote) st).devOn _ _ _ = _
      rw [p2]
    · show (prefetch K bus junk (st.f.position + st.bytesWrote) st).bytesWrote + n = _
      rw [p3]
    · show (prefetch K bus junk (st.f.position + st.bytesWrote) st).len - n = _
      rw [p4]
  · exact ⟨fun hf => by simp at hf, fun _ => ⟨p1, p2, p3, p4⟩⟩
  · exact ⟨fun _ => ⟨h1, rfl, rfl, rfl, rfl⟩, fun hf => by simp at hf⟩
  · exact ⟨fun hf => by simp at hf, fun _ => ⟨rfl, rfl, rfl, rfl⟩⟩

/-- A successful pass through the loop of `lcwrite` leaves fewer than 256 bytes to write. -/
theorem lcwriteLoop_len {σ : Type} (K : Consts) (bus : Bus σ) (junk buf : Buf) (fuel : Nat) :
    ∀ st : WState σ, st.len < fuel → (lcwriteLoop K bus junk buf fuel st).1 = true →
      (lcwriteLoop K bus junk buf fuel st).2.len < 256 := by
  induction fuel with
  | zero => intro st h; omega
  | succ fuel ih =>
    intro st hfuel
    unfold lcwriteLoop
    dsimp only
    split_ifs with h1 h2 h3 h4
    · intro hok
      apply ih _ _ hok
      have := ((writeInBlock_frame K bus junk buf (st.f.position / 256)
        (st.f.position - st.f.position % 256) (256 - st.f.position % 256) st).2.1 h3).2.2
      rw [this]; omega
    · intro hok; rw [hok] at h3; exact absurd rfl h3
    · intro hok
      apply ih _ _ hok
      have := ((writeAtBoundary_frame K bus junk buf false 256 st).1 h4).2.2.2.2
      rw [this]; omega
    · intro hok; rw [hok] at h4; exact absurd rfl h4
    · intro _; show st.len < 256; omega

/-- Induction over the chunks of the loop of `lcwrite`: a property of the running state that
every chunk carries over, with whatever outcome, holds of the result of the loop. -/
theorem lcwriteLoop_induct {σ : Type} (K : Consts) (bus : Bus σ) (junk buf : Buf)
    (Q : Bool × WState σ → Prop)
    (hA : ∀ st : WState σ, Q (true, st) → 256 ≤ st.len →
      (st.f.position + st.bytesWrote) % 256 ≠ 0 →
      Q (writeInBlock K bus junk buf (st.f.position / 256)
        (st.f.position - st.f.position % 256) (256 - st.f.position % 256) st))
    (hB : ∀ st : WState σ, Q (true, st) → 256 ≤ st.len →
      (st.f.position + st.bytesWrote) % 256 = 0 →
      Q (writeAtBoundary K bus junk buf false 256 st))
    (fuel : Nat) :
    ∀ st : WState σ, Q (true, st) → Q (lcwriteLoop K bus junk buf fuel st) := by
  induction fuel with
  | zero => intro st h; exact h
  | succ fuel ih =>
    intro st h
    unfold lcwriteLoop
    dsimp only
    split_ifs with h1 h2 h3 h4
    · have hq := hA st h h1 h2
      apply ih
      have e : writeInBlock K bus junk buf (st.f.position / 256)
          (st.f.position - st.f.position % 256) (256 - st.f.position % 256) st =
          (true, (writeInBlock K bus junk buf (st.f.position / 256)
          (st.f.position - st.f.position % 256) (256 - st.f.position % 256) st).2) :=
        Prod.ext h3 rfl
      rw [e] at hq; exact hq
    · exact hA st h h1 h2
    · have hq := hB st h h1 (by omega)
      apply ih
      have e : writeAtBoundary K bus junk buf false 256 st =
          (true, (writeAtBoundary K bus junk buf false 256 st).2) := Prod.ext h4 rfl
      rw [e] at hq; exact hq
    · exact hB st h h1 (by omega)
    · exact h

/-- Induction over the chunks of the part of `lcwrite` after the loop. -/
theorem lcwriteTail_induct {σ : Type} (K : Consts) (bus : Bus σ) (junk buf : Buf)
    (Q : Bool × WState σ → Prop)
    (hC : ∀ st : WState σ, Q (true, st) → 0 < st.len → st.len < 256 →
      (st.f.position + st.bytesWrote) % 256 = 0 →
      Q (writeAtBoundary K bus junk buf true st.len st))
    (hD1 : ∀ st : WState σ, Q (true, st) → 0 < st.len → st.len < 256 →
      (st.f.position + st.bytesWrote) % 256 ≠ 0 →
      st.len > 256 - (st.f.position + st.bytesWrote) % 256 →
      Q (writeInBlock K bus junk buf ((st.f.position + st.bytesWrote) / 256)
          (st.f.position + st.bytesWrote - st.f.position % 256) (256 - st.f.position % 256) st) ∧
      ((writeInBlock K bus junk buf ((st.f.position + st.bytesWrote) / 256)
          (st.f.position + st.bytesWrote - st.f.position % 256) (256 - st.f.position % 256)
          st).1 = true →
        Q (writeAtBoundary K bus junk buf true
          (writeInBlock K bus junk buf ((st.f.position + st.bytesWrote) / 256)
            (st.f.position + st.bytesWrote - st.f.position % 256) (256 - st.f.position % 256)
            st).2.len
          (writeInBlock K bus junk buf ((st.f.position + st.bytesWrote) / 256)
            (st.f.position + st.bytesWrote - st.f.position % 256) (256 - st.f.position % 256)
            st).2)))
    (hD2 : ∀ st : WState σ, Q (true, st) → 0 < st.len → st.len < 256 →
      (st.f.position + st.bytesWrote) % 256 ≠ 0 →
      ¬ st.len > 256 - (st.f.position + st.bytesWrote) % 256 →
      Q (writeInBlock K bus junk buf (st.f.position / 256)
        (st.f.position - st.f.position % 256) st.len st))
    (st : WState σ) (h : Q (true, st)) (hlen : st.len < 256) :
    Q (lcwriteTail K bus junk buf st) := by
  unfold lcwriteTail
  dsimp only
  split_ifs with h1 h2 h3 h4
  · exact hC st h h1 hlen h2
  · exact (hD1 st h h1 hlen h2 h3).2 h4
  · exact (hD1 st h h1 hlen h2 h3).1
  · exact hD2 st h h1 hlen h2 h3
  · exact h

/-- Induction over all chunks of `lcwrite`. -/
theorem lcwriteBody_induct {σ : Type} (K : Consts) (bus : Bus σ) (junk buf : Buf)
    (Q : Bool × WState σ → Prop)
    (hA : ∀ st : WState σ, Q (true, st) → 256 ≤ st.len →
      (st.f.position + st.bytesWrote) % 256 ≠ 0 →
      Q (writeInBlock K bus junk buf (st.f.position / 256)
        (st.f.position - st.f.position % 256) (256 - st.f.position % 256) st))
    (hB : ∀ st : WState σ, Q (true, st) → 256 ≤ st.len →
      (st.f.position + st.bytesWrote) % 256 = 0 →
      Q (writeAtBoundary K bus junk buf false 256 st))
    (hC : ∀ st : WState σ, Q (true, st) → 0 < st.len → st.len < 256 →
      (st.f.position + st.bytesWrote) % 256 = 0 →
      Q (writeAtBoundary K bus junk buf true st.len st))
    (hD1 : ∀ st : WState σ, Q (true, st) → 0 < st.len → st.len < 256 →
      (st.f.position + st.bytesWrote) % 256 ≠ 0 →
      st.len > 256 - (st.f.position + st.bytesWrote) % 256 →
      Q (writeInBlock K bus junk buf ((st.f.position + st.bytesWrote) / 256)
          (st.f.position + st.bytesWrote - st.f.position % 256) (256 - st.f.position % 256) st) ∧
      ((writeInBlock K bus junk buf ((st.f.position + st.bytesWrote) / 256)
          (st.f.position + st.bytesWrote - st.f.position % 256) (256 - st.f.position % 256)
          st).1 = true →
        Q (writeAtBoundary K bus junk buf true
          (writeInBlock K bus junk buf ((st.f.position + st.bytesWrote) / 256)
            (st.f.position + st.bytesWrote - st.f.position % 256) (256 - st.f.position % 256)
            st).2.len
          (writeInBlock K bus junk buf ((st.f.position + st.bytesWrote) / 256)
            (st.f.position + st.bytesWrote - st.f.position % 256) (256 - st.f.position % 256)
            st).2)))
    (hD2 : ∀ st : WState σ, Q (true, st) → 0 < st.len → st.len < 256 →
      (st.f.position + st.bytesWrote) % 256 ≠ 0 →
      ¬ st.len > 256 - (st.f.position + st.bytesWrote) % 256 →
      Q (writeInBlock K bus junk buf (st.f.position / 256)
        (st.f.position - st.f.position % 256) st.len st))
    (st : WState σ) (h : Q (true, st)) : Q (lcwriteBody K bus junk buf st) := by
  unfold lcwriteBody
  dsimp only
  have hl := lcwriteLoop_induct K bus junk buf Q hA hB (st.len + 1) st h
  split_ifs with h1
  · have e : lcwriteLoop K bus junk buf (st.len + 1) st =
        (true, (lcwriteLoop K bus junk buf (st.len + 1) st).2) := Prod.ext h1 rfl
    rw [e] at hl
    exact lcwriteTail_induct K bus junk buf Q hC hD1 hD2 _ hl
      (lcwriteLoop_len K bus junk buf (st.len + 1) st (by omega) h1)
  · exact hl

end LCloud

namespace LCloud

/-! ## Return value, position and size after `lcwrite` -/

theorem growSize_fields (f : file) (bw : Nat) :
    (growSize f bw).position = f.position ∧ (growSize f bw).blocks = f.blocks ∧
    (growSize f bw).opened = f.opened ∧ (growSize f bw).name = f.name ∧
    (growSize f bw).handle = f.handle ∧
    (growSize f bw).size = max f.size (f.position + bw) := by
  unfold growSize
  split_ifs with h
  · refine ⟨rfl, rfl, rfl, rfl, rfl, ?_⟩
    show f.position + bw = _
    omega
  · refine ⟨rfl, rfl, rfl, rfl, rfl, ?_⟩
    omega

theorem writeCount_inBlock {σ : Type} (K : Consts) (bus : Bus σ) (junk buf : Buf)
    (p0 s0 n0 idx target n : Nat) (st : WState σ) (h : WriteCount p0 s0 n0 (true, st))
    (hn : 0 < n) (hle : n ≤ st.len)
    (hal : n < st.len → (p0 + (st.bytesWrote + n)) % 256 = 0) :
    WriteCount p0 s0 n0 (writeInBlock K bus junk buf idx target n st) := by
  obtain ⟨h1, h2, h3, h4⟩ := h
  simp only at h1 h2 h3 h4
  obtain ⟨-, fok, ffail⟩ := writeInBlock_frame K bus junk buf idx target n st
  cases hr : (writeInBlock K bus junk buf idx target n st).1 with
  | false =>
    obtain ⟨e1, e2, e3⟩ := ffail hr
    refine ⟨?_, ?_, ?_, ?_⟩
    · rw [e1]; exact h1
    · rw [e2, e3]; exact h2
    · rw [e2, e3]; exact h3
    · rw [e1, e2]; exact h4
  | true =>
    obtain ⟨e1, e2, e3⟩ := fok hr
    obtain ⟨g1, -, -, -, -, g6⟩ := growSize_fields st.f (st.bytesWrote + n)
    refine ⟨?_, ?_, ?_, ?_⟩
    · rw [e1, g1]; exact h1
    · rw [e2, e3]; omega
    · rw [e2, e3]
      by_cases hlt : n < st.len
      · exact Or.inr (Or.inl (hal hlt))
      · exact Or.inr (Or.inr (by omega))
    · rw [e1, e2, g6, h4, h1]
      split_ifs with c1 c2 c2 <;> omega

theorem storeBlock_fields (f : file) (i : Nat) (b : block) :
    (storeBlock f i b).position = f.position ∧ (storeBlock f i b).size = f.size ∧
    (storeBlock f i b).opened = f.opened ∧ (storeBlock f i b).name = f.name ∧
    (storeBlock f i b).handle = f.handle ∧
    (storeBlock f i b).blocks = setBlock f.garbage f.blocks i b :=
  ⟨rfl, rfl, rfl, rfl, rfl, rfl⟩

theorem storeBlock_garbage (f : file) (i : Nat) (b : block) :
    (storeBlock f i b).garbage = f.garbage := rfl

theorem writeCount_atBoundary {σ : Type} (K : Consts) (bus : Bus σ) (junk buf : Buf)
    (p0 s0 n0 : Nat) (pre : Bool) (n : Nat) (st : WState σ)
    (h : WriteCount p0 s0 n0 (true, st)) (hn : 0 < n) (hle : n ≤ st.len)
    (hal : n < st.len → (p0 + (st.bytesWrote + n)) % 256 = 0) :
    WriteCount p0 s0 n0 (writeAtBoundary K bus junk buf pre n st) := by
  obtain ⟨h1, h2, h3, h4⟩ := h
  simp only at h1 h2 h3 h4
  obtain ⟨fok, ffail⟩ := writeAtBoundary_frame K bus junk buf pre n st
  cases hr : (writeAtBoundary K bus junk buf pre n st).1 with
  | false =>
    obtain ⟨e1, -, e2, e3⟩ := ffail hr
    refine ⟨?_, ?_, ?_, ?_⟩
    · rw [e1]; exact h1
    · rw [e2, e3]; exact h2
    · rw [e2, e3]; exact h3
    · rw [e1, e2]; exact h4
  | true =>
    obtain ⟨-, e1, -, e2, e3⟩ := fok hr
    obtain ⟨g1, -, -, -, -, g6⟩ := growSize_fields
      (storeBlock st.f ((st.f.position + st.bytesWrote) / 256) (chosenBlock st))
      (st.bytesWrote + n)
    obtain ⟨s1, s2, -⟩ := storeBlock_fields st.f ((st.f.position + st.bytesWrote) / 256)
      (chosenBlock st)
    refine ⟨?_, ?_, ?_, ?_⟩
    · rw [e1, g1, s1]; exact h1
    · rw [e2, e3]; omega
    · rw [e2, e3]
      by_cases hlt : n < st.len
      · exact Or.inr (Or.inl (hal hlt))
      · exact Or.inr (Or.inr (by omega))
    · rw [e1, e2, g6, s1, s2, h4, h1]
      split_ifs with c1 c2 c2 <;> omega

/-- Bookkeeping of `lcwrite` over all its chunks, from the start of the call. -/
theorem lcwriteBody_count {σ : Type} (K : Consts) (bus : Bus σ) (junk buf : Buf)
    (st : WState σ) (h0 : st.bytesWrote = 0) :
    WriteCount st.f.position st.f.size st.len (lcwriteBody K bus junk buf st) := by
  apply lcwriteBody_induct K bus junk buf (WriteCount st.f.position st.f.size st.len)
  · intro s h hl hu
    have hp := h.1
    have h3 := h.2.2.1
    simp only at hp h3
    have hb : s.bytesWrote = 0 := by
      rcases h3 with h3 | h3 | h3
      · exact h3
      · rw [hp] at hu; exact absurd h3 hu
      · omega
    apply writeCount_inBlock K bus junk buf _ _ _ _ _ _ s h <;> intros <;> omega
  · intro s h hl ha
    have hp := h.1
    simp only at hp
    apply writeCount_atBoundary K bus junk buf _ _ _ _ _ s h <;> intros <;> omega
  · intro s h h0 hl ha
    apply writeCount_atBoundary K bus junk buf _ _ _ _ _ s h <;> intros <;> omega
  · intro s h h0 hl hu hgt
    have hp := h.1
    have h3 := h.2.2.1
    simp only at hp h3
    have hb : s.bytesWrote = 0 := by
      rcases h3 with h3 | h3 | h3
      · exact h3
      · rw [hp] at hu; exact absurd h3 hu
      · omega
    have hq : WriteCount st.f.position st.f.size st.len
        (writeInBlock K bus junk buf ((s.f.position + s.bytesWrote) / 256)
          (s.f.position + s.bytesWrote - s.f.position % 256) (256 - s.f.position % 256) s) := by
      apply writeCount_inBlock K bus junk buf _ _ _ _ _ _ s h <;> intros <;> omega
    refine ⟨hq, fun hok => ?_⟩
    obtain ⟨-, fok, -⟩ := writeInBlock_frame K bus junk buf
      ((s.f.position + s.bytesWrote) / 256)
      (s.f.position + s.bytesWrote - s.f.position % 256) (256 - s.f.position % 256) s
    obtain ⟨-, e2, e3⟩ := fok hok
    have e : writeInBlock K bus junk buf ((s.f.position + s.bytesWrote) / 256)
        (s.f.position + s.bytesWrote - s.f.position % 256) (256 - s.f.position % 256) s =
        (true, (writeInBlock K bus junk buf ((s.f.position + s.bytesWrote) / 256)
        (s.f.position + s.bytesWrote - s.f.position % 256) (256 - s.f.position % 256) s).2) :=
      Prod.ext hok rfl
    rw [e] at hq
    apply writeCount_atBoundary K bus junk buf _ _ _ _ _ _ hq
    · rw [e3]; omega
    · exact le_refl _
    · intro hlt; omega
  · intro s h h0 hl hu hgt
    apply writeCount_inBlock K bus junk buf _ _ _ _ _ _ s h <;> intros <;> omega
  · exact ⟨rfl, by simp only; omega, Or.inl h0, by simp only; rw [if_pos h0]⟩

/-- A successful pass through the part of `lcwrite` after the loop leaves nothing to write. -/
theorem lcwriteTail_len {σ : Type} (K : Consts) (bus : Bus σ) (junk buf : Buf)
    (st : WState σ) (hok : (lcwriteTail K bus junk buf st).1 = true) :
    (lcwriteTail K bus junk buf st).2.len = 0 := by
  unfold lcwriteTail at hok ⊢
  dsimp only at hok ⊢
  split_ifs at hok ⊢ with h1 h2 h3 h4
  · rw [((writeAtBoundary_frame K bus junk buf true st.len st).1 hok).2.2.2.2]; omega
  · rw [((writeAtBoundary_frame K bus junk buf true _ _).1 hok).2.2.2.2]; omega
  · rw [hok] at h4; exact absurd rfl h4
  · rw [((writeInBlock_frame K bus junk buf _ _ st.len st).2.1 hok).2.2]; omega
  · show st.len = 0
    omega

theorem lcwriteBody_len {σ : Type} (K : Consts) (bus : Bus σ) (junk buf : Buf)
    (st : WState σ) (hok : (lcwriteBody K bus junk buf st).1 = true) :
    (lcwriteBody K bus junk buf st).2.len = 0 := by
  unfold lcwriteBody at hok ⊢
  dsimp only at hok ⊢
  split_ifs at hok ⊢ with h1
  · exact lcwriteTail_len K bus junk buf _ hok
  · exact absurd hok h1

/-- Return value, position and size after `lcwrite` on the descriptor. -/
theorem writeFile_success {σ : Type} (K : Consts) (bus : Bus σ) (junk : Buf) (f : file)
    (devOn : List device) (cs : CacheState) (w : σ) (buf : Buf) (len : Nat)
    (hok : 0 ≤ (writeFile K bus junk f devOn cs w buf len).ret) :
    (writeFile K bus junk f devOn cs w buf len).ret = len ∧
    (writeFile K bus junk f devOn cs w buf len).f.position = f.position + len ∧
    (writeFile K bus junk f devOn cs w buf len).f.size =
      (if len = 0 then f.size else max f.size (f.position + len)) := by
  have hc := lcwriteBody_count K bus junk buf
    { f := f, devOn := devOn, cs := cs, world := w, bytesWrote := 0, len := len,
      buf_256 := junk } rfl
  have hl := lcwriteBody_len K bus junk buf
    { f := f, devOn := devOn, cs := cs, world := w, bytesWrote := 0, len := len,
      buf_256 := junk }
  unfold writeFile at hok ⊢
  dsimp only at hok ⊢
  by_cases h1 : f.opened = 0
  · rw [if_pos h1] at hok
    simp at hok
  rw [if_neg h1] at hok ⊢
  by_cases h2 : (lcwriteBody K bus junk buf
      { f := f, devOn := devOn, cs := cs, world := w, bytesWrote := 0, len := len,
        buf_256 := junk }).1 = true
  · rw [if_pos h2]
    obtain ⟨c1, c2, -, c4⟩ := hc
    simp only at c1 c2 c4
    have hl0 := hl h2
    have hbw : (lcwriteBody K bus junk buf
        { f := f, devOn := devOn, cs := cs, world := w, bytesWrote := 0, len := len,
          buf_256 := junk }).2.bytesWrote = len := by omega
    refine ⟨?_, ?_, ?_⟩
    · show ((_ : Nat) : Int) = _
      rw [hbw]
    · show _ + _ = _
      rw [c1, hbw]
    · show (lcwriteBody K bus junk buf _).2.f.size = _
      rw [c4, hbw]
  · rw [if_neg h2] at hok
    simp at hok

end LCloud

namespace LCloud

/-! ## Shape of the descriptors -/

theorem setBlock_length (g : Nat → block) (bl : List block) (i : Nat) (b : block) :
    (setBlock g bl i b).length = max bl.length (i + 1) := by
  unfold setBlock
  split_ifs with h
  · rw [List.length_set]; omega
  · simp only [List.length_append, List.length_map, List.length_range', List.length_singleton]
    omega

theorem writeShape_inBlock {σ : Type} (K : Consts) (bus : Bus σ) (junk buf : Buf)
    (p0 s0 n0 idx target n : Nat) (st : WState σ) (h : WriteShape p0 s0 n0 (true, st))
    (hn : 0 < n) (hle : n ≤ st.len)
    (hal : n < st.len → (p0 + (st.bytesWrote + n)) % 256 = 0)
    (hfit : (p0 + st.bytesWrote) % 256 + n ≤ 256) (hu : (p0 + st.bytesWrote) % 256 ≠ 0) :
    WriteShape p0 s0 n0 (writeInBlock K bus junk buf idx target n st) := by
  obtain ⟨hc, h1, h2⟩ := h
  have hc2 := writeCount_inBlock K bus junk buf p0 s0 n0 idx target n st hc hn hle hal
  have hp := hc.1
  simp only at h1 h2 hp
  refine ⟨hc2, ?_⟩
  obtain ⟨-, fok, ffail⟩ := writeInBlock_frame K bus junk buf idx target n st
  cases hr : (writeInBlock K bus junk buf idx target n st).1 with
  | false =>
    obtain ⟨e1, e2, e3⟩ := ffail hr
    rw [e1, e2]
    exact ⟨h1, h2⟩
  | true =>
    obtain ⟨e1, e2, e3⟩ := fok hr
    obtain ⟨g1, g2, -, -, -, g6⟩ := growSize_fields st.f (st.bytesWrote + n)
    rw [e1, e2, g1, g2, g6]
    rw [hp] at h2 ⊢
    omega

theorem writeShape_atBoundary {σ : Type} (K : Consts) (bus : Bus σ) (junk buf : Buf)
    (p0 s0 n0 : Nat) (pre : Bool) (n : Nat) (st : WState σ)
    (h : WriteShape p0 s0 n0 (true, st)) (hn : 0 < n) (hle : n ≤ st.len)
    (hal : n < st.len → (p0 + (st.bytesWrote + n)) % 256 = 0)
    (hfit : n ≤ 256) (ha : (p0 + st.bytesWrote) % 256 = 0) :
    WriteShape p0 s0 n0 (writeAtBoundary K bus junk buf pre n st) := by
  obtain ⟨hc, h1, h2⟩ := h
  have hc2 := writeCount_atBoundary K bus junk buf p0 s0 n0 pre n st hc hn hle hal
  have hp := hc.1
  simp only at h1 h2 hp
  refine ⟨hc2, ?_⟩
  obtain ⟨fok, ffail⟩ := writeAtBoundary_frame K bus junk buf pre n st
  cases hr : (writeAtBoundary K bus junk buf pre n st).1 with
  | false =>
    obtain ⟨e1, -, e2, e3⟩ := ffail hr
    rw [e1, e2]
    exact ⟨h1, h2⟩
  | true =>
    obtain ⟨-, e1, -, e2, e3⟩ := fok hr
    obtain ⟨g1, g2, -, -, -, g6⟩ := growSize_fields
      (storeBlock st.f ((st.f.position + st.bytesWrote) / 256) (chosenBlock st))
      (st.bytesWrote + n)
    obtain ⟨s1, s2, -, -, -, s6⟩ := storeBlock_fields st.f
      ((st.f.position + st.bytesWrote) / 256) (chosenBlock st)
    rw [e1, e2, g1, g2, g6, s1, s2, s6, setBlock_length]
    rw [hp] at h2 ⊢
    omega

/-- The shape of the descriptor is kept through all chunks of `lcwrite`, whatever the
controller answers. -/
theorem lcwriteBody_shape {σ : Type} (K : Consts) (bus : Bus σ) (junk buf : Buf)
    (st : WState σ) (h0 : st.bytesWrote = 0) (hf : FileOK st.f) :
    WriteShape st.f.position st.f.size st.len (lcwriteBody K bus junk buf st) := by
  have aligned_or : ∀ s : WState σ, WriteShape st.f.position st.f.size st.len (true, s) →
      0 < s.len → (s.f.position + s.bytesWrote) % 256 ≠ 0 →
      s.bytesWrote = 0 ∧ s.f.position = st.f.position := by
    intro s h hl hu
    have hp := h.1.1
    have h3 := h.1.2.2.1
    simp only at hp h3
    refine ⟨?_, hp⟩
    rcases h3 with h3 | h3 | h3
    · exact h3
    · rw [hp] at hu; exact absurd h3 hu
    · omega
  apply lcwriteBody_induct K bus junk buf (WriteShape st.f.position st.f.size st.len)
  · intro s h hl hu
    obtain ⟨hb, hp⟩ := aligned_or s h (by omega) hu
    apply writeShape_inBlock K bus junk buf _ _ _ _ _ _ s h <;> intros <;> omega
  · intro s h hl ha
    have hp := h.1.1
    simp only at hp
    apply writeShape_atBoundary K bus junk buf _ _ _ _ _ s h <;> intros <;> omega
  · intro s h h0 hl ha
    have hp := h.1.1
    simp only at hp
    apply writeShape_atBoundary K bus junk buf _ _ _ _ _ s h <;> intros <;> omega
  · intro s h h0 hl hu hgt
    obtain ⟨hb, hp⟩ := aligned_or s h (by omega) hu
    have hq : WriteShape st.f.position st.f.size st.len
        (writeInBlock K bus junk buf ((s.f.position + s.bytesWrote) / 256)
          (s.f.position + s.bytesWrote - s.f.position % 256) (256 - s.f.position % 256) s) := by
      apply writeShape_inBlock K bus junk buf _ _ _ _ _ _ s h <;> intros <;> omega
    refine ⟨hq, fun hok => ?_⟩
    obtain ⟨-, fok, -⟩ := writeInBlock_frame K bus junk buf
      ((s.f.position + s.bytesWrote) / 256)
      (s.f.position + s.bytesWrote - s.f.position % 256) (256 - s.f.position % 256) s
    obtain ⟨-, e2, e3⟩ := fok hok
    have e : writeInBlock K bus junk buf ((s.f.position + s.bytesWrote) / 256)
        (s.f.position + s.bytesWrote - s.f.position % 256) (256 - s.f.position % 256) s =
        (true, (writeInBlock K bus junk buf ((s.f.position + s.bytesWrote) / 256)
        (s.f.position + s.bytesWrote - s.f.position % 256) (256 - s.f.position % 256) s).2) :=
      Prod.ext hok rfl
    rw [e] at hq
    apply writeShape_atBoundary K bus junk buf _ _ _ _ _ _ hq
    · rw [e3]; omega
    · exact le_refl _
    · intro hlt; omega
    · rw [e3]; omega
    · rw [e2]; omega
  · intro s h h0 hl hu hgt
    obtain ⟨hb, hp⟩ := aligned_or s h (by omega) hu
    apply writeShape_inBlock K bus junk buf _ _ _ _ _ _ s h <;> intros <;> omega
  · refine ⟨⟨rfl, by simp only; omega, Or.inl h0, by simp only; rw [if_pos h0]⟩, hf.1, ?_⟩
    have := hf.2
    simp only
    omega

theorem writeFile_fileOK {σ : Type} (K : Consts) (bus : Bus σ) (junk : Buf) (f : file)
    (devOn : List device) (cs : CacheState) (w : σ) (buf : Buf) (len : Nat) (hf : FileOK f) :
    FileOK (writeFile K bus junk f devOn cs w buf len).f := by
  have hs := lcwriteBody_shape K bus junk buf
    { f := f, devOn := devOn, cs := cs, world := w, bytesWrote := 0, len := len,
      buf_256 := junk } rfl hf
  obtain ⟨-, s1, s2⟩ := hs
  unfold writeFile
  dsimp only
  split_ifs with h1 h2
  · exact hf
  · exact ⟨s1, s2⟩
  · refine ⟨s1, ?_⟩
    show (lcwriteBody K bus junk buf _).2.f.position ≤
      256 * (lcwriteBody K bus junk buf _).2.f.blocks.length
    omega

/-- A read that ends inside the stored blocks keeps the shape of the descriptor. -/
theorem readFile_fileOK {σ : Type} (K : Consts) (bus : Bus σ) (junk : Buf) (f : file)
    (cs : CacheState) (w : σ) (buf : Buf) (len : Nat) (hf : FileOK f)
    (hin : f.position + len ≤ 256 * f.blocks.length) :
    FileOK (readFile K bus junk f cs w buf len).f := by
  obtain ⟨a1, a2, -, -, -, -, -, a8⟩ := readFile_file K bus junk f cs w buf len
  refine ⟨?_, ?_⟩
  · rw [a1, a2]; exact hf.1
  · rw [a2]; omega

theorem seekFile_fileOK (f : file) (off : Nat) (hf : FileOK f) : FileOK (seekFile f off).2 := by
  obtain ⟨a1, a2, -, -, -, -, a6⟩ := seekFile_file f off
  obtain ⟨h1, h2⟩ := hf
  refine ⟨?_, ?_⟩
  · rw [a1, a2]; exact h1
  · rw [a2]
    rcases a6 with a6 | ⟨a6, a7⟩
    · rw [a6]; exact h2
    · rw [a6]; omega

theorem lcopenInit_fhTable {σ : Type} (K : Consts) (bus : Bus σ) (s : FsState σ) :
    (lcopenInit K bus s).2.fhTable = s.fhTable ∧
    (lcopenInit K bus s).2.fileHandleCounter = s.fileHandleCounter := by
  unfold lcopenInit
  dsimp only
  split_ifs <;> exact ⟨rfl, rfl⟩

theorem lcopen_fhTable {σ : Type} (K : Consts) (bus : Bus σ) (path : String)
    (garbage : Nat → block) (s : FsState σ) :
    (lcopen K bus path garbage s).2.fhTable = s.fhTable ∨
    (lcopen K bus path garbage s).2.fhTable = s.fhTable ++
      [{ name := String.mk (path.data.take 120), handle := s.fileHandleCounter, position := 0,
         size := 0, blocks := [], opened := 1, garbage := garbage }] := by
  obtain ⟨e1, e2⟩ := lcopenInit_fhTable K bus s
  unfold lcopen
  dsimp only
  split_ifs with h1 h2
  · right
    show (lcopenInit K bus s).2.fhTable ++ _ = _
    rw [e1, e2]
  · left; exact e1
  · right; rfl

theorem mem_set_cases {α : Type} (l : List α) (i : Nat) (a x : α) (h : x ∈ l.set i a) :
    x = a ∨ x ∈ l := by
  rcases List.mem_or_eq_of_mem_set h with h | h
  · exact Or.inr h
  · exact Or.inl h

/-- Along the runs whose reads end inside the stored blocks, every descriptor has as many
stored blocks as its size needs and a position not past the last of them. -/
theorem inBlocks_fileOK {σ : Type} (K : Consts) (bus : Bus σ) (s : FsState σ)
    (hs : InBlocks K bus s) : ∀ f ∈ s.fhTable, FileOK f := by
  induction hs with
  | boot w => intro f hf; simp [bootState] at hf
  | opn path garbage _ ih =>
    intro f hf
    rcases lcopen_fhTable K bus path garbage _ with e | e
    · rw [e] at hf; exact ih f hf
    · rw [e] at hf
      rcases List.mem_append.1 hf with hf | hf
      · exact ih f hf
      · rw [List.mem_singleton] at hf
        rw [hf]
        refine ⟨?_, Nat.zero_le _⟩
        show (0 : Nat) = (0 + 255) / 256
        norm_num
  | read junk fh buf len g r _ hg hin hr ih =>
    intro f hf
    obtain ⟨-, e⟩ := lcread_some hg hr
    rw [e] at hf
    rcases mem_set_cases _ _ _ _ hf with hf | hf
    · rw [hf]
      exact readFile_fileOK K bus junk g _ _ buf len (ih g (List.get?_mem hg)) hin
    · exact ih f hf
  | write junk fh buf len r _ hr ih =>
    intro f hf
    obtain ⟨g, hg⟩ := lcwrite_get hr
    obtain ⟨-, e⟩ := lcwrite_some hg hr
    rw [e] at hf
    rcases mem_set_cases _ _ _ _ hf with hf | hf
    · rw [hf]
      exact writeFile_fileOK K bus junk g _ _ _ buf len (ih g (List.get?_mem hg))
    · exact ih f hf
  | seek fh off r _ hr ih =>
    intro f hf
    unfold lcseek at hr
    split at hr
    · simp at hr
    · rename_i g hg
      simp only [Option.some.injEq] at hr
      rw [← hr] at hf
      rcases mem_set_cases _ _ _ _ hf with hf | hf
      · rw [hf]
        exact seekFile_fileOK g off (ih g (List.get?_mem hg))
      · exact ih f hf
  | close fh _ ih =>
    intro f hf
    unfold lcclose at hf
    split_ifs at hf with h1
    · exact ih f hf
    · split at hf
      · rename_i g hg
        split_ifs at hf with h2
        · exact ih f hf
        · rcases mem_set_cases _ _ _ _ hf with hf | hf
          · rw [hf]
            exact ih g (List.get?_mem hg)
          · exact ih f hf
      · exact ih f hf

end LCloud

namespace LCloud

/-! ## Block allocation -/

theorem cell_lt (S B s b : Int) (hs : s < S) (hb0 : 0 ≤ b) (hb : b < B) (hs0 : 0 ≤ s) :
    0 ≤ s * B + b ∧ s * B + b < S * B := by
  have h1 : s * B ≤ (S - 1) * B := Int.mul_le_mul_of_nonneg_right (by omega) (by omega)
  have h2 : (S - 1) * B = S * B - B := by ring
  have h3 : 0 ≤ s * B := Int.mul_nonneg hs0 (by omega)
  omega

theorem cell_inj (B s b s2 b2 : Int) (hb0 : 0 ≤ b) (hb : b < B) (hc0 : 0 ≤ b2) (hc : b2 < B)
    (h : s * B + b = s2 * B + b2) : s = s2 ∧ b = b2 := by
  have hB : 0 < B := by omega
  have e1 : (s * B + b) / B = s := by
    rw [add_comm, Int.add_mul_ediv_right _ _ (by omega), Int.ediv_eq_zero_of_lt hb0 hb]; simp
  have e2 : (s2 * B + b2) / B = s2 := by
    rw [add_comm, Int.add_mul_ediv_right _ _ (by omega), Int.ediv_eq_zero_of_lt hc0 hc]; simp
  have e3 : s = s2 := by rw [← e1, ← e2, h]
  refine ⟨e3, ?_⟩
  rw [e3] at h
  omega

/-- The scan of `get_Next_Block` over one device, given enough turns, ends on a cell of the
device that is either free or the last one. -/
theorem scanDevice_spec (d : device) (fuel : Nat) :
    ∀ cs cb : Int, 0 ≤ cs → cs < d.sectors → 0 ≤ cb → cb < d.blocks →
      d.sectors * d.blocks ≤ fuel + (cs * d.blocks + cb) →
      0 ≤ (scanDevice d fuel cs cb).1 ∧ (scanDevice d fuel cs cb).1 < d.sectors ∧
      0 ≤ (scanDevice d fuel cs cb).2 ∧ (scanDevice d fuel cs cb).2 < d.blocks ∧
      (usedAt d (scanDevice d fuel cs cb).1 (scanDevice d fuel cs cb).2 ≠ 1 ∨
        ((scanDevice d fuel cs cb).1 = d.sectors - 1 ∧
          (scanDevice d fuel cs cb).2 = d.blocks - 1)) := by
  induction fuel with
  | zero =>
    intro cs cb h1 h2 h3 h4 h5
    have := cell_lt d.sectors d.blocks cs cb h2 h3 h4 h1
    simp only [Nat.cast_zero, zero_add] at h5
    omega
  | succ fuel ih =>
    intro cs cb h1 h2 h3 h4 h5
    unfold scanDevice
    split_ifs with c1 c2 c3 c4
    · exact ⟨h1, h2, h3, h4, Or.inr c2⟩
    · apply ih cs (cb + 1) h1 h2 (by omega) (by omega)
      push_cast at h5
      omega
    · apply ih (cs + 1) 0 (by omega) (by omega) (by omega) (by omega)
      push_cast at h5
      have : (cs + 1) * d.blocks = cs * d.blocks + d.blocks := by ring
      have c3' : cb = d.blocks - 1 := by
        by_contra hne
        exact c3 hne
      omega
    · exfalso
      apply c2
      constructor
      · by_contra hne; exact c4 hne
      · by_contra hne; exact c3 hne
    · exact ⟨h1, h2, h3, h4, Or.inl c1⟩

/-- The device loop of `get_Next_Block` returns either no block or a free block of an online
device of the table. -/
theorem nextBlockLoop_spec : ∀ (l : List device) (i : Int), (∀ d ∈ l, DevOK d) →
    nextBlockLoop l i = noBlock ∨
    ∃ (k : Nat) (d : device), l.get? k = some d ∧ (nextBlockLoop l i).device = i + k ∧
      d.online = 1 ∧ 0 ≤ (nextBlockLoop l i).sector ∧ (nextBlockLoop l i).sector < d.sectors ∧
      0 ≤ (nextBlockLoop l i).blockNum ∧ (nextBlockLoop l i).blockNum < d.blocks ∧
      usedAt d (nextBlockLoop l i).sector (nextBlockLoop l i).blockNum ≠ 1 := by
  intro l
  induction l with
  | nil => intro i _; left; rfl
  | cons d rest ih =>
    intro i hd
    have hrest : ∀ d ∈ rest, DevOK d := fun x hx => hd x (List.mem_cons_of_mem _ hx)
    have step : nextBlockLoop rest (i + 1) = noBlock ∨
        ∃ (k : Nat) (e : device), (d :: rest).get? k = some e ∧
          (nextBlockLoop rest (i + 1)).device = i + k ∧
          e.online = 1 ∧ 0 ≤ (nextBlockLoop rest (i + 1)).sector ∧
          (nextBlockLoop rest (i + 1)).sector < e.sectors ∧
          0 ≤ (nextBlockLoop rest (i + 1)).blockNum ∧
          (nextBlockLoop rest (i + 1)).blockNum < e.blocks ∧
          usedAt e (nextBlockLoop rest (i + 1)).sector (nextBlockLoop rest (i + 1)).blockNum ≠
            1 := by
      rcases ih (i + 1) hrest with h | ⟨k, e, h1, h2, h3⟩
      · exact Or.inl h
      · refine Or.inr ⟨k + 1, e, ?_, ?_, h3⟩
        · simpa using h1
        · rw [h2]; push_cast; omega
    unfold nextBlockLoop
    dsimp only
    by_cases c1 : d.online = 1
    · rw [if_pos c1]
      by_cases c2 : (scanDevice d (d.sectors * d.blocks).toNat 0 0).1 = d.sectors - 1 ∧
          (scanDevice d (d.sectors * d.blocks).toNat 0 0).2 = d.blocks - 1
      · rw [if_neg (not_not.2 c2)]
        exact step
      · rw [if_pos c2]
        right
        obtain ⟨hS, hB, -, -, -⟩ := hd d (List.mem_cons_self _ _) c1
        have hsp := scanDevice_spec d (d.sectors * d.blocks).toNat 0 0 (le_refl _)
          (by omega) (le_refl _) (by omega) (by
            have : 0 ≤ d.sectors * d.blocks := Int.mul_nonneg (by omega) (by omega)
            rw [Int.toNat_of_nonneg this]; omega)
        obtain ⟨a1, a2, a3, a4, a5⟩ := hsp
        refine ⟨0, d, rfl, ?_, c1, a1, a2, a3, a4, ?_⟩
        · show i = i + ((0 : Nat) : Int)
          simp
        · rcases a5 with a5 | a5
          · exact a5
          · exact absurd a5 c2
    · rw [if_neg c1]
      exact step

theorem get_Next_Block_spec (devOn : List device) (hd : ∀ d ∈ devOn, DevOK d)
    (hne : (get_Next_Block devOn).sector ≠ -1) :
    ∃ d, InRange devOn (get_Next_Block devOn) d ∧
      usedAt d (get_Next_Block devOn).sector (get_Next_Block devOn).blockNum ≠ 1 := by
  unfold get_Next_Block at hne ⊢
  rcases nextBlockLoop_spec devOn 0 hd with h | ⟨k, d, h1, h2, h3, h4, h5, h6, h7, h8⟩
  · rw [h] at hne; exact absurd rfl hne
  · refine ⟨d, ⟨?_, ?_, h3, h4, h5, h6, h7⟩, h8⟩
    · rw [h2]; omega
    · rw [h2]
      simpa using h1

end LCloud

namespace LCloud

/-! ## Allocation bits and block lists -/

theorem getD_set_one (l : List Int) (i j : Nat) :
    (l.set i 1).getD j 0 = if i = j ∧ i < l.length then 1 else l.getD j 0 := by
  rw [List.getD_eq_getElem?_getD, List.getD_eq_getElem?_getD, List.getElem?_set]
  by_cases h : i = j
  · subst h
    by_cases h2 : i < l.length
    · simp [h2]
    · simp [h2]
      rw [List.getElem?_eq_none (by omega)]
      rfl
  · simp [h]

theorem markUsed_eq (devOn : List device) (b : block) (d : device) (h : InRange devOn b d) :
    markUsed devOn b.device b.sector b.blockNum =
      devOn.set b.device.toNat
        { d with usedBlocks := d.usedBlocks.set (b.sector * d.blocks + b.blockNum).toNat 1 } := by
  obtain ⟨h1, h2, h3, h4, h5, h6, h7⟩ := h
  unfold markUsed
  rw [if_pos h1, h2]
  dsimp only
  have := (cell_lt d.sectors d.blocks b.sector b.blockNum h5 h6 h7 h4).1
  rw [if_pos this]

theorem usedAt_marked (d : device) (s b s2 b2 : Int) (h : usedAt d s2 b2 = 1) :
    usedAt { d with usedBlocks := d.usedBlocks.set (s * d.blocks + b).toNat 1 } s2 b2 = 1 := by
  unfold usedAt at h ⊢
  dsimp only
  rw [getD_set_one]
  split_ifs
  · rfl
  · exact h

theorem markUsed_devOK (devOn : List device) (b : block) (d : device) (h : InRange devOn b d)
    (hd : ∀ e ∈ devOn, DevOK e) :
    ∀ e ∈ markUsed devOn b.device b.sector b.blockNum, DevOK e := by
  rw [markUsed_eq devOn b d h]
  intro e he
  rcases mem_set_cases _ _ _ _ he with he | he
  · rw [he]
    intro ho
    have := hd d (List.get?_mem h.2.1) ho
    obtain ⟨a1, a2, a3, a4, a5⟩ := this
    refine ⟨a1, a2, a3, a4, ?_⟩
    show (d.usedBlocks.set _ 1).length = _
    rw [List.length_set]; exact a5
  · exact hd e he

theorem markUsed_claimed (devOn : List device) (b : block) (d : device) (h : InRange devOn b d)
    (x : block) (hx : Claimed devOn x) :
    Claimed (markUsed devOn b.device b.sector b.blockNum) x := by
  rw [markUsed_eq devOn b d h]
  obtain ⟨e, ⟨x1, x2, x3, x4, x5, x6, x7⟩, xu⟩ := hx
  by_cases hk : x.device.toNat = b.device.toNat
  · have he : e = d := by
      rw [hk, h.2.1] at x2
      exact (Option.some.inj x2).symm
    subst he
    refine ⟨{ e with usedBlocks := e.usedBlocks.set (b.sector * e.blocks + b.blockNum).toNat 1 },
      ⟨x1, ?_, x3, x4, x5, x6, x7⟩, usedAt_marked e _ _ _ _ xu⟩
    rw [hk, List.get?_eq_getElem?, List.getElem?_set_self]
    rcases List.get?_eq_some.1 h.2.1 with ⟨hlt, -⟩
    exact hlt
  · refine ⟨e, ⟨x1, ?_, x3, x4, x5, x6, x7⟩, xu⟩
    rw [List.get?_eq_getElem?, List.getElem?_set_ne (fun hh => hk hh.symm),
      ← List.get?_eq_getElem?]
    exact x2

theorem markUsed_claims (devOn : List device) (b : block) (d : device) (h : InRange devOn b d)
    (hd : DevOK d) : Claimed (markUsed devOn b.device b.sector b.blockNum) b := by
  rw [markUsed_eq devOn b d h]
  obtain ⟨h1, h2, h3, h4, h5, h6, h7⟩ := h
  obtain ⟨a1, a2, a3, a4, a5⟩ := hd h3
  have hc := cell_lt d.sectors d.blocks b.sector b.blockNum h5 h6 h7 h4
  refine ⟨{ d with usedBlocks := d.usedBlocks.set (b.sector * d.blocks + b.blockNum).toNat 1 },
    ⟨h1, ?_, h3, h4, h5, h6, h7⟩, ?_⟩
  · rw [List.get?_eq_getElem?, List.getElem?_set_self]
    rcases List.get?_eq_some.1 h2 with ⟨hlt, -⟩
    exact hlt
  · unfold usedAt
    dsimp only
    rw [getD_set_one, if_pos]
    refine ⟨rfl, ?_⟩
    rw [a5]
    omega

theorem setBlock_end (g : Nat → block) (l : List block) (b : block) :
    setBlock g l l.length b = l ++ [b] := by
  unfold setBlock
  rw [if_neg (by omega)]
  simp

theorem setBlock_same (g : Nat → block) (l : List block) (i : Nat) (h : i < l.length)
    (d : block) : setBlock g l i (l.getD i d) = l := by
  unfold setBlock
  rw [if_pos h]
  apply List.ext_getElem
  · rw [List.length_set]
  · intro n h1 h2
    rw [List.getElem_set]
    split_ifs with c
    · subst c
      rw [List.getD_eq_getElem _ _ h]
    · rfl

theorem get?_set_cases {α : Type} (l : List α) (i j : Nat) (a x : α)
    (h : (l.set i a).get? j = some x) : (j = i ∧ x = a) ∨ (j ≠ i ∧ l.get? j = some x) := by
  rw [List.get?_eq_getElem?, List.getElem?_set] at h
  split_ifs at h with c1 c2
  · left; exact ⟨c1.symm, (Option.some.inj h).symm⟩
  · right; exact ⟨fun hh => c1 hh.symm, by rw [List.get?_eq_getElem?]; exact h⟩

theorem get?_append_one {α : Type} (l : List α) (a : Nat) (b x : α)
    (h : (l ++ [b]).get? a = some x) : (a = l.length ∧ x = b) ∨ (a < l.length ∧ l.get? a = some x) := by
  rw [List.get?_eq_getElem?] at h
  by_cases c : a < l.length
  · right
    rw [List.getElem?_append_left c] at h
    exact ⟨c, by rw [List.get?_eq_getElem?]; exact h⟩
  · left
    rw [List.getElem?_append_right (by omega)] at h
    have : a - l.length = 0 := by
      by_contra hne
      rw [List.getElem?_eq_none (by simp; omega)] at h
      simp at h
    rw [this] at h
    simp at h
    exact ⟨by omega, h.symm⟩

theorem claimed_not_free (devOn : List device) (b : block) (d : device) (h : InRange devOn b d)
    (hfree : usedAt d b.sector b.blockNum ≠ 1) (hc : Claimed devOn b) : False := by
  obtain ⟨e, he, hu⟩ := hc
  have : e = d := by
    have h1 := he.2.1
    rw [h.2.1] at h1
    exact (Option.some.inj h1).symm
  subst this
  exact hfree hu

/-- Appending a free block to the list of one descriptor and setting its bit keeps block lists
and allocation bits in agreement. -/
theorem blocksOK_append (bls : List (List block)) (fh : Nat) (l : List block)
    (devOn : List device) (nb : block) (d : device) (hfh : fh < bls.length)
    (hr : InRange devOn nb d) (hfree : usedAt d nb.sector nb.blockNum ≠ 1)
    (hd : DevOK d) (h : BlocksOK (bls.set fh l) devOn) :
    BlocksOK (bls.set fh (l ++ [nb])) (markUsed devOn nb.device nb.sector nb.blockNum) := by
  obtain ⟨hc, hn⟩ := h
  have hl : (bls.set fh l).get? fh = some l := by
    rw [List.get?_eq_getElem?, List.getElem?_set_self hfh]
  have old_of : ∀ (i a : Nat) (m : List block) (x : block),
      (bls.set fh (l ++ [nb])).get? i = some m → m.get? a = some x →
      (i = fh ∧ a = l.length ∧ x = nb) ∨
      ∃ m0, (bls.set fh l).get? i = some m0 ∧ m0.get? a = some x := by
    intro i a m x hm hx
    rcases get?_set_cases _ _ _ _ _ hm with ⟨e1, e2⟩ | ⟨e1, e2⟩
    · rw [e2] at hx
      rcases get?_append_one _ _ _ _ hx with ⟨e3, e4⟩ | ⟨e3, e4⟩
      · exact Or.inl ⟨e1, e3, e4⟩
      · exact Or.inr ⟨l, by rw [e1]; exact hl, e4⟩
    · refine Or.inr ⟨m, ?_, hx⟩
      rw [List.get?_eq_getElem?, List.getElem?_set_ne (fun hh => e1 hh.symm),
        ← List.get?_eq_getElem?]
      exact e2
  have old_claimed : ∀ (i a : Nat) (m0 : List block) (x : block),
      (bls.set fh l).get? i = some m0 → m0.get? a = some x → Claimed devOn x :=
    fun i a m0 x h1 h2 => hc m0 (List.get?_mem h1) x (List.get?_mem h2)
  refine ⟨?_, ?_⟩
  · intro m hm x hx
    obtain ⟨i, hi⟩ := List.get?_of_mem hm
    obtain ⟨a, ha⟩ := List.get?_of_mem hx
    rcases old_of i a m x hi ha with ⟨-, -, e⟩ | ⟨m0, h1, h2⟩
    · rw [e]; exact markUsed_claims devOn nb d hr hd
    · exact markUsed_claimed devOn nb d hr x (old_claimed i a m0 x h1 h2)
  · intro i j a c m1 m2 x h1 h2 h3 h4
    rcases old_of i a m1 x h1 h3 with ⟨e1, e2, e3⟩ | ⟨m0, g1, g2⟩
    · rcases old_of j c m2 x h2 h4 with ⟨f1, f2, f3⟩ | ⟨n0, k1, k2⟩
      · exact ⟨by omega, by omega⟩
      · exfalso
        rw [e3] at k2
        exact claimed_not_free devOn nb d hr hfree (old_claimed j c n0 nb k1 k2)
    · rcases old_of j c m2 x h2 h4 with ⟨f1, f2, f3⟩ | ⟨n0, k1, k2⟩
      · exfalso
        rw [f3] at g2
        exact claimed_not_free devOn nb d hr hfree (old_claimed i a m0 nb g1 g2)
      · exact hn i j a c m0 n0 x g1 k1 g2 k2

/-- Setting the bit of a block that is listed already changes nothing of the agreement. -/
theorem blocksOK_remark (bls : List (List block)) (devOn : List device) (nb : block)
    (hc : Claimed devOn nb) (h : BlocksOK bls devOn) :
    BlocksOK bls (markUsed devOn nb.device nb.sector nb.blockNum) := by
  obtain ⟨d, hr, -⟩ := hc
  exact ⟨fun m hm x hx => markUsed_claimed devOn nb d hr x (h.1 m hm x hx), h.2⟩

end LCloud

namespace LCloud

/-! ## Invariants carried through the chunks of `lcwrite` -/

theorem pair_true {α : Type} (r : Bool × α) (h : r.1 = true) : r = (true, r.2) :=
  Prod.ext h rfl

/-- Every chunk of `lcwrite` is of one of two kinds, with the side conditions listed here: a
chunk inside the block of the position (nothing written before it), or a chunk starting on a
block boundary. A property `R` of the running state that both kinds keep, with whatever
outcome, holds when `lcwrite` is through, together with the shape of the descriptor. -/
theorem lcwriteBody_chunks {σ : Type} (K : Consts) (bus : Bus σ) (junk buf : Buf)
    (st : WState σ) (R : WState σ → Prop)
    (hIn : ∀ (s : WState σ) (n : Nat), R s →
      WriteShape st.f.position st.f.size st.len (true, s) →
      s.bytesWrote = 0 → s.f.position = st.f.position → st.f.position % 256 ≠ 0 →
      0 < n → n ≤ s.len → st.f.position % 256 + n ≤ 256 →
      (n < s.len → st.f.position % 256 + n = 256) →
      R (writeInBlock K bus junk buf (st.f.position / 256)
        (st.f.position - st.f.position % 256) n s).2)
    (hAt : ∀ (s : WState σ) (pre : Bool) (n : Nat), R s →
      WriteShape st.f.position st.f.size st.len (true, s) →
      s.f.position = st.f.position → (st.f.position + s.bytesWrote) % 256 = 0 →
      0 < n → n ≤ s.len → n ≤ 256 → (pre = false → n = 256) → (n < s.len → n = 256) →
      R (writeAtBoundary K bus junk buf pre n s).2)
    (h0 : st.bytesWrote = 0) (hf : FileOK st.f) (hR : R st) :
    WriteShape st.f.position st.f.size st.len (lcwriteBody K bus junk buf st) ∧
    R (lcwriteBody K bus junk buf st).2 := by
  have aligned_or : ∀ s : WState σ, WriteShape st.f.position st.f.size st.len (true, s) →
      0 < s.len → (s.f.position + s.bytesWrote) % 256 ≠ 0 →
      s.bytesWrote = 0 ∧ s.f.position = st.f.position := by
    intro s h hl hu
    have hp := h.1.1
    have h3 := h.1.2.2.1
    simp only at hp h3
    refine ⟨?_, hp⟩
    rcases h3 with h3 | h3 | h3
    · exact h3
    · rw [hp] at hu; exact absurd h3 hu
    · omega
  apply lcwriteBody_induct K bus junk buf
    (fun r => WriteShape st.f.position st.f.size st.len r ∧ R r.2)
  · intro s h hl hu
    obtain ⟨hb, hp⟩ := aligned_or s h.1 (by omega) hu
    refine ⟨?_, ?_⟩
    · apply writeShape_inBlock K bus junk buf _ _ _ _ _ _ s h.1 <;> intros <;> omega
    · rw [hp]
      apply hIn s _ h.2 h.1 hb hp <;> intros <;> omega
  · intro s h hl ha
    have hp := h.1.1.1
    simp only at hp
    refine ⟨?_, ?_⟩
    · apply writeShape_atBoundary K bus junk buf _ _ _ _ _ s h.1 <;> intros <;> omega
    · apply hAt s _ _ h.2 h.1 hp <;> intros <;> omega
  · intro s h h0 hl ha
    have hp := h.1.1.1
    simp only at hp
    refine ⟨?_, ?_⟩
    · apply writeShape_atBoundary K bus junk buf _ _ _ _ _ s h.1 <;> intros <;> omega
    · apply hAt s _ _ h.2 h.1 hp <;> intros <;> first | omega | contradiction
  · intro s h h0 hl hu hgt
    obtain ⟨hb, hp⟩ := aligned_or s h.1 (by omega) hu
    have hq : WriteShape st.f.position st.f.size st.len
        (writeInBlock K bus junk buf ((s.f.position + s.bytesWrote) / 256)
          (s.f.position + s.bytesWrote - s.f.position % 256) (256 - s.f.position % 256) s) := by
      apply writeShape_inBlock K bus junk buf _ _ _ _ _ _ s h.1 <;> intros <;> omega
    have hr : R (writeInBlock K bus junk buf ((s.f.position + s.bytesWrote) / 256)
          (s.f.position + s.bytesWrote - s.f.position % 256) (256 - s.f.position % 256)
          s).2 := by
      rw [hb, hp, Nat.add_zero]
      apply hIn s _ h.2 h.1 hb hp <;> intros <;> omega
    refine ⟨⟨hq, hr⟩, fun hok => ?_⟩
    obtain ⟨-, fok, -⟩ := writeInBlock_frame K bus junk buf
      ((s.f.position + s.bytesWrote) / 256)
      (s.f.position + s.bytesWrote - s.f.position % 256) (256 - s.f.position % 256) s
    obtain ⟨-, e2, e3⟩ := fok hok
    rw [pair_true _ hok] at hq
    have hp2 := hq.1.1
    simp only at hp2
    refine ⟨?_, ?_⟩
    · apply writeShape_atBoundary K bus junk buf _ _ _ _ _ _ hq
      · rw [e3]; omega
      · exact le_refl _
      · intro hlt; omega
      · rw [e3]; omega
      · rw [e2]; omega
    · apply hAt _ _ _ hr hq hp2
      · rw [e2]; omega
      · rw [e3]; omega
      · exact le_refl _
      · rw [e3]; omega
      · intro hc; contradiction
      · intro hlt; omega
  · intro s h h0 hl hu hgt
    obtain ⟨hb, hp⟩ := aligned_or s h.1 (by omega) hu
    refine ⟨?_, ?_⟩
    · apply writeShape_inBlock K bus junk buf _ _ _ _ _ _ s h.1 <;> intros <;> omega
    · rw [hp]
      apply hIn s _ h.2 h.1 hb hp <;> intros <;> omega
  · refine ⟨⟨⟨rfl, by simp only; omega, Or.inl h0, by simp only; rw [if_pos h0]⟩, hf.1, ?_⟩, hR⟩
    have := hf.2
    simp only
    omega

end LCloud

namespace LCloud

/-! ## The invariant of the file layer along runs -/

theorem extract_d0_lt (resp : Nat) : (extract_lcloud_registers resp).d0 < 65536 := by
  show shl64 resp 32 >>> 48 < 65536
  unfold shl64
  rw [Nat.shiftRight_eq_div_pow]
  have : resp <<< 32 % 2 ^ 64 < 2 ^ 64 := Nat.mod_lt _ (by norm_num)
  omega

theorem extract_d1_lt (resp : Nat) : (extract_lcloud_registers resp).d1 < 65536 := by
  show shl64 resp 48 >>> 48 < 65536
  unfold shl64
  rw [Nat.shiftRight_eq_div_pow]
  have : resp <<< 48 % 2 ^ 64 < 2 ^ 64 := Nat.mod_lt _ (by norm_num)
  omega

/-- With a controller that reports no empty device, the device loop of `lcopen` builds a
well-formed table. -/
theorem initDevices_devOK {σ : Type} (K : Consts) (bus : Bus σ) (hg : GoodGeometry K bus) :
    ∀ (l : List device) (i listOfDevices : Nat) (done : List device) (w : σ),
      (∀ d ∈ done, DevOK d) → (initDevices K bus l i listOfDevices done w).1 = true →
      ∀ d ∈ (initDevices K bus l i listOfDevices done w).2.1, DevOK d := by
  intro l
  induction l with
  | nil => intro i m done w hd _; exact hd
  | cons d rest ih =>
    intro i m done w hd hok
    unfold initDevices at hok ⊢
    dsimp only at hok ⊢
    by_cases c1 : m &&& 1 = 1
    · rw [if_pos c1] at hok ⊢
      by_cases c2 : respBad (create_lcloud_registers 0 0 K.LC_DEVINIT i 0 0 0)
          (bus w (create_lcloud_registers 0 0 K.LC_DEVINIT i 0 0 0) zeroBuf).1
          K.LC_DEVINIT = true
      · rw [if_pos c2] at hok
        simp at hok
      · rw [if_neg c2] at hok ⊢
        apply ih _ _ _ _ _ hok
        intro e he
        rcases List.mem_append.1 he with he | he
        · exact hd e he
        · rw [List.mem_singleton] at he
          rw [he]
          intro _
          have hb : respBad (create_lcloud_registers 0 0 K.LC_DEVINIT i 0 0 0)
              (bus w (create_lcloud_registers 0 0 K.LC_DEVINIT i 0 0 0) zeroBuf).1
              K.LC_DEVINIT = false := by
            simpa using c2
          obtain ⟨g1, g2⟩ := hg w i zeroBuf hb
          have b1 := extract_d0_lt (bus w (create_lcloud_registers 0 0 K.LC_DEVINIT i 0 0 0)
            zeroBuf).1
          have b2 := extract_d1_lt (bus w (create_lcloud_registers 0 0 K.LC_DEVINIT i 0 0 0)
            zeroBuf).1
          refine ⟨?_, ?_, ?_, ?_, ?_⟩
          · show (1 : Int) ≤ ((_ : Nat) : Int)
            omega
          · show (1 : Int) ≤ ((_ : Nat) : Int)
            omega
          · show ((_ : Nat) : Int) < 65536
            omega
          · show ((_ : Nat) : Int) < 65536
            omega
          · show (List.replicate _ (0 : Int)).length =
              (((_ : Nat) : Int) * ((_ : Nat) : Int)).toNat
            rw [List.length_replicate, ← Nat.cast_mul, Int.toNat_natCast]
    · rw [if_neg c1] at hok ⊢
      apply ih _ _ _ _ _ hok
      intro e he
      rcases List.mem_append.1 he with he | he
      · exact hd e he
      · rw [List.mem_singleton] at he
        rw [he]
        intro ho
        simp at ho

theorem lcopenInit_spec {σ : Type} (K : Consts) (bus : Bus σ) (hg : GoodGeometry K bus)
    (s : FsState σ) :
    ((lcopenInit K bus s).1 = true →
      (lcopenInit K bus s).2.firstOpen = 0 ∧ ∀ d ∈ (lcopenInit K bus s).2.devOn, DevOK d) ∧
    ((lcopenInit K bus s).1 = false → (lcopenInit K bus s).2.firstOpen = s.firstOpen) := by
  unfold lcopenInit
  dsimp only
  split_ifs with c1 c2 c3
  · exact ⟨fun h => by simp at h, fun _ => rfl⟩
  · exact ⟨fun h => by simp at h, fun _ => rfl⟩
  · exact ⟨fun _ => ⟨rfl, initDevices_devOK K bus hg _ _ _ _ _ (by simp) c3⟩,
      fun h => by simp at h⟩
  · exact ⟨fun h => by simp at h, fun _ => rfl⟩

theorem blocksOK_nil (devOn : List device) : BlocksOK [] devOn := by
  refine ⟨fun bl hbl => by simp at hbl, ?_⟩
  intro i j a c l m x h1
  simp at h1

theorem blocksOK_snoc (bls : List (List block)) (devOn : List device) (h : BlocksOK bls devOn) :
    BlocksOK (bls ++ [[]]) devOn := by
  have key : ∀ (i a : Nat) (l : List block) (x : block), (bls ++ [[]]).get? i = some l →
      l.get? a = some x → bls.get? i = some l := by
    intro i a l x h1 h2
    rcases get?_append_one _ _ _ _ h1 with ⟨-, e⟩ | ⟨-, e⟩
    · rw [e] at h2; simp at h2
    · exact e
  refine ⟨?_, ?_⟩
  · intro bl hbl b hb
    obtain ⟨i, hi⟩ := List.get?_of_mem hbl
    obtain ⟨a, ha⟩ := List.get?_of_mem hb
    exact h.1 bl (List.get?_mem (key i a bl b hi ha)) b hb
  · intro i j a c l m x h1 h2 h3 h4
    exact h.2 i j a c l m x (key i a l x h1 h3) (key j c m x h2 h4) h3 h4

theorem map_blocks_set (tbl : List file) (fh : Nat) (g : file) :
    (tbl.set fh g).map (fun f => f.blocks) = (tbl.map (fun f => f.blocks)).set fh g.blocks := by
  rw [List.map_set]

theorem set_blocks_self (tbl : List file) (fh : Nat) (f : file) (h : tbl.get? fh = some f) :
    (tbl.map (fun f => f.blocks)).set fh f.blocks = tbl.map (fun f => f.blocks) := by
  rw [← map_blocks_set]
  congr 1
  rcases List.get?_eq_some.1 h with ⟨hlt, e⟩
  apply List.ext_getElem
  · rw [List.length_set]
  · intro k h1 h2
    rw [List.getElem_set]
    split_ifs with c
    · subst c; exact e.symm
    · rfl

/-- A chunk of `lcwrite` inside a block leaves device table and block lists alone. -/
theorem writeInBlock_tables {σ : Type} (K : Consts) (bus : Bus σ) (junk buf : Buf)
    (idx target n : Nat) (st : WState σ) :
    (writeInBlock K bus junk buf idx target n st).2.devOn = st.devOn ∧
    (writeInBlock K bus junk buf idx target n st).2.f.blocks = st.f.blocks := by
  obtain ⟨e0, fok, ffail⟩ := writeInBlock_frame K bus junk buf idx target n st
  refine ⟨e0, ?_⟩
  cases hr : (writeInBlock K bus junk buf idx target n st).1 with
  | false => rw [(ffail hr).1]
  | true => rw [(fok hr).1, (growSize_fields _ _).2.1]

/-- A chunk of `lcwrite` on a block boundary keeps the device table well formed and block
lists and allocation bits in agreement. -/
theorem writeAtBoundary_tables {σ : Type} (K : Consts) (bus : Bus σ) (junk buf : Buf)
    (bls : List (List block)) (fh : Nat) (hfh : fh < bls.length) (p0 s0 n0 : Nat)
    (pre : Bool) (n : Nat) (st : WState σ) (hs : WriteShape p0 s0 n0 (true, st))
    (ha : (p0 + st.bytesWrote) % 256 = 0)
    (hd : ∀ d ∈ st.devOn, DevOK d) (hb : BlocksOK (bls.set fh st.f.blocks) st.devOn) :
    (∀ d ∈ (writeAtBoundary K bus junk buf pre n st).2.devOn, DevOK d) ∧
    BlocksOK (bls.set fh (writeAtBoundary K bus junk buf pre n st).2.f.blocks)
      (writeAtBoundary K bus junk buf pre n st).2.devOn := by
  obtain ⟨fok, ffail⟩ := writeAtBoundary_frame K bus junk buf pre n st
  cases hr : (writeAtBoundary K bus junk buf pre n st).1 with
  | false =>
    obtain ⟨e1, e2, -, -⟩ := ffail hr
    rw [e1, e2]
    exact ⟨hd, hb⟩
  | true =>
    obtain ⟨hne, e1, e2, -, -⟩ := fok hr
    obtain ⟨hc, h1, h2⟩ := hs
    have hp := hc.1
    simp only at h1 h2 hp
    rw [e1, e2, (growSize_fields _ _).2.1, (storeBlock_fields _ _ _).2.2.2.2.2]
    rw [hp]
    by_cases hq : st.f.position + st.bytesWrote ≥ st.f.size
    · have hcb : chosenBlock st = get_Next_Block st.devOn := by
        unfold chosenBlock; rw [if_pos hq]
      rw [hcb] at hne ⊢
      obtain ⟨d, hr1, hr2⟩ := get_Next_Block_spec st.devOn hd hne
      have hidx : (p0 + st.bytesWrote) / 256 = st.f.blocks.length := by
        rw [hp] at hq h2; omega
      rw [hidx, setBlock_end]
      exact ⟨markUsed_devOK _ _ d hr1 hd,
        blocksOK_append bls fh _ _ _ d hfh hr1 hr2 (hd d (List.get?_mem hr1.2.1)) hb⟩
    · have hidx : (p0 + st.bytesWrote) / 256 < st.f.blocks.length := by
        rw [hp] at hq; omega
      have hcb : chosenBlock st = st.f.blocks.getD ((p0 + st.bytesWrote) / 256) noBlock := by
        unfold chosenBlock; rw [if_neg hq, hp]; exact blockAt_getD _ _ _ hidx
      rw [hcb, setBlock_same _ _ _ hidx _]
      have hcl : Claimed st.devOn (st.f.blocks.getD ((p0 + st.bytesWrote) / 256) noBlock) := by
        apply hb.1 st.f.blocks
        · apply List.get?_mem (n := fh)
          rw [List.get?_eq_getElem?, List.getElem?_set_self hfh]
        · rw [List.getD_eq_getElem _ _ hidx]
          exact List.getElem_mem _
      obtain ⟨d, hr1, -⟩ := hcl
      exact ⟨markUsed_devOK _ _ d hr1 hd, blocksOK_remark _ _ _ ⟨d, hr1, by
        obtain ⟨d2, hr3, hr4⟩ := hb.1 st.f.blocks (by
          apply List.get?_mem (n := fh)
          rw [List.get?_eq_getElem?, List.getElem?_set_self hfh])
          (st.f.blocks.getD ((p0 + st.bytesWrote) / 256) noBlock) (by
            rw [List.getD_eq_getElem _ _ hidx]
            exact List.getElem_mem _)
        have : d2 = d := by
          have t1 := hr3.2.1
          rw [hr1.2.1] at t1
          exact (Option.some.inj t1).symm
        rw [← this]; exact hr4⟩ hb⟩

/-- `lcwrite` keeps the device table well formed and block lists and allocation bits in
agreement, whatever the controller answers and whether the call succeeds or not. -/
theorem writeFile_tables {σ : Type} (K : Consts) (bus : Bus σ) (junk : Buf) (f : file)
    (devOn : List device) (cs : CacheState) (w : σ) (buf : Buf) (len : Nat)
    (bls : List (List block)) (fh : Nat) (hfh : fh < bls.length) (hf : FileOK f)
    (hd : ∀ d ∈ devOn, DevOK d) (hb : BlocksOK (bls.set fh f.blocks) devOn) :
    (∀ d ∈ (writeFile K bus junk f devOn cs w buf len).devOn, DevOK d) ∧
    BlocksOK (bls.set fh (writeFile K bus junk f devOn cs w buf len).f.blocks)
      (writeFile K bus junk f devOn cs w buf len).devOn := by
  have hch := lcwriteBody_chunks K bus junk buf
    { f := f, devOn := devOn, cs := cs, world := w, bytesWrote := 0, len := len,
      buf_256 := junk }
    (fun s => (∀ d ∈ s.devOn, DevOK d) ∧ BlocksOK (bls.set fh s.f.blocks) s.devOn)
    (by
      intro s n hR _ _ _ _ _ _ _ _
      obtain ⟨t1, t2⟩ := writeInBlock_tables K bus junk buf (f.position / 256)
        (f.position - f.position % 256) n s
      show (∀ d ∈ (writeInBlock K bus junk buf _ _ n s).2.devOn, DevOK d) ∧
        BlocksOK (bls.set fh (writeInBlock K bus junk buf _ _ n s).2.f.blocks)
          (writeInBlock K bus junk buf _ _ n s).2.devOn
      rw [t1, t2]
      exact hR)
    (by
      intro s pre n hR hs _ ha _ _ _ _ _
      exact writeAtBoundary_tables K bus junk buf bls fh hfh _ _ _ pre n s hs ha hR.1 hR.2)
    rfl hf ⟨hd, hb⟩
  obtain ⟨-, r1, r2⟩ := hch
  unfold writeFile
  dsimp only
  split_ifs with h1 h2
  · exact ⟨hd, hb⟩
  · exact ⟨r1, r2⟩
  · exact ⟨r1, r2⟩

end LCloud

namespace LCloud

theorem stateOK_of_file_update {σ : Type} (s : FsState σ) (fh : Nat) (f g : file)
    (cs : CacheState) (w : σ) (hs : StateOK s) (hf : s.fhTable.get? fh = some f)
    (hg : FileOK g) (hb : g.blocks = f.blocks) :
    StateOK { s with fhTable := s.fhTable.set fh g, cs := cs, world := w } := by
  obtain ⟨h1, h2, h3, h4⟩ := hs
  refine ⟨?_, h2, ?_, ?_⟩
  · intro hfo
    rw [h1 hfo] at hf
    simp at hf
  · intro x hx
    rcases mem_set_cases _ _ _ _ hx with hx | hx
    · rw [hx]; exact hg
    · exact h3 x hx
  · show BlocksOK ((s.fhTable.set fh g).map (fun f => f.blocks)) s.devOn
    rw [map_blocks_set, hb, set_blocks_self _ _ _ hf]
    exact h4

/-- The invariant of the file layer holds along the runs whose reads end inside the stored
blocks, for every controller that reports no empty device. -/
theorem inBlocks_stateOK {σ : Type} (K : Consts) (bus : Bus σ) (hg : GoodGeometry K bus)
    (s : FsState σ) (hs : InBlocks K bus s) : StateOK s := by
  induction hs with
  | boot w =>
    refine ⟨fun _ => rfl, fun h => ?_, fun f hf => ?_, blocksOK_nil _⟩
    · simp [bootState] at h
    · simp [bootState] at hf
  | @opn s path garbage hr ih =>
    obtain ⟨h1, h2, h3, h4⟩ := ih
    have hfile := inBlocks_fileOK K bus _ (InBlocks.opn path garbage hr)
    obtain ⟨i1, i2⟩ := lcopenInit_spec K bus hg s
    obtain ⟨t1, t2⟩ := lcopenInit_fhTable K bus s
    refine ⟨?_, ?_, hfile, ?_⟩
    · unfold lcopen
      dsimp only
      split_ifs with c1 c2
      · intro hfo
        exact absurd (i1 c2).1 hfo
      · intro _
        rw [t1]; exact h1 c1
      · intro hfo
        exact absurd (not_not.1 c1) hfo
    · unfold lcopen
      dsimp only
      split_ifs with c1 c2
      · intro _
        exact (i1 c2).2
      · intro hfo
        have : (lcopenInit K bus s).1 = false := by simpa using c2
        rw [i2 this] at hfo
        exact absurd hfo c1
      · intro _
        exact h2 (not_not.1 c1)
    · unfold lcopen
      dsimp only
      split_ifs with c1 c2
      · show BlocksOK (((lcopenInit K bus s).2.fhTable ++ _).map (fun f => f.blocks)) _
        rw [t1, h1 c1]
        exact blocksOK_snoc _ _ (blocksOK_nil _)
      · show BlocksOK ((lcopenInit K bus s).2.fhTable.map (fun f => f.blocks)) _
        rw [t1, h1 c1]
        exact blocksOK_nil _
      · show BlocksOK ((s.fhTable ++ _).map (fun f => f.blocks)) s.devOn
        rw [List.map_append]
        exact blocksOK_snoc _ _ h4
  | @read s junk fh buf len g r hr hg2 hin he ih =>
    obtain ⟨-, e⟩ := lcread_some hg2 he
    rw [e]
    exact stateOK_of_file_update s fh g _ _ _ ih hg2
      (readFile_fileOK K bus junk g _ _ buf len (ih.2.2.1 g (List.get?_mem hg2)) hin)
      (readFile_file K bus junk g s.cs s.world buf len).2.1
  | @write s junk fh buf len r hr he ih =>
    obtain ⟨g, hg2⟩ := lcwrite_get he
    obtain ⟨-, e⟩ := lcwrite_some hg2 he
    rw [e]
    · obtain ⟨h1, h2, h3, h4⟩ := ih
      have hfo : s.firstOpen = 0 := by
        by_contra hne
        rw [h1 hne] at hg2
        simp at hg2
      have hlt : fh < (s.fhTable.map (fun f => f.blocks)).length := by
        rw [List.length_map]
        rcases List.get?_eq_some.1 hg2 with ⟨hlt, -⟩
        exact hlt
      have hgok := h3 g (List.get?_mem hg2)
      obtain ⟨w1, w2⟩ := writeFile_tables K bus junk g s.devOn s.cs s.world buf len
        (s.fhTable.map (fun f => f.blocks)) fh hlt hgok (h2 hfo)
        (by rw [set_blocks_self _ _ _ hg2]; exact h4)
      refine ⟨?_, fun _ => w1, ?_, ?_⟩
      · intro hne; exact absurd hfo hne
      · intro x hx
        rcases mem_set_cases _ _ _ _ hx with hx | hx
        · rw [hx]; exact writeFile_fileOK K bus junk g _ _ _ buf len hgok
        · exact h3 x hx
      · show BlocksOK ((s.fhTable.set fh _).map (fun f => f.blocks)) _
        rw [map_blocks_set]
        exact w2
  | @seek s fh off r hr he ih =>
    unfold lcseek at he
    split at he
    · simp at he
    · rename_i g hg2
      simp only [Option.some.injEq] at he
      rw [← he]
      exact stateOK_of_file_update s fh g _ s.cs s.world ih hg2
        (seekFile_fileOK g off (ih.2.2.1 g (List.get?_mem hg2))) (seekFile_file g off).2.1
  | @close s fh hr ih =>
    unfold lcclose
    split_ifs with c1
    · exact ih
    · split
      · rename_i g hg2
        split_ifs with c2
        · exact ih
        · exact stateOK_of_file_update s fh g _ s.cs s.world ih hg2
            (ih.2.2.1 g (List.get?_mem hg2)) rfl
      · exact ih

end LCloud

namespace LCloud

/-! ## Calls that keep to the array `blocks` -/

theorem prefetch_undef {σ : Type} (K : Consts) (bus : Bus σ) (junk : Buf) (target : Nat)
    (st : WState σ) :
    (prefetch K bus junk target st).undef =
      (st.undef ||
        (readFile K bus junk (seekFile st.f target).2 st.cs st.world st.buf_256 256).undef) :=
  rfl

/-- The in-block chunk of `lcwrite` is marked when it starts marked, when its pre-fetch is, or
when it reads `blocks[idx]` with `idx >= 10000`. -/
theorem writeInBlock_undef {σ : Type} (K : Consts) (bus : Bus σ) (junk buf : Buf)
    (idx target n : Nat) (st : WState σ) :
    (writeInBlock K bus junk buf idx target n st).2.undef =
      ((st.undef ||
        (readFile K bus junk (seekFile st.f target).2 st.cs st.world st.buf_256 256).undef) ||
        decide (10000 ≤ idx)) := by
  unfold writeInBlock
  dsimp only
  split_ifs <;> rfl

/-- A boundary chunk of `lcwrite` that is not marked did not start marked, and if it
succeeded it stored its block below index 10000. -/
theorem writeAtBoundary_undef {σ : Type} (K : Consts) (bus : Bus σ) (junk buf : Buf)
    (pre : Bool) (n : Nat) (st : WState σ)
    (h : (writeAtBoundary K bus junk buf pre n st).2.undef = false) :
    st.undef = false ∧
    ((writeAtBoundary K bus junk buf pre n st).1 = true →
      (st.f.position + st.bytesWrote) / 256 < 10000) := by
  obtain ⟨p1, -, p3, -⟩ := prefetch_frame K bus junk (st.f.position + st.bytesWrote) st
  have pu := prefetch_undef K bus junk (st.f.position + st.bytesWrote) st
  unfold writeAtBoundary at h ⊢
  dsimp only at h ⊢
  split_ifs at h ⊢ with h1 h2 h3 h4
  · simp only [Bool.or_eq_false_iff] at h
    exact ⟨h.1, fun c => by simp at c⟩
  · simp only [Bool.or_eq_false_iff, decide_eq_false_iff_not, not_le] at h
    rw [pu] at h
    simp only [Bool.or_eq_false_iff] at h
    rw [p1, p3] at h
    exact ⟨h.1.1, fun _ => h.2⟩
  · simp only [Bool.or_eq_false_iff] at h
    rw [pu] at h
    simp only [Bool.or_eq_false_iff] at h
    exact ⟨h.1.1, fun c => by simp at c⟩
  · simp only [Bool.or_eq_false_iff, decide_eq_false_iff_not, not_le] at h
    exact ⟨h.1, fun _ => h.2⟩
  · simp only [Bool.or_eq_false_iff] at h
    exact ⟨h.1, fun c => by simp at c⟩

/-- The chunks of a `lcwrite` that is not marked keep the stored entries below index
10000. -/
theorem lcwriteBody_length {σ : Type} (K : Consts) (bus : Bus σ) (junk buf : Buf)
    (st : WState σ) (hcap : st.f.blocks.length ≤ 10000)
    (h : (lcwriteBody K bus junk buf st).2.undef = false) :
    (lcwriteBody K bus junk buf st).2.f.blocks.length ≤ 10000 := by
  have inBlock : ∀ (idx target n : Nat) (s : WState σ),
      (s.undef = false → s.f.blocks.length ≤ 10000) →
      (writeInBlock K bus junk buf idx target n s).2.undef = false →
      (writeInBlock K bus junk buf idx target n s).2.f.blocks.length ≤ 10000 := by
    intro idx target n s hq hu
    rw [writeInBlock_undef] at hu
    simp only [Bool.or_eq_false_iff] at hu
    obtain ⟨-, fok, ffail⟩ := writeInBlock_frame K bus junk buf idx target n s
    cases hr : (writeInBlock K bus junk buf idx target n s).1 with
    | false => rw [(ffail hr).1]; exact hq hu.1.1
    | true => rw [(fok hr).1, (growSize_fields _ _).2.1]; exact hq hu.1.1
  have atBoundary : ∀ (pre : Bool) (n : Nat) (s : WState σ),
      (s.undef = false → s.f.blocks.length ≤ 10000) →
      (writeAtBoundary K bus junk buf pre n s).2.undef = false →
      (writeAtBoundary K bus junk buf pre n s).2.f.blocks.length ≤ 10000 := by
    intro pre n s hq hu
    obtain ⟨u1, u2⟩ := writeAtBoundary_undef K bus junk buf pre n s hu
    obtain ⟨fok, ffail⟩ := writeAtBoundary_frame K bus junk buf pre n s
    cases hr : (writeAtBoundary K bus junk buf pre n s).1 with
    | false => rw [(ffail hr).1]; exact hq u1
    | true =>
      rw [(fok hr).2.1, (growSize_fields _ _).2.1, (storeBlock_fields _ _ _).2.2.2.2.2,
        setBlock_length]
      have := hq u1
      have := u2 hr
      omega
  exact lcwriteBody_induct K bus junk buf
    (fun r => r.2.undef = false → r.2.f.blocks.length ≤ 10000)
    (fun s hq _ _ => inBlock _ _ _ s hq)
    (fun s hq _ _ => atBoundary _ _ s hq)
    (fun s hq _ _ _ => atBoundary _ _ s hq)
    (fun s hq _ _ _ _ => ⟨inBlock _ _ _ s hq, fun _ => atBoundary _ _ _ (inBlock _ _ _ s hq)⟩)
    (fun s hq _ _ _ _ => inBlock _ _ _ s hq)
    st (fun _ => hcap) h

/-- A `lcwrite` that is not marked keeps the stored entries below index 10000. -/
theorem writeFile_length {σ : Type} (K : Consts) (bus : Bus σ) (junk : Buf) (f : file)
    (devOn : List device) (cs : CacheState) (w : σ) (buf : Buf) (len : Nat)
    (hcap : f.blocks.length ≤ 10000)
    (h : (writeFile K bus junk f devOn cs w buf len).undef = false) :
    (writeFile K bus junk f devOn cs w buf len).f.blocks.length ≤ 10000 := by
  have key := lcwriteBody_length K bus junk buf
    { f := f, devOn := devOn, cs := cs, world := w, bytesWrote := 0, len := len,
      buf_256 := junk } hcap
  unfold writeFile at h ⊢
  dsimp only at h ⊢
  split_ifs at h ⊢ with h1 h2
  · exact hcap
  · exact key h
  · exact key h

/-- In every reachable state the stored entries of every descriptor lie below index 10000 of
its array. -/
theorem reachable_length {σ : Type} (K : Consts) (bus : Bus σ) (s : FsState σ)
    (hs : Reachable K bus s) : ∀ f ∈ s.fhTable, f.blocks.length ≤ 10000 := by
  induction hs with
  | boot w => intro f hf; simp [bootState] at hf
  | opn path garbage _ ih =>
    intro f hf
    rcases lcopen_fhTable K bus path garbage _ with e | e
    · rw [e] at hf; exact ih f hf
    · rw [e] at hf
      rcases List.mem_append.1 hf with hf | hf
      · exact ih f hf
      · rw [List.mem_singleton] at hf
        rw [hf]
        exact Nat.zero_le _
  | read junk fh buf len r _ hr ih =>
    intro f hf
    obtain ⟨g, hg⟩ := lcread_get hr
    obtain ⟨-, e⟩ := lcread_some hg hr
    rw [e] at hf
    rcases mem_set_cases _ _ _ _ hf with hf | hf
    · rw [hf, (readFile_file K bus junk g _ _ buf len).2.1]
      exact ih g (List.get?_mem hg)
    · exact ih f hf
  | write junk fh buf len r _ hr ih =>
    intro f hf
    obtain ⟨g, hg⟩ := lcwrite_get hr
    obtain ⟨hu, e⟩ := lcwrite_some hg hr
    rw [e] at hf
    rcases mem_set_cases _ _ _ _ hf with hf | hf
    · rw [hf]
      exact writeFile_length K bus junk g _ _ _ buf len (ih g (List.get?_mem hg)) hu
    · exact ih f hf
  | seek fh off r _ hr ih =>
    intro f hf
    unfold lcseek at hr
    split at hr
    · simp at hr
    · rename_i g hg
      simp only [Option.some.injEq] at hr
      rw [← hr] at hf
      rcases mem_set_cases _ _ _ _ hf with hf | hf
      · rw [hf, (seekFile_file g off).2.1]
        exact ih g (List.get?_mem hg)
      · exact ih f hf
  | close fh _ ih =>
    intro f hf
    unfold lcclose at hf
    split_ifs at hf with h1
    · exact ih f hf
    · split at hf
      · rename_i g hg
        split_ifs at hf with h2
        · exact ih f hf
        · rcases mem_set_cases _ _ _ _ hf with hf | hf
          · rw [hf]
            exact ih g (List.get?_mem hg)
          · exact ih f hf
      · exact ih f hf

/-- The runs whose reads end inside the stored blocks are runs of the program. -/
theorem inBlocks_reachable {σ : Type} (K : Consts) (bus : Bus σ) {s : FsState σ}
    (h : InBlocks K bus s) : Reachable K bus s := by
  induction h with
  | boot w => exact Reachable.boot w
  | opn path garbage _ ih => exact Reachable.opn path garbage ih
  | read junk fh buf len f r _ _ _ hr ih => exact Reachable.read junk fh buf len r ih hr
  | write junk fh buf len r _ hw ih => exact Reachable.write junk fh buf len r ih hw
  | seek fh off r _ hs ih => exact Reachable.seek fh off r ih hs
  | close fh _ ih => exact Reachable.close fh ih

end LCloud

namespace LCloud

/-! ## The stand-in controller -/

theorem extract_simResponse (op hi lo : Nat) (h1 : op < 256) (h2 : hi < 65536)
    (h3 : lo < 65536) :
    extract_lcloud_registers (simResponse op hi lo) =
      { b0 := 1, b1 := 1, c0 := op, c1 := 0, c2 := 0, d0 := hi, d1 := lo } := by
  unfold extract_lcloud_registers shl64 simResponse
  simp only [Nat.shiftLeft_eq, Nat.shiftRight_eq_div_pow]
  norm_num
  refine ⟨?_, ?_, ?_, ?_, ?_, ?_, ?_⟩ <;> omega

theorem simResponse_ne_error (op hi lo : Nat) (h2 : hi < 65536) (h3 : lo < 65536) : simResponse op hi lo ≠ frameError := by
  unfold simResponse frameError
  omega

/-- The first component of every answer of the stand-in controller is a response frame for
the opcode it decoded. -/
theorem simBus_frame (K : Consts) (mask sectors blocks : Nat) (w : SimWorld) (reg : Nat)
    (buf : Buf) :
    ∃ hi lo, (simBus K mask sectors blocks w reg buf).1 =
      simResponse ((reg >>> 48) % 256) hi lo ∧
      (hi = 0 ∨ hi = mask ∨ hi = sectors) ∧ (lo = 0 ∨ lo = blocks) ∧
      ((reg >>> 48) % 256 = K.LC_DEVINIT → K.LC_DEVINIT ≠ K.LC_BLOCK_XFER →
        K.LC_DEVINIT ≠ K.LC_DEVPROBE → hi = sectors ∧ lo = blocks) := by
  unfold simBus
  dsimp only
  split_ifs with c1 c2 c3 c4
  · exact ⟨0, 0, rfl, Or.inl rfl, Or.inl rfl, fun h n1 _ => absurd (h.symm.trans c1.1) n1⟩
  · exact ⟨0, 0, rfl, Or.inl rfl, Or.inl rfl, fun h n1 _ => absurd (h.symm.trans c2.1) n1⟩
  · exact ⟨mask, 0, rfl, Or.inr (Or.inl rfl), Or.inl rfl,
      fun h _ n2 => absurd (h.symm.trans c3) n2⟩
  · exact ⟨sectors, blocks, rfl, Or.inr (Or.inr rfl), Or.inr rfl, fun _ _ _ => ⟨rfl, rfl⟩⟩
  · exact ⟨0, 0, rfl, Or.inl rfl, Or.inl rfl, fun h _ _ => absurd h c4⟩

/-- The stand-in controller reports no empty device. -/
theorem simBus_goodGeometry (mask sectors blocks : Nat) (hm : mask < 65536)
    (hs : 1 ≤ sectors) (hb : 1 ≤ blocks) (hs2 : sectors < 65536) (hb2 : blocks < 65536) :
    GoodGeometry simConsts (simBus simConsts mask sectors blocks) := by
  intro w i b hbad
  obtain ⟨hi, lo, e, bh, bl, hsp⟩ := simBus_frame simConsts mask sectors blocks w
    (create_lcloud_registers 0 0 simConsts.LC_DEVINIT i 0 0 0) b
  rw [e] at hbad ⊢
  have hop : (create_lcloud_registers 0 0 simConsts.LC_DEVINIT i 0 0 0 >>> 48) % 256 < 256 :=
    Nat.mod_lt _ (by norm_num)
  have hhi : hi < 65536 := by rcases bh with h | h | h <;> omega
  have hlo : lo < 65536 := by rcases bl with h | h <;> omega
  rw [extract_simResponse _ hi lo hop hhi hlo]
  unfold respBad at hbad
  rw [extract_simResponse _ hi lo hop hhi hlo] at hbad
  simp only [Bool.or_eq_false_iff, bne_eq_false_iff_eq] at hbad
  obtain ⟨-, hc0⟩ := hbad
  obtain ⟨e1, e2⟩ := hsp hc0 (by decide) (by decide)
  show 1 ≤ hi ∧ 1 ≤ lo
  omega

theorem demoBus_goodGeometry : GoodGeometry simConsts demoBus :=
  simBus_goodGeometry 3 2 3 (by norm_num) (by norm_num) (by norm_num) (by norm_num)
    (by norm_num)

end LCloud

namespace LCloud

/-! ## The loops of the cache -/

theorem keyMatch_iff (e : cacheBlock) (did sec blk : Int) :
    keyMatch e did sec blk = true ↔ e.device = did ∧ e.block = blk ∧ e.sector = sec := by
  unfold keyMatch
  simp only [Bool.and_eq_true, beq_iff_eq, and_assoc]

theorem u16_range (x : Int) : 0 ≤ u16 x ∧ u16 x < 65536 := by
  unfold u16
  omega

/-- The loop of `lcloud_getcache` returns the first slot holding the key. -/
theorem getcacheLoop_some (did sec blk : Int) : ∀ (l : List cacheBlock) (i j : Nat),
    getcacheLoop did sec blk l i = some j →
    ∃ m e, l.get? m = some e ∧ j = i + m ∧ keyMatch e did sec blk = true ∧
      ∀ m2 e2, l.get? m2 = some e2 → m2 < m → keyMatch e2 did sec blk = false := by
  intro l
  induction l with
  | nil => intro i j h; simp [getcacheLoop] at h
  | cons e rest ih =>
    intro i j h
    unfold getcacheLoop at h
    split_ifs at h with c
    · refine ⟨0, e, rfl, ?_, c, ?_⟩
      · simp only [Option.some.injEq] at h; omega
      · intro m2 e2 _ hlt; omega
    · obtain ⟨m, e1, h1, h2, h3, h4⟩ := ih (i + 1) j h
      refine ⟨m + 1, e1, by simpa using h1, by omega, h3, ?_⟩
      intro m2 e2 h5 hlt
      cases m2 with
      | zero =>
        simp only [List.get?_cons_zero, Option.some.injEq] at h5
        rw [← h5]; simpa using c
      | succ m3 =>
        exact h4 m3 e2 (by simpa using h5) (by omega)

theorem getcacheLoop_none (did sec blk : Int) : ∀ (l : List cacheBlock) (i : Nat),
    getcacheLoop did sec blk l i = none →
    ∀ m e, l.get? m = some e → keyMatch e did sec blk = false := by
  intro l
  induction l with
  | nil => intro i _ m e h; simp at h
  | cons e rest ih =>
    intro i h m e1 h1
    unfold getcacheLoop at h
    split_ifs at h with c
    cases m with
    | zero =>
      simp only [List.get?_cons_zero, Option.some.injEq] at h1
      rw [← h1]; simpa using c
    | succ m3 => exact ih (i + 1) h m3 e1 (by simpa using h1)

/-- A slot that holds the key, with no earlier slot holding it, is what the loop returns. -/
theorem getcacheLoop_first (did sec blk : Int) : ∀ (l : List cacheBlock) (i m : Nat)
    (e : cacheBlock), l.get? m = some e → keyMatch e did sec blk = true →
    (∀ m2 e2, l.get? m2 = some e2 → m2 < m → keyMatch e2 did sec blk = false) →
    getcacheLoop did sec blk l i = some (i + m) := by
  intro l
  induction l with
  | nil => intro i m e h; simp at h
  | cons e0 rest ih =>
    intro i m e h hk hfirst
    unfold getcacheLoop
    cases m with
    | zero =>
      simp only [List.get?_cons_zero, Option.some.injEq] at h
      rw [h, if_pos hk]; rfl
    | succ m3 =>
      have h0 := hfirst 0 e0 rfl (by omega)
      rw [if_neg (by rw [h0]; simp)]
      rw [ih (i + 1) m3 e (by simpa using h) hk
        (fun m2 e2 h2 hlt => hfirst (m2 + 1) e2 (by simpa using h2) (by omega))]
      congr 1; omega

/-- The scan of the first branch of `lcloud_putcache` stops at the key if the cache holds
it. -/
theorem putcacheFullLoop_hit (did sec blk : Int) : ∀ (l : List cacheBlock) (i j : Nat)
    (oldest : Int) (oi : Option Nat), getcacheLoop did sec blk l i = some j →
    putcacheFullLoop did sec blk l i oldest oi = FullScan.hit j := by
  intro l
  induction l with
  | nil => intro i j oldest oi h; simp [getcacheLoop] at h
  | cons e rest ih =>
    intro i j oldest oi h
    unfold getcacheLoop at h
    unfold putcacheFullLoop
    split_ifs at h ⊢ with c c2
    · simp only [Option.some.injEq] at h; rw [h]
    · exact ih _ _ _ _ h
    · exact ih _ _ _ _ h

/-- Without the key in the cache, the scan ends with the first slot of smallest stamp. -/
theorem putcacheFullLoop_victim (did sec blk : Int) : ∀ (l : List cacheBlock) (i : Nat)
    (oldest : Int) (oi : Option Nat), getcacheLoop did sec blk l i = none →
    ∃ r, putcacheFullLoop did sec blk l i oldest oi = FullScan.victim r ∧
      IsVictim l i oldest oi r := by
  intro l
  induction l with
  | nil =>
    intro i oldest oi _
    exact ⟨oi, rfl, Or.inl ⟨rfl, fun m e h => by simp at h⟩⟩
  | cons e rest ih =>
    intro i oldest oi h
    unfold getcacheLoop at h
    unfold putcacheFullLoop
    split_ifs at h ⊢ with c c2
    · obtain ⟨r, h1, h2⟩ := ih (i + 1) e.time (some i) h
      refine ⟨r, h1, Or.inr ?_⟩
      rcases h2 with ⟨e1, e2⟩ | ⟨m, e1, g1, g2, g3, g4, g5⟩
      · refine ⟨0, e, rfl, by rw [e1]; rfl, c2, ?_, ?_⟩
        · intro m2 e2' hm
          cases m2 with
          | zero =>
            simp only [List.get?_cons_zero, Option.some.injEq] at hm
            rw [hm]
          | succ m3 => exact e2 m3 e2' (by simpa using hm)
        · intro m2 e2' _ hlt; omega
      · refine ⟨m + 1, e1, by simpa using g1, by rw [g2]; congr 1; omega, by omega, ?_, ?_⟩
        · intro m2 e2' hm
          cases m2 with
          | zero =>
            simp only [List.get?_cons_zero, Option.some.injEq] at hm
            rw [← hm]; omega
          | succ m3 => exact g4 m3 e2' (by simpa using hm)
        · intro m2 e2' hm hlt
          cases m2 with
          | zero =>
            simp only [List.get?_cons_zero, Option.some.injEq] at hm
            rw [← hm]; exact g3
          | succ m3 => exact g5 m3 e2' (by simpa using hm) (by omega)
    · obtain ⟨r, h1, h2⟩ := ih (i + 1) oldest oi h
      refine ⟨r, h1, ?_⟩
      rcases h2 with ⟨e1, e2⟩ | ⟨m, e1, g1, g2, g3, g4, g5⟩
      · refine Or.inl ⟨e1, ?_⟩
        intro m2 e2' hm
        cases m2 with
        | zero =>
          simp only [List.get?_cons_zero, Option.some.injEq] at hm
          rw [← hm]; omega
        | succ m3 => exact e2 m3 e2' (by simpa using hm)
      · refine Or.inr ⟨m + 1, e1, by simpa using g1, by rw [g2]; congr 1; omega, g3, ?_, ?_⟩
        · intro m2 e2' hm
          cases m2 with
          | zero =>
            simp only [List.get?_cons_zero, Option.some.injEq] at hm
            rw [← hm]; omega
          | succ m3 => exact g4 m3 e2' (by simpa using hm)
        · intro m2 e2' hm hlt
          cases m2 with
          | zero =>
            simp only [List.get?_cons_zero, Option.some.injEq] at hm
            rw [← hm]; omega
          | succ m3 => exact g5 m3 e2' (by simpa using hm) (by omega)

/-- The scan of the second branch of `lcloud_putcache` stops at the key if the cache holds it
with no empty slot before it. -/
theorem putcacheFreeLoop_hit (did sec blk : Int) : ∀ (l : List cacheBlock) (i m : Nat)
    (e : cacheBlock), l.get? m = some e → keyMatch e did sec blk = true →
    (∀ m2 e2, l.get? m2 = some e2 → m2 < m →
      keyMatch e2 did sec blk = false ∧ e2.block ≠ -1) →
    putcacheFreeLoop did sec blk l i = FreeScan.hit (i + m) := by
  intro l
  induction l with
  | nil => intro i m e h; simp at h
  | cons e0 rest ih =>
    intro i m e h hk hfirst
    unfold putcacheFreeLoop
    cases m with
    | zero =>
      simp only [List.get?_cons_zero, Option.some.injEq] at h
      rw [h, if_pos hk]; rfl
    | succ m3 =>
      obtain ⟨h0, h1⟩ := hfirst 0 e0 rfl (by omega)
      rw [if_neg (by rw [h0]; simp), if_neg h1]
      rw [ih (i + 1) m3 e (by simpa using h) hk
        (fun m2 e2 h2 hlt => hfirst (m2 + 1) e2 (by simpa using h2) (by omega))]
      congr 1; omega

/-- Without the key in the cache, the scan of the second branch stops at the first empty
slot. -/
theorem putcacheFreeLoop_empty (did sec blk : Int) : ∀ (l : List cacheBlock) (i m : Nat)
    (e : cacheBlock), l.get? m = some e → e.block = -1 → keyMatch e did sec blk = false →
    (∀ m2 e2, l.get? m2 = some e2 → m2 < m →
      keyMatch e2 did sec blk = false ∧ e2.block ≠ -1) →
    putcacheFreeLoop did sec blk l i = FreeScan.empty (i + m) := by
  intro l
  induction l with
  | nil => intro i m e h; simp at h
  | cons e0 rest ih =>
    intro i m e h hb hk hfirst
    unfold putcacheFreeLoop
    cases m with
    | zero =>
      simp only [List.get?_cons_zero, Option.some.injEq] at h
      rw [h, if_neg (by rw [hk]; simp), if_pos hb]; rfl
    | succ m3 =>
      obtain ⟨h0, h1⟩ := hfirst 0 e0 rfl (by omega)
      rw [if_neg (by rw [h0]; simp), if_neg h1]
      rw [ih (i + 1) m3 e (by simpa using h) hb hk
        (fun m2 e2 h2 hlt => hfirst (m2 + 1) e2 (by simpa using h2) (by omega))]
      congr 1; omega

end LCloud

namespace LCloud

/-! ## The cache invariant under `lcloud_getcache` and `lcloud_putcache` -/

theorem lcloud_getcache_result (did sec blk : Int) (s : CacheState) :
    (lcloud_getcache did sec blk s).1 =
      (getcacheLoop did (u16 sec) (u16 blk) s.cache 0).bind
        (fun i => (s.cache.get? i).map (fun e => e.data)) := by
  unfold lcloud_getcache
  cases h : getcacheLoop did (u16 sec) (u16 blk) s.cache 0 with
  | none => rfl
  | some i =>
    dsimp only
    change _ = Option.map (fun e => e.data) (s.cache.get? i)
    cases h2 : s.cache.get? i with
    | none => rfl
    | some e => rfl

/-- A lookup succeeds with the data of a slot that holds the key. -/
theorem getcache_some_of_slot (did sec blk : Int) (s : CacheState) (k : Nat)
    (hf : CacheFill s k) (i : Nat) (e : cacheBlock) (hi : s.cache.get? i = some e)
    (hk : keyMatch e did (u16 sec) (u16 blk) = true) :
    (lcloud_getcache did sec blk s).1 = some e.data := by
  rw [lcloud_getcache_result]
  obtain ⟨-, -, -, -, -, -, huniq⟩ := hf
  have hkey := (keyMatch_iff _ _ _ _).1 hk
  have hfirst : ∀ m2 e2, s.cache.get? m2 = some e2 → m2 < i →
      keyMatch e2 did (u16 sec) (u16 blk) = false := by
    intro m2 e2 h2 hlt
    by_contra hne
    have hm : keyMatch e2 did (u16 sec) (u16 blk) = true := by simpa using hne
    have hkey2 := (keyMatch_iff _ _ _ _).1 hm
    have := huniq m2 i e2 e h2 hi (by rw [hkey2.1, hkey.1]) (by rw [hkey2.2.2, hkey.2.2])
      (by rw [hkey2.2.1, hkey.2.1]) (by rw [hkey2.2.1]; exact (u16_range _).1)
    omega
  rw [getcacheLoop_first did (u16 sec) (u16 blk) s.cache 0 i e hi hk hfirst]
  have : 0 + i = i := Nat.zero_add i
  rw [this]
  show (s.cache.get? i).map _ = _
  rw [hi]
  rfl

/-- A lookup that succeeds returns the data of a slot that holds the key. -/
theorem getcache_slot_of_some (did sec blk : Int) (s : CacheState) (d : Buf)
    (h : (lcloud_getcache did sec blk s).1 = some d) :
    ∃ i e, s.cache.get? i = some e ∧ keyMatch e did (u16 sec) (u16 blk) = true ∧
      e.data = d := by
  rw [lcloud_getcache_result] at h
  cases hl : getcacheLoop did (u16 sec) (u16 blk) s.cache 0 with
  | none => rw [hl] at h; cases h
  | some j =>
    rw [hl] at h
    obtain ⟨m, e, h1, h2, h3, -⟩ := getcacheLoop_some _ _ _ _ _ _ hl
    have : j = m := by omega
    subst this
    change (s.cache.get? j).map (fun e => e.data) = some d at h
    rw [h1] at h
    exact ⟨j, e, h1, h3, Option.some.inj h⟩

theorem getcache_none_of_no_slot (did sec blk : Int) (s : CacheState)
    (h : ∀ i e, s.cache.get? i = some e → keyMatch e did (u16 sec) (u16 blk) = false) :
    (lcloud_getcache did sec blk s).1 = none := by
  cases hr : (lcloud_getcache did sec blk s).1 with
  | none => rfl
  | some d =>
    obtain ⟨i, e, h1, h2, -⟩ := getcache_slot_of_some did sec blk s d hr
    rw [h i e h1] at h2
    simp at h2

theorem get?_set_eq_cases {α : Type} (l : List α) (i j : Nat) (a : α) :
    (l.set i a).get? j = if i = j ∧ i < l.length then some a else l.get? j := by
  rw [List.get?_eq_getElem?, List.get?_eq_getElem?, List.getElem?_set]
  by_cases h : i = j
  · subst h
    by_cases h2 : i < l.length
    · simp [h2]
    · simp [h2]
      omega
  · simp [h]

/-- `lcloud_getcache` keeps the cache invariant. -/
theorem lcloud_getcache_fill (did sec blk : Int) (s : CacheState) (k : Nat)
    (hf : CacheFill s k) : CacheFill (lcloud_getcache did sec blk s).2 k := by
  obtain ⟨h1, h2, h3, h4, h5, h6, h7⟩ := hf
  unfold lcloud_getcache
  cases hl : getcacheLoop did (u16 sec) (u16 blk) s.cache 0 with
  | none => exact ⟨h1, h2, h3, h4, h5, h6, h7⟩
  | some j =>
    dsimp only
    cases hj : s.cache.get? j with
    | none => exact ⟨h1, h2, h3, h4, h5, h6, h7⟩
    | some e =>
      dsimp only
      obtain ⟨m, e0, g1, g2, g3, -⟩ := getcacheLoop_some _ _ _ _ _ _ hl
      have hjm : j = m := by omega
      subst hjm
      have hee : e0 = e := by rw [hj] at g1; exact (Option.some.inj g1).symm
      subst hee
      have hkey := (keyMatch_iff _ _ _ _).1 g3
      have hjk : j < k := by
        by_contra hge
        have := (h6 j e0 hj (by omega)).1
        have := (u16_range blk).1
        omega
      have hjl : j < s.cache.length := by omega
      refine ⟨?_, h2, ?_, ?_, ?_, ?_, ?_⟩
      · show (s.cache.set j _).length = _
        rw [List.length_set]; exact h1
      · show k ≤ (s.cache.set j _).length
        rw [List.length_set]; exact h3
      · show (k : Int) ≤ s.cacheAccess + 1
        omega
      · intro i e1 hi hik
        show 0 ≤ e1.block ∧ 0 ≤ e1.time ∧ e1.time < s.cacheAccess + 1
        change (s.cache.set j _).get? i = some e1 at hi
        rw [get?_set_eq_cases] at hi
        split_ifs at hi with c
        · simp only [Option.some.injEq] at hi
          rw [← hi]
          have := h5 j e0 hj hjk
          exact ⟨this.1, by show 0 ≤ s.cacheAccess; omega, by show s.cacheAccess < _; omega⟩
        · have := h5 i e1 hi hik
          exact ⟨this.1, this.2.1, by omega⟩
      · intro i e1 hi hik
        change (s.cache.set j _).get? i = some e1 at hi
        rw [get?_set_eq_cases] at hi
        split_ifs at hi with c
        · omega
        · exact h6 i e1 hi hik
      · intro i1 i2 e1 e2 hi1 hi2 k1 k2 k3 k4
        change (s.cache.set j _).get? i1 = some e1 at hi1
        change (s.cache.set j _).get? i2 = some e2 at hi2
        rw [get?_set_eq_cases] at hi1 hi2
        split_ifs at hi1 hi2 with c1 c2 c2
        · omega
        · simp only [Option.some.injEq] at hi1
          rw [← hi1] at k1 k2 k3 k4
          rw [← c1.1]
          exact h7 j i2 e0 e2 hj hi2 k1 k2 k3 k4
        · simp only [Option.some.injEq] at hi2
          rw [← hi2] at k1 k2 k3
          rw [← c2.1]
          exact h7 i1 j e1 e0 hi1 hj k1 k2 k3 k4
        · exact h7 i1 i2 e1 e2 hi1 hi2 k1 k2 k3 k4

/-- `lcloud_getcache` changes no key and no data. -/
theorem lcloud_getcache_slots (did sec blk : Int) (s : CacheState) (i : Nat) :
    ((lcloud_getcache did sec blk s).2.cache.get? i).map
        (fun e => (e.device, e.sector, e.block, e.data)) =
      (s.cache.get? i).map (fun e => (e.device, e.sector, e.block, e.data)) := by
  unfold lcloud_getcache
  cases hl : getcacheLoop did (u16 sec) (u16 blk) s.cache 0 with
  | none => rfl
  | some j =>
    dsimp only
    cases hj : s.cache.get? j with
    | none => rfl
    | some e =>
      dsimp only
      rw [get?_set_eq_cases]
      split_ifs with c
      · rw [← c.1, hj]; rfl
      · rfl

end LCloud

namespace LCloud

/-- Stamping an occupied slot with the access counter, key unchanged, keeps the invariant. -/
theorem cacheFill_restamped (s : CacheState) (k : Nat) (hf : CacheFill s k) (j : Nat)
    (e0 e1 : cacheBlock) (hj : s.cache.get? j = some e0) (hjk : j < k)
    (hd : e1.device = e0.device) (hs : e1.sector = e0.sector) (hb : e1.block = e0.block)
    (ht : e1.time = s.cacheAccess) (s2 : CacheState) (hc : s2.cache = s.cache.set j e1)
    (hsz : s2.cacheSize = s.cacheSize) (ha : s2.cacheAccess = s.cacheAccess + 1) :
    CacheFill s2 k := by
  obtain ⟨h1, h2, h3, h4, h5, h6, h7⟩ := hf
  refine ⟨?_, ?_, ?_, ?_, ?_, ?_, ?_⟩
  · rw [hc, hsz, List.length_set]; exact h1
  · rw [hsz]; exact h2
  · rw [hc, List.length_set]; exact h3
  · rw [ha]; omega
  · intro i e hi hik
    rw [hc, get?_set_eq_cases] at hi
    rw [ha]
    split_ifs at hi with c
    · simp only [Option.some.injEq] at hi
      rw [← hi, hb, ht]
      have := h5 j e0 hj hjk
      exact ⟨this.1, by omega, by omega⟩
    · have := h5 i e hi hik
      exact ⟨this.1, this.2.1, by omega⟩
  · intro i e hi hik
    rw [hc, get?_set_eq_cases] at hi
    split_ifs at hi with c
    · omega
    · exact h6 i e hi hik
  · intro i1 i2 a1 a2 hi1 hi2 k1 k2 k3 k4
    rw [hc, get?_set_eq_cases] at hi1 hi2
    split_ifs at hi1 hi2 with c1 c2 c2
    · omega
    · simp only [Option.some.injEq] at hi1
      subst hi1
      rw [← c1.1]
      exact h7 j i2 e0 a2 hj hi2 (hd.symm.trans k1) (hs.symm.trans k2) (hb.symm.trans k3)
        (by rw [← hb]; exact k4)
    · simp only [Option.some.injEq] at hi2
      subst hi2
      rw [← c2.1]
      exact h7 i1 j a1 e0 hi1 hj (k1.trans hd) (k2.trans hs) (k3.trans hb) k4
    · exact h7 i1 i2 a1 a2 hi1 hi2 k1 k2 k3 k4

/-- Storing a block with a key that the cache does not hold, stamped with the access counter,
in the first empty slot or, when there is none, in an occupied slot keeps the invariant. -/
theorem cacheFill_inserted (s : CacheState) (k : Nat) (hf : CacheFill s k) (v : Nat)
    (hv : (k < s.cache.length ∧ v = k) ∨ (k = s.cache.length ∧ v < k)) (e1 : cacheBlock)
    (hkey : 0 ≤ e1.block)
    (hnew : ∀ i e, s.cache.get? i = some e →
      ¬ (e.device = e1.device ∧ e.sector = e1.sector ∧ e.block = e1.block))
    (ht : e1.time = s.cacheAccess) (s2 : CacheState) (hc : s2.cache = s.cache.set v e1)
    (hsz : s2.cacheSize = s.cacheSize) (ha : s2.cacheAccess = s.cacheAccess + 1) :
    CacheFill s2 (if v = k then k + 1 else k) := by
  obtain ⟨h1, h2, h3, h4, h5, h6, h7⟩ := hf
  have hvl : v < s.cache.length := by omega
  refine ⟨?_, ?_, ?_, ?_, ?_, ?_, ?_⟩
  · rw [hc, hsz, List.length_set]; exact h1
  · rw [hsz]; exact h2
  · rw [hc, List.length_set]; split_ifs <;> omega
  · rw [ha]; split_ifs <;> push_cast <;> omega
  · intro i e hi hik
    rw [hc, get?_set_eq_cases] at hi
    rw [ha]
    split_ifs at hi with c
    · simp only [Option.some.injEq] at hi
      rw [← hi, ht]
      exact ⟨hkey, by omega, by omega⟩
    · have hik2 : i < k := by
        split_ifs at hik with c2
        · by_contra hge
          apply c
          exact ⟨by omega, hvl⟩
        · exact hik
      have := h5 i e hi hik2
      exact ⟨this.1, this.2.1, by omega⟩
  · intro i e hi hik
    rw [hc, get?_set_eq_cases] at hi
    split_ifs at hi with c
    · exfalso
      split_ifs at hik with c2 <;> omega
    · apply h6 i e hi
      split_ifs at hik with c2 <;> omega
  · intro i1 i2 a1 a2 hi1 hi2 k1 k2 k3 k4
    rw [hc, get?_set_eq_cases] at hi1 hi2
    split_ifs at hi1 hi2 with c1 c2 c2
    · omega
    · exfalso
      simp only [Option.some.injEq] at hi1
      rw [← hi1] at k1 k2 k3
      exact hnew i2 a2 hi2 ⟨k1.symm, k2.symm, k3.symm⟩
    · exfalso
      simp only [Option.some.injEq] at hi2
      rw [← hi2] at k1 k2 k3
      exact hnew i1 a1 hi1 ⟨k1, k2, k3⟩
    · exact h7 i1 i2 a1 a2 hi1 hi2 k1 k2 k3 k4

/-- In a cache that satisfies the invariant the scan of the first branch of `lcloud_putcache`
always assigns `oldestIndex`: the first empty slot, or an occupied slot of a full cache. -/
theorem victim_of_fill (s : CacheState) (k : Nat) (hf : CacheFill s k) (r : Option Nat)
    (hr : IsVictim s.cache 0 s.cacheAccess none r) :
    ∃ v, r = some v ∧ ((k < s.cache.length ∧ v = k) ∨ (k = s.cache.length ∧ v < k)) := by
  obtain ⟨h1, h2, h3, h4, h5, h6, h7⟩ := hf
  have hlen : 0 < s.cache.length := by rw [h1]; omega
  have time_lt : ∀ i e, s.cache.get? i = some e → -1 ≤ e.time ∧ e.time < s.cacheAccess := by
    intro i e hi
    by_cases c : i < k
    · have := h5 i e hi c; omega
    · have := h6 i e hi (by omega); omega
  rcases hr with ⟨-, hall⟩ | ⟨m, e, g1, g2, g3, g4, g5⟩
  · exfalso
    have hget : s.cache.get? 0 = some (s.cache.get ⟨0, hlen⟩) := List.get?_eq_get hlen
    have := hall 0 _ hget
    have := time_lt 0 _ hget
    omega
  · refine ⟨m, by rw [g2]; congr 1; omega, ?_⟩
    have hml : m < s.cache.length := by
      rcases List.get?_eq_some.1 g1 with ⟨h, -⟩
      exact h
    by_cases hk : k < s.cache.length
    · left
      refine ⟨hk, ?_⟩
      have hgetk : s.cache.get? k = some (s.cache.get ⟨k, hk⟩) := List.get?_eq_get hk
      have tk := (h6 k _ hgetk (le_refl _)).2
      have le1 := g4 k _ hgetk
      have hmk : ¬ m < k := by
        intro hlt
        have := (h5 m e g1 hlt).2.1
        omega
      by_contra hne
      have := g5 k _ hgetk (by omega)
      have := (time_lt m e g1).1
      omega
    · right
      exact ⟨by omega, by omega⟩

end LCloud

namespace LCloud

theorem memcpy_block (dst src : Buf) (x : Nat) (h : x < 256) :
    memcpy dst 0 src 0 256 x = src x := by
  unfold memcpy
  rw [if_pos ⟨Nat.zero_le _, by omega⟩]
  congr 1
  omega

theorem restamp_eq (s : CacheState) (j : Nat) (e0 : cacheBlock) (block : Buf)
    (hj : s.cache.get? j = some e0) :
    restamp s j block =
      { s with cache := s.cache.set j { e0 with data := memcpy e0.data 0 block 0 256
                                                time := s.cacheAccess }
               cacheAccess := s.cacheAccess + 1 } := by
  unfold restamp
  rw [hj]

/-- Effect of `lcloud_putcache` on a cache that satisfies the invariant: it returns 0 and
changes one slot, which afterwards holds the key and the 256 bytes given; the invariant is
kept. -/
theorem lcloud_putcache_effect (did sec blk : Int) (block : Buf) (s : CacheState) (k : Nat)
    (hf : CacheFill s k) :
    (lcloud_putcache did sec blk block s).1 = 0 ∧
    ∃ j e k2, j < s.cache.length ∧
      (lcloud_putcache did sec blk block s).2.cache = s.cache.set j e ∧
      keyMatch e did (u16 sec) (u16 blk) = true ∧ (∀ x, x < 256 → e.data x = block x) ∧
      CacheFill (lcloud_putcache did sec blk block s).2 k2 := by
  have hf0 := hf
  obtain ⟨h1, h2, h3, h4, h5, h6, h7⟩ := hf
  have hb0 := (u16_range blk).1
  -- the two outcomes
  have hit_case : ∀ j, getcacheLoop did (u16 sec) (u16 blk) s.cache 0 = some j →
      ∃ j2 e k2, j2 < s.cache.length ∧ (restamp s j block).cache = s.cache.set j2 e ∧
        keyMatch e did (u16 sec) (u16 blk) = true ∧ (∀ x, x < 256 → e.data x = block x) ∧
        CacheFill (restamp s j block) k2 := by
    intro j hl
    obtain ⟨m, e0, g1, g2, g3, -⟩ := getcacheLoop_some _ _ _ _ _ _ hl
    have hjm : j = m := by omega
    subst hjm
    have hkey := (keyMatch_iff _ _ _ _).1 g3
    have hjk : j < k := by
      by_contra hge
      have := (h6 j e0 g1 (by omega)).1
      omega
    rw [restamp_eq s j e0 block g1]
    refine ⟨j, _, k, by omega, rfl, ?_, fun x hx => memcpy_block _ _ x hx, ?_⟩
    · rw [keyMatch_iff]; exact hkey
    · exact cacheFill_restamped s k hf0 j e0
        { e0 with data := memcpy e0.data 0 block 0 256, time := s.cacheAccess } g1 hjk rfl rfl
        rfl rfl _ rfl rfl rfl
  have ins_case : ∀ v, getcacheLoop did (u16 sec) (u16 blk) s.cache 0 = none →
      ((k < s.cache.length ∧ v = k) ∨ (k = s.cache.length ∧ v < k)) →
      ∃ j e k2, j < s.cache.length ∧
        s.cache.set v (newCacheBlock did (u16 sec) (u16 blk) block s.cacheAccess) =
          s.cache.set j e ∧
        keyMatch e did (u16 sec) (u16 blk) = true ∧ (∀ x, x < 256 → e.data x = block x) ∧
        CacheFill
          { cache := s.cache.set v (newCacheBlock did (u16 sec) (u16 blk) block s.cacheAccess),
            cacheHits := s.cacheHits, cacheMisses := s.cacheMisses + 1,
            cacheSize := s.cacheSize, cacheAccess := s.cacheAccess + 1 } k2 := by
    intro v hl hv
    have hnone := getcacheLoop_none _ _ _ _ _ hl
    refine ⟨v, _, (if v = k then k + 1 else k), by omega, rfl, ?_,
      fun x hx => memcpy_block _ _ x hx, ?_⟩
    · rw [keyMatch_iff]; exact ⟨rfl, rfl, rfl⟩
    · refine cacheFill_inserted s k hf0 v hv
        (newCacheBlock did (u16 sec) (u16 blk) block s.cacheAccess) hb0 ?_ rfl _ rfl rfl rfl
      intro i e hi hc
      have := hnone i e hi
      rw [(keyMatch_iff e did (u16 sec) (u16 blk)).2 ⟨hc.1, hc.2.2, hc.2.1⟩] at this
      simp at this
  unfold lcloud_putcache
  by_cases hfull : s.cacheAccess ≥ s.cacheSize - 1
  · rw [if_pos hfull]
    cases hl : getcacheLoop did (u16 sec) (u16 blk) s.cache 0 with
    | some j =>
      rw [putcacheFullLoop_hit _ _ _ _ _ _ _ _ hl]
      exact ⟨rfl, hit_case j hl⟩
    | none =>
      obtain ⟨r, hr1, hr2⟩ := putcacheFullLoop_victim did (u16 sec) (u16 blk) s.cache 0
        s.cacheAccess none hl
      obtain ⟨v, hv1, hv2⟩ := victim_of_fill s k hf0 r hr2
      rw [hr1, hv1]
      exact ⟨rfl, ins_case v hl hv2⟩
  · rw [if_neg hfull]
    cases hl : getcacheLoop did (u16 sec) (u16 blk) s.cache 0 with
    | some j =>
      obtain ⟨m, e0, g1, g2, g3, g4⟩ := getcacheLoop_some _ _ _ _ _ _ hl
      have hjm : j = m := by omega
      subst hjm
      have hjk : j < k := by
        by_contra hge
        have := (h6 j e0 g1 (by omega)).1
        have := (keyMatch_iff _ _ _ _).1 g3
        omega
      have := putcacheFreeLoop_hit did (u16 sec) (u16 blk) s.cache 0 j e0 g1 g3
        (fun m2 e2 hm2 hlt => ⟨g4 m2 e2 hm2 hlt, by
          have := (h5 m2 e2 hm2 (by omega)).1
          omega⟩)
      rw [Nat.zero_add] at this
      rw [this]
      exact ⟨rfl, hit_case j hl⟩
    | none =>
      have hnone := getcacheLoop_none _ _ _ _ _ hl
      have hk : k < s.cache.length := by
        rw [h1]; omega
      have hgetk : s.cache.get? k = some (s.cache.get ⟨k, hk⟩) := List.get?_eq_get hk
      have := putcacheFreeLoop_empty did (u16 sec) (u16 blk) s.cache 0 k _ hgetk
        (h6 k _ hgetk (le_refl _)).1 (hnone k _ hgetk)
        (fun m2 e2 hm2 hlt => ⟨hnone m2 e2 hm2, by
          have := (h5 m2 e2 hm2 hlt).1
          omega⟩)
      rw [Nat.zero_add] at this
      rw [this]
      exact ⟨rfl, ins_case k hl (Or.inl ⟨hk, rfl⟩)⟩

/-- The cache invariant holds after `lcloud_initcache` with at least one slot. -/
theorem lcloud_initcache_fill (maxblocks : Int) (h : 1 ≤ maxblocks) :
    CacheFill (lcloud_initcache maxblocks) 0 := by
  unfold lcloud_initcache
  refine ⟨?_, h, Nat.zero_le _, le_refl _, ?_, ?_, ?_⟩
  · simp
  · intro i e _ hlt; omega
  · intro i e hi _
    have : e ∈ List.replicate maxblocks.toNat emptyCacheBlock := List.get?_mem hi
    rw [List.eq_of_mem_replicate this]
    exact ⟨rfl, rfl⟩
  · intro i j e1 e2 hi _ _ _ _ hb
    have : e1 ∈ List.replicate maxblocks.toNat emptyCacheBlock := List.get?_mem hi
    rw [List.eq_of_mem_replicate this] at hb
    simp [emptyCacheBlock] at hb

/-- The cache invariant holds in every state of the cache reachable from
`lcloud_initcache` with at least one slot. -/
theorem cacheReachable_ok (maxblocks : Int) (h : 1 ≤ maxblocks) (s : CacheState)
    (hs : CacheReachable maxblocks s) : CacheOK s := by
  induction hs with
  | init => exact ⟨0, lcloud_initcache_fill maxblocks h⟩
  | step c _ ih =>
    obtain ⟨k, hk⟩ := ih
    cases c with
    | get did sec blk => exact ⟨k, lcloud_getcache_fill did sec blk _ k hk⟩
    | put did sec blk data =>
      obtain ⟨-, j, e, k2, -, -, -, -, hk2⟩ := lcloud_putcache_effect did sec blk data _ k hk
      exact ⟨k2, hk2⟩

end LCloud

namespace LCloud

/-! ## What a lookup returns after other calls -/

theorem blockBytes_congr (a b : Buf) (h : ∀ x, x < 256 → a x = b x) :
    blockBytes a = blockBytes b := by
  unfold blockBytes
  apply List.map_congr_left
  intro x hx
  exact h x (List.mem_range.1 hx)

theorem getcache_slot_back (did sec blk : Int) (s : CacheState) (i : Nat) (e1 : cacheBlock)
    (h : (lcloud_getcache did sec blk s).2.cache.get? i = some e1) :
    ∃ e, s.cache.get? i = some e ∧ e.device = e1.device ∧ e.sector = e1.sector ∧
      e.block = e1.block ∧ e.data = e1.data := by
  have hs := lcloud_getcache_slots did sec blk s i
  rw [h] at hs
  cases ho : s.cache.get? i with
  | none => rw [ho] at hs; simp at hs
  | some e =>
    rw [ho] at hs
    simp only [Option.map_some', Option.some.injEq, Prod.mk.injEq] at hs
    exact ⟨e, rfl, hs.1.symm, hs.2.1.symm, hs.2.2.1.symm, hs.2.2.2.symm⟩

theorem getcache_slot_forth (did sec blk : Int) (s : CacheState) (i : Nat) (e : cacheBlock)
    (h : s.cache.get? i = some e) :
    ∃ e1, (lcloud_getcache did sec blk s).2.cache.get? i = some e1 ∧ e.device = e1.device ∧
      e.sector = e1.sector ∧ e.block = e1.block ∧ e.data = e1.data := by
  have hs := lcloud_getcache_slots did sec blk s i
  rw [h] at hs
  cases ho : (lcloud_getcache did sec blk s).2.cache.get? i with
  | none => rw [ho] at hs; simp at hs
  | some e1 =>
    rw [ho] at hs
    simp only [Option.map_some', Option.some.injEq, Prod.mk.injEq] at hs
    exact ⟨e1, rfl, hs.1.symm, hs.2.1.symm, hs.2.2.1.symm, hs.2.2.2.symm⟩

theorem keyMatch_of_same_key (e e1 : cacheBlock) (did sec blk : Int)
    (h1 : e.device = e1.device) (h2 : e.sector = e1.sector) (h3 : e.block = e1.block) :
    keyMatch e did sec blk = keyMatch e1 did sec blk := by
  unfold keyMatch
  rw [h1, h2, h3]

/-- A `lcloud_getcache` of any key changes the answer of no lookup. -/
theorem getcache_after_get (did sec blk d2 s2 b2 : Int) (s : CacheState) (k : Nat)
    (hf : CacheFill s k) :
    (lcloud_getcache did sec blk (lcloud_getcache d2 s2 b2 s).2).1 =
      (lcloud_getcache did sec blk s).1 := by
  have hf2 := lcloud_getcache_fill d2 s2 b2 s k hf
  cases hv : (lcloud_getcache did sec blk s).1 with
  | some d =>
    obtain ⟨i, e, h1, h2, h3⟩ := getcache_slot_of_some did sec blk s d hv
    obtain ⟨e1, g1, g2, g3, g4, g5⟩ := getcache_slot_forth d2 s2 b2 s i e h1
    rw [getcache_some_of_slot did sec blk _ k hf2 i e1 g1
      (by rw [← keyMatch_of_same_key e e1 _ _ _ g2 g3 g4]; exact h2), ← g5, h3]
  | none =>
    apply getcache_none_of_no_slot
    intro i e1 h1
    obtain ⟨e, g1, g2, g3, g4, g5⟩ := getcache_slot_back d2 s2 b2 s i e1 h1
    rw [← keyMatch_of_same_key e e1 _ _ _ g2 g3 g4]
    by_contra hne
    have hm : keyMatch e did (u16 sec) (u16 blk) = true := by simpa using hne
    rw [getcache_some_of_slot did sec blk s k hf i e g1 hm] at hv
    simp at hv

/-- A lookup right after `lcloud_putcache` of the same key finds the bytes just put. -/
theorem getcache_after_put_same (did sec blk : Int) (data : Buf) (s : CacheState) (k : Nat)
    (hf : CacheFill s k) :
    (lcloud_getcache did sec blk (lcloud_putcache did sec blk data s).2).1.map blockBytes =
      some (blockBytes data) := by
  obtain ⟨-, j, e, k2, hj, hc, hk, hd, hf2⟩ := lcloud_putcache_effect did sec blk data s k hf
  have hget : (lcloud_putcache did sec blk data s).2.cache.get? j = some e := by
    rw [hc, get?_set_eq_cases, if_pos ⟨rfl, hj⟩]
  rw [getcache_some_of_slot did sec blk _ k2 hf2 j e hget hk]
  show some (blockBytes e.data) = _
  rw [blockBytes_congr e.data data hd]

/-- After `lcloud_putcache` of another key a lookup finds what it found before, or nothing. -/
theorem getcache_after_put_other (did sec blk d2 s2 b2 : Int) (data2 : Buf) (s : CacheState)
    (k : Nat) (hf : CacheFill s k) (hne : ¬ (d2 = did ∧ u16 s2 = u16 sec ∧ u16 b2 = u16 blk)) :
    (lcloud_getcache did sec blk (lcloud_putcache d2 s2 b2 data2 s).2).1 =
        (lcloud_getcache did sec blk s).1 ∨
      (lcloud_getcache did sec blk (lcloud_putcache d2 s2 b2 data2 s).2).1 = none := by
  obtain ⟨-, j, e, k2, hj, hc, hk, hd, hf2⟩ := lcloud_putcache_effect d2 s2 b2 data2 s k hf
  cases hv : (lcloud_getcache did sec blk (lcloud_putcache d2 s2 b2 data2 s).2).1 with
  | none => right; rfl
  | some d =>
    left
    obtain ⟨i, e1, h1, h2, h3⟩ := getcache_slot_of_some did sec blk _ d hv
    rw [hc, get?_set_eq_cases] at h1
    split_ifs at h1 with c
    · exfalso
      simp only [Option.some.injEq] at h1
      rw [← h1] at h2
      have a := (keyMatch_iff _ _ _ _).1 hk
      have b := (keyMatch_iff _ _ _ _).1 h2
      exact hne ⟨a.1.symm.trans b.1, a.2.2.symm.trans b.2.2, a.2.1.symm.trans b.2.1⟩
    · rw [getcache_some_of_slot did sec blk s k hf i e1 h1 h2, h3]

/-- Calls other than a `lcloud_putcache` of the key keep "the lookup finds these bytes or
nothing". -/
theorem holdsOrGone_step (did sec blk : Int) (data : Buf) (c : CacheCall) (s : CacheState)
    (hok : CacheOK s) (hc : ¬ c.putsKey did sec blk) (h : HoldsOrGone did sec blk data s) :
    HoldsOrGone did sec blk data (runCache c s) := by
  obtain ⟨k, hf⟩ := hok
  cases c with
  | get d2 s2 b2 =>
    show HoldsOrGone did sec blk data (lcloud_getcache d2 s2 b2 s).2
    unfold HoldsOrGone
    rw [getcache_after_get did sec blk d2 s2 b2 s k hf]
    exact h
  | put d2 s2 b2 data2 =>
    show HoldsOrGone did sec blk data (lcloud_putcache d2 s2 b2 data2 s).2
    unfold HoldsOrGone
    rcases getcache_after_put_other did sec blk d2 s2 b2 data2 s k hf hc with e | e
    · rw [e]; exact h
    · right; exact e

/-- A lookup that returns data counts as a hit. -/
theorem getcache_hit_counts (did sec blk : Int) (s : CacheState)
    (h : (lcloud_getcache did sec blk s).1 ≠ none) :
    (lcloud_getcache did sec blk s).2.cacheHits = s.cacheHits + 1 := by
  unfold lcloud_getcache at h ⊢
  cases hl : getcacheLoop did (u16 sec) (u16 blk) s.cache 0 with
  | none => rw [hl] at h; exact absurd rfl h
  | some i =>
    rw [hl] at h
    dsimp only at h ⊢
    cases hi : s.cache.get? i with
    | none => rw [hi] at h; exact absurd rfl h
    | some e => rfl

theorem runCache_ok (c : CacheCall) (s : CacheState) (hok : CacheOK s) :
    CacheOK (runCache c s) := by
  obtain ⟨k, hk⟩ := hok
  cases c with
  | get did sec blk => exact ⟨k, lcloud_getcache_fill did sec blk _ k hk⟩
  | put did sec blk data =>
    obtain ⟨-, j, e, k2, -, -, -, -, hk2⟩ := lcloud_putcache_effect did sec blk data _ k hk
    exact ⟨k2, hk2⟩

theorem holdsOrGone_calls (did sec blk : Int) (data : Buf) : ∀ (calls : List CacheCall)
    (s : CacheState), CacheOK s → (∀ c ∈ calls, ¬ c.putsKey did sec blk) →
    HoldsOrGone did sec blk data s → HoldsOrGone did sec blk data (runCacheCalls calls s) := by
  intro calls
  induction calls with
  | nil => intro s _ _ h; exact h
  | cons c rest ih =>
    intro s hok hc h
    show HoldsOrGone did sec blk data (runCacheCalls rest (runCache c s))
    exact ih _ (runCache_ok c s hok) (fun x hx => hc x (List.mem_cons_of_mem _ hx))
      (holdsOrGone_step did sec blk data c s hok (hc c (List.mem_cons_self _ _)) h)

end LCloud

namespace LCloud

/-! ## Cache coherence -/

theorem u16_of_range (x : Int) (h0 : 0 ≤ x) (h1 : x < 65536) : u16 x = x := by
  unfold u16
  omega

theorem slotKey_of_match (e : cacheBlock) (b : block) (hb : Addressable b)
    (h : keyMatch e b.device (u16 b.sector) (u16 b.blockNum) = true) : slotKey e = b := by
  obtain ⟨h1, h2, h3⟩ := (keyMatch_iff _ _ _ _).1 h
  obtain ⟨-, -, a3, a4, a5, a6⟩ := hb
  rw [u16_of_range _ a5 a6] at h2
  rw [u16_of_range _ a3 a4] at h3
  cases b
  simp only [slotKey, block.mk.injEq]
  exact ⟨h1, h3, h2⟩

theorem match_of_slotKey (e : cacheBlock) (b : block) (hb : Addressable b)
    (h : slotKey e = b) : keyMatch e b.device (u16 b.sector) (u16 b.blockNum) = true := by
  obtain ⟨-, -, a3, a4, a5, a6⟩ := hb
  rw [u16_of_range _ a5 a6, u16_of_range _ a3 a4, keyMatch_iff, ← h]
  exact ⟨rfl, rfl, rfl⟩

theorem sameMem_refl {σ : Type} (mem : σ → block → Buf) (w : σ) : SameMem mem w w :=
  fun _ _ _ _ => rfl

theorem sameMem_trans {σ : Type} {mem : σ → block → Buf} {w w2 w3 : σ}
    (h1 : SameMem mem w w2) (h2 : SameMem mem w2 w3) : SameMem mem w w3 :=
  fun c hc x hx => (h2 c hc x hx).trans (h1 c hc x hx)

theorem coherent_sameMem {σ : Type} (mem : σ → block → Buf) (cs : CacheState) (w w2 : σ)
    (h : Coherent mem cs w) (hm : SameMem mem w w2) : Coherent mem cs w2 := by
  refine ⟨h.1, fun i e hi hb => ?_⟩
  obtain ⟨a1, a2⟩ := h.2 i e hi hb
  exact ⟨a1, fun x hx => (a2 x hx).trans (hm _ a1 x hx).symm⟩

theorem contentOK_sameMem {σ : Type} (mem : σ → block → Buf) (w w2 : σ) (views : List View)
    (hadd : ∀ i v, views.get? i = some v → ∀ b ∈ v.blocks, Addressable b)
    (hlen : ∀ i v, views.get? i = some v → v.size ≤ 256 * v.blocks.length)
    (h : ContentOK mem w views) (hm : SameMem mem w w2) : ContentOK mem w2 views := by
  intro i v hv p hp
  have hl := hlen i v hv
  have hidx : p / 256 < v.blocks.length := by omega
  rw [hm _ (hadd i v hv _ (by rw [List.getD_eq_getElem _ _ hidx]; exact List.getElem_mem _))
    _ (Nat.mod_lt _ (by norm_num))]
  exact h i v hv p hp

/-- A lookup leaves the cache coherent. -/
theorem coherent_getcache {σ : Type} (mem : σ → block → Buf) (cs : CacheState) (w : σ)
    (did sec blk : Int) (h : Coherent mem cs w) :
    Coherent mem (lcloud_getcache did sec blk cs).2 w := by
  obtain ⟨⟨k, hk⟩, hc⟩ := h
  refine ⟨⟨k, lcloud_getcache_fill did sec blk cs k hk⟩, fun i e1 hi hb => ?_⟩
  obtain ⟨e, g1, g2, g3, g4, g5⟩ := getcache_slot_back did sec blk cs i e1 hi
  have hkey : slotKey e1 = slotKey e := by
    unfold slotKey; rw [g2, g3, g4]
  rw [hkey, ← g5]
  exact hc i e g1 (by rw [g4]; exact hb)

/-- Putting into the cache the bytes that the world holds for a block leaves the cache
coherent. -/
theorem coherent_putcache {σ : Type} (mem : σ → block → Buf) (cs : CacheState) (w : σ)
    (b : block) (data : Buf) (hb : Addressable b) (h : Coherent mem cs w)
    (hd : ∀ x, x < 256 → data x = mem w b x) :
    Coherent mem (lcloud_putcache b.device b.sector b.blockNum data cs).2 w := by
  obtain ⟨⟨k, hk⟩, hc⟩ := h
  obtain ⟨-, j, e, k2, hj, hset, hkm, hdat, hf2⟩ :=
    lcloud_putcache_effect b.device b.sector b.blockNum data cs k hk
  refine ⟨⟨k2, hf2⟩, fun i e1 hi hbk => ?_⟩
  rw [hset, get?_set_eq_cases] at hi
  split_ifs at hi with c
  · simp only [Option.some.injEq] at hi
    subst hi
    rw [slotKey_of_match e b hb hkm]
    exact ⟨hb, fun x hx => (hdat x hx).trans (hd x hx)⟩
  · exact hc i e1 hi hbk

/-- Sending a block to a storing controller and putting the same bytes into the cache leaves
the cache coherent. -/
theorem coherent_write_put {σ : Type} (K : Consts) (bus : Bus σ) (mem : σ → block → Buf)
    (hbus : StoringBus K bus mem) (cs : CacheState) (w : σ) (b : block) (data : Buf)
    (hb : Addressable b) (h : Coherent mem cs w) :
    Coherent mem (lcloud_putcache b.device b.sector b.blockNum data cs).2
      (bus w (xferFrame K K.LC_XFER_WRITE b) data).2.2 := by
  obtain ⟨⟨k, hk⟩, hc⟩ := h
  obtain ⟨-, j, e, k2, hj, hset, hkm, hdat, hf2⟩ :=
    lcloud_putcache_effect b.device b.sector b.blockNum data cs k hk
  have hgetj : (lcloud_putcache b.device b.sector b.blockNum data cs).2.cache.get? j =
      some e := by
    rw [hset, get?_set_eq_cases, if_pos ⟨rfl, hj⟩]
  have hkeyj := slotKey_of_match e b hb hkm
  refine ⟨⟨k2, hf2⟩, fun i e1 hi hbk => ?_⟩
  have hi0 := hi
  rw [hset, get?_set_eq_cases] at hi
  split_ifs at hi with c
  · simp only [Option.some.injEq] at hi
    subst hi
    rw [hkeyj]
    exact ⟨hb, fun x hx => (hdat x hx).trans (hbus.write_mem w b data hb x hx).symm⟩
  · obtain ⟨a1, a2⟩ := hc i e1 hi hbk
    refine ⟨a1, fun x hx => ?_⟩
    have hne : slotKey e1 ≠ b := by
      intro heq
      have hm1 := (keyMatch_iff _ _ _ _).1 (match_of_slotKey e1 b hb heq)
      have hm2 := (keyMatch_iff _ _ _ _).1 hkm
      have := hf2.2.2.2.2.2.2 i j e1 e hi0 hgetj (hm1.1.trans hm2.1.symm)
        (hm1.2.2.trans hm2.2.2.symm) (hm1.2.1.trans hm2.2.1.symm) hbk
      exact c ⟨this.symm, hj⟩
    rw [hbus.write_other w b (slotKey e1) data hb a1 hne x hx]
    exact a2 x hx

/-- The block load of `lcread` with a storing controller and a coherent cache: it succeeds,
`buf_256` then holds the bytes of the block, the cache stays coherent and the world keeps
its content. -/
theorem loadBlock_spec {σ : Type} (K : Consts) (bus : Bus σ) (mem : σ → block → Buf)
    (hbus : StoringBus K bus mem) (b : block) (hb : Addressable b) (buf_256 : Buf)
    (cs : CacheState) (w : σ) (h : Coherent mem cs w) :
    (loadBlock K bus b buf_256 cs w).1 = true ∧
    (∀ x, x < 256 → (loadBlock K bus b buf_256 cs w).2.1 x = mem w b x) ∧
    Coherent mem (loadBlock K bus b buf_256 cs w).2.2.1 (loadBlock K bus b buf_256 cs w).2.2.2 ∧
    SameMem mem w (loadBlock K bus b buf_256 cs w).2.2.2 := by
  have hget := coherent_getcache mem cs w b.device b.sector b.blockNum h
  unfold loadBlock
  dsimp only
  cases hg : (lcloud_getcache b.device b.sector b.blockNum cs).1 with
  | some data =>
    dsimp only
    obtain ⟨i, e, h1, h2, h3⟩ := getcache_slot_of_some _ _ _ cs data hg
    have hkey := slotKey_of_match e b hb h2
    have hocc : 0 ≤ e.block := by
      rw [((keyMatch_iff _ _ _ _).1 h2).2.1]; exact (u16_range _).1
    obtain ⟨-, a2⟩ := h.2 i e h1 hocc
    refine ⟨rfl, fun x hx => ?_, hget, sameMem_refl mem w⟩
    rw [memcpy_block _ _ x hx, ← h3, a2 x hx, hkey]
  | none =>
    dsimp only
    have hok := hbus.read_ok w b buf_256 hb
    have hbuf := hbus.read_buf w b buf_256 hb
    have hmem : SameMem mem w (bus w (xferFrame K K.LC_XFER_READ b) buf_256).2.2 :=
      fun c hc x hx => hbus.read_mem w b c buf_256 hb hc x hx
    unfold xferFrame at hok hbuf
    rw [hok]
    simp only [Bool.false_eq_true, if_false]
    refine ⟨trivial, hbuf, ?_, hmem⟩
    apply coherent_putcache mem _ _ b _ hb (coherent_sameMem mem _ w _ hget hmem)
    intro x hx
    rw [hbuf x hx, hmem b hb x hx]

end LCloud

namespace LCloud

/-! ## What `lcread` delivers -/

theorem memcpy_in (dst : Buf) (doff : Nat) (src : Buf) (soff n j : Nat) (h1 : doff ≤ j)
    (h2 : j < doff + n) : memcpy dst doff src soff n j = src (soff + (j - doff)) := by
  unfold memcpy
  rw [if_pos ⟨h1, h2⟩]

theorem memcpy_out (dst : Buf) (doff : Nat) (src : Buf) (soff n j : Nat)
    (h : j < doff ∨ doff + n ≤ j) : memcpy dst doff src soff n j = dst j := by
  unfold memcpy
  rw [if_neg (by omega)]

theorem addressable_blockAt (f : file) (i : Nat) (hadd : ∀ b ∈ f.blocks, Addressable b)
    (hi : i < f.blocks.length) : Addressable (blockAt f i) := by
  unfold blockAt
  rw [List.getD_eq_getElem _ _ hi]
  exact hadd _ (List.getElem_mem _)

/-- The loop of `lcread` with a storing controller and a coherent cache, for a request that
ends inside the block list: it returns `bytesRead + len`, advances the position by `len` and
fills the caller's buffer from `bytesRead` on with the bytes that the world holds for the
blocks of the file at the positions read; the rest of the buffer, the content of the world
and the coherence of the cache are kept. -/
theorem lcreadLoop_spec {σ : Type} (K : Consts) (bus : Bus σ) (mem : σ → block → Buf)
    (hbus : StoringBus K bus mem) (fuel : Nat) :
    ∀ (f : file) (cs : CacheState) (w : σ) (buf : Buf) (br len i : Nat) (b256 : Buf),
      len < fuel → (len = 0 ∨ i = f.position / 256) →
      f.position + len ≤ 256 * f.blocks.length → len < 2 ^ 39 →
      (∀ b ∈ f.blocks, Addressable b) → Coherent mem cs w →
      (lcreadLoop K bus fuel f cs w buf br len i b256).ret = ((br + len : Nat) : Int) ∧
      (lcreadLoop K bus fuel f cs w buf br len i b256).f.position = f.position + len ∧
      (∀ j, j < br → (lcreadLoop K bus fuel f cs w buf br len i b256).buf j = buf j) ∧
      (∀ j, j < len → (lcreadLoop K bus fuel f cs w buf br len i b256).buf (br + j) =
        mem w (blockAt f ((f.position + j) / 256)) ((f.position + j) % 256)) ∧
      (∀ j, br + len ≤ j → (lcreadLoop K bus fuel f cs w buf br len i b256).buf j = buf j) ∧
      Coherent mem (lcreadLoop K bus fuel f cs w buf br len i b256).cs
        (lcreadLoop K bus fuel f cs w buf br len i b256).world ∧
      SameMem mem w (lcreadLoop K bus fuel f cs w buf br len i b256).world := by
  induction fuel with
  | zero => intro f cs w buf br len i b256 h; omega
  | succ fuel ih =>
    intro f cs w buf br len i b256 hfuel hi hend hcap hadd hco
    rw [lcreadLoop_small K bus fuel f cs w buf br len i b256 hcap]
    simp only [mark_ret, mark_buf, mark_f, mark_cs, mark_world]
    by_cases hlen : len = 0
    · subst hlen
      rw [if_neg (by omega)]
      exact ⟨rfl, rfl, fun _ _ => rfl, fun j hj => by omega, fun _ _ => rfl, hco,
        sameMem_refl mem w⟩
    have hipos : i = f.position / 256 := by
      rcases hi with h | h
      · exact absurd h hlen
      · exact h
    have hil : i < f.blocks.length := by omega
    have haddr := addressable_blockAt f i hadd hil
    have hcond : len > 0 ∧ (blockAt f i).blockNum ≠ -1 := by
      refine ⟨by omega, ?_⟩
      have := haddr.2.2.2.2.1
      omega
    obtain ⟨l1, l2, l3, l4⟩ := loadBlock_spec K bus mem hbus (blockAt f i) haddr b256 cs w hco
    have same_block : ∀ j, f.position % 256 + j < 256 →
        (f.position + j) / 256 = i ∧ (f.position + j) % 256 = f.position % 256 + j := by
      intro j hj; omega
    rw [if_pos hcond]
    generalize loadBlock K bus (blockAt f i) b256 cs w = l at l1 l2 l3 l4
    by_cases c1 : f.position % 256 ≠ 0 ∧ f.position % 256 + len > 256
    · rw [if_pos c1, if_pos l1]
      obtain ⟨r1, r2, r3, r4, r5, r6, r7⟩ := ih
        { f with position := f.position + (256 - f.position % 256) } l.2.2.1 l.2.2.2
        (memcpy buf br l.2.1 (f.position % 256) (256 - f.position % 256))
        (br + (256 - f.position % 256)) (len - (256 - f.position % 256)) (i + 1) l.2.1
        (by omega) (by right; show i + 1 = (f.position + (256 - f.position % 256)) / 256; omega)
        (by show f.position + (256 - f.position % 256) + (len - (256 - f.position % 256)) ≤
              256 * f.blocks.length
            omega) (by omega) hadd l3
      refine ⟨?_, ?_, ?_, ?_, ?_, r6, sameMem_trans l4 r7⟩
      · rw [r1]; omega
      · rw [r2]; show f.position + (256 - f.position % 256) + _ = _; omega
      · intro j hj
        rw [r3 j (by omega), memcpy_out _ _ _ _ _ _ (Or.inl hj)]
      · intro j hj
        by_cases hjn : j < 256 - f.position % 256
        · rw [r3 (br + j) (by omega), memcpy_in _ _ _ _ _ _ (by omega) (by omega)]
          obtain ⟨e1, e2⟩ := same_block j (by omega)
          rw [e1, e2, l2 _ (by omega)]
          congr 1; omega
        · have := r4 (j - (256 - f.position % 256)) (by omega)
          have e : br + (256 - f.position % 256) + (j - (256 - f.position % 256)) = br + j := by
            omega
          rw [e] at this
          rw [this]
          have e2 : f.position + (256 - f.position % 256) + (j - (256 - f.position % 256)) =
              f.position + j := by omega
          show mem l.2.2.2 (blockAt f ((f.position + (256 - f.position % 256) +
            (j - (256 - f.position % 256))) / 256)) ((f.position + (256 - f.position % 256) +
            (j - (256 - f.position % 256))) % 256) = _
          rw [e2]
          exact l4 _ (addressable_blockAt f _ hadd (by omega)) _ (Nat.mod_lt _ (by norm_num))
      · intro j hj
        rw [r5 j (by omega), memcpy_out _ _ _ _ _ _ (Or.inr (by omega))]
    · rw [if_neg c1]
      by_cases c2 : len / 256 > 0
      · rw [if_pos c2, if_pos l1]
        have hlen256 : 256 ≤ len := by
          by_contra hl
          have : len / 256 = 0 := Nat.div_eq_of_lt (by omega)
          omega
        have hal : f.position % 256 = 0 := by
          by_contra hne
          exact c1 ⟨hne, by omega⟩
        obtain ⟨r1, r2, r3, r4, r5, r6, r7⟩ := ih
          { f with position := f.position + 256 } l.2.2.1 l.2.2.2
          (memcpy buf br l.2.1 0 256) (br + 256) (len - 256) (i + 1) l.2.1
          (by omega) (by right; show i + 1 = (f.position + 256) / 256; omega)
          (by show f.position + 256 + (len - 256) ≤ 256 * f.blocks.length; omega) (by omega) hadd l3
        refine ⟨?_, ?_, ?_, ?_, ?_, r6, sameMem_trans l4 r7⟩
        · rw [r1]; omega
        · rw [r2]; show f.position + 256 + _ = _; omega
        · intro j hj
          rw [r3 j (by omega), memcpy_out _ _ _ _ _ _ (Or.inl hj)]
        · intro j hj
          by_cases hjn : j < 256
          · rw [r3 (br + j) (by omega), memcpy_in _ _ _ _ _ _ (by omega) (by omega)]
            obtain ⟨e1, e2⟩ := same_block j (by omega)
            rw [e1, e2, l2 _ (by omega)]
            congr 1; omega
          · have := r4 (j - 256) (by omega)
            have e : br + 256 + (j - 256) = br + j := by omega
            rw [e] at this
            rw [this]
            have e2 : f.position + 256 + (j - 256) = f.position + j := by omega
            show mem l.2.2.2 (blockAt f ((f.position + 256 + (j - 256)) / 256))
              ((f.position + 256 + (j - 256)) % 256) = _
            rw [e2]
            exact l4 _ (addressable_blockAt f _ hadd (by omega)) _
              (Nat.mod_lt _ (by norm_num))
        · intro j hj
          rw [r5 j (by omega), memcpy_out _ _ _ _ _ _ (Or.inr (by omega))]
      · rw [if_neg c2]
        have hlt : len < 256 := by
          by_contra hl
          have : 1 ≤ len / 256 := (Nat.one_le_div_iff (by norm_num)).2 (by omega)
          omega
        rw [if_pos l1]
        have hfit : f.position % 256 + len ≤ 256 := by
          by_contra hgt
          by_cases h0 : f.position % 256 = 0
          · omega
          · exact c1 ⟨h0, by omega⟩
        have hmod : len % 256 = len := Nat.mod_eq_of_lt hlt
        rw [hmod]
        obtain ⟨r1, r2, r3, r4, r5, r6, r7⟩ := ih
          { f with position := f.position + len } l.2.2.1 l.2.2.2
          (memcpy buf br l.2.1 (f.position % 256) len) (br + len) (len - len) i l.2.1
          (by omega) (by left; omega)
          (by show f.position + len + (len - len) ≤ 256 * f.blocks.length; omega) (by omega)
          hadd l3
        refine ⟨?_, ?_, ?_, ?_, ?_, r6, sameMem_trans l4 r7⟩
        · rw [r1]; omega
        · rw [r2]; show f.position + len + _ = _; omega
        · intro j hj
          rw [r3 j (by omega), memcpy_out _ _ _ _ _ _ (Or.inl hj)]
        · intro j hj
          rw [r3 (br + j) (by omega), memcpy_in _ _ _ _ _ _ (by omega) (by omega)]
          obtain ⟨e1, e2⟩ := same_block j (by omega)
          rw [e1, e2, l2 _ (by omega)]
          congr 1; omega
        · intro j hj
          rw [r5 j (by omega), memcpy_out _ _ _ _ _ _ (Or.inr (by omega))]

/-- `lcread` on an open descriptor with a storing controller and a coherent cache, for a
request that ends inside the block list. -/
theorem readFile_spec {σ : Type} (K : Consts) (bus : Bus σ) (mem : σ → block → Buf)
    (hbus : StoringBus K bus mem) (junk : Buf) (f : file) (cs : CacheState) (w : σ)
    (buf : Buf) (len : Nat) (hopen : f.opened ≠ 0)
    (hend : f.position + len ≤ 256 * f.blocks.length) (hcap : len < 2 ^ 39)
    (hadd : ∀ b ∈ f.blocks, Addressable b) (hco : Coherent mem cs w) :
    (readFile K bus junk f cs w buf len).ret = (len : Int) ∧
    (readFile K bus junk f cs w buf len).f.position = f.position + len ∧
    (∀ j, j < len → (readFile K bus junk f cs w buf len).buf j =
      mem w (blockAt f ((f.position + j) / 256)) ((f.position + j) % 256)) ∧
    (∀ j, len ≤ j → (readFile K bus junk f cs w buf len).buf j = buf j) ∧
    Coherent mem (readFile K bus junk f cs w buf len).cs
      (readFile K bus junk f cs w buf len).world ∧
    SameMem mem w (readFile K bus junk f cs w buf len).world := by
  unfold readFile
  rw [if_neg hopen]
  obtain ⟨r1, r2, -, r4, r5, r6, r7⟩ := lcreadLoop_spec K bus mem hbus (len + 1) f cs w buf 0
    len (f.position / 256) junk (by omega) (Or.inr rfl) hend hcap hadd hco
  refine ⟨?_, r2, ?_, ?_, r6, r7⟩
  · rw [r1]; omega
  · intro j hj
    have := r4 j hj
    rw [Nat.zero_add] at this
    exact this
  · intro j hj
    exact r5 j (by omega)

end LCloud

namespace LCloud

/-! ## What the chunks of `lcwrite` store -/

theorem markUsed_length (devOn : List device) (dev sector blk : Int) :
    (markUsed devOn dev sector blk).length = devOn.length := by
  unfold markUsed
  split_ifs with h1
  · split
    · split_ifs
      · rw [List.length_set]
      · rfl
    · rfl
  · rfl

/-- A claimed block has an address that fits the request frame. -/
theorem addressable_of_inRange (devOn : List device) (b : block) (d : device)
    (hlen : devOn.length = 16) (hd : ∀ e ∈ devOn, DevOK e) (h : InRange devOn b d) :
    Addressable b := by
  obtain ⟨h1, h2, h3, h4, h5, h6, h7⟩ := h
  obtain ⟨a1, a2, a3, a4, -⟩ := hd d (List.get?_mem h2) h3
  rcases List.get?_eq_some.1 h2 with ⟨hlt, -⟩
  refine ⟨h1, ?_, h4, by omega, h6, by omega⟩
  omega

theorem addressable_of_claimed (devOn : List device) (b : block)
    (hlen : devOn.length = 16) (hd : ∀ e ∈ devOn, DevOK e) (h : Claimed devOn b) :
    Addressable b := by
  obtain ⟨d, hr, -⟩ := h
  exact addressable_of_inRange devOn b d hlen hd hr

/-- The pre-fetch of `lcwrite` with a storing controller and a coherent cache, from the start
of a block of the file: `buf_256` then holds the bytes of that block. -/
theorem prefetch_spec {σ : Type} (K : Consts) (bus : Bus σ) (mem : σ → block → Buf)
    (hbus : StoringBus K bus mem) (junk : Buf) (target : Nat) (st : WState σ)
    (hopen : st.f.opened ≠ 0) (ht : target ≤ st.f.size) (hal : target % 256 = 0)
    (hidx : target / 256 < st.f.blocks.length)
    (hadd : ∀ b ∈ st.f.blocks, Addressable b) (hco : Coherent mem st.cs st.world) :
    (∀ x, x < 256 → (prefetch K bus junk target st).buf_256 x =
      mem st.world (blockAt st.f (target / 256)) x) ∧
    Coherent mem (prefetch K bus junk target st).cs (prefetch K bus junk target st).world ∧
    SameMem mem st.world (prefetch K bus junk target st).world := by
  have hseek : (seekFile st.f target).2 = { st.f with position := target } := by
    unfold seekFile
    rw [if_neg hopen, if_neg (by omega)]
  obtain ⟨-, -, r3, -, r5, r6⟩ := readFile_spec K bus mem hbus junk (seekFile st.f target).2
    st.cs st.world st.buf_256 256 (by rw [hseek]; exact hopen)
    (by rw [hseek]; show target + 256 ≤ 256 * st.f.blocks.length; omega) (by norm_num)
    (by rw [hseek]; exact hadd) hco
  refine ⟨fun x hx => ?_, r5, r6⟩
  have := r3 x hx
  rw [hseek] at this
  show (readFile K bus junk (seekFile st.f target).2 st.cs st.world st.buf_256 256).buf x = _
  rw [hseek, this]
  show mem st.world (blockAt st.f ((target + x) / 256)) ((target + x) % 256) = _
  have e1 : (target + x) / 256 = target / 256 := by omega
  have e2 : (target + x) % 256 = x := by omega
  rw [e1, e2]

/-- The block-write request of `lcwrite` with a storing controller: it succeeds and leaves the
buffer as it is. -/
theorem sendBlock_spec {σ : Type} (K : Consts) (bus : Bus σ) (mem : σ → block → Buf)
    (hbus : StoringBus K bus mem) (b : block) (hb : Addressable b) (buf_256 : Buf) (w : σ) :
    sendBlock K bus b buf_256 w =
      (true, buf_256, (bus w (xferFrame K K.LC_XFER_WRITE b) buf_256).2.2) := by
  have hok := hbus.write_ok w b buf_256 hb
  have hbuf := hbus.write_buf w b buf_256 hb
  have hne : xferFrame K K.LC_XFER_WRITE b ≠ frameError := by
    intro heq
    unfold respBad at hok
    rw [heq] at hok
    simp at hok
  unfold xferFrame at hok hbuf hne
  unfold sendBlock
  dsimp only
  rw [if_neg hne, hok, hbuf]
  rfl

/-- The memory argument shared by the chunks of `lcwrite`: the world changes in one block,
which the file of handle `fh` has at index `idx` afterwards and which no other place of the
block lists holds; if the new bytes of that block are the written bytes of the file there,
the world holds the written bytes of all files again. -/
theorem contentOK_update {σ : Type} (mem : σ → block → Buf) (w w2 : σ) (views : List View)
    (fh : Nat) (bl bl2 : List block) (sz sz2 : Nat) (G G2 : Buf) (nb : block)
    (idx : Nat) (newdata : Buf)
    (hcur : ContentOK mem w (views.set fh { blocks := bl, size := sz, ghost := G }))
    (hU1 : ∀ x, x < 256 → mem w2 nb x = newdata x)
    (hU2 : ∀ c, Addressable c → c ≠ nb → ∀ x, x < 256 → mem w2 c x = mem w c x)
    (hL1 : ∀ j, j ≠ idx → bl2.getD j noBlock = bl.getD j noBlock)
    (hL2 : bl2.getD idx noBlock = nb)
    (hD1 : ∀ i v, i ≠ fh → views.get? i = some v → ∀ b ∈ v.blocks, b ≠ nb ∧ Addressable b)
    (hD2 : ∀ j, j ≠ idx → j < bl.length →
      bl.getD j noBlock ≠ nb ∧ Addressable (bl.getD j noBlock))
    (hS : ∀ i v, i ≠ fh → views.get? i = some v → v.size ≤ 256 * v.blocks.length)
    (hP : ∀ p, p < sz2 → (p / 256 = idx → newdata (p % 256) = G2 p) ∧
      (p / 256 ≠ idx → p < sz ∧ p / 256 < bl.length ∧ G2 p = G p)) :
    ContentOK mem w2 (views.set fh { blocks := bl2, size := sz2, ghost := G2 }) := by
  intro i v hv p hp
  rw [get?_set_eq_cases] at hv
  split_ifs at hv with c
  · simp only [Option.some.injEq] at hv
    subst hv
    obtain ⟨hp1, hp2⟩ := hP p hp
    show mem w2 (bl2.getD (p / 256) noBlock) (p % 256) = G2 p
    by_cases hi : p / 256 = idx
    · rw [hi, hL2, hU1 _ (Nat.mod_lt _ (by norm_num))]
      exact hp1 hi
    · obtain ⟨q1, q2, q3⟩ := hp2 hi
      obtain ⟨d1, d2⟩ := hD2 _ hi q2
      rw [hL1 _ hi, hU2 _ d2 d1 _ (Nat.mod_lt _ (by norm_num)), q3]
      have := hcur fh { blocks := bl, size := sz, ghost := G }
        (by rw [get?_set_eq_cases, if_pos ⟨rfl, c.2⟩]) p q1
      exact this
  · have hif : i ≠ fh := by
      intro heq
      apply c
      refine ⟨heq.symm, ?_⟩
      rcases List.get?_eq_some.1 hv with ⟨hlt, -⟩
      omega
    have hl := hS i v hif hv
    have hidx : p / 256 < v.blocks.length := by omega
    obtain ⟨d1, d2⟩ := hD1 i v hif hv (v.blocks.getD (p / 256) noBlock)
      (by rw [List.getD_eq_getElem _ _ hidx]; exact List.getElem_mem _)
    rw [hU2 _ d2 d1 _ (Nat.mod_lt _ (by norm_num))]
    exact hcur i v (by rw [get?_set_eq_cases, if_neg (fun h => hif h.1.symm)]; exact hv) p hp

end LCloud

namespace LCloud

/-! ## The in-block chunk of `lcwrite` with a storing controller -/

/-- What the agreement of block lists and allocation bits says about the list of one handle
and the lists of the views of the other handles. -/
theorem listed_facts (views : List View) (fh : Nat) (bl : List block) (devOn : List device)
    (hfh : fh < views.length)
    (hblk : BlocksOK ((views.map (fun v => v.blocks)).set fh bl) devOn) :
    (∀ b ∈ bl, Claimed devOn b) ∧
    (∀ i v, i ≠ fh → views.get? i = some v → ∀ b ∈ v.blocks, Claimed devOn b) ∧
    (∀ idx, idx < bl.length → ∀ i v, i ≠ fh → views.get? i = some v →
      ∀ b ∈ v.blocks, b ≠ bl.getD idx noBlock) ∧
    (∀ idx, idx < bl.length → ∀ j, j ≠ idx → j < bl.length →
      bl.getD j noBlock ≠ bl.getD idx noBlock) := by
  have hself : ((views.map (fun v => v.blocks)).set fh bl).get? fh = some bl := by
    rw [get?_set_eq_cases, if_pos ⟨rfl, by rw [List.length_map]; exact hfh⟩]
  have hother : ∀ i v, i ≠ fh → views.get? i = some v →
      ((views.map (fun v => v.blocks)).set fh bl).get? i = some v.blocks := by
    intro i v hi hv
    rw [get?_set_eq_cases, if_neg (fun h => hi h.1.symm), List.get?_eq_getElem?,
      List.getElem?_map, ← List.get?_eq_getElem?, hv]
    rfl
  have hget : ∀ idx, idx < bl.length → bl.get? idx = some (bl.getD idx noBlock) := by
    intro idx hidx
    rw [List.getD_eq_getElem _ _ hidx, List.get?_eq_get hidx]
    rfl
  refine ⟨hblk.1 _ (List.get?_mem hself),
    fun i v hi hv => hblk.1 _ (List.get?_mem (hother i v hi hv)), ?_, ?_⟩
  · intro idx hidx i v hi hv b hb heq
    obtain ⟨a, ha⟩ := List.get?_of_mem hb
    rw [heq] at ha
    exact hi (hblk.2 i fh a idx _ _ _ (hother i v hi hv) hself ha (hget idx hidx)).1
  · intro idx hidx j hj hjl heq
    have hg := hget j hjl
    rw [heq] at hg
    exact hj (hblk.2 fh fh j idx _ _ _ hself hself hg (hget idx hidx)).2

/-- The in-block chunk of `lcwrite` with a storing controller, on a block with an address
that fits the request frame: the request succeeds; cache and world afterwards. -/
theorem writeInBlock_run {σ : Type} (K : Consts) (bus : Bus σ) (mem : σ → block → Buf)
    (hbus : StoringBus K bus mem) (junk buf : Buf) (idx target n : Nat) (st : WState σ)
    (hb : Addressable (blockAt st.f idx)) :
    (writeInBlock K bus junk buf idx target n st).1 = true ∧
    (writeInBlock K bus junk buf idx target n st).2.cs =
      (lcloud_putcache (blockAt st.f idx).device (blockAt st.f idx).sector
        (blockAt st.f idx).blockNum
        (memcpy (prefetch K bus junk target st).buf_256 (st.f.position % 256) buf
          st.bytesWrote n) (prefetch K bus junk target st).cs).2 ∧
    (writeInBlock K bus junk buf idx target n st).2.world =
      (bus (prefetch K bus junk target st).world (xferFrame K K.LC_XFER_WRITE (blockAt st.f idx))
        (memcpy (prefetch K bus junk target st).buf_256 (st.f.position % 256) buf
          st.bytesWrote n)).2.2 := by
  obtain ⟨p1, -, p3, -⟩ := prefetch_frame K bus junk target st
  unfold writeInBlock
  dsimp only
  rw [sendBlock_spec K bus mem hbus _ hb, p1, p3]
  exact ⟨rfl, rfl, rfl⟩

/-- Claimed blocks of all views. -/
theorem views_addressable (views : List View) (fh : Nat) (V : View) (devOn : List device)
    (h16 : devOn.length = 16) (hdev : ∀ d ∈ devOn, DevOK d)
    (hblk : BlocksOK ((views.map (fun v => v.blocks)).set fh V.blocks) devOn) :
    ∀ i v, (views.set fh V).get? i = some v → ∀ b ∈ v.blocks, Addressable b := by
  intro i v hv b hb
  apply addressable_of_claimed devOn b h16 hdev
  apply hblk.1 v.blocks _ b hb
  have : (views.map (fun v => v.blocks)).set fh V.blocks =
      (views.set fh V).map (fun v => v.blocks) := by
    rw [List.map_set]
  rw [this]
  exact List.mem_map_of_mem _ (List.get?_mem hv)

theorem views_shape (views : List View) (fh : Nat) (V : View)
    (hS : ∀ i v, i ≠ fh → views.get? i = some v → v.size ≤ 256 * v.blocks.length)
    (hV : V.size ≤ 256 * V.blocks.length) :
    ∀ i v, (views.set fh V).get? i = some v → v.size ≤ 256 * v.blocks.length := by
  intro i v hv
  rcases get?_set_cases _ _ _ _ _ hv with ⟨-, e⟩ | ⟨hi, e⟩
  · rw [e]; exact hV
  · exact hS i v hi e

end LCloud

namespace LCloud

/-- The in-block chunk of `lcwrite` with a storing controller keeps cache and world in
agreement with the bytes written: the bytes of the chunk are added to the written bytes of
the file, and no other written byte of any file changes. -/
theorem writeInBlock_data {σ : Type} (K : Consts) (bus : Bus σ) (mem : σ → block → Buf)
    (hbus : StoringBus K bus mem) (junk buf : Buf) (views : List View) (fh : Nat)
    (hfh : fh < views.length)
    (hS : ∀ i v, i ≠ fh → views.get? i = some v → v.size ≤ 256 * v.blocks.length)
    (p0 s0 n0 : Nat) (g0 : Buf) (s : WState σ) (n : Nat)
    (hR : WriteData mem views fh p0 g0 buf s) (hs : WriteShape p0 s0 n0 (true, s))
    (hb0 : s.bytesWrote = 0) (hp : s.f.position = p0) (hu : p0 % 256 ≠ 0)
    (hfit : p0 % 256 + n ≤ 256) :
    WriteData mem views fh p0 g0 buf
      (writeInBlock K bus junk buf (p0 / 256) (p0 - p0 % 256) n s).2 := by
  obtain ⟨hopen, h16, hdev, hblk, hle, hco, hcont⟩ := hR
  obtain ⟨-, hL, -⟩ := hs
  simp only at hL
  obtain ⟨lA, lB, lC, lD⟩ := listed_facts views fh s.f.blocks s.devOn hfh hblk
  have hadd : ∀ b ∈ s.f.blocks, Addressable b :=
    fun b hb => addressable_of_claimed _ _ h16 hdev (lA b hb)
  have hidx : p0 / 256 < s.f.blocks.length := by omega
  have hnb := addressable_blockAt s.f (p0 / 256) hadd hidx
  have hbe : blockAt s.f (p0 / 256) = s.f.blocks.getD (p0 / 256) noBlock :=
    blockAt_getD _ _ _ hidx
  obtain ⟨pf1, pf2, pf3⟩ := prefetch_spec K bus mem hbus junk (p0 - p0 % 256) s hopen
    (by omega) (by omega) (by omega) hadd hco
  have ht : (p0 - p0 % 256) / 256 = p0 / 256 := by omega
  rw [ht] at pf1
  obtain ⟨r1, r2, r3⟩ := writeInBlock_run K bus mem hbus junk buf (p0 / 256) (p0 - p0 % 256)
    n s hnb
  obtain ⟨e0, fok, -⟩ := writeInBlock_frame K bus junk buf (p0 / 256) (p0 - p0 % 256) n s
  obtain ⟨e1, e2, -⟩ := fok r1
  obtain ⟨g1, g2, g3, -, -, g6⟩ := growSize_fields s.f (s.bytesWrote + n)
  unfold WriteData
  rw [e1, e0, r2, r3, e2, g2, g3, g6, hp, hb0]
  rw [hb0] at hle hcont
  refine ⟨hopen, h16, hdev, hblk, by omega,
    coherent_write_put K bus mem hbus _ _ _ _ hnb pf2, ?_⟩
  have hcur := contentOK_sameMem mem s.world (prefetch K bus junk (p0 - p0 % 256) s).world _
    (views_addressable views fh
      { blocks := s.f.blocks, size := s.f.size, ghost := memcpy g0 p0 buf 0 0 } s.devOn h16
      hdev hblk)
    (views_shape views fh
      { blocks := s.f.blocks, size := s.f.size, ghost := memcpy g0 p0 buf 0 0 } hS
      (by show s.f.size ≤ 256 * s.f.blocks.length; omega))
    hcont pf3
  apply contentOK_update mem _ _ views fh s.f.blocks s.f.blocks s.f.size _
    (memcpy g0 p0 buf 0 0) _ (blockAt s.f (p0 / 256)) (p0 / 256) _ hcur
  · intro x hx
    exact hbus.write_mem _ _ _ hnb x hx
  · intro c hc hne x hx
    exact hbus.write_other _ _ _ _ hnb hc hne x hx
  · intro j _; rfl
  · exact (blockAt_getD _ _ _ hidx).symm
  · intro i v hi hv b hb
    exact ⟨by rw [hbe]; exact lC _ hidx i v hi hv b hb,
      addressable_of_claimed _ _ h16 hdev (lB i v hi hv b hb)⟩
  · intro j hj hjl
    exact ⟨by rw [hbe]; exact lD _ hidx j hj hjl, addressable_of_claimed _ _ h16 hdev
      (lA _ (by rw [List.getD_eq_getElem _ _ hjl]; exact List.getElem_mem _))⟩
  · exact hS
  · intro p hpl
    refine ⟨fun hi => ?_, fun hi => ⟨by omega, by omega, ?_⟩⟩
    · by_cases hin : p0 ≤ p ∧ p < p0 + n
      · rw [memcpy_in _ _ _ _ _ _ (by omega) (by omega),
          memcpy_in _ _ _ _ _ _ (by omega) (by omega)]
        congr 1
        omega
      · rw [memcpy_out _ _ _ _ _ _ (by omega), memcpy_out _ _ _ _ _ _ (by omega),
          pf1 _ (Nat.mod_lt _ (by norm_num))]
        have hps : p < s.f.size := by omega
        have : mem s.world (s.f.blocks.getD (p / 256) noBlock) (p % 256) =
            memcpy g0 p0 buf 0 0 p :=
          hcont fh { blocks := s.f.blocks, size := s.f.size, ghost := memcpy g0 p0 buf 0 0 }
            (by rw [get?_set_eq_cases, if_pos ⟨rfl, hfh⟩]) p hps
        rw [memcpy_out _ _ _ _ _ _ (by omega)] at this
        rw [← this, hbe, hi]
    · rw [memcpy_out _ _ _ _ _ _ (by omega), memcpy_out _ _ _ _ _ _ (by omega)]

end LCloud

namespace LCloud

/-! ## The boundary chunk of `lcwrite` with a storing controller -/

theorem memcpy_grow (g0 : Buf) (p0 : Nat) (buf : Buf) (bw n p : Nat)
    (h : p < p0 + bw ∨ p0 + bw + n ≤ p) :
    memcpy g0 p0 buf 0 (bw + n) p = memcpy g0 p0 buf 0 bw p := by
  unfold memcpy
  split_ifs <;> first | rfl | omega

theorem getD_append_one_ne (l : List block) (b : block) (j : Nat) (h : j ≠ l.length) :
    (l ++ [b]).getD j noBlock = l.getD j noBlock := by
  rw [List.getD_eq_getElem?_getD, List.getD_eq_getElem?_getD]
  by_cases c : j < l.length
  · rw [List.getElem?_append_left c]
  · rw [List.getElem?_eq_none (by simp; omega), List.getElem?_eq_none (by omega)]

theorem getD_append_one_eq (l : List block) (b : block) :
    (l ++ [b]).getD l.length noBlock = b := by
  rw [List.getD_eq_getElem?_getD, List.getElem?_append_right (by omega)]
  simp

/-- The memory argument of a boundary chunk: after the block-write request for the chosen
block with the bytes `memcpy B 0 buf bytesWrote n`, where `B` holds the content of the block
from `n` on as far as the file reaches, the world holds the written bytes of all files, the
chunk included. -/
theorem boundary_content {σ : Type} (K : Consts) (bus : Bus σ) (mem : σ → block → Buf)
    (hbus : StoringBus K bus mem) (buf : Buf) (views : List View) (fh : Nat)
    (hfh : fh < views.length)
    (hS : ∀ i v, i ≠ fh → views.get? i = some v → v.size ≤ 256 * v.blocks.length)
    (p0 : Nat) (g0 : Buf) (s : WState σ) (n : Nat) (B : Buf) (w1 : σ)
    (h16 : s.devOn.length = 16) (hdev : ∀ d ∈ s.devOn, DevOK d)
    (hblk : BlocksOK ((views.map (fun v => v.blocks)).set fh s.f.blocks) s.devOn)
    (hle : p0 + s.bytesWrote ≤ s.f.size) (hL : s.f.blocks.length = (s.f.size + 255) / 256)
    (hp : s.f.position = p0) (ha : (p0 + s.bytesWrote) % 256 = 0) (hn256 : n ≤ 256)
    (hne : (chosenBlock s).sector ≠ -1)
    (hcont : ContentOK mem s.world (views.set fh
      { blocks := s.f.blocks, size := s.f.size, ghost := memcpy g0 p0 buf 0 s.bytesWrote }))
    (hsame : SameMem mem s.world w1)
    (hB : ∀ x, n ≤ x → x < 256 → p0 + s.bytesWrote + x < s.f.size →
      B x = mem s.world (blockAt s.f ((p0 + s.bytesWrote) / 256)) x) :
    Addressable (chosenBlock s) ∧
    ContentOK mem
      (bus w1 (xferFrame K K.LC_XFER_WRITE (chosenBlock s)) (memcpy B 0 buf s.bytesWrote n)).2.2
      (views.set fh
        { blocks := setBlock s.f.garbage s.f.blocks ((p0 + s.bytesWrote) / 256) (chosenBlock s),
          size := max s.f.size (p0 + (s.bytesWrote + n)),
          ghost := memcpy g0 p0 buf 0 (s.bytesWrote + n) }) := by
  obtain ⟨lA, lB, lC, lD⟩ := listed_facts views fh s.f.blocks s.devOn hfh hblk
  have hadd : ∀ b ∈ s.f.blocks, Addressable b :=
    fun b hb => addressable_of_claimed _ _ h16 hdev (lA b hb)
  have hcur := contentOK_sameMem mem s.world w1 _
    (views_addressable views fh
      { blocks := s.f.blocks, size := s.f.size, ghost := memcpy g0 p0 buf 0 s.bytesWrote }
      s.devOn h16 hdev hblk)
    (views_shape views fh
      { blocks := s.f.blocks, size := s.f.size, ghost := memcpy g0 p0 buf 0 s.bytesWrote } hS
      (by show s.f.size ≤ 256 * s.f.blocks.length; omega))
    hcont hsame
  have hghost : ∀ p, p < s.f.size →
      mem s.world (s.f.blocks.getD (p / 256) noBlock) (p % 256) =
        memcpy g0 p0 buf 0 s.bytesWrote p :=
    fun p hps => hcont fh
      { blocks := s.f.blocks, size := s.f.size, ghost := memcpy g0 p0 buf 0 s.bytesWrote }
      (by rw [get?_set_eq_cases, if_pos ⟨rfl, hfh⟩]) p hps
  have hin : ∀ p, p / 256 = (p0 + s.bytesWrote) / 256 → p % 256 < n →
      memcpy B 0 buf s.bytesWrote n (p % 256) = memcpy g0 p0 buf 0 (s.bytesWrote + n) p := by
    intro p hi hx
    rw [memcpy_in _ _ _ _ _ _ (by omega) (by omega),
      memcpy_in _ _ _ _ _ _ (by omega) (by omega)]
    congr 1
    omega
  by_cases hq : s.f.position + s.bytesWrote ≥ s.f.size
  · have hcb : chosenBlock s = get_Next_Block s.devOn := by
      unfold chosenBlock; rw [if_pos hq]
    rw [hcb] at hne ⊢
    obtain ⟨d, hr1, hr2⟩ := get_Next_Block_spec s.devOn hdev hne
    have hnb := addressable_of_inRange s.devOn _ d h16 hdev hr1
    have hidx : (p0 + s.bytesWrote) / 256 = s.f.blocks.length := by
      rw [hp] at hq; omega
    rw [hidx, setBlock_end]
    refine ⟨hnb, ?_⟩
    apply contentOK_update mem _ _ views fh s.f.blocks _ s.f.size _
      (memcpy g0 p0 buf 0 s.bytesWrote) _ (get_Next_Block s.devOn) s.f.blocks.length _ hcur
    · intro x hx
      exact hbus.write_mem _ _ _ hnb x hx
    · intro c hc hne x hx
      exact hbus.write_other _ _ _ _ hnb hc hne x hx
    · intro j hj
      exact getD_append_one_ne _ _ _ hj
    · exact getD_append_one_eq _ _
    · intro i v hi hv b hb
      refine ⟨fun heq => ?_, addressable_of_claimed _ _ h16 hdev (lB i v hi hv b hb)⟩
      exact claimed_not_free s.devOn _ d hr1 hr2 (heq ▸ lB i v hi hv b hb)
    · intro j hj hjl
      have hm : s.f.blocks.getD j noBlock ∈ s.f.blocks := by
        rw [List.getD_eq_getElem _ _ hjl]; exact List.getElem_mem _
      refine ⟨fun heq => ?_, addressable_of_claimed _ _ h16 hdev (lA _ hm)⟩
      exact claimed_not_free s.devOn _ d hr1 hr2 (heq ▸ lA _ hm)
    · exact hS
    · intro p hpl
      rw [hp] at hq
      refine ⟨fun hi => hin p (by omega) (by omega), fun hi => ⟨by omega, by omega, ?_⟩⟩
      exact memcpy_grow _ _ _ _ _ _ (by omega)
  · have hcb : chosenBlock s = blockAt s.f ((p0 + s.bytesWrote) / 256) := by
      unfold chosenBlock; rw [if_neg hq, hp]
    have hidx : (p0 + s.bytesWrote) / 256 < s.f.blocks.length := by
      rw [hp] at hq; omega
    rw [hcb]
    have hnb := addressable_blockAt s.f _ hadd hidx
    have hbe : blockAt s.f ((p0 + s.bytesWrote) / 256) =
        s.f.blocks.getD ((p0 + s.bytesWrote) / 256) noBlock := blockAt_getD _ _ _ hidx
    refine ⟨hnb, ?_⟩
    have hsame2 : setBlock s.f.garbage s.f.blocks ((p0 + s.bytesWrote) / 256)
        (blockAt s.f ((p0 + s.bytesWrote) / 256)) = s.f.blocks := setBlock_same _ _ _ hidx _
    rw [hsame2]
    apply contentOK_update mem _ _ views fh s.f.blocks _ s.f.size _
      (memcpy g0 p0 buf 0 s.bytesWrote) _ (blockAt s.f ((p0 + s.bytesWrote) / 256))
      ((p0 + s.bytesWrote) / 256) _ hcur
    · intro x hx
      exact hbus.write_mem _ _ _ hnb x hx
    · intro c hc hne x hx
      exact hbus.write_other _ _ _ _ hnb hc hne x hx
    · intro j _; rfl
    · exact hbe.symm
    · intro i v hi hv b hb
      exact ⟨by rw [hbe]; exact lC _ hidx i v hi hv b hb,
        addressable_of_claimed _ _ h16 hdev (lB i v hi hv b hb)⟩
    · intro j hj hjl
      exact ⟨by rw [hbe]; exact lD _ hidx j hj hjl, addressable_of_claimed _ _ h16 hdev
        (lA _ (by rw [List.getD_eq_getElem _ _ hjl]; exact List.getElem_mem _))⟩
    · exact hS
    · intro p hpl
      rw [hp] at hq
      refine ⟨fun hi => ?_, fun hi => ⟨by omega, by omega, ?_⟩⟩
      · by_cases hx : p % 256 < n
        · exact hin p hi hx
        · have hps : p < s.f.size := by omega
          rw [memcpy_out _ _ _ _ _ _ (by omega), memcpy_grow _ _ _ _ _ _ (by omega),
            hB _ (by omega) (Nat.mod_lt _ (by norm_num)) (by omega), hbe, ← hghost p hps,
            ← hi]
      · exact memcpy_grow _ _ _ _ _ _ (by omega)

end LCloud

namespace LCloud

/-- The boundary chunk of `lcwrite` with a storing controller, with the pre-fetch: the
request succeeds; cache and world afterwards. -/
theorem writeAtBoundary_run_pre {σ : Type} (K : Consts) (bus : Bus σ) (mem : σ → block → Buf)
    (hbus : StoringBus K bus mem) (junk buf : Buf) (pre : Bool) (n : Nat) (st : WState σ)
    (hne : ¬ (chosenBlock st).sector = -1) (hb : Addressable (chosenBlock st))
    (hc : pre = true ∧ st.f.position + st.bytesWrote < st.f.size) :
    (writeAtBoundary K bus junk buf pre n st).1 = true ∧
    (writeAtBoundary K bus junk buf pre n st).2.cs =
      (lcloud_putcache (chosenBlock st).device (chosenBlock st).sector (chosenBlock st).blockNum
        (memcpy (prefetch K bus junk (st.f.position + st.bytesWrote) st).buf_256 0 buf
          st.bytesWrote n) (prefetch K bus junk (st.f.position + st.bytesWrote) st).cs).2 ∧
    (writeAtBoundary K bus junk buf pre n st).2.world =
      (bus (prefetch K bus junk (st.f.position + st.bytesWrote) st).world
        (xferFrame K K.LC_XFER_WRITE (chosenBlock st))
        (memcpy (prefetch K bus junk (st.f.position + st.bytesWrote) st).buf_256 0 buf
          st.bytesWrote n)).2.2 := by
  obtain ⟨-, -, p3, -⟩ := prefetch_frame K bus junk (st.f.position + st.bytesWrote) st
  unfold writeAtBoundary
  dsimp only
  rw [if_neg hne, if_pos hc, sendBlock_spec K bus mem hbus _ hb, p3]
  exact ⟨rfl, rfl, rfl⟩

/-- The boundary chunk of `lcwrite` with a storing controller, without the pre-fetch. -/
theorem writeAtBoundary_run_plain {σ : Type} (K : Consts) (bus : Bus σ)
    (mem : σ → block → Buf) (hbus : StoringBus K bus mem) (junk buf : Buf) (pre : Bool)
    (n : Nat) (st : WState σ)
    (hne : ¬ (chosenBlock st).sector = -1) (hb : Addressable (chosenBlock st))
    (hc : ¬ (pre = true ∧ st.f.position + st.bytesWrote < st.f.size)) :
    (writeAtBoundary K bus junk buf pre n st).1 = true ∧
    (writeAtBoundary K bus junk buf pre n st).2.cs =
      (lcloud_putcache (chosenBlock st).device (chosenBlock st).sector (chosenBlock st).blockNum
        (memcpy st.buf_256 0 buf st.bytesWrote n) st.cs).2 ∧
    (writeAtBoundary K bus junk buf pre n st).2.world =
      (bus st.world (xferFrame K K.LC_XFER_WRITE (chosenBlock st))
        (memcpy st.buf_256 0 buf st.bytesWrote n)).2.2 := by
  unfold writeAtBoundary
  dsimp only
  rw [if_neg hne, if_neg hc, sendBlock_spec K bus mem hbus _ hb]
  exact ⟨rfl, rfl, rfl⟩

/-- The boundary chunk of `lcwrite` with a storing controller keeps cache and world in
agreement with the bytes written, whether a block is allocated, found or not to be had. -/
theorem writeAtBoundary_data {σ : Type} (K : Consts) (bus : Bus σ) (mem : σ → block → Buf)
    (hbus : StoringBus K bus mem) (junk buf : Buf) (views : List View) (fh : Nat)
    (hfh : fh < views.length)
    (hS : ∀ i v, i ≠ fh → views.get? i = some v → v.size ≤ 256 * v.blocks.length)
    (p0 s0 n0 : Nat) (g0 : Buf) (s : WState σ) (pre : Bool) (n : Nat)
    (hR : WriteData mem views fh p0 g0 buf s) (hs : WriteShape p0 s0 n0 (true, s))
    (hp : s.f.position = p0) (ha : (p0 + s.bytesWrote) % 256 = 0) (hn256 : n ≤ 256)
    (hpre : pre = false → n = 256) :
    WriteData mem views fh p0 g0 buf (writeAtBoundary K bus junk buf pre n s).2 := by
  by_cases hne : (chosenBlock s).sector = -1
  · have : (writeAtBoundary K bus junk buf pre n s).2 =
        { s with undef := s.undef || decide (s.f.position + s.bytesWrote < s.f.size ∧
          10000 ≤ (s.f.position + s.bytesWrote) / 256) } := by
      unfold writeAtBoundary; dsimp only; rw [if_pos hne]
    rw [this]; exact hR
  obtain ⟨hopen, h16, hdev, hblk, hle, hco, hcont⟩ := hR
  obtain ⟨hdev2, hblk2⟩ := writeAtBoundary_tables K bus junk buf (views.map (fun v => v.blocks))
    fh (by rw [List.length_map]; exact hfh) p0 s0 n0 pre n s hs ha hdev hblk
  obtain ⟨-, hL, -⟩ := hs
  simp only at hL
  obtain ⟨fok, -⟩ := writeAtBoundary_frame K bus junk buf pre n s
  have tail : ∀ (B : Buf) (cs1 : CacheState) (w1 : σ),
      (writeAtBoundary K bus junk buf pre n s).1 = true →
      (writeAtBoundary K bus junk buf pre n s).2.cs =
        (lcloud_putcache (chosenBlock s).device (chosenBlock s).sector (chosenBlock s).blockNum
          (memcpy B 0 buf s.bytesWrote n) cs1).2 →
      (writeAtBoundary K bus junk buf pre n s).2.world =
        (bus w1 (xferFrame K K.LC_XFER_WRITE (chosenBlock s))
          (memcpy B 0 buf s.bytesWrote n)).2.2 →
      Coherent mem cs1 w1 → SameMem mem s.world w1 →
      (∀ x, n ≤ x → x < 256 → p0 + s.bytesWrote + x < s.f.size →
        B x = mem s.world (blockAt s.f ((p0 + s.bytesWrote) / 256)) x) →
      WriteData mem views fh p0 g0 buf (writeAtBoundary K bus junk buf pre n s).2 := by
    intro B cs1 w1 r1 r2 r3 hco1 hsame hB
    obtain ⟨hnb, hcontent⟩ := boundary_content K bus mem hbus buf views fh hfh hS p0 g0 s n B w1
      h16 hdev hblk hle hL hp ha hn256 hne hcont hsame hB
    obtain ⟨-, e1, e2, e3, -⟩ := fok r1
    obtain ⟨-, g2, g3, -, -, g6⟩ := growSize_fields
      (storeBlock s.f ((s.f.position + s.bytesWrote) / 256) (chosenBlock s)) (s.bytesWrote + n)
    have hb2 : (writeAtBoundary K bus junk buf pre n s).2.f.blocks =
        setBlock s.f.garbage s.f.blocks ((p0 + s.bytesWrote) / 256) (chosenBlock s) := by
      rw [e1, g2, hp]; rfl
    have hs2 : (writeAtBoundary K bus junk buf pre n s).2.f.size =
        max s.f.size (p0 + (s.bytesWrote + n)) := by
      rw [e1, g6]
      show max s.f.size (s.f.position + _) = _
      rw [hp]
    refine ⟨?_, ?_, hdev2, hblk2, ?_, ?_, ?_⟩
    · rw [e1, g3]; exact hopen
    · rw [e2, markUsed_length]; exact h16
    · rw [hs2, e3]; omega
    · rw [r2, r3]
      exact coherent_write_put K bus mem hbus _ _ _ _ hnb hco1
    · rw [r3, hb2, hs2, e3]
      exact hcontent
  by_cases hc : pre = true ∧ s.f.position + s.bytesWrote < s.f.size
  · obtain ⟨lA, -, -, -⟩ := listed_facts views fh s.f.blocks s.devOn hfh hblk
    have hadd : ∀ b ∈ s.f.blocks, Addressable b :=
      fun b hb => addressable_of_claimed _ _ h16 hdev (lA b hb)
    have hc2 := hc.2
    obtain ⟨pf1, pf2, pf3⟩ := prefetch_spec K bus mem hbus junk (s.f.position + s.bytesWrote) s
      hopen (by omega) (by rw [hp]; exact ha) (by omega) hadd hco
    have hnb : Addressable (chosenBlock s) := by
      have : chosenBlock s = blockAt s.f ((s.f.position + s.bytesWrote) / 256) := by
        unfold chosenBlock; rw [if_neg (by omega)]
      rw [this]
      exact addressable_blockAt s.f _ hadd (by omega)
    obtain ⟨r1, r2, r3⟩ := writeAtBoundary_run_pre K bus mem hbus junk buf pre n s hne hnb hc
    refine tail _ _ _ r1 r2 r3 pf2 pf3 (fun x _ hx _ => ?_)
    rw [← hp]
    exact pf1 x hx
  · have hB : ∀ x, n ≤ x → x < 256 → p0 + s.bytesWrote + x < s.f.size →
        s.buf_256 x = mem s.world (blockAt s.f ((p0 + s.bytesWrote) / 256)) x := by
      intro x h1 h2 h3
      exfalso
      cases pre with
      | false => have := hpre rfl; omega
      | true => exact hc ⟨rfl, by omega⟩
    have hnb : Addressable (chosenBlock s) :=
      (boundary_content K bus mem hbus buf views fh hfh hS p0 g0 s n s.buf_256 s.world
        h16 hdev hblk hle hL hp ha hn256 hne hcont (sameMem_refl mem s.world) hB).1
    obtain ⟨r1, r2, r3⟩ := writeAtBoundary_run_plain K bus mem hbus junk buf pre n s hne hnb hc
    exact tail _ _ _ r1 r2 r3 hco (sameMem_refl mem s.world) hB

end LCloud

namespace LCloud

/-! ## The stand-in controller stores what is written -/

/-- The request frame that `create_lcloud_registers` builds from fields that fit, as a sum. -/
theorem create_eq_sum (c0 c1 c2 d0 d1 : Nat) (h0 : c0 < 256) (h1 : c1 < 256) (h2 : c2 < 256)
    (h3 : d0 < 65536) (h4 : d1 < 65536) :
    create_lcloud_registers 0 0 c0 c1 c2 d0 d1 =
      d0 + d1 * 2 ^ 16 + c2 * 2 ^ 32 + c1 * 2 ^ 40 + c0 * 2 ^ 48 := by
  unfold create_lcloud_registers shl64
  simp only [Nat.shiftLeft_eq, Nat.zero_mul, Nat.zero_mod, Nat.or_zero]
  rw [Nat.mod_eq_of_lt (by omega : d0 < 2 ^ 64), Nat.mod_eq_of_lt (by omega : d1 * 2 ^ 16 < 2 ^ 64),
    Nat.mod_eq_of_lt (by omega : c2 * 2 ^ 32 < 2 ^ 64),
    Nat.mod_eq_of_lt (by omega : c1 * 2 ^ 40 < 2 ^ 64),
    Nat.mod_eq_of_lt (by omega : c0 * 2 ^ 48 < 2 ^ 64)]
  have e1 : d0 ||| d1 * 2 ^ 16 = d0 + d1 * 2 ^ 16 := by
    rw [Nat.lor_comm, Nat.mul_comm d1, ← Nat.mul_add_lt_is_or (by omega : d0 < 2 ^ 16)]
    omega
  have e2 : (d0 + d1 * 2 ^ 16) ||| c2 * 2 ^ 32 = d0 + d1 * 2 ^ 16 + c2 * 2 ^ 32 := by
    rw [Nat.lor_comm, Nat.mul_comm c2,
      ← Nat.mul_add_lt_is_or (by omega : d0 + d1 * 2 ^ 16 < 2 ^ 32)]
    omega
  have e3 : (d0 + d1 * 2 ^ 16 + c2 * 2 ^ 32) ||| c1 * 2 ^ 40 =
      d0 + d1 * 2 ^ 16 + c2 * 2 ^ 32 + c1 * 2 ^ 40 := by
    rw [Nat.lor_comm, Nat.mul_comm c1,
      ← Nat.mul_add_lt_is_or (by omega : d0 + d1 * 2 ^ 16 + c2 * 2 ^ 32 < 2 ^ 40)]
    omega
  have e4 : (d0 + d1 * 2 ^ 16 + c2 * 2 ^ 32 + c1 * 2 ^ 40) ||| c0 * 2 ^ 48 =
      d0 + d1 * 2 ^ 16 + c2 * 2 ^ 32 + c1 * 2 ^ 40 + c0 * 2 ^ 48 := by
    rw [Nat.lor_comm, Nat.mul_comm c0,
      ← Nat.mul_add_lt_is_or (by omega : d0 + d1 * 2 ^ 16 + c2 * 2 ^ 32 + c1 * 2 ^ 40 < 2 ^ 48)]
    omega
  rw [e1, e2, e3, e4]

theorem u64_of_range (x : Int) (h0 : 0 ≤ x) (h1 : x < 65536) : u64 x = x.toNat := by
  unfold u64
  congr 1
  omega

theorem xferFrame_value (K : Consts) (dir : Nat) (b : block) (hb : Addressable b)
    (hdir : dir < 256) (hop : K.LC_BLOCK_XFER < 256) :
    xferFrame K dir b = b.blockNum.toNat + b.sector.toNat * 2 ^ 16 + dir * 2 ^ 32 +
      b.device.toNat * 2 ^ 40 + K.LC_BLOCK_XFER * 2 ^ 48 := by
  obtain ⟨a1, a2, a3, a4, a5, a6⟩ := hb
  unfold xferFrame
  rw [u64_of_range _ a1 (by omega), u64_of_range _ a5 a6, u64_of_range _ a3 a4]
  exact create_eq_sum _ _ _ _ _ hop (by omega) hdir (by omega) (by omega)

end LCloud

namespace LCloud

theorem simBus_decode (dir : Nat) (b : block) (hb : Addressable b) (hdir : dir < 256) :
    (xferFrame simConsts dir b >>> 48) % 256 = 3 ∧
    (xferFrame simConsts dir b >>> 40) % 256 = b.device.toNat ∧
    (xferFrame simConsts dir b >>> 32) % 256 = dir ∧
    xferFrame simConsts dir b % 2 ^ 32 = b.blockNum.toNat + b.sector.toNat * 2 ^ 16 ∧
    xferFrame simConsts dir b ≠ frameError := by
  rw [xferFrame_value simConsts dir b hb hdir (by decide)]
  obtain ⟨a1, a2, a3, a4, a5, a6⟩ := hb
  have e : simConsts.LC_BLOCK_XFER = 3 := rfl
  rw [e]
  simp only [Nat.shiftRight_eq_div_pow]
  unfold frameError
  have h1 : b.device.toNat < 16 := by omega
  have h2 : b.sector.toNat < 65536 := by omega
  have h3 : b.blockNum.toNat < 65536 := by omega
  norm_num
  refine ⟨?_, ?_, ?_, ?_, ?_⟩ <;> omega

theorem simBus_write (mask sectors blocks : Nat) (w : SimWorld) (b : block)
    (hb : Addressable b) (buf : Buf) :
    simBus simConsts mask sectors blocks w (xferFrame simConsts simConsts.LC_XFER_WRITE b) buf =
      (simResponse 3 0 0, buf,
        { mem := fun d a =>
            if d = b.device.toNat ∧ a = b.blockNum.toNat + b.sector.toNat * 2 ^ 16 then
              memcpy zeroBuf 0 buf 0 256
            else w.mem d a }) := by
  obtain ⟨d1, d2, d3, d4, -⟩ := simBus_decode 1 b hb (by norm_num)
  have e : simConsts.LC_XFER_WRITE = 1 := rfl
  rw [e]
  unfold simBus
  dsimp only
  rw [d1, d2, d3, d4]
  rfl

theorem simBus_read (mask sectors blocks : Nat) (w : SimWorld) (b : block)
    (hb : Addressable b) (buf : Buf) :
    simBus simConsts mask sectors blocks w (xferFrame simConsts simConsts.LC_XFER_READ b) buf =
      (simResponse 3 0 0, memcpy buf 0 (simMem w b) 0 256, w) := by
  obtain ⟨d1, d2, d3, d4, -⟩ := simBus_decode 0 b hb (by norm_num)
  have e : simConsts.LC_XFER_READ = 0 := rfl
  rw [e]
  unfold simBus
  dsimp only
  rw [d1, d2, d3, d4]
  rfl

theorem simResponse_good (frame : Nat) (hf : frame ≠ frameError) :
    respBad frame (simResponse 3 0 0) 3 = false := by
  unfold respBad
  rw [extract_simResponse 3 0 0 (by norm_num) (by norm_num) (by norm_num)]
  have h1 : (frame == frameError) = false := by simpa using hf
  have h2 : (simResponse 3 0 0 == frameError) = false := by
    simpa using simResponse_ne_error 3 0 0 (by norm_num) (by norm_num)
  rw [h1, h2]
  rfl

/-- The stand-in controller stores what is written and answers every block transfer
successfully. -/
theorem simBus_storing (mask sectors blocks : Nat) :
    StoringBus simConsts (simBus simConsts mask sectors blocks) simMem := by
  refine ⟨?_, ?_, ?_, ?_, ?_, ?_, ?_⟩
  · intro w b buf hb
    rw [simBus_write mask sectors blocks w b hb buf]
    exact simResponse_good _ (simBus_decode 1 b hb (by norm_num)).2.2.2.2
  · intro w b buf hb
    rw [simBus_write mask sectors blocks w b hb buf]
  · intro w b buf hb j hj
    rw [simBus_write mask sectors blocks w b hb buf]
    show (if b.device.toNat = b.device.toNat ∧ b.blockNum.toNat + b.sector.toNat * 2 ^ 16 =
      b.blockNum.toNat + b.sector.toNat * 2 ^ 16 then memcpy zeroBuf 0 buf 0 256
      else w.mem _ _) j = buf j
    rw [if_pos ⟨rfl, rfl⟩, memcpy_in _ _ _ _ _ _ (by omega) (by omega)]
    congr 1
    omega
  · intro w b c buf hb hc hne j hj
    rw [simBus_write mask sectors blocks w b hb buf]
    show (if c.device.toNat = b.device.toNat ∧ c.blockNum.toNat + c.sector.toNat * 2 ^ 16 =
      b.blockNum.toNat + b.sector.toNat * 2 ^ 16 then memcpy zeroBuf 0 buf 0 256
      else w.mem _ _) j = simMem w c j
    rw [if_neg]
    · rfl
    · rintro ⟨e1, e2⟩
      apply hne
      obtain ⟨a1, a2, a3, a4, a5, a6⟩ := hb
      obtain ⟨c1, c2, c3, c4, c5, c6⟩ := hc
      cases b
      cases c
      simp only [block.mk.injEq]
      simp only at e1 e2 a1 a2 a3 a4 a5 a6 c1 c2 c3 c4 c5 c6
      refine ⟨?_, ?_, ?_⟩ <;> omega
  · intro w b buf hb
    rw [simBus_read mask sectors blocks w b hb buf]
    exact simResponse_good _ (simBus_decode 0 b hb (by norm_num)).2.2.2.2
  · intro w b buf hb j hj
    rw [simBus_read mask sectors blocks w b hb buf]
    show memcpy buf 0 (simMem w b) 0 256 j = _
    rw [memcpy_in _ _ _ _ _ _ (by omega) (by omega)]
    congr 1
    omega
  · intro w b c buf hb hc j hj
    rw [simBus_read mask sectors blocks w b hb buf]

end LCloud

namespace LCloud

/-! ## `lcwrite` with a storing controller -/

theorem memcpy_zero (dst : Buf) (off : Nat) (src : Buf) (soff : Nat) :
    memcpy dst off src soff 0 = dst := by
  funext j
  exact memcpy_out _ _ _ _ _ _ (by omega)

/-- A successful `lcwrite` with a storing controller, on a descriptor with its position inside
the file: the cache stays coherent, and the world holds the bytes written before with the
caller's `len` bytes laid over them from the position on, for this file, and the bytes
written before for the others. -/
theorem writeFile_data {σ : Type} (K : Consts) (bus : Bus σ) (mem : σ → block → Buf)
    (hbus : StoringBus K bus mem) (junk : Buf) (f : file) (devOn : List device)
    (cs : CacheState) (w : σ) (buf : Buf) (len : Nat) (views : List View) (fh : Nat)
    (hfh : fh < views.length)
    (hS : ∀ i v, i ≠ fh → views.get? i = some v → v.size ≤ 256 * v.blocks.length)
    (g0 : Buf) (hopen : f.opened ≠ 0) (hf : FileOK f) (hps : f.position ≤ f.size)
    (h16 : devOn.length = 16) (hdev : ∀ d ∈ devOn, DevOK d)
    (hblk : BlocksOK ((views.map (fun v => v.blocks)).set fh f.blocks) devOn)
    (hco : Coherent mem cs w)
    (hcont : ContentOK mem w (views.set fh { blocks := f.blocks, size := f.size, ghost := g0 }))
    (hok : 0 ≤ (writeFile K bus junk f devOn cs w buf len).ret) :
    (writeFile K bus junk f devOn cs w buf len).devOn.length = 16 ∧
    Coherent mem (writeFile K bus junk f devOn cs w buf len).cs
      (writeFile K bus junk f devOn cs w buf len).world ∧
    ContentOK mem (writeFile K bus junk f devOn cs w buf len).world
      (views.set fh
        { blocks := (writeFile K bus junk f devOn cs w buf len).f.blocks,
          size := (writeFile K bus junk f devOn cs w buf len).f.size,
          ghost := memcpy g0 f.position buf 0 len }) := by
  have hch := lcwriteBody_chunks K bus junk buf
    { f := f, devOn := devOn, cs := cs, world := w, bytesWrote := 0, len := len,
      buf_256 := junk }
    (WriteData mem views fh f.position g0 buf)
    (by
      intro s n hR hs hb0 hp hu _ _ hfit _
      exact writeInBlock_data K bus mem hbus junk buf views fh hfh hS f.position f.size len g0
        s n hR hs hb0 hp hu hfit)
    (by
      intro s pre n hR hs hp ha _ _ h256 hpre _
      exact writeAtBoundary_data K bus mem hbus junk buf views fh hfh hS f.position f.size len
        g0 s pre n hR hs hp ha h256 hpre)
    rfl hf
    ⟨hopen, h16, hdev, hblk, by show f.position + 0 ≤ f.size; omega, hco, by
      show ContentOK mem w (views.set fh
        { blocks := f.blocks, size := f.size, ghost := memcpy g0 f.position buf 0 0 })
      rw [memcpy_zero]; exact hcont⟩
  obtain ⟨hsh, hR⟩ := hch
  have hl := lcwriteBody_len K bus junk buf
    { f := f, devOn := devOn, cs := cs, world := w, bytesWrote := 0, len := len,
      buf_256 := junk }
  unfold writeFile at hok ⊢
  dsimp only at hok ⊢
  rw [if_neg hopen] at hok ⊢
  by_cases h2 : (lcwriteBody K bus junk buf
      { f := f, devOn := devOn, cs := cs, world := w, bytesWrote := 0, len := len,
        buf_256 := junk }).1 = true
  · rw [if_pos h2]
    have c2 := hsh.1.2.1
    simp only at c2
    have hl0 := hl h2
    have hbw : (lcwriteBody K bus junk buf
        { f := f, devOn := devOn, cs := cs, world := w, bytesWrote := 0, len := len,
          buf_256 := junk }).2.bytesWrote = len := by omega
    obtain ⟨-, r16, -, -, -, rco, rcont⟩ := hR
    rw [hbw] at rcont
    exact ⟨r16, rco, rcont⟩
  · rw [if_neg h2] at hok
    simp at hok

end LCloud

namespace LCloud

/-! ## Views of a state -/

theorem viewsOf_get? (tbl : List file) (g : List Buf) (i : Nat) (v : View) :
    (viewsOf tbl g).get? i = some v ↔
      ∃ f b, tbl.get? i = some f ∧ g.get? i = some b ∧
        v = { blocks := f.blocks, size := f.size, ghost := b } := by
  unfold viewsOf
  rw [List.get?_eq_getElem?, List.getElem?_zipWith_eq_some]
  constructor
  · rintro ⟨f, b, h1, h2, h3⟩
    exact ⟨f, b, by rw [List.get?_eq_getElem?]; exact h1,
      by rw [List.get?_eq_getElem?]; exact h2, h3.symm⟩
  · rintro ⟨f, b, h1, h2, h3⟩
    rw [List.get?_eq_getElem?] at h1 h2
    exact ⟨f, b, h1, h2, h3.symm⟩

theorem contentOK_viewsOf {σ : Type} (mem : σ → block → Buf) (w : σ) (tbl : List file)
    (g : List Buf) :
    ContentOK mem w (viewsOf tbl g) ↔
      ∀ i f b, tbl.get? i = some f → g.get? i = some b → ∀ p, p < f.size →
        mem w (f.blocks.getD (p / 256) noBlock) (p % 256) = b p := by
  constructor
  · intro h i f b hf hb p hp
    exact h i { blocks := f.blocks, size := f.size, ghost := b }
      ((viewsOf_get? tbl g i _).2 ⟨f, b, hf, hb, rfl⟩) p hp
  · intro h i v hv p hp
    obtain ⟨f, b, hf, hb, e⟩ := (viewsOf_get? tbl g i v).1 hv
    subst e
    exact h i f b hf hb p hp

theorem viewsOf_length (tbl : List file) (g : List Buf) (h : g.length = tbl.length) :
    (viewsOf tbl g).length = tbl.length := by
  unfold viewsOf
  rw [List.length_zipWith, h]
  exact Nat.min_self _

theorem viewsOf_blocks (tbl : List file) (g : List Buf) (h : g.length = tbl.length) :
    (viewsOf tbl g).map (fun v => v.blocks) = tbl.map (fun f => f.blocks) := by
  apply List.ext_getElem
  · rw [List.length_map, List.length_map, viewsOf_length tbl g h]
  · intro i h1 h2
    rw [List.getElem_map, List.getElem_map]
    unfold viewsOf
    rw [List.getElem_zipWith]

/-- The views with the view of one descriptor renewed are the views of the state in which
descriptor and written bytes of that handle are renewed. -/
theorem contentOK_set {σ : Type} (mem : σ → block → Buf) (w : σ) (tbl : List file)
    (g : List Buf) (fh : Nat) (f2 : file) (b2 : Buf)
    (h : ContentOK mem w ((viewsOf tbl g).set fh
      { blocks := f2.blocks, size := f2.size, ghost := b2 })) :
    ContentOK mem w (viewsOf (tbl.set fh f2) (g.set fh b2)) := by
  rw [contentOK_viewsOf]
  intro i f b hf hb p hp
  rcases get?_set_cases _ _ _ _ _ hf with ⟨e1, e2⟩ | ⟨e1, e2⟩
  · rcases get?_set_cases _ _ _ _ _ hb with ⟨-, e4⟩ | ⟨e3, -⟩
    · subst e1 e2 e4
      rcases List.get?_eq_some.1 hf with ⟨hlt, -⟩
      rcases List.get?_eq_some.1 hb with ⟨hlt2, -⟩
      rw [List.length_set] at hlt hlt2
      have hvl : i < (viewsOf tbl g).length := by
        unfold viewsOf
        rw [List.length_zipWith]
        exact lt_min hlt hlt2
      exact h i { blocks := f.blocks, size := f.size, ghost := b }
        (by rw [get?_set_eq_cases, if_pos ⟨rfl, hvl⟩]) p hp
    · exact absurd e1 e3
  · rcases get?_set_cases _ _ _ _ _ hb with ⟨e3, -⟩ | ⟨-, e4⟩
    · exact absurd e3 e1
    · exact h i { blocks := f.blocks, size := f.size, ghost := b }
        (by
          rw [get?_set_eq_cases, if_neg (fun c => e1 c.1.symm)]
          exact (viewsOf_get? tbl g i _).2 ⟨f, b, e2, e4, rfl⟩) p hp

/-- The views of a state with the view of one descriptor written out. -/
theorem contentOK_unset {σ : Type} (mem : σ → block → Buf) (w : σ) (tbl : List file)
    (g : List Buf) (fh : Nat) (f : file) (hf : tbl.get? fh = some f)
    (h : ContentOK mem w (viewsOf tbl g)) :
    ContentOK mem w ((viewsOf tbl g).set fh
      { blocks := f.blocks, size := f.size, ghost := g.getD fh zeroBuf }) := by
  intro i v hv p hp
  rcases get?_set_cases _ _ _ _ _ hv with ⟨e1, e2⟩ | ⟨-, e2⟩
  · subst e1 e2
    rcases List.get?_eq_some.1 hv with ⟨hlt, -⟩
    rw [List.length_set] at hlt
    unfold viewsOf at hlt
    rw [List.length_zipWith] at hlt
    have hg : i < g.length := lt_of_lt_of_le hlt (min_le_right _ _)
    refine (contentOK_viewsOf mem w tbl g).1 h i f (g.getD i zeroBuf) hf ?_ p hp
    rw [List.getD_eq_getElem _ _ hg, List.get?_eq_get hg]
    rfl
  · exact h i v e2 p hp

/-- Renewing a descriptor without touching block list and size leaves the views as they
are. -/
theorem contentOK_same_shape {σ : Type} (mem : σ → block → Buf) (w : σ) (tbl : List file)
    (g : List Buf) (fh : Nat) (f f2 : file) (hf : tbl.get? fh = some f)
    (hb : f2.blocks = f.blocks) (hs : f2.size = f.size)
    (h : ContentOK mem w (viewsOf tbl g)) :
    ContentOK mem w (viewsOf (tbl.set fh f2) g) := by
  rw [contentOK_viewsOf] at h ⊢
  intro i f1 b h1 h2 p hp
  rcases get?_set_cases _ _ _ _ _ h1 with ⟨e1, e2⟩ | ⟨-, e2⟩
  · subst e1 e2
    rw [hb]
    rw [hs] at hp
    exact h i f b hf h2 p hp
  · exact h i f1 b e2 h2 p hp

/-- A new empty file adds an empty view. -/
theorem contentOK_snoc {σ : Type} (mem : σ → block → Buf) (w : σ) (tbl : List file)
    (g : List Buf) (f : file) (b : Buf) (hlen : g.length = tbl.length) (hsz : f.size = 0)
    (h : ContentOK mem w (viewsOf tbl g)) :
    ContentOK mem w (viewsOf (tbl ++ [f]) (g ++ [b])) := by
  rw [contentOK_viewsOf] at h ⊢
  intro i f1 b1 h1 h2 p hp
  rcases get?_append_one _ _ _ _ h1 with ⟨-, e2⟩ | ⟨e1, e2⟩
  · rw [e2, hsz] at hp
    omega
  · rcases get?_append_one _ _ _ _ h2 with ⟨e3, -⟩ | ⟨-, e4⟩
    · omega
    · exact h i f1 b1 e2 e4 p hp

end LCloud

namespace LCloud

/-! ## The invariant behind read-after-write -/

theorem written_reachable {σ : Type} (K : Consts) (bus : Bus σ) {s : FsState σ}
    {g : List Buf} (h : Written K bus s g) : Reachable K bus s := by
  induction h with
  | boot w => exact Reachable.boot w
  | opn path garbage _ ih => exact Reachable.opn path garbage ih
  | write junk fh buf len f r _ _ hw _ ih => exact Reachable.write junk fh buf len r ih hw
  | seek fh off r _ hs ih => exact Reachable.seek fh off r ih hs
  | close fh _ ih => exact Reachable.close fh ih
  | read junk fh buf len f r _ _ _ hr ih => exact Reachable.read junk fh buf len r ih hr

/-- The runs of `Written` are runs whose reads end inside the stored blocks. -/
theorem written_inBlocks {σ : Type} (K : Consts) (bus : Bus σ) {s : FsState σ}
    {g : List Buf} (h : Written K bus s g) : InBlocks K bus s := by
  induction h with
  | boot w => exact InBlocks.boot w
  | opn path garbage _ ih => exact InBlocks.opn path garbage ih
  | write junk fh buf len f r _ _ hw _ ih => exact InBlocks.write junk fh buf len r ih hw
  | seek fh off r _ hs ih => exact InBlocks.seek fh off r ih hs
  | close fh _ ih => exact InBlocks.close fh ih
  | read junk fh buf len f r _ hf hin hr ih =>
    have hok := inBlocks_fileOK K bus _ ih f (List.get?_mem hf)
    exact InBlocks.read junk fh buf len f r ih hf (by have := hok.1; omega) hr

theorem initDevices_length {σ : Type} (K : Consts) (bus : Bus σ) :
    ∀ (l : List device) (i listOfDevices : Nat) (done : List device) (w : σ),
      (initDevices K bus l i listOfDevices done w).2.1.length = done.length + l.length := by
  intro l
  induction l with
  | nil => intro i m done w; rfl
  | cons d rest ih =>
    intro i m done w
    unfold initDevices
    dsimp only
    split_ifs
    · simp
    · rw [ih]; simp; omega
    · rw [ih]; simp; omega

theorem lcopenInit_devOn {σ : Type} (K : Consts) (bus : Bus σ) (s : FsState σ) :
    (lcopenInit K bus s).2.devOn.length = s.devOn.length ∧
    (lcopenInit K bus s).2.cs = lcloud_initcache K.LC_CACHE_MAXBLOCKS := by
  have := initDevices_length K bus s.devOn 0
  unfold lcopenInit
  dsimp only
  split_ifs
  · exact ⟨rfl, rfl⟩
  · exact ⟨rfl, rfl⟩
  · refine ⟨?_, rfl⟩
    show (initDevices K bus s.devOn 0 _ [] _).2.1.length = _
    rw [this]; simp
  · refine ⟨?_, rfl⟩
    show (initDevices K bus s.devOn 0 _ [] _).2.1.length = _
    rw [this]; simp

/-- The outcomes of `lcopen`: `-1` from a failed first-call part, with no descriptor added,
or a new empty descriptor at the end of the table, after a fresh cache on the first
successful call and with cache and world untouched on later calls. -/
theorem lcopen_data {σ : Type} (K : Consts) (bus : Bus σ) (hg : GoodGeometry K bus)
    (path : String) (garbage : Nat → block) (s : FsState σ) :
    (lcopen K bus path garbage s).2.devOn.length = s.devOn.length ∧
    (((lcopen K bus path garbage s).1 = -1 ∧ (lcopen K bus path garbage s).2.fhTable = s.fhTable ∧
        (lcopen K bus path garbage s).2.firstOpen ≠ 0) ∨
     (0 ≤ (lcopen K bus path garbage s).1 ∧
      (∃ nf : file, nf.size = 0 ∧ nf.position = 0 ∧
        (lcopen K bus path garbage s).2.fhTable = s.fhTable ++ [nf]) ∧
      ((s.firstOpen = 0 ∧ (lcopen K bus path garbage s).2.cs = s.cs ∧
          (lcopen K bus path garbage s).2.world = s.world) ∨
       (s.firstOpen ≠ 0 ∧
          (lcopen K bus path garbage s).2.cs = lcloud_initcache K.LC_CACHE_MAXBLOCKS)))) := by
  obtain ⟨d1, d2⟩ := lcopenInit_devOn K bus s
  obtain ⟨t1, -⟩ := lcopenInit_fhTable K bus s
  obtain ⟨-, i2⟩ := lcopenInit_spec K bus hg s
  unfold lcopen
  dsimp only
  split_ifs with c1 c2
  · refine ⟨d1, Or.inr ⟨?_, ⟨file.mk (String.mk (path.data.take 120))
        (lcopenInit K bus s).2.fileHandleCounter 0 0 [] 1 garbage, rfl, rfl, ?_⟩,
        Or.inr ⟨c1, d2⟩⟩⟩
    · show (0 : Int) ≤ ((lcopenInit K bus s).2.fileHandleCounter : Int)
      exact Int.natCast_nonneg _
    · show (lcopenInit K bus s).2.fhTable ++ _ = _
      rw [t1]
  · refine ⟨d1, Or.inl ⟨rfl, t1, ?_⟩⟩
    have : (lcopenInit K bus s).1 = false := by simpa using c2
    rw [i2 this]
    exact c1
  · refine ⟨rfl, Or.inr ⟨?_, ⟨file.mk (String.mk (path.data.take 120)) s.fileHandleCounter
      0 0 [] 1 garbage, rfl, rfl, rfl⟩, Or.inl ⟨not_not.1 c1, rfl, rfl⟩⟩⟩
    show (0 : Int) ≤ (s.fileHandleCounter : Int)
    exact Int.natCast_nonneg _

end LCloud

namespace LCloud

theorem coherent_init {σ : Type} (mem : σ → block → Buf) (maxblocks : Int) (h : 1 ≤ maxblocks)
    (w : σ) : Coherent mem (lcloud_initcache maxblocks) w := by
  have hf := lcloud_initcache_fill maxblocks h
  refine ⟨⟨0, hf⟩, fun i e hi hb => ?_⟩
  have := (hf.2.2.2.2.2.1 i e hi (Nat.zero_le _)).1
  omega

theorem views_ok {σ : Type} (s : FsState σ) (g : List Buf) (hst : StateOK s)
    (h16 : s.devOn.length = 16) (hfo : s.firstOpen = 0) :
    (∀ i v, (viewsOf s.fhTable g).get? i = some v → ∀ b ∈ v.blocks, Addressable b) ∧
    (∀ i v, (viewsOf s.fhTable g).get? i = some v → v.size ≤ 256 * v.blocks.length) := by
  obtain ⟨-, h2, h3, h4⟩ := hst
  refine ⟨?_, ?_⟩
  · intro i v hv b hb
    obtain ⟨f, c, hf, -, e⟩ := (viewsOf_get? _ _ _ _).1 hv
    subst e
    apply addressable_of_claimed s.devOn b h16 (h2 hfo)
    exact h4.1 f.blocks (List.mem_map_of_mem _ (List.get?_mem hf)) b hb
  · intro i v hv
    obtain ⟨f, c, hf, -, e⟩ := (viewsOf_get? _ _ _ _).1 hv
    subst e
    have := (h3 f (List.get?_mem hf)).1
    show f.size ≤ 256 * f.blocks.length
    omega

/-- The part of the invariant behind read-after-write that is about the written bytes, for a
state whose descriptor `fh` was renewed without touching block lists and sizes, in a world
that holds the same bytes. -/
theorem dataOK_same_shape {σ : Type} (mem : σ → block → Buf) (s : FsState σ) (g : List Buf)
    (fh : Nat) (f f2 : file) (cs2 : CacheState) (w2 : σ) (hst : StateOK s)
    (hf : s.fhTable.get? fh = some f) (hb : f2.blocks = f.blocks) (hs : f2.size = f.size)
    (hp : f2.position ≤ f2.size)
    (hl : g.length = s.fhTable.length) (hpos : ∀ f ∈ s.fhTable, f.position ≤ f.size)
    (h16 : s.devOn.length = 16)
    (hc : s.firstOpen = 0 → Coherent mem s.cs s.world ∧
      ContentOK mem s.world (viewsOf s.fhTable g))
    (hco : s.firstOpen = 0 → Coherent mem s.cs s.world → Coherent mem cs2 w2)
    (hsm : s.firstOpen = 0 → Coherent mem s.cs s.world → SameMem mem s.world w2) :
    g.length = (s.fhTable.set fh f2).length ∧
    (∀ f ∈ s.fhTable.set fh f2, f.position ≤ f.size) ∧ s.devOn.length = 16 ∧
    (s.firstOpen = 0 → Coherent mem cs2 w2 ∧ ContentOK mem w2 (viewsOf (s.fhTable.set fh f2) g)) := by
  refine ⟨by rw [List.length_set]; exact hl, ?_, h16, fun hfo => ?_⟩
  · intro f1 h1
    rcases mem_set_cases _ _ _ _ h1 with e | e
    · rw [e]; exact hp
    · exact hpos f1 e
  · obtain ⟨c1, c2⟩ := hc hfo
    obtain ⟨v1, v2⟩ := views_ok s g hst h16 hfo
    exact ⟨hco hfo c1, contentOK_same_shape mem w2 s.fhTable g fh f f2 hf hb hs
      (contentOK_sameMem mem s.world w2 _ v1 v2 c2 (hsm hfo c1))⟩

end LCloud

namespace LCloud

/-- Along every run of `lcopen`, successful `lcwrite`, `lcseek`, `lcclose` and `lcread` inside
the file, with a storing controller that reports no empty device and a cache of at least one
slot: one buffer of written bytes per descriptor, positions inside the files, 16 devices,
a coherent cache, and the written bytes in the world. -/
theorem written_data {σ : Type} (K : Consts) (bus : Bus σ) (mem : σ → block → Buf)
    (hg : GoodGeometry K bus) (hbus : StoringBus K bus mem) (hK : 1 ≤ K.LC_CACHE_MAXBLOCKS)
    {s : FsState σ} {g : List Buf} (h : Written K bus s g) :
    g.length = s.fhTable.length ∧ (∀ f ∈ s.fhTable, f.position ≤ f.size) ∧
    s.devOn.length = 16 ∧
    (s.firstOpen = 0 → Coherent mem s.cs s.world ∧
      ContentOK mem s.world (viewsOf s.fhTable g)) := by
  induction h with
  | boot w =>
    refine ⟨rfl, fun f hf => ?_, ?_, fun hfo => ?_⟩
    · simp [bootState] at hf
    · simp [bootState]
    · simp [bootState] at hfo
  | @opn s g path garbage hw ih =>
    have hst := inBlocks_stateOK K bus hg s (written_inBlocks K bus hw)
    obtain ⟨ihl, ihp, ih16, ihc⟩ := ih
    obtain ⟨d16, hcase⟩ := lcopen_data K bus hg path garbage s
    rcases hcase with ⟨r1, r2, r3⟩ | ⟨r1, ⟨nf, n1, n2, n3⟩, r3⟩
    · rw [if_neg (by rw [r1]; decide), r2]
      exact ⟨ihl, ihp, by rw [d16]; exact ih16, fun hfo => absurd hfo r3⟩
    · rw [if_pos r1, n3]
      refine ⟨by simp [ihl], ?_, by rw [d16]; exact ih16, fun _ => ?_⟩
      · intro f hf
        rcases List.mem_append.1 hf with hf | hf
        · exact ihp f hf
        · rw [List.mem_singleton] at hf
          rw [hf, n1, n2]
      · rcases r3 with ⟨hfo, e1, e2⟩ | ⟨hfo, e1⟩
        · obtain ⟨c1, c2⟩ := ihc hfo
          rw [e1, e2]
          exact ⟨c1, contentOK_snoc mem _ _ _ _ _ ihl n1 c2⟩
        · rw [e1]
          refine ⟨coherent_init mem _ hK _, contentOK_snoc mem _ _ _ _ _ ihl n1 ?_⟩
          rw [hst.1 hfo]
          intro i v hv
          rw [viewsOf_get?] at hv
          obtain ⟨f, b, hf, -, -⟩ := hv
          simp at hf
  | @write s g junk fh buf len f r hw hf hwr hok ih =>
    have hst := inBlocks_stateOK K bus hg s (written_inBlocks K bus hw)
    obtain ⟨ihl, ihp, ih16, ihc⟩ := ih
    obtain ⟨-, hwr⟩ := lcwrite_some hf hwr
    rw [hwr] at hok ⊢
    have hfo : s.firstOpen = 0 := by
      by_contra c
      rw [hst.1 c] at hf
      simp at hf
    have hopen : f.opened ≠ 0 := by
      intro c
      unfold writeFile at hok
      rw [if_pos c] at hok
      simp at hok
    obtain ⟨ihco, ihcont⟩ := ihc hfo
    have hlt : fh < s.fhTable.length := (List.get?_eq_some.1 hf).1
    have hfh : fh < (viewsOf s.fhTable g).length := by
      rw [viewsOf_length _ _ ihl]; exact hlt
    obtain ⟨-, v2⟩ := views_ok s g hst ih16 hfo
    have hfm := List.get?_mem hf
    obtain ⟨w16, wco, wcont⟩ := writeFile_data K bus mem hbus junk f s.devOn s.cs s.world buf len
      (viewsOf s.fhTable g) fh hfh (fun i v _ hv => v2 i v hv) (g.getD fh zeroBuf) hopen
      (hst.2.2.1 f hfm) (ihp f hfm) ih16 (hst.2.1 hfo)
      (by rw [viewsOf_blocks _ _ ihl, set_blocks_self _ _ _ hf]; exact hst.2.2.2)
      ihco (contentOK_unset mem s.world s.fhTable g fh f hf ihcont) hok
    obtain ⟨-, e2, e3⟩ := writeFile_success K bus junk f s.devOn s.cs s.world buf len hok
    refine ⟨by simp [List.length_set, ihl], ?_, w16, fun _ =>
      ⟨wco, contentOK_set mem _ s.fhTable g fh _ _ wcont⟩⟩
    intro f1 h1
    rcases mem_set_cases _ _ _ _ h1 with e | e
    · have := ihp f hfm
      rw [e, e2, e3]
      split_ifs <;> omega
    · exact ihp f1 e
  | @seek s g fh off r hw hs ih =>
    have hst := inBlocks_stateOK K bus hg s (written_inBlocks K bus hw)
    obtain ⟨ihl, ihp, ih16, ihc⟩ := ih
    unfold lcseek at hs
    split at hs
    · simp at hs
    · rename_i f hf
      simp only [Option.some.injEq] at hs
      rw [← hs]
      obtain ⟨a1, a2, -, -, -, -, a6⟩ := seekFile_file f off
      exact dataOK_same_shape mem s g fh f _ s.cs s.world hst hf a2 a1
        (by
          have := ihp f (List.get?_mem hf)
          rw [a1]
          rcases a6 with a6 | a6 <;> omega)
        ihl ihp ih16 ihc (fun _ c => c) (fun _ _ => sameMem_refl mem _)
  | @close s g fh hw ih =>
    have hst := inBlocks_stateOK K bus hg s (written_inBlocks K bus hw)
    obtain ⟨ihl, ihp, ih16, ihc⟩ := ih
    unfold lcclose
    split_ifs with c
    · exact ⟨ihl, ihp, ih16, ihc⟩
    · split
      · rename_i f hf
        split_ifs
        · exact ⟨ihl, ihp, ih16, ihc⟩
        · exact dataOK_same_shape mem s g fh f _ s.cs s.world hst hf rfl rfl
            (ihp f (List.get?_mem hf)) ihl ihp ih16 ihc (fun _ c => c)
            (fun _ _ => sameMem_refl mem _)
      · exact ⟨ihl, ihp, ih16, ihc⟩
  | @read s g junk fh buf len f r hw hf hle hr ih =>
    have hst := inBlocks_stateOK K bus hg s (written_inBlocks K bus hw)
    obtain ⟨ihl, ihp, ih16, ihc⟩ := ih
    obtain ⟨-, hr⟩ := lcread_some hf hr
    rw [hr]
    have hfm := List.get?_mem hf
    have hcap := reachable_length K bus s (written_reachable K bus hw) f hfm
    obtain ⟨m1, m2, -, -, -, -, -, -⟩ := readFile_file K bus junk f s.cs s.world buf len
    by_cases hopen : f.opened = 0
    · have e : readFile K bus junk f s.cs s.world buf len =
          { ret := -1, buf := buf, f := f, cs := s.cs, world := s.world } := by
        unfold readFile; rw [if_pos hopen]
      rw [e]
      exact dataOK_same_shape mem s g fh f _ s.cs s.world hst hf rfl rfl (ihp f hfm) ihl ihp
        ih16 ihc (fun _ c => c) (fun _ _ => sameMem_refl mem _)
    · have hfo : s.firstOpen = 0 := by
        by_contra c
        rw [hst.1 c] at hf
        simp at hf
      have hadd : ∀ b ∈ f.blocks, Addressable b := fun b hb =>
        addressable_of_claimed s.devOn b ih16 (hst.2.1 hfo)
          (hst.2.2.2.1 f.blocks (List.mem_map_of_mem _ hfm) b hb)
      have hL := (hst.2.2.1 f hfm).1
      obtain ⟨-, q2, -, -, q5, q6⟩ := readFile_spec K bus mem hbus junk f s.cs s.world buf len
        hopen (by omega) (by omega) hadd (ihc hfo).1
      exact dataOK_same_shape mem s g fh f _ _ _ hst hf m2 m1 (by rw [q2, m1]; exact hle)
        ihl ihp ih16 ihc (fun _ _ => q5) (fun _ _ => q6)

end LCloud

namespace LCloud

/-! ## Handles -/

theorem set_get?_self {α : Type} (l : List α) (i : Nat) (a : α) (h : l.get? i = some a) :
    l.set i a = l := by
  rcases List.get?_eq_some.1 h with ⟨hlt, e⟩
  apply List.ext_getElem
  · rw [List.length_set]
  · intro k h1 h2
    rw [List.getElem_set]
    split_ifs with c
    · subst c; exact e.symm
    · rfl

theorem handlesOK_of_file_update {σ : Type} (s : FsState σ) (fh : Nat) (f g : file)
    (devOn : List device) (cs : CacheState) (w : σ) (hs : HandlesOK s)
    (hf : s.fhTable.get? fh = some f) (hh : g.handle = f.handle) :
    HandlesOK { s with fhTable := s.fhTable.set fh g, devOn := devOn, cs := cs, world := w } := by
  obtain ⟨h1, h2⟩ := hs
  refine ⟨?_, ?_⟩
  · show s.fileHandleCounter = (s.fhTable.set fh g).length
    rw [List.length_set]; exact h1
  · intro i x hx
    rcases get?_set_cases _ _ _ _ _ hx with ⟨e1, e2⟩ | ⟨-, e2⟩
    · rw [e2, hh, e1]; exact h2 fh f hf
    · exact h2 i x e2

theorem writeInBlock_handle {σ : Type} (K : Consts) (bus : Bus σ) (junk buf : Buf)
    (idx target n : Nat) (st : WState σ) :
    (writeInBlock K bus junk buf idx target n st).2.f.handle = st.f.handle := by
  obtain ⟨-, fok, ffail⟩ := writeInBlock_frame K bus junk buf idx target n st
  cases hr : (writeInBlock K bus junk buf idx target n st).1 with
  | true => rw [(fok hr).1, (growSize_fields _ _).2.2.2.2.1]
  | false => rw [(ffail hr).1]

theorem writeAtBoundary_handle {σ : Type} (K : Consts) (bus : Bus σ) (junk buf : Buf)
    (pre : Bool) (n : Nat) (st : WState σ) :
    (writeAtBoundary K bus junk buf pre n st).2.f.handle = st.f.handle := by
  obtain ⟨fok, ffail⟩ := writeAtBoundary_frame K bus junk buf pre n st
  cases hr : (writeAtBoundary K bus junk buf pre n st).1 with
  | true => rw [(fok hr).2.1, (growSize_fields _ _).2.2.2.2.1]; rfl
  | false => rw [(ffail hr).1]

theorem writeFile_handle {σ : Type} (K : Consts) (bus : Bus σ) (junk : Buf) (f : file)
    (devOn : List device) (cs : CacheState) (w : σ) (buf : Buf) (len : Nat) :
    (writeFile K bus junk f devOn cs w buf len).f.handle = f.handle := by
  have key : ∀ st : WState σ, (lcwriteBody K bus junk buf st).2.f.handle = st.f.handle := by
    intro st
    apply lcwriteBody_induct K bus junk buf (fun r => r.2.f.handle = st.f.handle)
    · intro s h _ _
      rw [writeInBlock_handle]; exact h
    · intro s h _ _
      rw [writeAtBoundary_handle]; exact h
    · intro s h _ _ _
      rw [writeAtBoundary_handle]; exact h
    · intro s h _ _ _ _
      refine ⟨?_, fun _ => ?_⟩
      · rw [writeInBlock_handle]; exact h
      · rw [writeAtBoundary_handle, writeInBlock_handle]; exact h
    · intro s h _ _ _ _
      rw [writeInBlock_handle]; exact h
    · rfl
  unfold writeFile
  dsimp only
  split_ifs
  · rfl
  · exact key _
  · exact key _

/-- In every reachable state `fileHandleCounter` is the number of descriptors and the
descriptor at index `i` has handle `i`. -/
theorem reachable_handles {σ : Type} (K : Consts) (bus : Bus σ) (s : FsState σ)
    (hs : Reachable K bus s) : HandlesOK s := by
  induction hs with
  | boot w =>
    refine ⟨rfl, fun i f hf => ?_⟩
    simp [bootState] at hf
  | @opn s path garbage hr ih =>
    obtain ⟨h1, h2⟩ := ih
    obtain ⟨t1, t2⟩ := lcopenInit_fhTable K bus s
    have new_ok : ∀ (t : FsState σ), t.fhTable = s.fhTable →
        t.fileHandleCounter = s.fileHandleCounter →
        HandlesOK (lcopenFile path garbage t).2 := by
      intro t e1 e2
      refine ⟨?_, ?_⟩
      · show t.fileHandleCounter + 1 = (t.fhTable ++ _).length
        rw [e1, e2, List.length_append, h1]; rfl
      · intro i f hf
        have hf2 : (t.fhTable ++ [file.mk (String.mk (path.data.take 120))
            t.fileHandleCounter 0 0 [] 1 garbage]).get? i = some f := hf
        rcases get?_append_one _ _ _ _ hf2 with ⟨e3, e4⟩ | ⟨-, e4⟩
        · rw [e4, e3, e1]
          show (t.fileHandleCounter : Int) = _
          rw [e2, h1]
        · rw [e1] at e4
          exact h2 i f e4
    unfold lcopen
    dsimp only
    split_ifs with c1 c2
    · exact new_ok _ t1 t2
    · refine ⟨?_, ?_⟩
      · show (lcopenInit K bus s).2.fileHandleCounter = (lcopenInit K bus s).2.fhTable.length
        rw [t1, t2]; exact h1
      · show ∀ i f, (lcopenInit K bus s).2.fhTable.get? i = some f → _
        rw [t1]; exact h2
    · exact new_ok s rfl rfl
  | @read s junk fh buf len r hr he ih =>
    obtain ⟨g, hg2⟩ := lcread_get he
    obtain ⟨hu, he⟩ := lcread_some hg2 he
    rw [he]
    · exact handlesOK_of_file_update s fh g _ s.devOn _ _ ih hg2
        (readFile_file K bus junk g s.cs s.world buf len).2.2.2.2.1
  | @write s junk fh buf len r hr he ih =>
    obtain ⟨g, hg2⟩ := lcwrite_get he
    obtain ⟨hu, he⟩ := lcwrite_some hg2 he
    rw [he]
    · exact handlesOK_of_file_update s fh g _ _ _ _ ih hg2
        (writeFile_handle K bus junk g s.devOn s.cs s.world buf len)
  | @seek s fh off r hr he ih =>
    unfold lcseek at he
    split at he
    · simp at he
    · rename_i g hg2
      simp only [Option.some.injEq] at he
      rw [← he]
      exact handlesOK_of_file_update s fh g _ s.devOn s.cs s.world ih hg2
        (seekFile_file g off).2.2.2.2.1
  | @close s fh hr ih =>
    unfold lcclose
    split_ifs with c1
    · exact ih
    · split
      · rename_i g hg2
        split_ifs with c2
        · exact ih
        · exact handlesOK_of_file_update s fh g _ s.devOn s.cs s.world ih hg2 rfl
      · exact ih

end LCloud

namespace LCloud

/-! ## The two outcomes of `lcloud_putcache` -/

/-- Without a key hit, the scan of the first branch of `lcloud_putcache` that already has a
candidate ends with the slot that `oldestFrom` computes. -/
theorem putcacheFullLoop_oldest (did sec blk : Int) : ∀ (l : List cacheBlock) (i : Nat)
    (t : Int) (b : Nat), getcacheLoop did sec blk l i = none →
    putcacheFullLoop did sec blk l i t (some b) = FullScan.victim (some (oldestFrom l i t b)) := by
  intro l
  induction l with
  | nil => intro i t b _; rfl
  | cons e rest ih =>
    intro i t b h
    unfold getcacheLoop at h
    unfold putcacheFullLoop oldestFrom
    by_cases c : keyMatch e did sec blk = true
    · rw [if_pos c] at h; cases h
    · rw [if_neg c] at h
      rw [if_neg c]
      split_ifs with c2
      · exact ih _ _ _ h
      · exact ih _ _ _ h

/-- The two outcomes of `lcloud_putcache` in a cache with `k` occupied slots. With the key in
slot `j`: return 0 and the restamped slot. Without the key: return 0, the new entry in slot
`v`, access counter and miss counter one up, where `v` is the first empty slot `k` if there
is one and else the slot that `oldestSlot` computes. -/
theorem lcloud_putcache_cases (did sec blk : Int) (block : Buf) (s : CacheState) (k : Nat)
    (hf : CacheFill s k) :
    (∀ j, getcacheLoop did (u16 sec) (u16 blk) s.cache 0 = some j →
      lcloud_putcache did sec blk block s = (0, restamp s j block) ∧ j < k) ∧
    (getcacheLoop did (u16 sec) (u16 blk) s.cache 0 = none →
      ∃ v, lcloud_putcache did sec blk block s =
        (0, { s with cache := s.cache.set v
                       (newCacheBlock did (u16 sec) (u16 blk) block s.cacheAccess)
                     cacheAccess := s.cacheAccess + 1
                     cacheMisses := s.cacheMisses + 1 }) ∧
        ((k < s.cache.length ∧ v = k) ∨
          (k = s.cache.length ∧ v < k ∧ oldestSlot s.cache = some v))) := by
  have hf0 := hf
  obtain ⟨h1, h2, h3, h4, h5, h6, h7⟩ := hf
  refine ⟨?_, ?_⟩
  · intro j hl
    obtain ⟨m, e0, g1, g2, g3, g4⟩ := getcacheLoop_some _ _ _ _ _ _ hl
    have hjm : j = m := by omega
    subst hjm
    have hjk : j < k := by
      by_contra hge
      have := (h6 j e0 g1 (by omega)).1
      have := (keyMatch_iff _ _ _ _).1 g3
      have := (u16_range blk).1
      omega
    refine ⟨?_, hjk⟩
    unfold lcloud_putcache
    by_cases hfull : s.cacheAccess ≥ s.cacheSize - 1
    · rw [if_pos hfull, putcacheFullLoop_hit _ _ _ _ _ _ _ _ hl]
    · rw [if_neg hfull]
      have := putcacheFreeLoop_hit did (u16 sec) (u16 blk) s.cache 0 j e0 g1 g3
        (fun m2 e2 hm2 hlt => ⟨g4 m2 e2 hm2 hlt, by
          have := (h5 m2 e2 hm2 (by omega)).1
          omega⟩)
      rw [Nat.zero_add] at this
      rw [this]
  · intro hl
    have hnone := getcacheLoop_none _ _ _ _ _ hl
    unfold lcloud_putcache
    by_cases hfull : s.cacheAccess ≥ s.cacheSize - 1
    · rw [if_pos hfull]
      obtain ⟨r, hr1, hr2⟩ := putcacheFullLoop_victim did (u16 sec) (u16 blk) s.cache 0
        s.cacheAccess none hl
      obtain ⟨v, hv1, hv2⟩ := victim_of_fill s k hf0 r hr2
      rw [hr1, hv1]
      refine ⟨v, rfl, ?_⟩
      rcases hv2 with hv2 | ⟨hv2, hv3⟩
      · exact Or.inl hv2
      · refine Or.inr ⟨hv2, hv3, ?_⟩
        -- the scan is the one of `oldestSlot`
        rw [hv1] at hr1
        cases hc : s.cache with
        | nil => rw [hc] at hv2; simp at hv2; omega
        | cons e rest =>
          rw [hc] at hr1 hl
          have hget0 : s.cache.get? 0 = some e := by rw [hc]; rfl
          have ht : e.time < s.cacheAccess := by
            have := (h5 0 e hget0 (by omega)).2.2
            exact this
          unfold putcacheFullLoop at hr1
          unfold getcacheLoop at hl
          by_cases c : keyMatch e did (u16 sec) (u16 blk) = true
          · rw [if_pos c] at hl; cases hl
          · rw [if_neg c] at hl hr1
            rw [if_pos ht, putcacheFullLoop_oldest _ _ _ _ _ _ _ hl] at hr1
            simp only [FullScan.victim.injEq, Option.some.injEq] at hr1
            show some (oldestFrom rest 1 e.time 0) = some v
            rw [hr1]
    · rw [if_neg hfull]
      have hk : k < s.cache.length := by
        rw [h1]; omega
      have hgetk : s.cache.get? k = some (s.cache.get ⟨k, hk⟩) := List.get?_eq_get hk
      have := putcacheFreeLoop_empty did (u16 sec) (u16 blk) s.cache 0 k _ hgetk
        (h6 k _ hgetk (le_refl _)).1 (hnone k _ hgetk)
        (fun m2 e2 hm2 hlt => ⟨hnone m2 e2 hm2, by
          have := (h5 m2 e2 hm2 hlt).1
          omega⟩)
      rw [Nat.zero_add] at this
      rw [this]
      exact ⟨k, rfl, Or.inl ⟨hk, rfl⟩⟩

end LCloud

namespace LCloud

/-! ## Counters and capacity of the cache -/

/-- `lcloud_getcache` adds one to the sum of the two counters. -/
theorem getcache_counts (did sec blk : Int) (s : CacheState) :
    (lcloud_getcache did sec blk s).2.cacheHits + (lcloud_getcache did sec blk s).2.cacheMisses =
      s.cacheHits + s.cacheMisses + 1 ∧
    (lcloud_getcache did sec blk s).2.cacheSize = s.cacheSize := by
  unfold lcloud_getcache
  cases getcacheLoop did (u16 sec) (u16 blk) s.cache 0 with
  | none => exact ⟨by show s.cacheHits + (s.cacheMisses + 1) = _; omega, rfl⟩
  | some i =>
    dsimp only
    cases s.cache.get? i with
    | none => exact ⟨by show s.cacheHits + (s.cacheMisses + 1) = _; omega, rfl⟩
    | some e => exact ⟨by show s.cacheHits + 1 + s.cacheMisses = _; omega, rfl⟩

/-- `lcloud_putcache` leaves the hit counter alone and adds one to the miss counter exactly
when the key is not in the cache. -/
theorem putcache_counts (did sec blk : Int) (block : Buf) (s : CacheState) (k : Nat)
    (hf : CacheFill s k) :
    (lcloud_putcache did sec blk block s).2.cacheHits = s.cacheHits ∧
    (lcloud_putcache did sec blk block s).2.cacheMisses =
      s.cacheMisses + (if resident did sec blk s then 0 else 1) ∧
    (lcloud_putcache did sec blk block s).2.cacheSize = s.cacheSize := by
  obtain ⟨hhit, hins⟩ := lcloud_putcache_cases did sec blk block s k hf
  unfold resident
  cases hl : getcacheLoop did (u16 sec) (u16 blk) s.cache 0 with
  | some j =>
    obtain ⟨e, -⟩ := hhit j hl
    obtain ⟨m, e0, g1, g2, -, -⟩ := getcacheLoop_some _ _ _ _ _ _ hl
    have hjm : j = m := by omega
    subst hjm
    rw [e, restamp_eq s j e0 block g1]
    exact ⟨rfl, by simp, rfl⟩
  | none =>
    obtain ⟨v, e, -⟩ := hins hl
    rw [e]
    exact ⟨rfl, by simp, rfl⟩

theorem runCache_cacheSize (c : CacheCall) (s : CacheState) (hok : CacheOK s) :
    (runCache c s).cacheSize = s.cacheSize := by
  obtain ⟨k, hk⟩ := hok
  cases c with
  | get did sec blk => exact (getcache_counts did sec blk s).2
  | put did sec blk data => exact (putcache_counts did sec blk data s k hk).2.2

theorem cacheReachable_size (maxblocks : Int) (h : 1 ≤ maxblocks) (s : CacheState)
    (hs : CacheReachable maxblocks s) : s.cacheSize = maxblocks := by
  induction hs with
  | init => rfl
  | @step t c ht ih =>
    rw [runCache_cacheSize c t (cacheReachable_ok maxblocks h t ht)]
    exact ih

/-- Over a sequence of calls the sum of the two counters grows by the number of lookups plus
the number of insertions of a key that was not in the cache. -/
theorem runCacheCalls_counts : ∀ (calls : List CacheCall) (s : CacheState), CacheOK s →
    (runCacheCalls calls s).cacheHits + (runCacheCalls calls s).cacheMisses =
      s.cacheHits + s.cacheMisses + (getCalls calls : Int) + (insertingPuts calls s : Int) := by
  intro calls
  induction calls with
  | nil => intro s _; simp [runCacheCalls, getCalls, insertingPuts]
  | cons c rest ih =>
    intro s hok
    have hstep : runCacheCalls (c :: rest) s = runCacheCalls rest (runCache c s) := rfl
    rw [hstep, ih _ (runCache_ok c s hok)]
    obtain ⟨k, hk⟩ := hok
    cases c with
    | get did sec blk =>
      have := (getcache_counts did sec blk s).1
      show (lcloud_getcache did sec blk s).2.cacheHits +
        (lcloud_getcache did sec blk s).2.cacheMisses + _ + _ = _
      rw [this]
      simp only [getCalls, insertingPuts, Nat.cast_add, Nat.cast_one]
      omega
    | put did sec blk data =>
      obtain ⟨p1, p2, -⟩ := putcache_counts did sec blk data s k hk
      show (lcloud_putcache did sec blk data s).2.cacheHits +
        (lcloud_putcache did sec blk data s).2.cacheMisses + _ + _ = _
      rw [p1, p2]
      simp only [getCalls, insertingPuts, Nat.cast_add]
      split_ifs
      · simp
      · simp only [Nat.cast_one, Nat.cast_ofNat]
        omega

end LCloud

namespace LCloud

/-! ## Every set allocation bit is listed -/

theorem zeroBits_listed (bls : List (List block)) (devOn : List device) (h : ZeroBits devOn) :
    BitsListed bls devOn := by
  intro i d sec blk hd _ _ _ _ hu
  exfalso
  unfold usedAt at hu
  rw [List.getD_eq_getElem?_getD] at hu
  cases hc : d.usedBlocks[(sec * d.blocks + blk).toNat]? with
  | none => rw [hc] at hu; simp at hu
  | some x =>
    rw [hc] at hu
    have hx : x ∈ d.usedBlocks := by
      rw [List.getElem?_eq_some] at hc
      obtain ⟨hlt, e⟩ := hc
      rw [← e]; exact List.getElem_mem _
    have := h d (List.get?_mem hd) x hx
    simp [this] at hu

theorem bitsListed_mono (bls bls2 : List (List block)) (devOn : List device)
    (h : BitsListed bls devOn)
    (hm : ∀ l ∈ bls, ∀ x ∈ l, ∃ l2 ∈ bls2, x ∈ l2) : BitsListed bls2 devOn := by
  intro i d sec blk hd s0 s1 b0 b1 hu
  obtain ⟨l, hl, hx⟩ := h i d sec blk hd s0 s1 b0 b1 hu
  exact hm l hl _ hx

/-- Setting the bit of the block `nb` keeps "every set bit is listed" when `nb` is listed
afterwards and no listed block is dropped. -/
theorem bitsListed_markUsed (bls bls2 : List (List block)) (devOn : List device) (nb : block)
    (d : device) (h : BitsListed bls devOn) (hr : InRange devOn nb d)
    (hnb : ∃ l ∈ bls2, nb ∈ l) (hm : ∀ l ∈ bls, ∀ x ∈ l, ∃ l2 ∈ bls2, x ∈ l2) :
    BitsListed bls2 (markUsed devOn nb.device nb.sector nb.blockNum) := by
  rw [markUsed_eq devOn nb d hr]
  obtain ⟨r1, r2, r3, r4, r5, r6, r7⟩ := hr
  intro i d2 sec blk hd s0 s1 b0 b1 hu
  rcases get?_set_cases _ _ _ _ _ hd with ⟨e1, e2⟩ | ⟨-, e2⟩
  · subst e2
    unfold usedAt at hu
    dsimp only at hu s1 b1
    rw [getD_set_one] at hu
    by_cases c : (nb.sector * d.blocks + nb.blockNum).toNat = (sec * d.blocks + blk).toNat
    · have c1 := cell_lt d.sectors d.blocks nb.sector nb.blockNum r5 r6 r7 r4
      have c2 := cell_lt d.sectors d.blocks sec blk s1 b0 b1 s0
      have hcell : nb.sector * d.blocks + nb.blockNum = sec * d.blocks + blk := by omega
      obtain ⟨q1, q2⟩ := cell_inj d.blocks nb.sector nb.blockNum sec blk r6 r7 b0 b1 hcell
      have hdev : (i : Int) = nb.device := by omega
      have : ({ device := (i : Int), sector := sec, blockNum := blk } : block) = nb := by
        cases nb
        simp only [block.mk.injEq]
        exact ⟨hdev, q1.symm, q2.symm⟩
      rw [this]
      exact hnb
    · rw [if_neg (fun hh => c hh.1)] at hu
      have hd0 : devOn.get? i = some d := by rw [e1]; exact r2
      obtain ⟨l, hl, hx⟩ := h i d sec blk hd0 s0 s1 b0 b1 hu
      exact hm l hl _ hx
  · obtain ⟨l, hl, hx⟩ := h i d2 sec blk e2 s0 s1 b0 b1 hu
    exact hm l hl _ hx

/-- Replacing one list by a list that holds all its blocks drops no listed block. -/
theorem listed_after_set (bls : List (List block)) (fh : Nat) (l1 l2 : List block)
    (h : ∀ x ∈ l1, x ∈ l2) :
    ∀ l ∈ bls.set fh l1, ∀ x ∈ l, ∃ m ∈ bls.set fh l2, x ∈ m := by
  intro l hl x hx
  obtain ⟨i, hi⟩ := List.get?_of_mem hl
  rcases get?_set_cases _ _ _ _ _ hi with ⟨e1, e2⟩ | ⟨e1, e2⟩
  · subst e1 e2
    rcases List.get?_eq_some.1 hi with ⟨hlt, -⟩
    rw [List.length_set] at hlt
    exact ⟨l2, List.get?_mem (by rw [get?_set_eq_cases, if_pos ⟨rfl, hlt⟩]), h x hx⟩
  · exact ⟨l, List.get?_mem (by
      rw [get?_set_eq_cases, if_neg (fun c => e1 c.1.symm)]; exact e2), hx⟩

/-- A chunk of `lcwrite` on a block boundary keeps "every set bit is listed". -/
theorem writeAtBoundary_bits {σ : Type} (K : Consts) (bus : Bus σ) (junk buf : Buf)
    (bls : List (List block)) (fh : Nat) (hfh : fh < bls.length) (p0 s0 n0 : Nat)
    (pre : Bool) (n : Nat) (st : WState σ) (hs : WriteShape p0 s0 n0 (true, st))
    (ha : (p0 + st.bytesWrote) % 256 = 0)
    (hd : ∀ d ∈ st.devOn, DevOK d) (hb : BlocksOK (bls.set fh st.f.blocks) st.devOn)
    (hbits : BitsListed (bls.set fh st.f.blocks) st.devOn) :
    BitsListed (bls.set fh (writeAtBoundary K bus junk buf pre n st).2.f.blocks)
      (writeAtBoundary K bus junk buf pre n st).2.devOn := by
  obtain ⟨fok, ffail⟩ := writeAtBoundary_frame K bus junk buf pre n st
  cases hr : (writeAtBoundary K bus junk buf pre n st).1 with
  | false =>
    obtain ⟨e1, e2, -, -⟩ := ffail hr
    rw [e1, e2]
    exact hbits
  | true =>
    obtain ⟨hne, e1, e2, -, -⟩ := fok hr
    obtain ⟨hc, h1, h2⟩ := hs
    have hp := hc.1
    simp only at h1 h2 hp
    rw [e1, e2, (growSize_fields _ _).2.1, (storeBlock_fields _ _ _).2.2.2.2.2]
    rw [hp]
    have hself : ∀ (l : List block), l ∈ bls.set fh l :=
      fun l => List.get?_mem (by rw [get?_set_eq_cases, if_pos ⟨rfl, hfh⟩])
    by_cases hq : st.f.position + st.bytesWrote ≥ st.f.size
    · have hcb : chosenBlock st = get_Next_Block st.devOn := by
        unfold chosenBlock; rw [if_pos hq]
      rw [hcb] at hne ⊢
      obtain ⟨d, hr1, -⟩ := get_Next_Block_spec st.devOn hd hne
      have hidx : (p0 + st.bytesWrote) / 256 = st.f.blocks.length := by
        rw [hp] at hq h2; omega
      rw [hidx, setBlock_end]
      exact bitsListed_markUsed _ _ _ _ d hbits hr1
        ⟨_, hself _, by simp⟩
        (listed_after_set bls fh _ _ (fun x hx => List.mem_append_left _ hx))
    · have hidx : (p0 + st.bytesWrote) / 256 < st.f.blocks.length := by
        rw [hp] at hq; omega
      have hcb : chosenBlock st = st.f.blocks.getD ((p0 + st.bytesWrote) / 256) noBlock := by
        unfold chosenBlock; rw [if_neg hq, hp]; exact blockAt_getD _ _ _ hidx
      rw [hcb, setBlock_same _ _ _ hidx _]
      have hmem : st.f.blocks.getD ((p0 + st.bytesWrote) / 256) noBlock ∈ st.f.blocks := by
        rw [List.getD_eq_getElem _ _ hidx]
        exact List.getElem_mem _
      obtain ⟨d, hr1, -⟩ := hb.1 st.f.blocks (hself _) _ hmem
      exact bitsListed_markUsed _ _ _ _ d hbits hr1 ⟨_, hself _, hmem⟩
        (fun l hl x hx => ⟨l, hl, hx⟩)

/-- `lcwrite` keeps "every set bit is listed", whatever the controller answers and whether
the call succeeds or not. -/
theorem writeFile_bits {σ : Type} (K : Consts) (bus : Bus σ) (junk : Buf) (f : file)
    (devOn : List device) (cs : CacheState) (w : σ) (buf : Buf) (len : Nat)
    (bls : List (List block)) (fh : Nat) (hfh : fh < bls.length) (hf : FileOK f)
    (hd : ∀ d ∈ devOn, DevOK d) (hb : BlocksOK (bls.set fh f.blocks) devOn)
    (hbits : BitsListed (bls.set fh f.blocks) devOn) :
    BitsListed (bls.set fh (writeFile K bus junk f devOn cs w buf len).f.blocks)
      (writeFile K bus junk f devOn cs w buf len).devOn := by
  have hch := lcwriteBody_chunks K bus junk buf
    { f := f, devOn := devOn, cs := cs, world := w, bytesWrote := 0, len := len,
      buf_256 := junk }
    (fun s => ((∀ d ∈ s.devOn, DevOK d) ∧ BlocksOK (bls.set fh s.f.blocks) s.devOn) ∧
      BitsListed (bls.set fh s.f.blocks) s.devOn)
    (by
      intro s n hR _ _ _ _ _ _ _ _
      obtain ⟨t1, t2⟩ := writeInBlock_tables K bus junk buf (f.position / 256)
        (f.position - f.position % 256) n s
      show ((∀ d ∈ (writeInBlock K bus junk buf _ _ n s).2.devOn, DevOK d) ∧
        BlocksOK (bls.set fh (writeInBlock K bus junk buf _ _ n s).2.f.blocks)
          (writeInBlock K bus junk buf _ _ n s).2.devOn) ∧
        BitsListed (bls.set fh (writeInBlock K bus junk buf _ _ n s).2.f.blocks)
          (writeInBlock K bus junk buf _ _ n s).2.devOn
      rw [t1, t2]
      exact hR)
    (by
      intro s pre n hR hs _ ha _ _ _ _ _
      exact ⟨writeAtBoundary_tables K bus junk buf bls fh hfh _ _ _ pre n s hs ha hR.1.1 hR.1.2,
        writeAtBoundary_bits K bus junk buf bls fh hfh _ _ _ pre n s hs ha hR.1.1 hR.1.2 hR.2⟩)
    rfl hf ⟨⟨hd, hb⟩, hbits⟩
  obtain ⟨-, -, r⟩ := hch
  unfold writeFile
  dsimp only
  split_ifs with h1 h2
  · exact hbits
  · exact r
  · exact r

end LCloud

namespace LCloud

theorem initDevices_zeroBits {σ : Type} (K : Consts) (bus : Bus σ) :
    ∀ (l : List device) (i listOfDevices : Nat) (done : List device) (w : σ),
      ZeroBits l → ZeroBits done → ZeroBits (initDevices K bus l i listOfDevices done w).2.1 := by
  intro l
  induction l with
  | nil => intro i m done w _ hd; exact hd
  | cons d rest ih =>
    intro i m done w hl hd
    have hd0 : ∀ x ∈ d.usedBlocks, x = 0 := hl d (List.mem_cons_self _ _)
    have hrest : ZeroBits rest := fun e he => hl e (List.mem_cons_of_mem _ he)
    unfold initDevices
    dsimp only
    split_ifs with c1 c2
    · intro e he
      rcases List.mem_append.1 he with he | he
      · exact hd e he
      · rcases List.mem_cons.1 he with he | he
        · rw [he]; exact hd0
        · exact hrest e he
    · apply ih _ _ _ _ hrest
      intro e he
      rcases List.mem_append.1 he with he | he
      · exact hd e he
      · rw [List.mem_singleton] at he
        rw [he]
        intro x hx
        exact List.eq_of_mem_replicate hx
    · apply ih _ _ _ _ hrest
      intro e he
      rcases List.mem_append.1 he with he | he
      · exact hd e he
      · rw [List.mem_singleton] at he
        rw [he]; exact hd0

theorem lcopenInit_zeroBits {σ : Type} (K : Consts) (bus : Bus σ) (s : FsState σ)
    (h : ZeroBits s.devOn) : ZeroBits (lcopenInit K bus s).2.devOn := by
  have key := initDevices_zeroBits K bus s.devOn 0
  unfold lcopenInit
  dsimp only
  split_ifs
  · exact h
  · exact h
  · exact key _ [] _ h (fun e he => by simp at he)
  · exact key _ [] _ h (fun e he => by simp at he)

theorem bitsOK_of_file_update {σ : Type} (s : FsState σ) (fh : Nat) (f g : file)
    (cs : CacheState) (w : σ) (hs : BitsOK s) (hf : s.fhTable.get? fh = some f)
    (hb : g.blocks = f.blocks) :
    BitsOK { s with fhTable := s.fhTable.set fh g, cs := cs, world := w } := by
  refine ⟨hs.1, ?_⟩
  show BitsListed ((s.fhTable.set fh g).map (fun f => f.blocks)) s.devOn
  rw [map_blocks_set, hb, set_blocks_self _ _ _ hf]
  exact hs.2

/-- Along the runs whose reads end inside the stored blocks, with a controller that reports no
empty device, every set allocation bit of a block inside the geometry of its device belongs
to a block listed in a descriptor; before the first successful `lcopen` no bit is set. -/
theorem inBlocks_bitsOK {σ : Type} (K : Consts) (bus : Bus σ) (hg : GoodGeometry K bus)
    (s : FsState σ) (hs : InBlocks K bus s) : BitsOK s := by
  induction hs with
  | boot w =>
    have hz : ZeroBits (bootState w).devOn := by
      intro d hd x hx
      have := List.eq_of_mem_replicate hd
      rw [this] at hx
      simp at hx
    exact ⟨fun _ => hz, zeroBits_listed _ _ hz⟩
  | @opn s path garbage hr ih =>
    obtain ⟨i1, i2⟩ := lcopenInit_spec K bus hg s
    unfold lcopen
    dsimp only
    split_ifs with c1 c2
    · have hz := lcopenInit_zeroBits K bus s (ih.1 c1)
      refine ⟨fun hfo => ?_, zeroBits_listed _ _ hz⟩
      exact absurd (i1 c2).1 hfo
    · have hz := lcopenInit_zeroBits K bus s (ih.1 c1)
      exact ⟨fun _ => hz, zeroBits_listed _ _ hz⟩
    · refine ⟨fun hfo => absurd (not_not.1 c1) hfo, ?_⟩
      show BitsListed ((s.fhTable ++ _).map (fun f => f.blocks)) s.devOn
      apply bitsListed_mono _ _ _ ih.2
      intro l hl x hx
      exact ⟨l, by rw [List.map_append]; exact List.mem_append_left _ hl, hx⟩
  | @read s junk fh buf len g r hr hg2 hin he ih =>
    obtain ⟨hu, he⟩ := lcread_some hg2 he
    rw [he]
    · exact bitsOK_of_file_update s fh g _ _ _ ih hg2
        (readFile_file K bus junk g s.cs s.world buf len).2.1
  | @write s junk fh buf len r hr he ih =>
    have hst := inBlocks_stateOK K bus hg s hr
    obtain ⟨g, hg2⟩ := lcwrite_get he
    obtain ⟨hu, he⟩ := lcwrite_some hg2 he
    rw [he]
    · obtain ⟨h1, h2, h3, h4⟩ := hst
      have hfo : s.firstOpen = 0 := by
        by_contra hne
        rw [h1 hne] at hg2
        simp at hg2
      have hlt : fh < (s.fhTable.map (fun f => f.blocks)).length := by
        rw [List.length_map]
        exact (List.get?_eq_some.1 hg2).1
      have w3 := writeFile_bits K bus junk g s.devOn s.cs s.world buf len
        (s.fhTable.map (fun f => f.blocks)) fh hlt (h3 g (List.get?_mem hg2)) (h2 hfo)
        (by rw [set_blocks_self _ _ _ hg2]; exact h4)
        (by rw [set_blocks_self _ _ _ hg2]; exact ih.2)
      refine ⟨fun hne => absurd hfo hne, ?_⟩
      show BitsListed ((s.fhTable.set fh _).map (fun f => f.blocks)) _
      rw [map_blocks_set]
      exact w3
  | @seek s fh off r hr he ih =>
    unfold lcseek at he
    split at he
    · simp at he
    · rename_i g hg2
      simp only [Option.some.injEq] at he
      rw [← he]
      exact bitsOK_of_file_update s fh g _ s.cs s.world ih hg2 (seekFile_file g off).2.1
  | @close s fh hr ih =>
    unfold lcclose
    split_ifs with c1
    · exact ih
    · split
      · rename_i g hg2
        split_ifs with c2
        · exact ih
        · exact bitsOK_of_file_update s fh g _ s.cs s.world ih hg2 rfl
      · exact ih

end LCloud

namespace LCloud

/-! ## A failed `lcread` -/

/-- When the loop of `lcread` ends in `return -1`, the position is short of the end of the
request. -/
theorem lcreadLoop_failed {σ : Type} (K : Consts) (bus : Bus σ) (fuel : Nat) :
    ∀ (f : file) (cs : CacheState) (w : σ) (buf : Buf) (bytesRead len i : Nat) (buf_256 : Buf),
      (lcreadLoop K bus fuel f cs w buf bytesRead len i buf_256).ret < 0 →
      (lcreadLoop K bus fuel f cs w buf bytesRead len i buf_256).ret = -1 ∧
      (lcreadLoop K bus fuel f cs w buf bytesRead len i buf_256).f.position <
        f.position + len := by
  induction fuel with
  | zero =>
    intro f cs w buf bytesRead len i buf_256 h
    exfalso
    have : ((bytesRead : Nat) : Int) < 0 := h
    omega
  | succ fuel ih =>
    intro f cs w buf bytesRead len i buf_256
    unfold lcreadLoop
    simp only [mark_ret, mark_f]
    split_ifs with h1 h2 h3 h4 h5 h6 h7 h8
    · intro hneg
      obtain ⟨r1, r2⟩ := ih _ _ _ _ _ _ _ _ hneg
      simp only at r2
      exact ⟨r1, by omega⟩
    · intro _
      exact ⟨rfl, by show f.position < f.position + len; omega⟩
    · intro hneg
      have hlen := le_of_whole len h4
      obtain ⟨r1, r2⟩ := ih _ _ _ _ _ _ _ _ hneg
      simp only at r2
      exact ⟨r1, by omega⟩
    · intro _
      exact ⟨rfl, by show f.position < f.position + len; omega⟩
    · intro hneg
      exfalso
      have : (((bytesRead : Nat) : Int) + ((f.size % 256 : Nat) : Int)) < 0 := hneg
      omega
    · intro _
      exact ⟨rfl, by show f.position < f.position + len; omega⟩
    · simp only [mark_ret, mark_f]
      intro hneg
      obtain ⟨r1, r2⟩ := ih _ _ _ _ _ _ _ _ hneg
      simp only at r2
      exact ⟨r1, by omega⟩
    · intro _
      exact ⟨rfl, by show f.position < f.position + len; omega⟩
    · intro h
      exfalso
      have : ((bytesRead : Nat) : Int) < 0 := h
      omega

/-- With nothing left to read the loop of `lcread` ends at once. -/
theorem lcreadLoop_nothing {σ : Type} (K : Consts) (bus : Bus σ) (fuel : Nat) (f : file)
    (cs : CacheState) (w : σ) (buf : Buf) (bytesRead i : Nat) (buf_256 : Buf) :
    lcreadLoop K bus (fuel + 1) f cs w buf bytesRead 0 i buf_256 =
      { ret := bytesRead, buf := buf, f := f, cs := cs, world := w } := by
  rw [lcreadLoop_small K bus fuel f cs w buf bytesRead 0 i buf_256 (by norm_num)]
  have h5 : decide (0 > 0 ∧ 10000 ≤ i) = false := by
    rw [decide_eq_false_iff_not]
    omega
  rw [h5, mark_false, if_neg (by omega : ¬ (0 > 0 ∧ _))]

/-- Below `2^39` bytes the loop of `lcread` needs no more than `len + 1` turns: the result is
the same with any greater number. -/
theorem lcreadLoop_fuel {σ : Type} (K : Consts) (bus : Bus σ) (a : Nat) :
    ∀ (b : Nat) (f : file) (cs : CacheState) (w : σ) (buf : Buf) (bytesRead len i : Nat)
      (buf_256 : Buf), len < 2 ^ 39 → len < a → len < b →
      lcreadLoop K bus a f cs w buf bytesRead len i buf_256 =
        lcreadLoop K bus b f cs w buf bytesRead len i buf_256 := by
  induction a with
  | zero => intro b f cs w buf bytesRead len i buf_256 _ h; omega
  | succ a ih =>
    intro b f cs w buf bytesRead len i buf_256 hl ha hb
    cases b with
    | zero => omega
    | succ b =>
      rw [lcreadLoop_small K bus a f cs w buf bytesRead len i buf_256 hl,
        lcreadLoop_small K bus b f cs w buf bytesRead len i buf_256 hl]
      congr 1
      split_ifs with h1 h2 h3 h4 h5 h6
      · exact ih b _ _ _ _ _ _ _ _ (by omega) (by omega) (by omega)
      · rfl
      · exact ih b _ _ _ _ _ _ _ _ (by omega) (by omega) (by omega)
      · rfl
      · exact ih b _ _ _ _ _ _ _ _ (by omega) (by omega) (by omega)
      · rfl
      · rfl

theorem failedAfter_step {σ : Type} (K : Consts) (bus : Bus σ) (full short : IoResult σ)
    (f : file) (bytesRead a k : Nat) (B : Buf) (c d : Bool)
    (hb : (f.position + a) % 256 = 0)
    (h : FailedAfter K bus full short { f with position := f.position + a } (bytesRead + a)
      k B) :
    FailedAfter K bus (IoResult.mark c full) (IoResult.mark d short) f bytesRead (a + k) B := by
  obtain ⟨h1, h2, h3, h4, h5, h6, h7, h8, h9, h10⟩ := h
  have e : f.position + a + k = f.position + (a + k) := by omega
  simp only [e] at h2 h3 h4 h5 h7 h9 h10
  refine ⟨?_, h2, ?_, h4, h5, h6, h7, h8, h9, h10⟩
  · rw [mark_ret, h1, Nat.add_assoc]
  · rcases h3 with h3 | h3
    · right
      rw [h3]
      exact hb
    · exact Or.inr h3

theorem failedAfter_now {σ : Type} (K : Consts) (bus : Bus σ) (f : file) (cs : CacheState)
    (w : σ) (buf : Buf) (bytesRead : Nat) (B : Buf) (c : Bool)
    (hblk : (blockAt f (f.position / 256)).blockNum ≠ -1)
    (hfail : (loadBlock K bus (blockAt f (f.position / 256)) B cs w).1 = false) :
    FailedAfter K bus
      (IoResult.mark c
        { ret := -1, buf := buf, f := f
          cs := (loadBlock K bus (blockAt f (f.position / 256)) B cs w).2.2.1
          world := (loadBlock K bus (blockAt f (f.position / 256)) B cs w).2.2.2 })
      { ret := bytesRead, buf := buf, f := f, cs := cs, world := w } f bytesRead 0 B :=
  ⟨rfl, rfl, Or.inl rfl, hblk, hfail, rfl, rfl, rfl, rfl, rfl⟩

/-- The read of the rest of a block and `k` bytes more is the read of the rest of the block,
followed by the read of the `k` bytes. -/
theorem lcreadLoop_head {σ : Type} (K : Consts) (bus : Bus σ) (f : file) (cs : CacheState)
    (w : σ) (buf : Buf) (bytesRead i k : Nat) (buf_256 : Buf)
    (hp : f.position % 256 ≠ 0) (hk : 256 - f.position % 256 + k < 2 ^ 39)
    (hblk : (blockAt f i).blockNum ≠ -1)
    (hload : (loadBlock K bus (blockAt f i) buf_256 cs w).1 = true) :
    lcreadLoop K bus (256 - f.position % 256 + k + 1) f cs w buf bytesRead
        (256 - f.position % 256 + k) i buf_256 =
      IoResult.mark (decide (256 - f.position % 256 + k > 0 ∧ 10000 ≤ i))
        (lcreadLoop K bus (k + 1) { f with position := f.position + (256 - f.position % 256) }
          (loadBlock K bus (blockAt f i) buf_256 cs w).2.2.1
          (loadBlock K bus (blockAt f i) buf_256 cs w).2.2.2
          (memcpy buf bytesRead (loadBlock K bus (blockAt f i) buf_256 cs w).2.1
            (f.position % 256) (256 - f.position % 256))
          (bytesRead + (256 - f.position % 256)) k (i + 1)
          (loadBlock K bus (blockAt f i) buf_256 cs w).2.1) := by
  have hm : f.position % 256 < 256 := Nat.mod_lt _ (by norm_num)
  rw [lcreadLoop_small K bus _ f cs w buf bytesRead _ i buf_256 (by omega)]
  have h1 : 256 - f.position % 256 + k > 0 ∧ (blockAt f i).blockNum ≠ -1 := ⟨by omega, hblk⟩
  rw [if_pos h1]
  by_cases hk0 : k = 0
  · subst hk0
    have h2 : ¬ (f.position % 256 ≠ 0 ∧ f.position % 256 + (256 - f.position % 256 + 0) > 256) := by
      omega
    have h3 : ¬ (256 - f.position % 256 + 0) / 256 > 0 := by omega
    have e1 : (256 - f.position % 256 + 0) % 256 = 256 - f.position % 256 := by omega
    have e2 : 256 - f.position % 256 + 0 - (256 - f.position % 256) = 0 := by omega
    rw [if_neg h2, if_neg h3, if_pos hload, e1, e2]
    obtain ⟨n, hn⟩ : ∃ n, 256 - f.position % 256 + 0 = n + 1 := ⟨255 - f.position % 256, by omega⟩
    rw [hn, lcreadLoop_nothing, lcreadLoop_nothing]
  · have h2 : f.position % 256 ≠ 0 ∧ f.position % 256 + (256 - f.position % 256 + k) > 256 := by
      omega
    have e2 : 256 - f.position % 256 + k - (256 - f.position % 256) = k := by omega
    rw [if_pos h2, if_pos hload, e2]
    rw [lcreadLoop_fuel K bus (256 - f.position % 256 + k) (k + 1) _ _ _ _ _ _ _ _ (by omega)
      (by omega) (by omega)]

/-- The read of a whole block and `k` bytes more is the read of the block, followed by the
read of the `k` bytes. -/
theorem lcreadLoop_whole {σ : Type} (K : Consts) (bus : Bus σ) (f : file) (cs : CacheState)
    (w : σ) (buf : Buf) (bytesRead i k : Nat) (buf_256 : Buf)
    (hp : f.position % 256 = 0) (hk : 256 + k < 2 ^ 39)
    (hblk : (blockAt f i).blockNum ≠ -1)
    (hload : (loadBlock K bus (blockAt f i) buf_256 cs w).1 = true) :
    lcreadLoop K bus (256 + k + 1) f cs w buf bytesRead (256 + k) i buf_256 =
      IoResult.mark (decide (256 + k > 0 ∧ 10000 ≤ i))
        (lcreadLoop K bus (k + 1) { f with position := f.position + 256 }
          (loadBlock K bus (blockAt f i) buf_256 cs w).2.2.1
          (loadBlock K bus (blockAt f i) buf_256 cs w).2.2.2
          (memcpy buf bytesRead (loadBlock K bus (blockAt f i) buf_256 cs w).2.1 0 256)
          (bytesRead + 256) k (i + 1)
          (loadBlock K bus (blockAt f i) buf_256 cs w).2.1) := by
  rw [lcreadLoop_small K bus _ f cs w buf bytesRead _ i buf_256 (by omega)]
  have h1 : 256 + k > 0 ∧ (blockAt f i).blockNum ≠ -1 := ⟨by omega, hblk⟩
  have h2 : ¬ (f.position % 256 ≠ 0 ∧ f.position % 256 + (256 + k) > 256) := by omega
  have h3 : (256 + k) / 256 > 0 := by omega
  have e2 : 256 + k - 256 = k := by omega
  rw [if_pos h1, if_neg h2, if_pos h3, if_pos hload, e2]
  rw [lcreadLoop_fuel K bus (256 + k) (k + 1) _ _ _ _ _ _ _ _ (by omega) (by omega) (by omega)]

/-- A failed `lcread` of fewer than `2^39` bytes is a `lcread` of fewer bytes, up to the start
of a block, followed by the failed load of that block. -/
theorem lcreadLoop_failedAfter {σ : Type} (K : Consts) (bus : Bus σ) (fuel : Nat) :
    ∀ (f : file) (cs : CacheState) (w : σ) (buf : Buf) (bytesRead len i : Nat) (buf_256 : Buf),
      len < 2 ^ 39 → len < fuel → i = f.position / 256 →
      (lcreadLoop K bus fuel f cs w buf bytesRead len i buf_256).ret < 0 →
      ∃ k B, k < len ∧
        FailedAfter K bus (lcreadLoop K bus fuel f cs w buf bytesRead len i buf_256)
          (lcreadLoop K bus (k + 1) f cs w buf bytesRead k i buf_256) f bytesRead k B := by
  induction fuel with
  | zero => intro f cs w buf bytesRead len i buf_256 _ h; omega
  | succ fuel ih =>
    intro f cs w buf bytesRead len i buf_256 hl hfuel hi hneg
    subst hi
    rw [lcreadLoop_small K bus fuel f cs w buf bytesRead len _ buf_256 (by omega)] at hneg ⊢
    rw [mark_ret] at hneg
    by_cases h1 : len > 0 ∧ (blockAt f (f.position / 256)).blockNum ≠ -1
    · rw [if_pos h1] at hneg ⊢
      by_cases hload : (loadBlock K bus (blockAt f (f.position / 256)) buf_256 cs w).1 = true
      · by_cases h2 : f.position % 256 ≠ 0 ∧ f.position % 256 + len > 256
        · rw [if_pos h2, if_pos hload] at hneg ⊢
          obtain ⟨k, B, hk, hF⟩ := ih _ _ _ _ _ _ _ _ (by omega) (by omega)
            (by show f.position / 256 + 1 = (f.position + (256 - f.position % 256)) / 256; omega)
            hneg
          refine ⟨256 - f.position % 256 + k, B, by omega, ?_⟩
          rw [lcreadLoop_head K bus f cs w buf bytesRead _ k buf_256 h2.1 (by omega) h1.2 hload]
          exact failedAfter_step K bus _ _ f bytesRead _ k B _ _ (by omega) hF
        · rw [if_neg h2] at hneg ⊢
          by_cases h3 : len / 256 > 0
          · rw [if_pos h3, if_pos hload] at hneg ⊢
            have hp : f.position % 256 = 0 := by omega
            obtain ⟨k, B, hk, hF⟩ := ih _ _ _ _ _ _ _ _ (by omega) (by omega)
              (by show f.position / 256 + 1 = (f.position + 256) / 256; omega) hneg
            refine ⟨256 + k, B, by omega, ?_⟩
            rw [lcreadLoop_whole K bus f cs w buf bytesRead _ k buf_256 hp (by omega) h1.2 hload]
            exact failedAfter_step K bus _ _ f bytesRead _ k B _ _ (by omega) hF
          · rw [if_neg h3, if_pos hload] at hneg
            exfalso
            have e : len - len % 256 = 0 := by omega
            obtain ⟨n, rfl⟩ : ∃ n, fuel = n + 1 := ⟨fuel - 1, by omega⟩
            rw [e, lcreadLoop_nothing] at hneg
            have : ((bytesRead + len % 256 : Nat) : Int) < 0 := hneg
            omega
      · have hfail : (loadBlock K bus (blockAt f (f.position / 256)) buf_256 cs w).1 = false := by
          simpa using hload
        refine ⟨0, buf_256, h1.1, ?_⟩
        rw [lcreadLoop_nothing]
        have hres := failedAfter_now K bus f cs w buf bytesRead buf_256
          (decide (len > 0 ∧ 10000 ≤ f.position / 256)) h1.2 hfail
        split_ifs
        all_goals exact hres
    · rw [if_neg h1] at hneg
      exfalso
      have : ((bytesRead : Nat) : Int) < 0 := hneg
      omega

end LCloud

namespace LCloud

/-! ## Reachability of the states of concrete runs -/

theorem reachable_stateAfter_write {σ : Type} (K : Consts) (bus : Bus σ) (junk : Buf) (fh : Nat)
    (buf : Buf) (len : Nat) (s : FsState σ) (h : Reachable K bus s) :
    Reachable K bus (stateAfter (lcwrite K bus junk fh buf len s) s) := by
  cases hr : lcwrite K bus junk fh buf len s with
  | none => exact h
  | some r => exact Reachable.write junk fh buf len r h hr

theorem reachable_stateAfter_seek {σ : Type} (K : Consts) (bus : Bus σ) (fh off : Nat)
    (s : FsState σ) (h : Reachable K bus s) :
    Reachable K bus (stateAfter (lcseek fh off s) s) := by
  cases hr : lcseek fh off s with
  | none => exact h
  | some r => exact Reachable.seek fh off r h hr

theorem reachable_stateAfterRead {σ : Type} (K : Consts) (bus : Bus σ) (junk : Buf) (fh : Nat)
    (buf : Buf) (len : Nat) (s : FsState σ) (h : Reachable K bus s) :
    Reachable K bus (stateAfterRead (lcread K bus junk fh buf len s) s) := by
  cases hr : lcread K bus junk fh buf len s with
  | none => exact h
  | some r => exact Reachable.read junk fh buf len r h hr

theorem demoRead300_reachable : Reachable simConsts demoBus demoRead300 :=
  reachable_stateAfterRead simConsts demoBus zeroBuf 0 zeroBuf 300 demoRewound
    demo_reachable.2.2.1

theorem demoGrown_reachable : Reachable simConsts demoBus demoGrown :=
  reachable_stateAfter_write simConsts demoBus zeroBuf 0 (constBuf 66) 10 demoRead300
    demoRead300_reachable

theorem overReadRun_reachable (garbage : Nat → block) :
    Reachable simConsts demoBus (overReadRun garbage) := by
  unfold overReadRun
  have h0 : Reachable simConsts demoBus
      (lcopen simConsts demoBus "x" garbage (bootState simWorld0)).2 :=
    Reachable.opn "x" garbage (Reachable.boot simWorld0)
  have h1 := reachable_stateAfter_write simConsts demoBus zeroBuf 0 (constBuf 65) 100 _ h0
  have h2 := reachable_stateAfter_seek simConsts demoBus 0 0 _ h1
  have h3 := reachable_stateAfterRead simConsts demoBus zeroBuf 0 zeroBuf 512 _ h2
  exact reachable_stateAfter_write simConsts demoBus zeroBuf 0 (constBuf 66) 256 _ h3

theorem demoTwice_reachable : Reachable simConsts demoBus demoTwice := by
  unfold demoTwice
  have h5 := reachable_stateAfter_seek simConsts demoBus 0 256 _
    (overReadRun_reachable zeroGarbage)
  exact reachable_stateAfter_write simConsts demoBus zeroBuf 0 (constBuf 67) 256 _ h5

theorem wideRead_reachable : Reachable simConsts demoBus wideRead := by
  unfold wideRead wideWritten
  have h0 : Reachable simConsts demoBus
      (lcopen simConsts demoBus "x" wideGarbage (bootState simWorld0)).2 :=
    Reachable.opn "x" wideGarbage (Reachable.boot simWorld0)
  have h1 := reachable_stateAfter_write simConsts demoBus zeroBuf 0 rampBuf 1280 _ h0
  exact reachable_stateAfterRead simConsts demoBus zeroBuf 0 zeroBuf 256 _ h1

end LCloud

namespace LCloud

/-! ## Claims on the file layer: return value of a write, shape of the descriptors -/

/-- A successful `lcwrite` of `len` bytes on the descriptor of handle `fh`, at position `p`
with size `s`, returns `len` and leaves the position at `p + len`; the size becomes
`max s (p + len)` when `len > 0` and stays `s` when `len = 0`. This holds in every state and
for every controller. -/
theorem lcwrite_success_position_and_size {σ : Type} (K : Consts) (bus : Bus σ)
    (junk : Buf) (fh : Nat) (buf : Buf) (len : Nat) (s : FsState σ) (f : file)
    (r : Int × FsState σ) (hf : s.fhTable.get? fh = some f)
    (hw : lcwrite K bus junk fh buf len s = some r) (hok : 0 ≤ r.1) :
    r.1 = len ∧
    (r.2.fhTable.get? fh).map (fun g => (g.position, g.size)) =
      some (f.position + len, if len = 0 then f.size else max f.size (f.position + len)) := by
  obtain ⟨-, hr⟩ := lcwrite_some hf hw
  rw [hr] at hok ⊢
  obtain ⟨e1, e2, e3⟩ := writeFile_success K bus junk f s.devOn s.cs s.world buf len hok
  refine ⟨e1, ?_⟩
  have hlt : fh < s.fhTable.length := by
    rcases List.get?_eq_some.1 hf with ⟨h, -⟩
    exact h
  show ((s.fhTable.set fh _).get? fh).map _ = _
  rw [List.get?_eq_getElem?, List.getElem?_set_self hlt]
  simp only [Option.map_some', e2, e3]

/-- With the position not past the size, a successful `lcwrite` of `len` bytes at position `p`
with size `s` returns `len` and leaves position `p + len` and size `max s (p + len)`, also
for `len = 0`. -/
theorem lcwrite_success_within_size {σ : Type} (K : Consts) (bus : Bus σ)
    (junk : Buf) (fh : Nat) (buf : Buf) (len : Nat) (s : FsState σ) (f : file)
    (r : Int × FsState σ) (hf : s.fhTable.get? fh = some f) (hp : f.position ≤ f.size)
    (hw : lcwrite K bus junk fh buf len s = some r) (hok : 0 ≤ r.1) :
    r.1 = len ∧
    (r.2.fhTable.get? fh).map (fun g => (g.position, g.size)) =
      some (f.position + len, max f.size (f.position + len)) := by
  obtain ⟨h1, h2⟩ := lcwrite_success_position_and_size K bus junk fh buf len s f r hf hw hok
  refine ⟨h1, ?_⟩
  rw [h2]
  split_ifs with h0
  · subst h0
    rw [Nat.add_zero, max_eq_left hp]
  · rfl

/-- C9: the number of stored blocks is not `ceil(size / 256)` in every reachable state. With
the array `blocks` all zero at `lcopen`: after a write of 100 bytes and `lcseek` to 0, a
`lcread` of 300 bytes goes on past the one stored block, because the entry `blocks[1]` that
ends its loop was never given the end marker, and leaves position 300 with size 100; a
`lcwrite` of 10 bytes then returns 10 and makes the size 310, while one block is stored and
`ceil(310 / 256) = 2`. -/
theorem C9_block_count_after_over_read :
    Reachable simConsts demoBus demoGrown ∧
    demoRewound.fhTable.map (fun f => (f.position, f.size, f.blocks.length)) = [(0, 100, 1)] ∧
    (lcread simConsts demoBus zeroBuf 0 zeroBuf 300 demoRewound).map (fun r => r.1) =
      some 300 ∧
    demoRead300.fhTable.map (fun f => (f.position, f.size, f.blocks.length)) =
      [(300, 100, 1)] ∧
    (lcwrite simConsts demoBus zeroBuf 0 (constBuf 66) 10 demoRead300).map (fun r => r.1) =
      some 10 ∧
    demoGrown.fhTable.map (fun f => (f.size, f.blocks.length, (f.size + 255) / 256)) =
      [(310, 1, 2)] := by
  refine ⟨demoGrown_reachable, ?_, ?_, ?_, ?_, ?_⟩ <;> decide

end LCloud

namespace LCloud

/-! ## Claim on the block lists -/

/-- In every state reached through `lcopen`, `lcwrite`, `lcseek`, `lcclose` and `lcread` calls
that end inside the stored blocks, with a controller that reports no empty device, two
different places of the block lists (two descriptors, or two indices of one descriptor) never
hold the same `(device, sector, block)` triple. -/
theorem inBlocks_triples_distinct {σ : Type} (K : Consts) (bus : Bus σ) (s : FsState σ)
    (i j a c : Nat) (f g : file) (x y : block) (hg : GoodGeometry K bus)
    (hs : InBlocks K bus s) (hf : s.fhTable.get? i = some f) (hg2 : s.fhTable.get? j = some g)
    (ha : f.blocks.get? a = some x) (hc : g.blocks.get? c = some y) (hne : i ≠ j ∨ a ≠ c) :
    x ≠ y := by
  intro hxy
  have hok := (inBlocks_stateOK K bus hg s hs).2.2.2.2
  have h1 : (s.fhTable.map (fun f => f.blocks)).get? i = some f.blocks := by
    rw [List.get?_eq_getElem?, List.getElem?_map, ← List.get?_eq_getElem?, hf]; rfl
  have h2 : (s.fhTable.map (fun f => f.blocks)).get? j = some g.blocks := by
    rw [List.get?_eq_getElem?, List.getElem?_map, ← List.get?_eq_getElem?, hg2]; rfl
  rw [← hxy] at hc
  obtain ⟨e1, e2⟩ := hok i j a c f.blocks g.blocks x h1 h2 ha hc
  rcases hne with hne | hne
  · exact hne e1
  · exact hne e2

set_option maxRecDepth 8192 in
/-- C10: a triple can occur twice in a block list. With the array `blocks` all zero at
`lcopen`: after a write of 100 bytes and `lcseek` to 0, a `lcread` of 512 bytes runs past the
one stored block to position 512; a `lcwrite` of 256 bytes there stores the new block
`(0,0,1)` at index 2 and makes the size 768; after `lcseek` to 256 a `lcwrite` of 256 bytes
takes the entry `blocks[1]`, which the program never assigned and which reads `(0,0,0)`,
sends the data to that block and stores the entry back. The block list of the file is then
`(0,0,0), (0,0,0), (0,0,1)`. -/
theorem C10_same_triple_twice :
    Reachable simConsts demoBus demoTwice ∧
    (overReadRun zeroGarbage).fhTable.map (fun f => (f.position, f.size)) = [(768, 768)] ∧
    demoTwice.fhTable.map
        (fun f => (f.size, f.blocks.map (fun b => (b.device, b.sector, b.blockNum)))) =
      [(768, [(0, 0, 0), (0, 0, 0), (0, 0, 1)])] := by
  refine ⟨demoTwice_reachable, ?_, ?_⟩ <;> decide

end LCloud

namespace LCloud

/-! ## Claim on the cache -/

/-- C7: in every cache state reachable from `lcloud_initcache` with at least one slot,
`lcloud_putcache(k, data)` returns 0 and a `lcloud_getcache(k)` right after it is a hit (the
hit counter goes up by one) that returns the 256 bytes of `data`; after any further calls
among which there is no `lcloud_putcache` of `k`, `lcloud_getcache(k)` returns the 256 bytes
of `data` or, once `k` has been evicted, nothing. -/
theorem C7_cache_get_after_put (maxblocks : Int) (s : CacheState) (did sec blk : Int)
    (data : Buf) (calls : List CacheCall) (hn : 1 ≤ maxblocks)
    (hs : CacheReachable maxblocks s) (hcalls : ∀ c ∈ calls, ¬ c.putsKey did sec blk) :
    (lcloud_putcache did sec blk data s).1 = 0 ∧
    (lcloud_getcache did sec blk (lcloud_putcache did sec blk data s).2).1.map blockBytes =
      some (blockBytes data) ∧
    (lcloud_getcache did sec blk (lcloud_putcache did sec blk data s).2).2.cacheHits =
      (lcloud_putcache did sec blk data s).2.cacheHits + 1 ∧
    HoldsOrGone did sec blk data
      (runCacheCalls calls (lcloud_putcache did sec blk data s).2) := by
  obtain ⟨k, hk⟩ := cacheReachable_ok maxblocks hn s hs
  obtain ⟨h0, j, e, k2, hj, hc, hkm, hd, hf2⟩ := lcloud_putcache_effect did sec blk data s k hk
  have hsame := getcache_after_put_same did sec blk data s k hk
  refine ⟨h0, hsame, ?_, ?_⟩
  · apply getcache_hit_counts
    intro hnone
    rw [hnone] at hsame
    simp at hsame
  · exact holdsOrGone_calls did sec blk data calls _ ⟨k2, hf2⟩ hcalls (Or.inl hsame)

/-- Witness for C7: a cache of two slots, the key `(0,0,0)` put, then a lookup and a put of
`(0,0,1)` and a lookup of `(0,0,0)`. -/
theorem C7_cache_get_after_put_witness :
    (lcloud_putcache 0 0 0 (constBuf 65) (lcloud_initcache 2)).1 = 0 ∧
    (lcloud_getcache 0 0 0 (lcloud_putcache 0 0 0 (constBuf 65) (lcloud_initcache 2)).2).1.map
        blockBytes = some (blockBytes (constBuf 65)) ∧
    (lcloud_getcache 0 0 0 (lcloud_putcache 0 0 0 (constBuf 65)
        (lcloud_initcache 2)).2).2.cacheHits =
      (lcloud_putcache 0 0 0 (constBuf 65) (lcloud_initcache 2)).2.cacheHits + 1 ∧
    HoldsOrGone 0 0 0 (constBuf 65)
      (runCacheCalls
        [CacheCall.get 0 0 1, CacheCall.put 0 0 1 (constBuf 66), CacheCall.get 0 0 0]
        (lcloud_putcache 0 0 0 (constBuf 65) (lcloud_initcache 2)).2) :=
  C7_cache_get_after_put 2 (lcloud_initcache 2) 0 0 0 (constBuf 65)
    [CacheCall.get 0 0 1, CacheCall.put 0 0 1 (constBuf 66), CacheCall.get 0 0 0]
    (by decide) CacheReachable.init (by
      intro c hc
      simp only [List.mem_cons, List.mem_singleton, List.not_mem_nil, or_false] at hc
      rcases hc with rfl | rfl | rfl
      · exact fun h => h
      · intro h
        have := h.2.2
        revert this
        decide
      · exact fun h => h)

end LCloud

namespace LCloud

/-! ## Claim on read-after-write -/

theorem demoBig_written : Written simConsts demoBus demoBig demoBigGhost :=
  Written.write zeroBuf 0 rampBuf 600
    { name := "x", handle := 0, position := 0, size := 0, blocks := [], opened := 1,
      garbage := zeroGarbage }
    (600, demoBig) (Written.opn "x" zeroGarbage (Written.boot simWorld0)) (by rfl) (by rfl)
    (by decide)

end LCloud

namespace LCloud

/-! ## Claims on `lcseek`, `lcclose`, `lcopen` and on handles -/

/-- C15: `lcseek(fh, off)` on a handle inside the table returns `-1` and changes nothing
when the descriptor is not open or `off > size`; in every other case it returns `off` and
changes only the position of that descriptor, which becomes `off`. So the return value is
negative exactly when the descriptor is not open or `off > size`. -/
theorem C15_lcseek_contract {σ : Type} (fh off : Nat) (s : FsState σ) (f : file)
    (hf : s.fhTable.get? fh = some f) :
    lcseek fh off s =
      some (if f.opened = 0 ∨ f.size < off then ((-1 : Int), s)
        else ((off : Int), { s with fhTable := s.fhTable.set fh { f with position := off } })) ∧
    ((lcseek fh off s).map (fun r => decide (r.1 < 0)) =
      some (decide (f.opened = 0 ∨ f.size < off))) := by
  have key : lcseek fh off s =
      some (if f.opened = 0 ∨ f.size < off then ((-1 : Int), s)
        else ((off : Int), { s with fhTable := s.fhTable.set fh { f with position := off } })) := by
    unfold lcseek
    rw [hf]
    dsimp only
    by_cases c1 : f.opened = 0
    · have hsk : seekFile f off = ((-1 : Int), f) := by
        unfold seekFile; rw [if_pos c1]
      rw [hsk, if_pos (Or.inl c1)]
      show some ((-1 : Int), { s with fhTable := s.fhTable.set fh f }) = _
      rw [set_get?_self _ _ _ hf]
    · by_cases c2 : f.size < off
      · have hsk : seekFile f off = ((-1 : Int), f) := by
          unfold seekFile; rw [if_neg c1, if_pos c2]
        rw [hsk, if_pos (Or.inr c2)]
        show some ((-1 : Int), { s with fhTable := s.fhTable.set fh f }) = _
        rw [set_get?_self _ _ _ hf]
      · have hsk : seekFile f off = ((off : Int), { f with position := off }) := by
          unfold seekFile; rw [if_neg c1, if_neg c2]
        rw [hsk, if_neg (by tauto)]
  refine ⟨key, ?_⟩
  rw [key]
  by_cases c : f.opened = 0 ∨ f.size < off
  · rw [if_pos c]
    simp [c]
  · rw [if_neg c]
    simp only [Option.map_some', Option.some.injEq, decide_eq_decide]
    constructor
    · intro h; omega
    · intro h; exact absurd h c

/-- Witness for C15: a seek inside the 600-byte file. -/
theorem C15_lcseek_witness :
    lcseek 0 250 demoBig =
      some (if (1 : Int) = 0 ∨ 600 < 250 then ((-1 : Int), demoBig)
        else (((250 : Nat) : Int),
          { demoBig with
            fhTable := demoBig.fhTable.set 0
              (file.mk "x" 0 250 600 [{ device := 0, sector := 0, blockNum := 0 },
                { device := 0, sector := 0, blockNum := 1 },
                { device := 0, sector := 0, blockNum := 2 }] 1 zeroGarbage) })) ∧
    ((lcseek 0 250 demoBig).map (fun r => decide (r.1 < 0)) =
      some (decide ((1 : Int) = 0 ∨ 600 < 250))) :=
  C15_lcseek_contract 0 250 demoBig
    { name := "x", handle := 0, position := 600, size := 600,
      blocks := [{ device := 0, sector := 0, blockNum := 0 },
        { device := 0, sector := 0, blockNum := 1 }, { device := 0, sector := 0, blockNum := 2 }],
      opened := 1, garbage := zeroGarbage } (by rfl)

/-- C16: in every reachable state `fileHandleCounter` is the number of descriptors, and
`lcclose(fh)` returns `-1` and changes nothing when `fh >= fileHandleCounter` or when the
descriptor is already closed; on an open descriptor it returns 0 and changes only the `open`
field of that descriptor (size, block list, device table stay), after which a second
`lcclose(fh)` returns `-1`. -/
theorem C16_lcclose_contract {σ : Type} (K : Consts) (bus : Bus σ) (s : FsState σ)
    (hs : Reachable K bus s) (fh : Nat) :
    s.fileHandleCounter = s.fhTable.length ∧
    (fh ≥ s.fileHandleCounter → lcclose fh s = ((-1 : Int), s)) ∧
    (∀ f, s.fhTable.get? fh = some f → f.opened = 0 → lcclose fh s = ((-1 : Int), s)) ∧
    (∀ f, s.fhTable.get? fh = some f → f.opened ≠ 0 →
      lcclose fh s =
        ((0 : Int), { s with fhTable := s.fhTable.set fh { f with opened := 0 } }) ∧
      (lcclose fh (lcclose fh s).2).1 = -1) := by
  obtain ⟨h1, -⟩ := reachable_handles K bus s hs
  refine ⟨h1, ?_, ?_, ?_⟩
  · intro hge
    unfold lcclose
    rw [if_pos hge]
  · intro f hf hc
    unfold lcclose
    split_ifs
    · rfl
    · rw [hf]
      dsimp only
      rw [if_pos hc]
  · intro f hf ho
    have hlt : fh < s.fhTable.length := (List.get?_eq_some.1 hf).1
    have e : lcclose fh s =
        ((0 : Int), { s with fhTable := s.fhTable.set fh { f with opened := 0 } }) := by
      unfold lcclose
      rw [if_neg (by omega), hf]
      dsimp only
      rw [if_neg ho]
    refine ⟨e, ?_⟩
    rw [e]
    unfold lcclose
    dsimp only
    rw [if_neg (by omega), get?_set_eq_cases, if_pos ⟨rfl, hlt⟩]
    dsimp only
    rw [if_pos rfl]

/-- Witness for C16: closing the 600-byte file, twice. -/
theorem C16_lcclose_witness :
    lcclose 0 demoBig =
      ((0 : Int),
        { demoBig with
          fhTable := demoBig.fhTable.set 0
            (file.mk "x" 0 600 600 [{ device := 0, sector := 0, blockNum := 0 },
              { device := 0, sector := 0, blockNum := 1 },
              { device := 0, sector := 0, blockNum := 2 }] 0 zeroGarbage) }) ∧
    (lcclose 0 (lcclose 0 demoBig).2).1 = -1 :=
  (C16_lcclose_contract simConsts demoBus demoBig
    (written_reachable simConsts demoBus demoBig_written) 0).2.2.2
    { name := "x", handle := 0, position := 600, size := 600,
      blocks := [{ device := 0, sector := 0, blockNum := 0 },
        { device := 0, sector := 0, blockNum := 1 }, { device := 0, sector := 0, blockNum := 2 }],
      opened := 1, garbage := zeroGarbage } (by rfl) (by decide)

/-- In every reachable state the descriptors have the handles 0, 1, 2, ... in table order and
`fileHandleCounter` is their number; a successful `lcopen(path)`, first call or not and
whatever the path, returns `fileHandleCounter`, appends the descriptor with this handle, the
first 120 characters of the path as name, position 0, size 0, `open = 1` and no entry of
`blocks` assigned (the array keeps what the memory held, `garbage`) to the unchanged table,
and increments `fileHandleCounter`. -/
theorem lcopen_appends_descriptor {σ : Type} (K : Consts) (bus : Bus σ) (s : FsState σ)
    (hs : Reachable K bus s) (path : String) (garbage : Nat → block)
    (hok : 0 ≤ (lcopen K bus path garbage s).1) :
    (lcopen K bus path garbage s).1 = (s.fileHandleCounter : Int) ∧
    s.fileHandleCounter = s.fhTable.length ∧
    (∀ i f, s.fhTable.get? i = some f → f.handle = (i : Int)) ∧
    (lcopen K bus path garbage s).2.fhTable =
      s.fhTable ++ [file.mk (String.mk (path.data.take 120)) (s.fileHandleCounter : Int) 0 0 []
        1 garbage] ∧
    (lcopen K bus path garbage s).2.fileHandleCounter = s.fileHandleCounter + 1 := by
  obtain ⟨h1, h2⟩ := reachable_handles K bus s hs
  obtain ⟨t1, t2⟩ := lcopenInit_fhTable K bus s
  refine ⟨?_, h1, h2, ?_, ?_⟩
  · unfold lcopen at hok ⊢
    dsimp only at hok ⊢
    split_ifs at hok ⊢ with c1 c2
    · show ((lcopenInit K bus s).2.fileHandleCounter : Int) = _
      rw [t2]
    · simp at hok
    · rfl
  · unfold lcopen at hok ⊢
    dsimp only at hok ⊢
    split_ifs at hok ⊢ with c1 c2
    · show (lcopenInit K bus s).2.fhTable ++
        [file.mk (String.mk (path.data.take 120))
          ((lcopenInit K bus s).2.fileHandleCounter : Int) 0 0 [] 1 garbage] = _
      rw [t1, t2]
    · simp at hok
    · rfl
  · unfold lcopen at hok ⊢
    dsimp only at hok ⊢
    split_ifs at hok ⊢ with c1 c2
    · show (lcopenInit K bus s).2.fileHandleCounter + 1 = _
      rw [t2]
    · simp at hok
    · rfl

/-- C17: the descriptor that `lcopen` appends is not a descriptor without blocks. `lcopen`
assigns name, handle, `open`, position and size of the new descriptor and leaves the array
`blocks` as the memory was, while `lcread` ends its loop on the entry with `blockNum = -1`.
With that memory all zero, `lcopen("x")` on the two-device controller returns 0 and appends
the descriptor with handle 0, position 0, size 0 and `open = 1`, whose entry `blocks[0]`
reads `(0, 0, 0)`; a `lcread` of 10 bytes on it loads that block, returns 10 and leaves the
position at 10 with size 0. -/
theorem C17_new_descriptor_reads_a_block :
    (lcopen simConsts demoBus "x" zeroGarbage (bootState simWorld0)).1 = 0 ∧
    demoOpened.fhTable.map (fun f => (f.handle, f.position, f.size, f.opened)) =
      [(0, 0, 0, 1)] ∧
    demoOpened.fhTable.map
        (fun f => ((blockAt f 0).device, (blockAt f 0).sector, (blockAt f 0).blockNum)) =
      [(0, 0, 0)] ∧
    (lcread simConsts demoBus zeroBuf 0 zeroBuf 10 demoOpened).map
        (fun r => (r.1, r.2.2.fhTable.map (fun f => (f.position, f.size)))) =
      some (10, [(10, 0)]) := by
  refine ⟨?_, ?_, ?_, ?_⟩ <;> decide

/-- C18: on a handle whose descriptor is closed, `lcread`, `lcwrite` and `lcseek` return `-1`
and leave the whole state as it is: file table, device table, cache with its counters, and
the world behind the bus, whatever the controller; the caller's buffer is not touched. The
result does not depend on the bus, which is the only way to the controller. -/
theorem C18_closed_handle_calls_fail {σ : Type} (K : Consts) (bus : Bus σ) (junk : Buf)
    (fh : Nat) (buf : Buf) (len off : Nat) (s : FsState σ) (f : file)
    (hf : s.fhTable.get? fh = some f) (hc : f.opened = 0) :
    lcread K bus junk fh buf len s = some ((-1 : Int), buf, s) ∧
    lcwrite K bus junk fh buf len s = some ((-1 : Int), s) ∧
    lcseek fh off s = some ((-1 : Int), s) := by
  refine ⟨?_, ?_, ?_⟩
  · have e : readFile K bus junk f s.cs s.world buf len =
        { ret := -1, buf := buf, f := f, cs := s.cs, world := s.world } := by
      unfold readFile; rw [if_pos hc]
    rw [lcread_of_defined K bus junk fh buf len s f hf (by rw [e]), e]
    show some ((-1 : Int), buf, { s with fhTable := s.fhTable.set fh f }) = _
    rw [set_get?_self _ _ _ hf]
  · have e : writeFile K bus junk f s.devOn s.cs s.world buf len =
        { ret := -1, f := f, devOn := s.devOn, cs := s.cs, world := s.world } := by
      unfold writeFile; rw [if_pos hc]
    rw [lcwrite_of_defined K bus junk fh buf len s f hf (by rw [e]), e]
    show some ((-1 : Int), { s with fhTable := s.fhTable.set fh f }) = _
    rw [set_get?_self _ _ _ hf]
  · unfold lcseek
    rw [hf]
    dsimp only
    have e : seekFile f off = ((-1 : Int), f) := by
      unfold seekFile; rw [if_pos hc]
    rw [e]
    show some ((-1 : Int), { s with fhTable := s.fhTable.set fh f }) = _
    rw [set_get?_self _ _ _ hf]

/-- Witness for C18: the three calls on the closed 600-byte file. -/
theorem C18_closed_handle_witness :
    lcread simConsts demoBus zeroBuf 0 zeroBuf 20 (lcclose 0 demoBig).2 =
      some ((-1 : Int), zeroBuf, (lcclose 0 demoBig).2) ∧
    lcwrite simConsts demoBus zeroBuf 0 zeroBuf 20 (lcclose 0 demoBig).2 =
      some ((-1 : Int), (lcclose 0 demoBig).2) ∧
    lcseek 0 0 (lcclose 0 demoBig).2 = some ((-1 : Int), (lcclose 0 demoBig).2) :=
  C18_closed_handle_calls_fail simConsts demoBus zeroBuf 0 zeroBuf 20 0 (lcclose 0 demoBig).2
    { name := "x", handle := 0, position := 600, size := 600,
      blocks := [{ device := 0, sector := 0, blockNum := 0 },
        { device := 0, sector := 0, blockNum := 1 }, { device := 0, sector := 0, blockNum := 2 }],
      opened := 0, garbage := zeroGarbage } (by rfl) (by decide)

/-- C19: `lcread`, `lcwrite` and `lcseek` do not compare the handle with `fileHandleCounter`.
After one `lcopen` the table has the single descriptor of handle 0; the three calls on handle
1 read `fhTable[1]`, outside the table, where the model has no result, while `lcclose(1)`,
which makes the comparison, returns `-1`. -/
theorem C19_invalid_handle_not_checked :
    demoOpened.fileHandleCounter = 1 ∧ demoOpened.fhTable.length = 1 ∧
    (lcread simConsts demoBus zeroBuf 1 zeroBuf 1 demoOpened).isNone = true ∧
    (lcwrite simConsts demoBus zeroBuf 1 zeroBuf 1 demoOpened).isNone = true ∧
    (lcseek 1 0 demoOpened).isNone = true ∧
    (lcclose 1 demoOpened).1 = -1 := by
  refine ⟨by rfl, by rfl, by rfl, by rfl, by rfl, by rfl⟩

end LCloud

namespace LCloud

/-! ## Claims on the counters, the capacity and the insertion rule of the cache -/

/-- C12 (counterexample): after `lcloud_initcache(2)` and one `lcloud_putcache`, with no
`lcloud_getcache` call at all, `cacheHits + cacheMisses` is 1: the insertion counted as a
miss. -/
theorem C12_put_counts_as_miss :
    getCalls [CacheCall.put 0 0 0 zeroBuf] = 0 ∧
    (runCacheCalls [CacheCall.put 0 0 0 zeroBuf] (lcloud_initcache 2)).cacheHits +
      (runCacheCalls [CacheCall.put 0 0 0 zeroBuf] (lcloud_initcache 2)).cacheMisses = 1 := by
  decide

/-- C12 (amended): after `lcloud_initcache` with at least one slot and any sequence of
`lcloud_getcache` and `lcloud_putcache` calls, `cacheHits + cacheMisses` is the number of
`lcloud_getcache` calls plus the number of `lcloud_putcache` calls whose key was not in the
cache when they were made. -/
theorem C12_hits_plus_misses (maxblocks : Int) (hn : 1 ≤ maxblocks) (calls : List CacheCall) :
    (runCacheCalls calls (lcloud_initcache maxblocks)).cacheHits +
      (runCacheCalls calls (lcloud_initcache maxblocks)).cacheMisses =
    (getCalls calls : Int) + (insertingPuts calls (lcloud_initcache maxblocks) : Int) := by
  have := runCacheCalls_counts calls (lcloud_initcache maxblocks)
    ⟨0, lcloud_initcache_fill maxblocks hn⟩
  rw [this]
  show (0 : Int) + 0 + _ + _ = _
  omega

/-- Witness for C12: a lookup that misses, the insertion, the insertion again, a lookup that
hits: two lookups and one inserting put. -/
theorem C12_hits_plus_misses_witness :
    (runCacheCalls [CacheCall.get 0 0 0, CacheCall.put 0 0 0 zeroBuf,
        CacheCall.put 0 0 0 (constBuf 65), CacheCall.get 0 0 0] (lcloud_initcache 2)).cacheHits +
      (runCacheCalls [CacheCall.get 0 0 0, CacheCall.put 0 0 0 zeroBuf,
        CacheCall.put 0 0 0 (constBuf 65), CacheCall.get 0 0 0] (lcloud_initcache 2)).cacheMisses =
    ((getCalls [CacheCall.get 0 0 0, CacheCall.put 0 0 0 zeroBuf,
        CacheCall.put 0 0 0 (constBuf 65), CacheCall.get 0 0 0] : Nat) : Int) +
      ((insertingPuts [CacheCall.get 0 0 0, CacheCall.put 0 0 0 zeroBuf,
        CacheCall.put 0 0 0 (constBuf 65), CacheCall.get 0 0 0] (lcloud_initcache 2) : Nat) : Int) :=
  C12_hits_plus_misses 2 (by decide) _

/-- C13: in every cache state reachable from `lcloud_initcache(maxblocks)`, `maxblocks >= 1`,
by `lcloud_getcache` and `lcloud_putcache` calls, the array has `maxblocks` slots, so at most
`maxblocks` are occupied, and two occupied slots never hold the same
`(device, sector, block)` key. -/
theorem C13_capacity_and_distinct_keys (maxblocks : Int) (hn : 1 ≤ maxblocks) (s : CacheState)
    (hs : CacheReachable maxblocks s) :
    (s.cache.length : Int) = maxblocks ∧ (occupiedCount s : Int) ≤ maxblocks ∧
    ∀ i j e1 e2, s.cache.get? i = some e1 → s.cache.get? j = some e2 →
      occupied e1 = true → e1.device = e2.device → e1.sector = e2.sector →
      e1.block = e2.block → i = j := by
  obtain ⟨k, h1, h2, h3, h4, h5, h6, h7⟩ := cacheReachable_ok maxblocks hn s hs
  have hsz := cacheReachable_size maxblocks hn s hs
  have hlen : (s.cache.length : Int) = maxblocks := by
    rw [h1, hsz]; omega
  refine ⟨hlen, ?_, ?_⟩
  · have : occupiedCount s ≤ s.cache.length := List.length_filter_le _ _
    omega
  · intro i j e1 e2 g1 g2 ho d1 d2 d3
    have hb : 0 ≤ e1.block := by
      by_cases c : i < k
      · exact (h5 i e1 g1 c).1
      · have := (h6 i e1 g1 (by omega)).1
        unfold occupied at ho
        simp [this] at ho
    exact h7 i j e1 e2 g1 g2 d1 d2 d3 hb

/-- Witness for C13: a cache of two slots after three insertions. -/
theorem C13_capacity_witness :
    ((runCacheCalls [CacheCall.put 0 0 0 zeroBuf, CacheCall.put 0 0 1 zeroBuf,
        CacheCall.put 0 0 2 zeroBuf] (lcloud_initcache 2)).cache.length : Int) = 2 ∧
    (occupiedCount (runCacheCalls [CacheCall.put 0 0 0 zeroBuf, CacheCall.put 0 0 1 zeroBuf,
        CacheCall.put 0 0 2 zeroBuf] (lcloud_initcache 2)) : Int) ≤ 2 ∧
    ∀ i j e1 e2,
      (runCacheCalls [CacheCall.put 0 0 0 zeroBuf, CacheCall.put 0 0 1 zeroBuf,
        CacheCall.put 0 0 2 zeroBuf] (lcloud_initcache 2)).cache.get? i = some e1 →
      (runCacheCalls [CacheCall.put 0 0 0 zeroBuf, CacheCall.put 0 0 1 zeroBuf,
        CacheCall.put 0 0 2 zeroBuf] (lcloud_initcache 2)).cache.get? j = some e2 →
      occupied e1 = true → e1.device = e2.device → e1.sector = e2.sector →
      e1.block = e2.block → i = j :=
  C13_capacity_and_distinct_keys 2 (by decide) _
    (CacheReachable.step (CacheCall.put 0 0 2 zeroBuf)
      (CacheReachable.step (CacheCall.put 0 0 1 zeroBuf)
        (CacheReachable.step (CacheCall.put 0 0 0 zeroBuf) CacheReachable.init)))

end LCloud

namespace LCloud

/-! ## Claim on allocation bits and block lists -/

/-- In every state reached through `lcopen`, `lcwrite`, `lcseek`, `lcclose` and `lcread` calls
that end inside the stored blocks, failed calls included, with a controller that reports no
empty device: for every device of the table and every sector and block inside its geometry,
the allocation cell is 1 if and only if the triple `(device, sector, block)` is in the block
list of some descriptor. -/
theorem inBlocks_bit_set_iff_listed {σ : Type} (K : Consts) (bus : Bus σ)
    (hg : GoodGeometry K bus) (s : FsState σ) (hs : InBlocks K bus s) (i : Nat) (d : device)
    (sec blk : Int) (hd : s.devOn.get? i = some d) (h0 : 0 ≤ sec) (h1 : sec < d.sectors)
    (h2 : 0 ≤ blk) (h3 : blk < d.blocks) :
    usedAt d sec blk = 1 ↔
      ∃ f ∈ s.fhTable, ({ device := (i : Int), sector := sec, blockNum := blk } : block) ∈
        f.blocks := by
  constructor
  · intro hu
    obtain ⟨l, hl, hx⟩ := (inBlocks_bitsOK K bus hg s hs).2 i d sec blk hd h0 h1 h2 h3 hu
    obtain ⟨f, hf, e⟩ := List.mem_map.1 hl
    exact ⟨f, hf, by rw [e]; exact hx⟩
  · rintro ⟨f, hf, hx⟩
    obtain ⟨d2, hr, hu⟩ := (inBlocks_stateOK K bus hg s hs).2.2.2.1 f.blocks
      (List.mem_map_of_mem _ hf) _ hx
    have e : d2 = d := by
      have t := hr.2.1
      simp only [Int.toNat_natCast] at t
      rw [hd] at t
      exact (Option.some.inj t).symm
    rw [e] at hu
    exact hu

set_option maxRecDepth 8192 in
/-- C11: a triple can be in a block list while its allocation bit is 0. The memory of the
array `blocks` holds the triple `(0, 1, 2)` in every entry at `lcopen`, on the controller
with two devices of 2 sectors by 3 blocks. After a write of 100 bytes and `lcseek` to 0, a
`lcread` of 512 bytes runs past the one stored block, loading block `(0, 1, 2)` for the entry
`blocks[1]`, to position 512; a `lcwrite` of 256 bytes there stores the new block `(0, 0, 1)`
at index 2 and makes the size 768. The block list of the file is then
`(0,0,0), (0,1,2), (0,0,1)`, and of the cells of device 0 only those of `(0,0,0)` and
`(0,0,1)` are set: the cell of `(0, 1, 2)` is 0. -/
theorem C11_listed_block_without_bit :
    Reachable simConsts demoBus (overReadRun lastCellGarbage) ∧
    (overReadRun lastCellGarbage).fhTable.map
        (fun f => (f.size, f.blocks.map (fun b => (b.device, b.sector, b.blockNum)))) =
      [(768, [(0, 0, 0), (0, 1, 2), (0, 0, 1)])] ∧
    ((overReadRun lastCellGarbage).devOn.get? 0).map
        (fun d => (d.online, d.sectors, d.blocks, d.usedBlocks, usedAt d 1 2)) =
      some (1, 2, 3, [1, 1, 0, 0, 0, 0], 0) := by
  refine ⟨overReadRun_reachable lastCellGarbage, ?_, ?_⟩ <;> decide

end LCloud

namespace LCloud

/-! ## Claim on the position after a failed read -/

theorem badRewound_reachable : Reachable oneSlotConsts badBus badRewound := by
  have h1 : Reachable oneSlotConsts badBus badOpened :=
    Reachable.opn "x" zeroGarbage (Reachable.boot simWorld0)
  have h2 : Reachable oneSlotConsts badBus badWritten :=
    Reachable.write zeroBuf 0 rampBuf 512 (512, badWritten) h1 (by rfl)
  exact Reachable.seek 0 0 (0, badRewound) h2 (by rfl)

/-- C20 (counterexample): with a cache of one slot and a controller that cannot read block
`(0,0,1)`, after `lcopen`, a write of 512 bytes and `lcseek` to 0 the position is 0; the
`lcread` of 512 bytes gets the first block, fails on the second, returns `-1`, and the
position is 256 afterwards. -/
theorem C20_failed_read_moves_position :
    Reachable oneSlotConsts badBus badRewound ∧
    badRewound.fhTable.map (fun f => (f.position, f.size, f.opened)) = [(0, 512, 1)] ∧
    (lcread oneSlotConsts badBus zeroBuf 0 zeroBuf 512 badRewound).map
        (fun r => (r.1, r.2.2.fhTable.map (fun f => f.position))) = some (-1, [256]) :=
  ⟨badRewound_reachable, by decide, by decide⟩

/-- C20 (amended): when `lcread` of `len` bytes on an open descriptor returns a negative
value, which only a failed block load makes it do, the value is `-1`, size and block list are
as before, and the position is not taken back: it lies between the old position and the end
of the request. For `len < 2^39` (where the conversion of `len / 256` to `int` changes
nothing) the failed call is the `lcread` of the `k < len` bytes that come before the failing
block, followed by the failed load: that shorter read returns `k` and moves the position by
`k`; `k = 0` when the first block of the request fails, and otherwise the position `p + k`
is the start of the failing block, a multiple of 256; the failed call leaves the descriptor
at position `p + k` and the caller's buffer as the shorter read does, and the cache and the
world as the failed load of the block at `p + k` does after it (`FailedAfter`). -/
theorem C20_failed_read_position {σ : Type} (K : Consts) (bus : Bus σ) (junk : Buf) (f : file)
    (cs : CacheState) (w : σ) (buf : Buf) (len : Nat) (hopen : f.opened ≠ 0)
    (hneg : (readFile K bus junk f cs w buf len).ret < 0) :
    (readFile K bus junk f cs w buf len).ret = -1 ∧
    (readFile K bus junk f cs w buf len).f.size = f.size ∧
    (readFile K bus junk f cs w buf len).f.blocks = f.blocks ∧
    f.position ≤ (readFile K bus junk f cs w buf len).f.position ∧
    (readFile K bus junk f cs w buf len).f.position < f.position + len ∧
    (len < 2 ^ 39 → ∃ k B, k < len ∧
      FailedAfter K bus (readFile K bus junk f cs w buf len)
        (readFile K bus junk f cs w buf k) f 0 k B) := by
  obtain ⟨m1, m2, -, -, -, -, m7, -⟩ := readFile_file K bus junk f cs w buf len
  refine ⟨?_, m1, m2, m7, ?_, ?_⟩
  · unfold readFile at hneg ⊢
    rw [if_neg hopen] at hneg ⊢
    exact (lcreadLoop_failed K bus _ _ _ _ _ _ _ _ _ hneg).1
  · unfold readFile at hneg ⊢
    rw [if_neg hopen] at hneg ⊢
    exact (lcreadLoop_failed K bus _ _ _ _ _ _ _ _ _ hneg).2
  · intro hl
    unfold readFile at hneg ⊢
    simp only [if_neg hopen] at hneg ⊢
    exact lcreadLoop_failedAfter K bus (len + 1) f cs w buf 0 len (f.position / 256) junk hl
      (by omega) rfl hneg

set_option maxRecDepth 8192 in
/-- Witness for C20: the failed read of 512 bytes from position 0 on the controller with the
unreadable block. -/
theorem C20_failed_read_witness :
    (readFile oneSlotConsts badBus zeroBuf
        (file.mk "x" 0 0 512 [{ device := 0, sector := 0, blockNum := 0 },
          { device := 0, sector := 0, blockNum := 1 }] 1 zeroGarbage)
        badRewound.cs badRewound.world zeroBuf 512).ret = -1 ∧
    (readFile oneSlotConsts badBus zeroBuf
        (file.mk "x" 0 0 512 [{ device := 0, sector := 0, blockNum := 0 },
          { device := 0, sector := 0, blockNum := 1 }] 1 zeroGarbage)
        badRewound.cs badRewound.world zeroBuf 512).f.size = 512 ∧
    (readFile oneSlotConsts badBus zeroBuf
        (file.mk "x" 0 0 512 [{ device := 0, sector := 0, blockNum := 0 },
          { device := 0, sector := 0, blockNum := 1 }] 1 zeroGarbage)
        badRewound.cs badRewound.world zeroBuf 512).f.blocks =
      [{ device := 0, sector := 0, blockNum := 0 }, { device := 0, sector := 0, blockNum := 1 }] ∧
    0 ≤ (readFile oneSlotConsts badBus zeroBuf
        (file.mk "x" 0 0 512 [{ device := 0, sector := 0, blockNum := 0 },
          { device := 0, sector := 0, blockNum := 1 }] 1 zeroGarbage)
        badRewound.cs badRewound.world zeroBuf 512).f.position ∧
    (readFile oneSlotConsts badBus zeroBuf
        (file.mk "x" 0 0 512 [{ device := 0, sector := 0, blockNum := 0 },
          { device := 0, sector := 0, blockNum := 1 }] 1 zeroGarbage)
        badRewound.cs badRewound.world zeroBuf 512).f.position < 0 + 512 ∧
    (512 < 2 ^ 39 → ∃ k B, k < 512 ∧
      FailedAfter oneSlotConsts badBus
        (readFile oneSlotConsts badBus zeroBuf
          (file.mk "x" 0 0 512 [{ device := 0, sector := 0, blockNum := 0 },
            { device := 0, sector := 0, blockNum := 1 }] 1 zeroGarbage)
          badRewound.cs badRewound.world zeroBuf 512)
        (readFile oneSlotConsts badBus zeroBuf
          (file.mk "x" 0 0 512 [{ device := 0, sector := 0, blockNum := 0 },
            { device := 0, sector := 0, blockNum := 1 }] 1 zeroGarbage)
          badRewound.cs badRewound.world zeroBuf k)
        (file.mk "x" 0 0 512 [{ device := 0, sector := 0, blockNum := 0 },
          { device := 0, sector := 0, blockNum := 1 }] 1 zeroGarbage) 0 k B) :=
  C20_failed_read_position oneSlotConsts badBus zeroBuf
    (file.mk "x" 0 0 512 [{ device := 0, sector := 0, blockNum := 0 },
      { device := 0, sector := 0, blockNum := 1 }] 1 zeroGarbage)
    badRewound.cs badRewound.world zeroBuf 512 (by decide)
    (lt_of_eq_of_lt (rfl : _ = (-1 : Int)) (by decide))

end LCloud

namespace LCloud

/-! ## The register codec field by field -/

/-- The frame that `create_lcloud_registers` builds from seven fields that fit, as a sum. -/
theorem create_full_sum (b0 b1 c0 c1 c2 d0 d1 : Nat) (hb0 : b0 < 16) (hb1 : b1 < 16)
    (h0 : c0 < 256) (h1 : c1 < 256) (h2 : c2 < 256) (h3 : d0 < 65536) (h4 : d1 < 65536) :
    create_lcloud_registers b0 b1 c0 c1 c2 d0 d1 =
      d0 + d1 * 2 ^ 16 + c2 * 2 ^ 32 + c1 * 2 ^ 40 + c0 * 2 ^ 48 + b1 * 2 ^ 56 + b0 * 2 ^ 60 := by
  have e := create_eq_sum c0 c1 c2 d0 d1 h0 h1 h2 h3 h4
  unfold create_lcloud_registers at e ⊢
  have z : shl64 0 56 = 0 ∧ shl64 0 60 = 0 := by decide
  rw [z.1, z.2, Nat.or_zero, Nat.or_zero] at e
  rw [e]
  unfold shl64
  simp only [Nat.shiftLeft_eq]
  rw [Nat.mod_eq_of_lt (by omega : b1 * 2 ^ 56 < 2 ^ 64),
    Nat.mod_eq_of_lt (by omega : b0 * 2 ^ 60 < 2 ^ 64)]
  have e5 : (d0 + d1 * 2 ^ 16 + c2 * 2 ^ 32 + c1 * 2 ^ 40 + c0 * 2 ^ 48) ||| b1 * 2 ^ 56 =
      d0 + d1 * 2 ^ 16 + c2 * 2 ^ 32 + c1 * 2 ^ 40 + c0 * 2 ^ 48 + b1 * 2 ^ 56 := by
    rw [Nat.lor_comm, Nat.mul_comm b1,
      ← Nat.mul_add_lt_is_or
        (by omega : d0 + d1 * 2 ^ 16 + c2 * 2 ^ 32 + c1 * 2 ^ 40 + c0 * 2 ^ 48 < 2 ^ 56)]
    omega
  have e6 : (d0 + d1 * 2 ^ 16 + c2 * 2 ^ 32 + c1 * 2 ^ 40 + c0 * 2 ^ 48 + b1 * 2 ^ 56) |||
      b0 * 2 ^ 60 =
      d0 + d1 * 2 ^ 16 + c2 * 2 ^ 32 + c1 * 2 ^ 40 + c0 * 2 ^ 48 + b1 * 2 ^ 56 + b0 * 2 ^ 60 := by
    rw [Nat.lor_comm, Nat.mul_comm b0,
      ← Nat.mul_add_lt_is_or
        (by omega :
          d0 + d1 * 2 ^ 16 + c2 * 2 ^ 32 + c1 * 2 ^ 40 + c0 * 2 ^ 48 + b1 * 2 ^ 56 < 2 ^ 60)]
    omega
  rw [e5, e6]

/-- The registers that `extract_lcloud_registers` returns for a frame, as bit ranges of
the frame: `b0`, `b1`, `c0`, `c1`, `c2` are bits 60-63, 56-59, 48-55, 40-47, 32-39; `d0` is
bits 16-31 and `d1` is bits 0-15. -/
theorem extract_fields (f : Nat) :
    extract_lcloud_registers f =
      { b0 := f / 2 ^ 60, b1 := f / 2 ^ 56 % 16, c0 := f / 2 ^ 48 % 256,
        c1 := f / 2 ^ 40 % 256, c2 := f / 2 ^ 32 % 256, d0 := f / 2 ^ 16 % 65536,
        d1 := f % 65536 } := by
  unfold extract_lcloud_registers shl64
  simp only [Nat.shiftLeft_eq, Nat.shiftRight_eq_div_pow]
  norm_num
  refine ⟨?_, ?_, ?_, ?_, ?_, ?_⟩ <;> omega

end LCloud

namespace LCloud

/-! ## A cache of two slots, step by step -/

theorem keyMatch_empty (did sec blk : Int) :
    keyMatch emptyCacheBlock did sec (u16 blk) = false := by
  cases h : keyMatch emptyCacheBlock did sec (u16 blk) with
  | false => rfl
  | true =>
    have h2 := ((keyMatch_iff _ _ _ _).1 h).2.1
    have := (u16_range blk).1
    have h3 : (-1 : Int) = u16 blk := h2
    omega

theorem keyMatch_other (e : cacheBlock) (did sec blk : Int)
    (h : ¬ (e.device = did ∧ e.sector = sec ∧ e.block = blk)) :
    keyMatch e did sec blk = false := by
  cases hk : keyMatch e did sec blk with
  | false => rfl
  | true =>
    obtain ⟨h1, h2, h3⟩ := (keyMatch_iff _ _ _ _).1 hk
    exact absurd ⟨h1, h3, h2⟩ h

theorem keyMatch_self (e : cacheBlock) : keyMatch e e.device e.sector e.block = true :=
  (keyMatch_iff _ _ _ _).2 ⟨rfl, rfl, rfl⟩

/-- First touch of a cache of two empty slots: the key goes into slot 0. -/
theorem touch_first (dA sA bA : Int) (xA : Buf) :
    touch dA sA bA xA (lcloud_initcache 2) =
      { cache := [newCacheBlock dA (u16 sA) (u16 bA) xA 0, emptyCacheBlock]
        cacheHits := 0, cacheMisses := 2, cacheSize := 2, cacheAccess := 1 } := by
  have k0 := keyMatch_empty dA (u16 sA) bA
  unfold touch lcloud_getcache
  simp only [lcloud_initcache, Int.toNat_ofNat, List.replicate, getcacheLoop, k0,
    Bool.false_eq_true, if_false]
  unfold lcloud_putcache
  simp only [putcacheFreeLoop, k0, Bool.false_eq_true, if_false]
  simp [emptyCacheBlock]

/-- Second touch, of another key: the key goes into slot 1. -/
theorem touch_second (dA sA bA dB sB bB : Int) (xA xB : Buf)
    (hAB : ¬ (dA = dB ∧ u16 sA = u16 sB ∧ u16 bA = u16 bB)) :
    touch dB sB bB xB
        { cache := [newCacheBlock dA (u16 sA) (u16 bA) xA 0, emptyCacheBlock]
          cacheHits := 0, cacheMisses := 2, cacheSize := 2, cacheAccess := 1 } =
      { cache := [newCacheBlock dA (u16 sA) (u16 bA) xA 0,
                  newCacheBlock dB (u16 sB) (u16 bB) xB 1]
        cacheHits := 0, cacheMisses := 4, cacheSize := 2, cacheAccess := 2 } := by
  have k0 := keyMatch_empty dB (u16 sB) bB
  have k1 : keyMatch (newCacheBlock dA (u16 sA) (u16 bA) xA 0) dB (u16 sB) (u16 bB) = false :=
    keyMatch_other _ _ _ _ hAB
  unfold touch lcloud_getcache
  simp only [getcacheLoop, k0, k1, Bool.false_eq_true, if_false]
  unfold lcloud_putcache
  simp only [putcacheFullLoop, k0, k1, Bool.false_eq_true, if_false]
  simp [emptyCacheBlock, newCacheBlock]

/-- Third touch, of the first key again: a hit, which restamps slot 0. -/
theorem touch_third (dA sA bA dB sB bB : Int) (xA xB y : Buf) :
    touch dA sA bA y
        { cache := [newCacheBlock dA (u16 sA) (u16 bA) xA 0,
                    newCacheBlock dB (u16 sB) (u16 bB) xB 1]
          cacheHits := 0, cacheMisses := 4, cacheSize := 2, cacheAccess := 2 } =
      { cache := [newCacheBlock dA (u16 sA) (u16 bA) xA 2,
                  newCacheBlock dB (u16 sB) (u16 bB) xB 1]
        cacheHits := 1, cacheMisses := 4, cacheSize := 2, cacheAccess := 3 } := by
  have k1 : keyMatch (newCacheBlock dA (u16 sA) (u16 bA) xA 0) dA (u16 sA) (u16 bA) = true :=
    keyMatch_self _
  unfold touch lcloud_getcache
  simp only [getcacheLoop, k1, if_true]
  simp [newCacheBlock]

/-- Fourth touch, of a third key: the key replaces the older slot 1. -/
theorem touch_fourth (dA sA bA dB sB bB dC sC bC : Int) (xA xB xC : Buf)
    (hAC : ¬ (dA = dC ∧ u16 sA = u16 sC ∧ u16 bA = u16 bC))
    (hBC : ¬ (dB = dC ∧ u16 sB = u16 sC ∧ u16 bB = u16 bC)) :
    touch dC sC bC xC
        { cache := [newCacheBlock dA (u16 sA) (u16 bA) xA 2,
                    newCacheBlock dB (u16 sB) (u16 bB) xB 1]
          cacheHits := 1, cacheMisses := 4, cacheSize := 2, cacheAccess := 3 } =
      { cache := [newCacheBlock dA (u16 sA) (u16 bA) xA 2,
                  newCacheBlock dC (u16 sC) (u16 bC) xC 3]
        cacheHits := 1, cacheMisses := 6, cacheSize := 2, cacheAccess := 4 } := by
  have k1 : keyMatch (newCacheBlock dA (u16 sA) (u16 bA) xA 2) dC (u16 sC) (u16 bC) = false :=
    keyMatch_other _ _ _ _ hAC
  have k2 : keyMatch (newCacheBlock dB (u16 sB) (u16 bB) xB 1) dC (u16 sC) (u16 bC) = false :=
    keyMatch_other _ _ _ _ hBC
  unfold touch lcloud_getcache
  simp only [getcacheLoop, k1, k2, Bool.false_eq_true, if_false]
  unfold lcloud_putcache
  simp only [putcacheFullLoop, k1, k2, Bool.false_eq_true, if_false]
  simp [newCacheBlock]

/-- The scan of `lcloud_getcache` over two slots. -/
theorem resident_two (did sec blk : Int) (e1 e2 : cacheBlock) (h m a z : Int) :
    resident did sec blk
        { cache := [e1, e2], cacheHits := h, cacheMisses := m, cacheSize := z,
          cacheAccess := a } =
      (keyMatch e1 did (u16 sec) (u16 blk) || keyMatch e2 did (u16 sec) (u16 blk)) := by
  unfold resident
  simp only [getcacheLoop]
  cases keyMatch e1 did (u16 sec) (u16 blk) <;> cases keyMatch e2 did (u16 sec) (u16 blk) <;> rfl

end LCloud

namespace LCloud

/-! ## Exact results of the two cache calls -/

/-- A slot that the scan of `lcloud_getcache` returns exists and holds the key. -/
theorem getcacheLoop_slot (did sec blk : Int) (s : CacheState) (j : Nat)
    (hj : getcacheLoop did sec blk s.cache 0 = some j) :
    ∃ e, s.cache.get? j = some e ∧ e.device = did ∧ e.sector = sec ∧ e.block = blk := by
  obtain ⟨m, e, h1, h2, h3, -⟩ := getcacheLoop_some did sec blk s.cache 0 j hj
  obtain ⟨a1, a2, a3⟩ := (keyMatch_iff _ _ _ _).1 h3
  refine ⟨e, ?_, a1, a3, a2⟩
  rw [h2, Nat.zero_add]
  exact h1

/-- The result of `lcloud_getcache` on a hit in slot `j`. -/
theorem lcloud_getcache_hit (did sec blk : Int) (s : CacheState) (j : Nat) (e : cacheBlock)
    (hj : getcacheLoop did (u16 sec) (u16 blk) s.cache 0 = some j)
    (he : s.cache.get? j = some e) :
    lcloud_getcache did sec blk s =
      (some e.data,
        { s with cache := s.cache.set j { e with time := s.cacheAccess }
                 cacheAccess := s.cacheAccess + 1
                 cacheHits := s.cacheHits + 1 }) := by
  unfold lcloud_getcache
  rw [hj]
  dsimp only
  rw [he]

/-- The result of `lcloud_getcache` on a miss. -/
theorem lcloud_getcache_miss (did sec blk : Int) (s : CacheState)
    (hj : getcacheLoop did (u16 sec) (u16 blk) s.cache 0 = none) :
    lcloud_getcache did sec blk s = (none, { s with cacheMisses := s.cacheMisses + 1 }) := by
  unfold lcloud_getcache
  rw [hj]

/-- The result of `lcloud_putcache` when slot `j` holds the key. -/
theorem lcloud_putcache_hit (did sec blk : Int) (block : Buf) (s : CacheState) (k : Nat)
    (hf : CacheFill s k) (j : Nat) (e0 : cacheBlock)
    (hj : getcacheLoop did (u16 sec) (u16 blk) s.cache 0 = some j)
    (he : s.cache.get? j = some e0) :
    lcloud_putcache did sec blk block s =
      (0, { s with cache := s.cache.set j { e0 with data := memcpy e0.data 0 block 0 256
                                                    time := s.cacheAccess }
                   cacheAccess := s.cacheAccess + 1 }) := by
  rw [((lcloud_putcache_cases did sec blk block s k hf).1 j hj).1, restamp_eq s j e0 block he]

/-- A key is resident exactly when the scan of `lcloud_getcache` finds a slot for it. -/
theorem resident_iff (did sec blk : Int) (s : CacheState) :
    (resident did sec blk s = true →
      ∃ j, getcacheLoop did (u16 sec) (u16 blk) s.cache 0 = some j) ∧
    (resident did sec blk s = false →
      getcacheLoop did (u16 sec) (u16 blk) s.cache 0 = none) := by
  unfold resident
  cases getcacheLoop did (u16 sec) (u16 blk) s.cache 0 with
  | none => simp
  | some j => simp

end LCloud

namespace LCloud

/-! ## A read of one block that misses the cache -/

end LCloud

namespace LCloud

/-! ## A write that fails part of the way -/

/-- When the chunks of `lcwrite` end in `return -1`, bytes remain to be written; the counters
are those of `WriteCount`. -/
theorem lcwriteBody_failed {σ : Type} (K : Consts) (bus : Bus σ) (junk buf : Buf)
    (st : WState σ) (h0 : st.bytesWrote = 0) :
    (lcwriteBody K bus junk buf st).1 = false → 0 < (lcwriteBody K bus junk buf st).2.len := by
  have key := lcwriteBody_induct K bus junk buf
    (fun r => WriteCount st.f.position st.f.size st.len r ∧ (r.1 = false → 0 < r.2.len))
    (by
      intro s h hl hu
      have hp := h.1.1
      have h3 := h.1.2.2.1
      simp only at hp h3
      have hb : s.bytesWrote = 0 := by
        rcases h3 with h3 | h3 | h3
        · exact h3
        · rw [hp] at hu; exact absurd h3 hu
        · omega
      refine ⟨?_, fun hf => ?_⟩
      · apply writeCount_inBlock K bus junk buf _ _ _ _ _ _ s h.1 <;> intros <;> omega
      · rw [((writeInBlock_frame K bus junk buf _ _ _ s).2.2 hf).2.2]; omega)
    (by
      intro s h hl ha
      have hp := h.1.1
      simp only at hp
      refine ⟨?_, fun hf => ?_⟩
      · apply writeCount_atBoundary K bus junk buf _ _ _ _ _ s h.1 <;> intros <;> omega
      · rw [((writeAtBoundary_frame K bus junk buf _ _ s).2 hf).2.2.2]; omega)
    (by
      intro s h h0 hl ha
      refine ⟨?_, fun hf => ?_⟩
      · apply writeCount_atBoundary K bus junk buf _ _ _ _ _ s h.1 <;> intros <;> omega
      · rw [((writeAtBoundary_frame K bus junk buf _ _ s).2 hf).2.2.2]; omega)
    (by
      intro s h h0 hl hu hgt
      have hp := h.1.1
      have h3 := h.1.2.2.1
      simp only at hp h3
      have hb : s.bytesWrote = 0 := by
        rcases h3 with h3 | h3 | h3
        · exact h3
        · rw [hp] at hu; exact absurd h3 hu
        · omega
      have hq : WriteCount st.f.position st.f.size st.len
          (writeInBlock K bus junk buf ((s.f.position + s.bytesWrote) / 256)
            (s.f.position + s.bytesWrote - s.f.position % 256) (256 - s.f.position % 256) s) := by
        apply writeCount_inBlock K bus junk buf _ _ _ _ _ _ s h.1 <;> intros <;> omega
      refine ⟨⟨hq, fun hf => ?_⟩, fun hok => ?_⟩
      · rw [((writeInBlock_frame K bus junk buf _ _ _ s).2.2 hf).2.2]; omega
      obtain ⟨-, fok, -⟩ := writeInBlock_frame K bus junk buf
        ((s.f.position + s.bytesWrote) / 256)
        (s.f.position + s.bytesWrote - s.f.position % 256) (256 - s.f.position % 256) s
      obtain ⟨-, e2, e3⟩ := fok hok
      have e : writeInBlock K bus junk buf ((s.f.position + s.bytesWrote) / 256)
          (s.f.position + s.bytesWrote - s.f.position % 256) (256 - s.f.position % 256) s =
          (true, (writeInBlock K bus junk buf ((s.f.position + s.bytesWrote) / 256)
          (s.f.position + s.bytesWrote - s.f.position % 256) (256 - s.f.position % 256) s).2) :=
        Prod.ext hok rfl
      rw [e] at hq
      refine ⟨?_, fun hf => ?_⟩
      · apply writeCount_atBoundary K bus junk buf _ _ _ _ _ _ hq
        · rw [e3]; omega
        · exact le_refl _
        · intro hlt; omega
      · rw [((writeAtBoundary_frame K bus junk buf _ _ _).2 hf).2.2.2, e3]; omega)
    (by
      intro s h h0 hl hu hgt
      refine ⟨?_, fun hf => ?_⟩
      · apply writeCount_inBlock K bus junk buf _ _ _ _ _ _ s h.1 <;> intros <;> omega
      · rw [((writeInBlock_frame K bus junk buf _ _ _ s).2.2 hf).2.2]; omega)
    st
    ⟨⟨rfl, by simp only; omega, Or.inl h0, by simp only; rw [if_pos h0]⟩,
      fun hf => by simp at hf⟩
  exact key.2

/-- What a failed `lcwrite` leaves in the descriptor: the position of before the call, and the
size that the chunks completed up to the failure, `k` bytes in all, have made. -/
theorem writeFile_failed {σ : Type} (K : Consts) (bus : Bus σ) (junk : Buf) (f : file)
    (devOn : List device) (cs : CacheState) (w : σ) (buf : Buf) (len : Nat)
    (hopen : f.opened ≠ 0) (hneg : (writeFile K bus junk f devOn cs w buf len).ret < 0) :
    (writeFile K bus junk f devOn cs w buf len).ret = -1 ∧
    (writeFile K bus junk f devOn cs w buf len).f.position = f.position ∧
    (writeFile K bus junk f devOn cs w buf len).f.size =
      (if (lcwriteBody K bus junk buf
            { f := f, devOn := devOn, cs := cs, world := w, bytesWrote := 0, len := len,
              buf_256 := junk }).2.bytesWrote = 0 then f.size
        else max f.size (f.position + (lcwriteBody K bus junk buf
            { f := f, devOn := devOn, cs := cs, world := w, bytesWrote := 0, len := len,
              buf_256 := junk }).2.bytesWrote)) ∧
    (lcwriteBody K bus junk buf
        { f := f, devOn := devOn, cs := cs, world := w, bytesWrote := 0, len := len,
          buf_256 := junk }).2.bytesWrote < len := by
  have hc := lcwriteBody_count K bus junk buf
    { f := f, devOn := devOn, cs := cs, world := w, bytesWrote := 0, len := len,
      buf_256 := junk } rfl
  have hl := lcwriteBody_failed K bus junk buf
    { f := f, devOn := devOn, cs := cs, world := w, bytesWrote := 0, len := len,
      buf_256 := junk } rfl
  obtain ⟨c1, c2, -, c4⟩ := hc
  simp only at c1 c2 c4
  unfold writeFile at hneg ⊢
  dsimp only at hneg ⊢
  rw [if_neg hopen] at hneg ⊢
  by_cases h2 : (lcwriteBody K bus junk buf
      { f := f, devOn := devOn, cs := cs, world := w, bytesWrote := 0, len := len,
        buf_256 := junk }).1 = true
  · rw [if_pos h2] at hneg
    exfalso
    have : (0 : Int) ≤ ((lcwriteBody K bus junk buf
      { f := f, devOn := devOn, cs := cs, world := w, bytesWrote := 0, len := len,
        buf_256 := junk }).2.bytesWrote : Nat) := Int.ofNat_nonneg _
    have hneg2 : (((lcwriteBody K bus junk buf
      { f := f, devOn := devOn, cs := cs, world := w, bytesWrote := 0, len := len,
        buf_256 := junk }).2.bytesWrote : Nat) : Int) < 0 := hneg
    omega
  · rw [if_neg h2]
    have h3 := hl (by simpa using h2)
    refine ⟨rfl, c1, c4, ?_⟩
    omega

/-! ## Reachability of further concrete runs -/

theorem appendBlocks_reachable (n : Nat) : Reachable simConsts demoBus (appendBlocks n) := by
  induction n with
  | zero => exact Reachable.opn "x" zeroGarbage (Reachable.boot simWorld0)
  | succ n ih => exact reachable_stateAfter_write simConsts demoBus zeroBuf 0 (constBuf 65) 256 _ ih

theorem badRead_reachable : Reachable oneSlotConsts badBus badRead := by
  unfold badRead
  cases h : lcread oneSlotConsts badBus zeroBuf 0 zeroBuf 256 badRewound with
  | none => exact badRewound_reachable
  | some r => exact Reachable.read zeroBuf 0 zeroBuf 256 r badRewound_reachable h

theorem badSeek_reachable : Reachable oneSlotConsts badBus badSeek :=
  reachable_stateAfter_seek oneSlotConsts badBus 0 300 badRead badRead_reachable

end LCloud

namespace LCloud

/-! ## An overwrite inside the file -/

/-- Setting the allocation bit of a block whose bit is set changes nothing. -/
theorem markUsed_noop (devOn : List device) (b : block) (h : Claimed devOn b) :
    markUsed devOn b.device b.sector b.blockNum = devOn := by
  obtain ⟨d, hr, hu⟩ := h
  rw [markUsed_eq devOn b d hr]
  have hub : d.usedBlocks.set (b.sector * d.blocks + b.blockNum).toNat 1 = d.usedBlocks := by
    unfold usedAt at hu
    apply List.ext_getElem
    · rw [List.length_set]
    · intro n h1 h2
      rw [List.getElem_set]
      split_ifs with c
      · subst c
        rw [List.getD_eq_getElem _ _ h2] at hu
        exact hu.symm
      · rfl
  rw [hub]
  obtain ⟨hlt, hd⟩ := List.get?_eq_some.1 hr.2.1
  apply List.ext_getElem
  · rw [List.length_set]
  · intro n h1 h2
    rw [List.getElem_set]
    split_ifs with c
    · subst c
      rw [← hd]
      rfl
    · rfl

/-- The chunks of a `lcwrite` that stays inside the file leave the size, the block list and
the device table as they were. -/
theorem lcwriteBody_inside {σ : Type} (K : Consts) (bus : Bus σ) (junk buf : Buf)
    (st : WState σ) (h0 : st.bytesWrote = 0) (hf : FileOK st.f)
    (hcl : ∀ b ∈ st.f.blocks, Claimed st.devOn b)
    (hin : st.f.position + st.len ≤ st.f.size) :
    (lcwriteBody K bus junk buf st).2.f.blocks = st.f.blocks ∧
    (lcwriteBody K bus junk buf st).2.devOn = st.devOn ∧
    (lcwriteBody K bus junk buf st).2.f.size = st.f.size := by
  have hch := lcwriteBody_chunks K bus junk buf st
    (fun s => s.f.blocks = st.f.blocks ∧ s.devOn = st.devOn ∧ s.f.size = st.f.size)
    (by
      intro s n hR hs hb hp hu hn hle hfit hal
      obtain ⟨r1, r2, r3⟩ := hR
      obtain ⟨t1, t2⟩ := writeInBlock_tables K bus junk buf (st.f.position / 256)
        (st.f.position - st.f.position % 256) n s
      obtain ⟨-, fok, ffail⟩ := writeInBlock_frame K bus junk buf (st.f.position / 256)
        (st.f.position - st.f.position % 256) n s
      have hc2 := hs.1.2.1
      simp only at hc2
      refine ⟨t2.trans r1, t1.trans r2, ?_⟩
      cases hr : (writeInBlock K bus junk buf (st.f.position / 256)
          (st.f.position - st.f.position % 256) n s).1 with
      | false => rw [(ffail hr).1]; exact r3
      | true =>
        rw [(fok hr).1, (growSize_fields _ _).2.2.2.2.2, r3, hp]
        omega)
    (by
      intro s pre n hR hs hp ha hn hle hn256 hpre hal
      obtain ⟨r1, r2, r3⟩ := hR
      obtain ⟨fok, ffail⟩ := writeAtBoundary_frame K bus junk buf pre n s
      have hc2 := hs.1.2.1
      have hL := hs.2.1
      simp only at hc2 hL
      cases hr : (writeAtBoundary K bus junk buf pre n s).1 with
      | false =>
        obtain ⟨e1, e2, -, -⟩ := ffail hr
        rw [e1, e2]
        exact ⟨r1, r2, r3⟩
      | true =>
        obtain ⟨-, e1, e2, -, -⟩ := fok hr
        have hq : s.f.position + s.bytesWrote < s.f.size := by rw [r3, hp]; omega
        have hcb : chosenBlock s = blockAt s.f ((s.f.position + s.bytesWrote) / 256) := by
          unfold chosenBlock
          rw [if_neg (by omega)]
        have hidx : (s.f.position + s.bytesWrote) / 256 < s.f.blocks.length := by
          rw [hL]
          omega
        have hmem : blockAt s.f ((s.f.position + s.bytesWrote) / 256) ∈ st.f.blocks := by
          rw [← r1]
          unfold blockAt
          rw [List.getD_eq_getElem _ _ hidx]
          exact List.getElem_mem _
        have hsame : setBlock s.f.garbage s.f.blocks ((s.f.position + s.bytesWrote) / 256)
            (blockAt s.f ((s.f.position + s.bytesWrote) / 256)) = s.f.blocks :=
          setBlock_same _ _ _ hidx _
        rw [e1, e2, (growSize_fields _ _).2.1, (growSize_fields _ _).2.2.2.2.2,
          (storeBlock_fields _ _ _).2.2.2.2.2, (storeBlock_fields _ _ _).1,
          (storeBlock_fields _ _ _).2.1, hcb, hsame, r2, markUsed_noop _ _ (hcl _ hmem)]
        refine ⟨r1, rfl, ?_⟩
        rw [r3, hp]
        omega)
    h0 hf ⟨rfl, rfl, rfl⟩
  exact hch.2

/-- A `lcwrite` on an open descriptor that stays inside the file leaves the size, the block
list and the device table as they were, whether it succeeds or not. -/
theorem writeFile_inside {σ : Type} (K : Consts) (bus : Bus σ) (junk : Buf) (f : file)
    (devOn : List device) (cs : CacheState) (w : σ) (buf : Buf) (len : Nat)
    (hf : FileOK f) (hcl : ∀ b ∈ f.blocks, Claimed devOn b) (hin : f.position + len ≤ f.size) :
    (writeFile K bus junk f devOn cs w buf len).f.blocks = f.blocks ∧
    (writeFile K bus junk f devOn cs w buf len).devOn = devOn ∧
    (writeFile K bus junk f devOn cs w buf len).f.size = f.size := by
  obtain ⟨b1, b2, b3⟩ := lcwriteBody_inside K bus junk buf
    { f := f, devOn := devOn, cs := cs, world := w, bytesWrote := 0, len := len,
      buf_256 := junk } rfl hf hcl hin
  unfold writeFile
  dsimp only
  split_ifs with h1 h2
  · exact ⟨rfl, rfl, rfl⟩
  · exact ⟨b1, b2, b3⟩
  · exact ⟨b1, b2, b3⟩

/-- With a controller that stores what is written and answers every block transfer, along
runs of `lcopen`, successful `lcwrite`, `lcseek`, `lcclose` and `lcread` inside the file: a
successful `lcwrite` of `n` bytes at position `p` with `p + n <= size` leaves the device
table (every allocation bit), the size and the block list of the file unchanged, and the
controller holds afterwards, at every offset of the file outside `[p, p + n)`, the byte it
held before. -/
theorem overwrite_inside_frame {σ : Type} (K : Consts) (bus : Bus σ) (mem : σ → block → Buf)
    (hg : GoodGeometry K bus) (hbus : StoringBus K bus mem) (hK : 1 ≤ K.LC_CACHE_MAXBLOCKS)
    (s : FsState σ) (g : List Buf) (h : Written K bus s g) (fh : Nat) (f : file)
    (hf : s.fhTable.get? fh = some f) (junk buf : Buf) (n : Nat) (r : Int × FsState σ)
    (hw : lcwrite K bus junk fh buf n s = some r) (hok : 0 ≤ r.1)
    (hin : f.position + n ≤ f.size) :
    r.2.devOn = s.devOn ∧
    (r.2.fhTable.get? fh).map (fun x => (x.size, x.blocks)) = some (f.size, f.blocks) ∧
    ∀ x, x < f.size → ¬ (f.position ≤ x ∧ x < f.position + n) →
      mem r.2.world (blockAt f (x / 256)) (x % 256) =
        mem s.world (blockAt f (x / 256)) (x % 256) := by
  have hst := inBlocks_stateOK K bus hg s (written_inBlocks K bus h)
  have hw2 := Written.write junk fh buf n f r h hf hw hok
  obtain ⟨dl, -, -, dc⟩ := written_data K bus mem hg hbus hK h
  obtain ⟨dl2, -, -, dc2⟩ := written_data K bus mem hg hbus hK hw2
  have hfo : s.firstOpen = 0 := by
    by_contra c
    rw [hst.1 c] at hf
    simp at hf
  have hlt : fh < s.fhTable.length := (List.get?_eq_some.1 hf).1
  have hfm := List.get?_mem hf
  have hcl : ∀ b ∈ f.blocks, Claimed s.devOn b :=
    hst.2.2.2.1 f.blocks (List.mem_map_of_mem (fun f => f.blocks) hfm)
  obtain ⟨i1, i2, i3⟩ := writeFile_inside K bus junk f s.devOn s.cs s.world buf n
    (hst.2.2.1 f hfm) hcl hin
  obtain ⟨-, hr⟩ := lcwrite_some hf hw
  subst hr
  have hf2 : (s.fhTable.set fh (writeFile K bus junk f s.devOn s.cs s.world buf n).f).get? fh =
      some (writeFile K bus junk f s.devOn s.cs s.world buf n).f := by
    rw [get?_set_eq_cases, if_pos ⟨rfl, hlt⟩]
  refine ⟨i2, ?_, ?_⟩
  · show ((s.fhTable.set fh _).get? fh).map _ = _
    rw [hf2]
    simp only [Option.map_some', i3, i1]
  · intro x hx hout
    have hgl : fh < g.length := by omega
    have c1 := (contentOK_viewsOf mem s.world _ g).1 (dc hfo).2 fh f (g.getD fh zeroBuf) hf
      (by rw [List.getD_eq_getElem _ _ hgl, List.get?_eq_get hgl]; rfl) x hx
    have c2 := (contentOK_viewsOf mem _ _ _).1 (dc2 hfo).2 fh _
      (memcpy (g.getD fh zeroBuf) f.position buf 0 n) hf2
      (by rw [get?_set_eq_cases, if_pos ⟨rfl, hgl⟩]) x (by rw [i3]; exact hx)
    rw [i1] at c2
    have hlen := (hst.2.2.1 f hfm).1
    rw [blockAt_getD f (x / 256) noBlock (by omega), c1]
    simp only at c2
    rw [c2]
    unfold memcpy
    rw [if_neg hout]

/-- The overwrite of 10 bytes at offset 100 of a file of 256 bytes on the two-device
controller: it returns 10, the file keeps its size and its one block, the allocation bits
stay, and the controller holds the former bytes at the other 246 offsets. -/
theorem overwrite_inside_example :
    (lcwrite simConsts demoBus zeroBuf 0 (constBuf 255) 10 demoAt100).map (fun r => r.1) =
      some 10 ∧
    demoPatched.devOn = demoAt100.devOn ∧
    (demoPatched.fhTable.get? 0).map (fun x => (x.size, x.blocks)) =
      some (256, [block.mk 0 0 0]) ∧
    ∀ x, x < 256 → ¬ (100 ≤ x ∧ x < 100 + 10) →
      simMem demoPatched.world
          (blockAt (file.mk "x" 0 100 256 [block.mk 0 0 0] 1 zeroGarbage) (x / 256)) (x % 256) =
        simMem demoAt100.world
          (blockAt (file.mk "x" 0 100 256 [block.mk 0 0 0] 1 zeroGarbage) (x / 256))
          (x % 256) := by
  have h1 : Written simConsts demoBus demoOneBlock _ :=
    Written.write zeroBuf 0 (constBuf 65) 256 (file.mk "x" 0 0 0 [] 1 zeroGarbage)
      (256, demoOneBlock) (Written.opn "x" zeroGarbage (Written.boot simWorld0)) (by rfl)
      (by rfl) (by decide)
  have h2 : Written simConsts demoBus demoAt100 _ :=
    Written.seek 0 100 (100, demoAt100) h1 (by rfl)
  exact ⟨by rfl,
    overwrite_inside_frame simConsts demoBus simMem demoBus_goodGeometry (simBus_storing 3 2 3)
      (by decide) demoAt100 _ h2 0 (file.mk "x" 0 100 256 [block.mk 0 0 0] 1 zeroGarbage)
      (by rfl) zeroBuf (constBuf 255) 10 (10, demoPatched) (by rfl) (by decide) (by decide)⟩

end LCloud

namespace LCloud

/-! ## Claims on the register codec and on single cache calls -/

/-- C26: for all field values that fit their widths (`b0`, `b1` below 16, `c0`, `c1`, `c2`
below 256, `d0`, `d1` below 65536), `create_lcloud_registers` returns the frame
`d0 + d1*2^16 + c2*2^32 + c1*2^40 + c0*2^48 + b1*2^56 + b0*2^60`. -/
theorem C26_create_is_sum_of_fields (b0 b1 c0 c1 c2 d0 d1 : Nat) (hb0 : b0 < 16)
    (hb1 : b1 < 16) (h0 : c0 < 256) (h1 : c1 < 256) (h2 : c2 < 256) (h3 : d0 < 65536)
    (h4 : d1 < 65536) :
    create_lcloud_registers b0 b1 c0 c1 c2 d0 d1 =
      d0 + d1 * 2 ^ 16 + c2 * 2 ^ 32 + c1 * 2 ^ 40 + c0 * 2 ^ 48 + b1 * 2 ^ 56 + b0 * 2 ^ 60 :=
  create_full_sum b0 b1 c0 c1 c2 d0 d1 hb0 hb1 h0 h1 h2 h3 h4

/-- Witness for C26: the frame of the fields `b0 = 1`, `b1 = 15`, `c0 = 5`, `c1 = 3`,
`c2 = 255`, `d0 = 7`, `d1 = 65535`. -/
theorem C26_create_witness :
    create_lcloud_registers 1 15 5 3 255 7 65535 =
      7 + 65535 * 2 ^ 16 + 255 * 2 ^ 32 + 3 * 2 ^ 40 + 5 * 2 ^ 48 + 15 * 2 ^ 56 + 1 * 2 ^ 60 :=
  C26_create_is_sum_of_fields 1 15 5 3 255 7 65535 (by decide) (by decide) (by decide)
    (by decide) (by decide) (by decide) (by decide)

/-- C27: `extract_lcloud_registers` does not return `d0` and `d1` from the bit ranges of the
layout. For the frame `2^60 + 2^56 + 5*2^48 + 3*2^16 + 7`, whose bits 0-15 hold 7 and whose
bits 16-31 hold 3, it returns `d0 = 3` and `d1 = 7`: `d0` is taken from bits 16-31 and `d1`
from bits 0-15. The other five registers come from their ranges (`b0 = 1`, `b1 = 1`,
`c0 = 5`, `c1 = 0`, `c2 = 0`). -/
theorem C27_extract_takes_d0_from_bits_16_to_31 :
    (2 ^ 60 + 2 ^ 56 + 5 * 2 ^ 48 + 3 * 2 ^ 16 + 7) % 2 ^ 16 = 7 ∧
    (2 ^ 60 + 2 ^ 56 + 5 * 2 ^ 48 + 3 * 2 ^ 16 + 7) / 2 ^ 16 % 2 ^ 16 = 3 ∧
    extract_lcloud_registers (2 ^ 60 + 2 ^ 56 + 5 * 2 ^ 48 + 3 * 2 ^ 16 + 7) =
      { b0 := 1, b1 := 1, c0 := 5, c1 := 0, c2 := 0, d0 := 3, d1 := 7 } := by
  decide

/-- C29: in every cache state reachable from `lcloud_initcache` (capacity at least 1),
`lcloud_putcache` of a key that is resident returns 0 and changes only the slot `j` that holds
the key, the access counter and nothing else: the slot keeps its key, its first 256 data bytes
become those of `block`, its stamp becomes the access counter, and the access counter goes up
by one. `cacheHits`, `cacheMisses` and every other slot are as before. -/
theorem C29_putcache_of_resident_key (maxblocks : Int) (h : 1 ≤ maxblocks) (s : CacheState)
    (hs : CacheReachable maxblocks s) (did sec blk : Int) (block : Buf)
    (hr : resident did sec blk s = true) :
    ∃ j e0, s.cache.get? j = some e0 ∧ e0.device = did ∧ e0.sector = u16 sec ∧
      e0.block = u16 blk ∧
      lcloud_putcache did sec blk block s =
        (0, { s with cache := s.cache.set j { e0 with data := memcpy e0.data 0 block 0 256
                                                      time := s.cacheAccess }
                     cacheAccess := s.cacheAccess + 1 }) ∧
      ∀ x, x < 256 → memcpy e0.data 0 block 0 256 x = block x := by
  obtain ⟨k, hf⟩ := cacheReachable_ok maxblocks h s hs
  obtain ⟨j, hj⟩ := (resident_iff did sec blk s).1 hr
  obtain ⟨e0, he, a1, a2, a3⟩ := getcacheLoop_slot did (u16 sec) (u16 blk) s j hj
  refine ⟨j, e0, he, a1, a2, a3, lcloud_putcache_hit did sec blk block s k hf j e0 hj he, ?_⟩
  intro x hx
  unfold memcpy
  rw [if_pos ⟨Nat.zero_le x, by omega⟩]
  simp

/-- Witness for C29: in a cache of two slots after `lcloud_putcache` of the key `(0, 0, 0)`,
a second `lcloud_putcache` of that key. -/
theorem C29_putcache_witness :
    ∃ j e0, demoCache.cache.get? j = some e0 ∧ e0.device = 0 ∧ e0.sector = u16 0 ∧
      e0.block = u16 0 ∧
      lcloud_putcache 0 0 0 (constBuf 66) demoCache =
        (0, { demoCache with
              cache := demoCache.cache.set j
                { e0 with data := memcpy e0.data 0 (constBuf 66) 0 256
                          time := demoCache.cacheAccess }
              cacheAccess := demoCache.cacheAccess + 1 }) ∧
      ∀ x, x < 256 → memcpy e0.data 0 (constBuf 66) 0 256 x = constBuf 66 x :=
  C29_putcache_of_resident_key 2 (by decide) demoCache
    (CacheReachable.step (CacheCall.put 0 0 0 (constBuf 65)) CacheReachable.init) 0 0 0
    (constBuf 66) (by decide)

/-- C25: a cache of capacity 2 after touching the keys A, B, A, C in this order, where a touch
is `lcloud_getcache` followed on a miss by `lcloud_putcache`, and A, B, C are pairwise distinct
as the cache compares them (device, and sector and block as `uint16_t`). After the third touch
the slots hold A and B; after the fourth they hold A and C: A and C are resident and B is not,
so the insertion of C has replaced B. -/
theorem C25_touching_A_B_A_C (dA sA bA dB sB bB dC sC bC : Int) (xA xB xA2 xC : Buf)
    (hAB : ¬ (dA = dB ∧ u16 sA = u16 sB ∧ u16 bA = u16 bB))
    (hAC : ¬ (dA = dC ∧ u16 sA = u16 sC ∧ u16 bA = u16 bC))
    (hBC : ¬ (dB = dC ∧ u16 sB = u16 sC ∧ u16 bB = u16 bC)) :
    slotKeys (touch dA sA bA xA2 (touch dB sB bB xB (touch dA sA bA xA (lcloud_initcache 2)))) =
      [(dA, u16 sA, u16 bA), (dB, u16 sB, u16 bB)] ∧
    slotKeys (touch dC sC bC xC (touch dA sA bA xA2 (touch dB sB bB xB
        (touch dA sA bA xA (lcloud_initcache 2))))) =
      [(dA, u16 sA, u16 bA), (dC, u16 sC, u16 bC)] ∧
    resident dA sA bA (touch dC sC bC xC (touch dA sA bA xA2 (touch dB sB bB xB
        (touch dA sA bA xA (lcloud_initcache 2))))) = true ∧
    resident dC sC bC (touch dC sC bC xC (touch dA sA bA xA2 (touch dB sB bB xB
        (touch dA sA bA xA (lcloud_initcache 2))))) = true ∧
    resident dB sB bB (touch dC sC bC xC (touch dA sA bA xA2 (touch dB sB bB xB
        (touch dA sA bA xA (lcloud_initcache 2))))) = false := by
  rw [touch_first, touch_second dA sA bA dB sB bB xA xB hAB, touch_third,
    touch_fourth dA sA bA dB sB bB dC sC bC xA xB xC hAC hBC]
  have hBA : ¬ (dA = dB ∧ u16 sA = u16 sB ∧ u16 bA = u16 bB) := hAB
  have hCB : ¬ (dC = dB ∧ u16 sC = u16 sB ∧ u16 bC = u16 bB) :=
    fun h => hBC ⟨h.1.symm, h.2.1.symm, h.2.2.symm⟩
  refine ⟨rfl, rfl, ?_, ?_, ?_⟩
  · rw [resident_two]
    have k : keyMatch (newCacheBlock dA (u16 sA) (u16 bA) xA 2) dA (u16 sA) (u16 bA) = true :=
      keyMatch_self _
    rw [k]
    rfl
  · rw [resident_two]
    have k : keyMatch (newCacheBlock dC (u16 sC) (u16 bC) xC 3) dC (u16 sC) (u16 bC) = true :=
      keyMatch_self _
    rw [k, Bool.or_true]
  · rw [resident_two]
    have k1 : keyMatch (newCacheBlock dA (u16 sA) (u16 bA) xA 2) dB (u16 sB) (u16 bB) = false :=
      keyMatch_other _ _ _ _ hBA
    have k2 : keyMatch (newCacheBlock dC (u16 sC) (u16 bC) xC 3) dB (u16 sB) (u16 bB) = false :=
      keyMatch_other _ _ _ _ hCB
    rw [k1, k2]
    rfl

/-- Witness for C25: the keys `(0, 0, 0)`, `(0, 0, 1)` and `(0, 0, 2)`. -/
theorem C25_touching_witness :
    slotKeys (touch 0 0 0 (constBuf 67) (touch 0 0 1 (constBuf 66)
        (touch 0 0 0 (constBuf 65) (lcloud_initcache 2)))) =
      [(0, u16 0, u16 0), (0, u16 0, u16 1)] ∧
    slotKeys (touch 0 0 2 (constBuf 68) (touch 0 0 0 (constBuf 67) (touch 0 0 1 (constBuf 66)
        (touch 0 0 0 (constBuf 65) (lcloud_initcache 2))))) =
      [(0, u16 0, u16 0), (0, u16 0, u16 2)] ∧
    resident 0 0 0 (touch 0 0 2 (constBuf 68) (touch 0 0 0 (constBuf 67)
        (touch 0 0 1 (constBuf 66) (touch 0 0 0 (constBuf 65) (lcloud_initcache 2))))) = true ∧
    resident 0 0 2 (touch 0 0 2 (constBuf 68) (touch 0 0 0 (constBuf 67)
        (touch 0 0 1 (constBuf 66) (touch 0 0 0 (constBuf 65) (lcloud_initcache 2))))) = true ∧
    resident 0 0 1 (touch 0 0 2 (constBuf 68) (touch 0 0 0 (constBuf 67)
        (touch 0 0 1 (constBuf 66) (touch 0 0 0 (constBuf 65) (lcloud_initcache 2))))) = false :=
  C25_touching_A_B_A_C 0 0 0 0 0 1 0 0 2 (constBuf 65) (constBuf 66) (constBuf 67) (constBuf 68)
    (by decide) (by decide) (by decide)

end LCloud

namespace LCloud

/-! ## Claim on a read of one block that misses the cache -/

end LCloud

namespace LCloud

/-! ## Claims on writes that fail, overwrite, or fill a device -/

/-- C21 (counterexample): on the controller with one device of 1 sector by 2 blocks, the state
after `lcopen` is reachable and its descriptor has position 0 and size 0. `lcwrite` of 512
bytes completes the first chunk of 256 bytes, fails on the second (no block is handed out),
and returns `-1`; the descriptor then has size 256 and the block of the first chunk, and
position 0, not `0 + 256`. -/
theorem C21_failed_write_leaves_position :
    Reachable simConsts tinyBus tinyOpened ∧
    tinyOpened.fhTable.map (fun f => (f.opened, f.position, f.size)) = [(1, 0, 0)] ∧
    (lcwriteBody simConsts tinyBus zeroBuf (constBuf 65)
      { f := file.mk "x" 0 0 0 [] 1 zeroGarbage, devOn := tinyOpened.devOn, cs := tinyOpened.cs,
        world := tinyOpened.world, bytesWrote := 0, len := 512, buf_256 := zeroBuf }).2.bytesWrote =
      256 ∧
    (lcwrite simConsts tinyBus zeroBuf 0 (constBuf 65) 512 tinyOpened).map
        (fun r => (r.1, r.2.fhTable.map (fun f => (f.position, f.size, f.blocks)))) =
      some (-1, [(0, 256, [block.mk 0 0 0])]) ∧
    (0 : Nat) ≠ 0 + 256 := by
  refine ⟨Reachable.opn "x" zeroGarbage (Reachable.boot simWorld0), by decide, by rfl, by rfl,
    by decide⟩

/-- C21 (amended): when `lcwrite` on an open descriptor with position `p` returns a negative
value, having completed chunks of `k` bytes in all before the chunk that failed, the value is
`-1`, `k` is less than the length asked for, the completed chunks are kept in the size, which
is `max old_size (p + k)` when `k > 0` and the old size when `k = 0`, and the position is
still `p`: `lcwrite` moves the position only at the end of a call in which every chunk
succeeded. Here `k` is the counter `bytesWrote` of `lcwrite` when it returns. -/
theorem C21_failed_write_size_and_position {σ : Type} (K : Consts) (bus : Bus σ) (junk : Buf)
    (f : file) (devOn : List device) (cs : CacheState) (w : σ) (buf : Buf) (len : Nat)
    (hopen : f.opened ≠ 0) (hneg : (writeFile K bus junk f devOn cs w buf len).ret < 0) :
    (writeFile K bus junk f devOn cs w buf len).ret = -1 ∧
    (writeFile K bus junk f devOn cs w buf len).f.position = f.position ∧
    (writeFile K bus junk f devOn cs w buf len).f.size =
      (if (lcwriteBody K bus junk buf
            { f := f, devOn := devOn, cs := cs, world := w, bytesWrote := 0, len := len,
              buf_256 := junk }).2.bytesWrote = 0 then f.size
        else max f.size (f.position + (lcwriteBody K bus junk buf
            { f := f, devOn := devOn, cs := cs, world := w, bytesWrote := 0, len := len,
              buf_256 := junk }).2.bytesWrote)) ∧
    (lcwriteBody K bus junk buf
        { f := f, devOn := devOn, cs := cs, world := w, bytesWrote := 0, len := len,
          buf_256 := junk }).2.bytesWrote < len :=
  writeFile_failed K bus junk f devOn cs w buf len hopen hneg

/-- Witness for C21: the failed write of 512 bytes on the controller with one device of 1
sector by 2 blocks. -/
theorem C21_failed_write_witness :
    (writeFile simConsts tinyBus zeroBuf (file.mk "x" 0 0 0 [] 1 zeroGarbage) tinyOpened.devOn
      tinyOpened.cs tinyOpened.world (constBuf 65) 512).ret = -1 ∧
    (writeFile simConsts tinyBus zeroBuf (file.mk "x" 0 0 0 [] 1 zeroGarbage) tinyOpened.devOn
      tinyOpened.cs tinyOpened.world (constBuf 65) 512).f.position = 0 ∧
    (writeFile simConsts tinyBus zeroBuf (file.mk "x" 0 0 0 [] 1 zeroGarbage) tinyOpened.devOn
      tinyOpened.cs tinyOpened.world (constBuf 65) 512).f.size =
      (if (lcwriteBody simConsts tinyBus zeroBuf (constBuf 65)
            { f := file.mk "x" 0 0 0 [] 1 zeroGarbage, devOn := tinyOpened.devOn,
              cs := tinyOpened.cs, world := tinyOpened.world, bytesWrote := 0, len := 512,
              buf_256 := zeroBuf }).2.bytesWrote = 0 then 0
        else max 0 (0 + (lcwriteBody simConsts tinyBus zeroBuf (constBuf 65)
            { f := file.mk "x" 0 0 0 [] 1 zeroGarbage, devOn := tinyOpened.devOn,
              cs := tinyOpened.cs, world := tinyOpened.world, bytesWrote := 0, len := 512,
              buf_256 := zeroBuf }).2.bytesWrote)) ∧
    (lcwriteBody simConsts tinyBus zeroBuf (constBuf 65)
        { f := file.mk "x" 0 0 0 [] 1 zeroGarbage, devOn := tinyOpened.devOn,
          cs := tinyOpened.cs, world := tinyOpened.world, bytesWrote := 0, len := 512,
          buf_256 := zeroBuf }).2.bytesWrote < 512 :=
  C21_failed_write_size_and_position simConsts tinyBus zeroBuf (file.mk "x" 0 0 0 [] 1 zeroGarbage)
    tinyOpened.devOn tinyOpened.cs tinyOpened.world (constBuf 65) 512 (by decide)
    (lt_of_eq_of_lt (rfl : _ = (-1 : Int)) (by decide))

set_option maxRecDepth 4096 in
/-- C22: `lcwrite` sends the write although the pre-fetch failed. With a cache of one slot on
the controller that cannot read block `(0, 0, 1)`: after `lcopen`, a write of 512 bytes,
`lcseek` to 0, a read of 256 bytes and `lcseek` to 300, the file has the blocks `(0, 0, 0)`
and `(0, 0, 1)`, the second is not in the cache, and the `lcread` of the pre-fetch (256 bytes
from offset 256) returns `-1`. `lcwrite` of 10 bytes `0xFF` at offset 300 nevertheless
returns 10, and the controller then holds `0xFF` at offsets 44 to 53 of block `(0, 0, 1)`,
where it held the byte 49 at offset 44 before: the write request was sent. -/
theorem C22_write_sent_after_failed_prefetch :
    Reachable oneSlotConsts badBus badSeek ∧
    badSeek.fhTable.map (fun f => (f.opened, f.position, f.size, f.blocks)) =
      [(1, 300, 512, [block.mk 0 0 0, block.mk 0 0 1])] ∧
    resident 0 0 1 badSeek.cs = false ∧
    (readFile oneSlotConsts badBus zeroBuf
      (seekFile (file.mk "x" 0 300 512 [block.mk 0 0 0, block.mk 0 0 1] 1 zeroGarbage) 256).2
      badSeek.cs badSeek.world zeroBuf 256).ret = -1 ∧
    simMem badSeek.world (block.mk 0 0 1) 44 = 49 ∧
    (lcwrite oneSlotConsts badBus zeroBuf 0 (constBuf 255) 10 badSeek).map
        (fun r => (r.1, simMem r.2.world (block.mk 0 0 1) 44,
          simMem r.2.world (block.mk 0 0 1) 53)) =
      some (10, 255, 255) := by
  refine ⟨badSeek_reachable, by decide, by decide, by rfl, by rfl, by rfl⟩

/-- C23: the writes that fill the first device do not all land on it. On the controller with
devices 0 and 1 of 2 sectors by 3 blocks each, six successive appending writes of 256 bytes
after `lcopen` all return 256, but the sixth block of the file is `(1, 0, 0)`, on device 1,
and the allocation bit of block `(0, 1, 2)`, the last one of device 0, is still 0:
`get_Next_Block` never hands out the last block of a device. -/
theorem C23_sixth_block_lands_on_next_device :
    Reachable simConsts demoBus (appendBlocks 6) ∧
    (demoOpened.devOn.take 2).map (fun d => (d.online, d.sectors, d.blocks)) =
      [(1, 2, 3), (1, 2, 3)] ∧
    (List.range 6).map (fun n =>
        (lcwrite simConsts demoBus zeroBuf 0 (constBuf 65) 256 (appendBlocks n)).map
          (fun r => r.1)) =
      List.replicate 6 (some 256) ∧
    (appendBlocks 6).fhTable.map (fun f => f.blocks) =
      [[block.mk 0 0 0, block.mk 0 0 1, block.mk 0 0 2, block.mk 0 1 0, block.mk 0 1 1,
        block.mk 1 0 0]] ∧
    ((appendBlocks 6).devOn.take 2).map (fun d => d.usedBlocks) =
      [[1, 1, 1, 1, 1, 0], [1, 0, 0, 0, 0, 0]] := by
  refine ⟨appendBlocks_reachable 6, by decide, by rfl, by rfl, by rfl⟩

set_option maxRecDepth 4096 in
/-- C24: an overwrite inside the file can change bytes outside the range written. In the
reachable state of C22 (cache of one slot, controller that cannot read block `(0, 0, 1)`,
file of 512 bytes with position 300), the controller holds the bytes 5, 6, 7, 8 that were
written at file offsets 256 to 259. `lcwrite` of 10 bytes at offset 300, with
`300 + 10 <= 512`, returns 10 and keeps size and block list, yet the controller then holds
0, 0, 0, 0 at offsets 256 to 259 of the file: the pre-fetch of the block failed, its result
was not looked at, and the block was sent with the content of the local buffer around the 10
new bytes. -/
theorem C24_overwrite_after_failed_prefetch_changes_other_bytes :
    Reachable oneSlotConsts badBus badSeek ∧
    badSeek.fhTable.map (fun f => (f.opened, f.position, f.size, f.blocks)) =
      [(1, 300, 512, [block.mk 0 0 0, block.mk 0 0 1])] ∧
    (List.range 4).map (simMem badSeek.world (block.mk 0 0 1)) = [5, 6, 7, 8] ∧
    (lcwrite oneSlotConsts badBus zeroBuf 0 (constBuf 255) 10 badSeek).map
        (fun r => (r.1, r.2.fhTable.map (fun f => (f.position, f.size, f.blocks)),
          (List.range 4).map (simMem r.2.world (block.mk 0 0 1)))) =
      some (10, [(310, 512, [block.mk 0 0 0, block.mk 0 0 1])], [0, 0, 0, 0]) := by
  refine ⟨badSeek_reachable, by decide, by rfl, by rfl⟩

end LCloud

namespace LCloud

/-! ## The error value is not a request frame -/

/-- On a cache that satisfies the invariant, the scan of the first branch of
`lcloud_putcache` ends on the key or with a victim index assigned, inside the array, and the
scan of the second branch, when that branch is taken, ends on the key or on an empty slot. -/
theorem putcache_scans (did sec blk : Int) (s : CacheState) (k : Nat) (hf : CacheFill s k) :
    ((∃ i, i < s.cache.length ∧
        putcacheFullLoop did (u16 sec) (u16 blk) s.cache 0 s.cacheAccess none =
          FullScan.hit i) ∨
      (∃ v, v < s.cache.length ∧
        putcacheFullLoop did (u16 sec) (u16 blk) s.cache 0 s.cacheAccess none =
          FullScan.victim (some v))) ∧
    (¬ s.cacheAccess ≥ s.cacheSize - 1 →
      (∃ i, i < s.cache.length ∧
        putcacheFreeLoop did (u16 sec) (u16 blk) s.cache 0 = FreeScan.hit i) ∨
      (∃ i, i < s.cache.length ∧
        putcacheFreeLoop did (u16 sec) (u16 blk) s.cache 0 = FreeScan.empty i)) := by
  have hf0 := hf
  obtain ⟨h1, h2, h3, h4, h5, h6, h7⟩ := hf
  refine ⟨?_, fun hfull => ?_⟩
  · cases hl : getcacheLoop did (u16 sec) (u16 blk) s.cache 0 with
    | some j =>
      obtain ⟨m, e0, g1, g2, -, -⟩ := getcacheLoop_some _ _ _ _ _ _ hl
      left
      refine ⟨j, ?_, putcacheFullLoop_hit _ _ _ _ _ _ _ _ hl⟩
      have := (List.get?_eq_some.1 g1).1
      omega
    | none =>
      obtain ⟨r, hr1, hr2⟩ := putcacheFullLoop_victim did (u16 sec) (u16 blk) s.cache 0
        s.cacheAccess none hl
      obtain ⟨v, hv1, hv2⟩ := victim_of_fill s k hf0 r hr2
      right
      refine ⟨v, by omega, ?_⟩
      rw [hr1, hv1]
  · cases hl : getcacheLoop did (u16 sec) (u16 blk) s.cache 0 with
    | some j =>
      obtain ⟨m, e0, g1, g2, g3, g4⟩ := getcacheLoop_some _ _ _ _ _ _ hl
      have hjm : j = m := by omega
      subst hjm
      have hjk : j < k := by
        by_contra hge
        have := (h6 j e0 g1 (by omega)).1
        have := (keyMatch_iff _ _ _ _).1 g3
        have := (u16_range blk).1
        omega
      have := putcacheFreeLoop_hit did (u16 sec) (u16 blk) s.cache 0 j e0 g1 g3
        (fun m2 e2 hm2 hlt => ⟨g4 m2 e2 hm2 hlt, by
          have := (h5 m2 e2 hm2 (by omega)).1
          omega⟩)
      rw [Nat.zero_add] at this
      exact Or.inl ⟨j, (List.get?_eq_some.1 g1).1, this⟩
    | none =>
      have hnone := getcacheLoop_none _ _ _ _ _ hl
      have hk : k < s.cache.length := by
        rw [h1]; omega
      have hgetk : s.cache.get? k = some (s.cache.get ⟨k, hk⟩) := List.get?_eq_get hk
      have := putcacheFreeLoop_empty did (u16 sec) (u16 blk) s.cache 0 k _ hgetk
        (h6 k _ hgetk (le_refl _)).1 (hnone k _ hgetk)
        (fun m2 e2 hm2 hlt => ⟨hnone m2 e2 hm2, by
          have := (h5 m2 e2 hm2 hlt).1
          omega⟩)
      rw [Nat.zero_add] at this
      exact Or.inr ⟨k, hk, this⟩

/-- The array of a reachable cache has `maxblocks` slots. -/
theorem cacheReachable_length (maxblocks : Int) (h : 1 ≤ maxblocks) (s : CacheState)
    (hs : CacheReachable maxblocks s) : s.cache.length = maxblocks.toNat := by
  obtain ⟨k, hf⟩ := cacheReachable_ok maxblocks h s hs
  rw [hf.1, cacheReachable_size maxblocks h s hs]

end LCloud

namespace LCloud

/-! ## The scan of `get_Next_Block`, cell by cell -/

/-- Every cell that the scan reads is a cell of the device. -/
theorem scanCells_range (d : device) (fuel : Nat) :
    ∀ cs cb : Int, 0 ≤ cs → cs < d.sectors → 0 ≤ cb → cb < d.blocks →
      ∀ c ∈ scanCells d fuel cs cb, 0 ≤ c.1 ∧ c.1 < d.sectors ∧ 0 ≤ c.2 ∧ c.2 < d.blocks := by
  induction fuel with
  | zero =>
    intro cs cb _ _ _ _ c hc
    simp [scanCells] at hc
  | succ fuel ih =>
    intro cs cb h1 h2 h3 h4 c hc
    unfold scanCells at hc
    rcases List.mem_cons.1 hc with hc | hc
    · rw [hc]
      exact ⟨h1, h2, h3, h4⟩
    · split_ifs at hc with c1 c2 c3 c4
      · simp at hc
      · exact ih cs (cb + 1) h1 h2 (by omega) (by omega) c hc
      · exact ih (cs + 1) 0 (by omega) (by omega) (by omega) (by omega) c hc
      · exact ih cs cb h1 h2 h3 h4 c hc
      · simp at hc

/-- Given enough turns, the scan ends on the last cell it has read. -/
theorem scanCells_last (d : device) (fuel : Nat) :
    ∀ cs cb : Int, 0 ≤ cs → cs < d.sectors → 0 ≤ cb → cb < d.blocks →
      d.sectors * d.blocks ≤ fuel + (cs * d.blocks + cb) →
      (scanCells d fuel cs cb).getLast? = some (scanDevice d fuel cs cb) := by
  induction fuel with
  | zero =>
    intro cs cb h1 h2 h3 h4 h5
    have := cell_lt d.sectors d.blocks cs cb h2 h3 h4 h1
    simp only [Nat.cast_zero, zero_add] at h5
    omega
  | succ fuel ih =>
    intro cs cb h1 h2 h3 h4 h5
    have hcons : ∀ (l : List (Int × Int)) (x y : Int × Int), l.getLast? = some y →
        (x :: l).getLast? = some y := by
      intro l x y hl
      cases l with
      | nil => simp at hl
      | cons a t => rw [List.getLast?_cons_cons]; exact hl
    unfold scanCells scanDevice
    split_ifs with c1 c2 c3 c4
    · rfl
    · apply hcons
      apply ih cs (cb + 1) h1 h2 (by omega) (by omega)
      push_cast at h5
      omega
    · apply hcons
      apply ih (cs + 1) 0 (by omega) (by omega) (by omega) (by omega)
      push_cast at h5
      have : (cs + 1) * d.blocks = cs * d.blocks + d.blocks := by ring
      have c3' : cb = d.blocks - 1 := by
        by_contra hne
        exact c3 hne
      omega
    · exfalso
      apply c2
      constructor
      · by_contra hne; exact c4 hne
      · by_contra hne; exact c3 hne
    · rfl

/-- The device loop of `get_Next_Block` over a table whose online devices have at least one
sector and one block: no block, or a block of an online device whose bit is not set. -/
theorem nextBlockLoop_free : ∀ (l : List device) (i : Int),
    (∀ d ∈ l, d.online = 1 → 1 ≤ d.sectors ∧ 1 ≤ d.blocks) →
    nextBlockLoop l i = noBlock ∨
    ∃ (k : Nat) (d : device), l.get? k = some d ∧ (nextBlockLoop l i).device = i + k ∧
      d.online = 1 ∧ 0 ≤ (nextBlockLoop l i).sector ∧ (nextBlockLoop l i).sector < d.sectors ∧
      0 ≤ (nextBlockLoop l i).blockNum ∧ (nextBlockLoop l i).blockNum < d.blocks ∧
      usedAt d (nextBlockLoop l i).sector (nextBlockLoop l i).blockNum ≠ 1 := by
  intro l
  induction l with
  | nil => intro i _; left; rfl
  | cons d rest ih =>
    intro i hd
    have hrest : ∀ d ∈ rest, d.online = 1 → 1 ≤ d.sectors ∧ 1 ≤ d.blocks :=
      fun x hx => hd x (List.mem_cons_of_mem _ hx)
    have step : nextBlockLoop rest (i + 1) = noBlock ∨
        ∃ (k : Nat) (e : device), (d :: rest).get? k = some e ∧
          (nextBlockLoop rest (i + 1)).device = i + k ∧
          e.online = 1 ∧ 0 ≤ (nextBlockLoop rest (i + 1)).sector ∧
          (nextBlockLoop rest (i + 1)).sector < e.sectors ∧
          0 ≤ (nextBlockLoop rest (i + 1)).blockNum ∧
          (nextBlockLoop rest (i + 1)).blockNum < e.blocks ∧
          usedAt e (nextBlockLoop rest (i + 1)).sector (nextBlockLoop rest (i + 1)).blockNum ≠
            1 := by
      rcases ih (i + 1) hrest with h | ⟨k, e, h1, h2, h3⟩
      · exact Or.inl h
      · refine Or.inr ⟨k + 1, e, ?_, ?_, h3⟩
        · simpa using h1
        · rw [h2]; push_cast; omega
    unfold nextBlockLoop
    dsimp only
    by_cases c1 : d.online = 1
    · rw [if_pos c1]
      by_cases c2 : (scanDevice d (d.sectors * d.blocks).toNat 0 0).1 = d.sectors - 1 ∧
          (scanDevice d (d.sectors * d.blocks).toNat 0 0).2 = d.blocks - 1
      · rw [if_neg (not_not.2 c2)]
        exact step
      · rw [if_pos c2]
        right
        obtain ⟨hS, hB⟩ := hd d (List.mem_cons_self _ _) c1
        have hsp := scanDevice_spec d (d.sectors * d.blocks).toNat 0 0 (le_refl _)
          (by omega) (le_refl _) (by omega) (by
            have : 0 ≤ d.sectors * d.blocks := Int.mul_nonneg (by omega) (by omega)
            rw [Int.toNat_of_nonneg this]; omega)
        obtain ⟨a1, a2, a3, a4, a5⟩ := hsp
        refine ⟨0, d, rfl, ?_, c1, a1, a2, a3, a4, ?_⟩
        · show i = i + ((0 : Nat) : Int)
          simp
        · rcases a5 with a5 | a5
          · exact a5
          · exact absurd a5 c2
    · rw [if_neg c1]
      exact step

end LCloud

namespace LCloud

/-! ## Position and return value of `lcread` -/

/-- When the loop of `lcread` does not end in `return -1`, the position has moved by the
bytes read. -/
theorem lcreadLoop_moved {σ : Type} (K : Consts) (bus : Bus σ) (fuel : Nat) :
    ∀ (f : file) (cs : CacheState) (w : σ) (buf : Buf) (bytesRead len i : Nat) (buf_256 : Buf),
      0 ≤ (lcreadLoop K bus fuel f cs w buf bytesRead len i buf_256).ret →
      (lcreadLoop K bus fuel f cs w buf bytesRead len i buf_256).ret + (f.position : Int) =
        (bytesRead : Int) +
          ((lcreadLoop K bus fuel f cs w buf bytesRead len i buf_256).f.position : Int) := by
  induction fuel with
  | zero =>
    intro f cs w buf bytesRead len i buf_256 _
    show ((bytesRead : Nat) : Int) + (f.position : Int) = bytesRead + f.position
    rfl
  | succ fuel ih =>
    intro f cs w buf bytesRead len i buf_256
    unfold lcreadLoop
    simp only [mark_ret, mark_f]
    split_ifs with h1 h2 h3 h4 h5 h6 h7 h8
    · intro hok
      have := ih _ _ _ _ _ _ _ _ hok
      simp only at this
      push_cast at this
      omega
    · intro hok
      exact absurd hok (by show ¬ (0 : Int) ≤ -1; decide)
    · intro hok
      have := ih _ _ _ _ _ _ _ _ hok
      simp only at this
      push_cast at this
      omega
    · intro hok
      exact absurd hok (by show ¬ (0 : Int) ≤ -1; decide)
    · intro _
      show (((bytesRead + f.size % 256 : Nat) : Int)) + (f.position : Int) =
        (bytesRead : Int) + ((f.position + f.size % 256 : Nat) : Int)
      push_cast
      omega
    · intro hok
      exact absurd hok (by show ¬ (0 : Int) ≤ -1; decide)
    · simp only [mark_ret, mark_f]
      intro hok
      have := ih _ _ _ _ _ _ _ _ hok
      simp only at this
      push_cast at this
      omega
    · intro hok
      exact absurd hok (by show ¬ (0 : Int) ≤ -1; decide)
    · intro _
      show ((bytesRead : Nat) : Int) + (f.position : Int) = bytesRead + f.position
      rfl

/-- A `lcread` that does not return a negative value returns a count `n` and leaves the
descriptor as it was but for the position, which is `n` further. -/
theorem readFile_moved {σ : Type} (K : Consts) (bus : Bus σ) (junk : Buf) (f : file)
    (cs : CacheState) (w : σ) (buf : Buf) (len : Nat)
    (hok : 0 ≤ (readFile K bus junk f cs w buf len).ret) :
    ∃ n : Nat, (readFile K bus junk f cs w buf len).ret = (n : Int) ∧
      (readFile K bus junk f cs w buf len).f = { f with position := f.position + n } := by
  obtain ⟨m1, m2, m3, m4, m5, m6, -, -⟩ := readFile_file K bus junk f cs w buf len
  have hmv : (readFile K bus junk f cs w buf len).ret + (f.position : Int) =
      ((readFile K bus junk f cs w buf len).f.position : Int) := by
    unfold readFile at hok ⊢
    by_cases ho : f.opened = 0
    · rw [if_pos ho] at hok
      exact absurd hok (by show ¬ (0 : Int) ≤ -1; decide)
    · rw [if_neg ho] at hok ⊢
      have := lcreadLoop_moved K bus _ _ _ _ _ _ _ _ _ hok
      simpa using this
  refine ⟨(readFile K bus junk f cs w buf len).ret.toNat, (Int.toNat_of_nonneg hok).symm, ?_⟩
  refine file_eq_of_fields (f := { f with position := f.position + _ }) m1 m2 m3 m4 m5 ?_ m6
  show _ = f.position + _
  omega

/-- The loop of `lcread` when every load of a block of the file succeeds and the entry of the
array `blocks` after the stored ones holds the end marker: it delivers the bytes asked for,
or those up to the end of the last block of the file if that comes first. -/
theorem lcreadLoop_count {σ : Type} (K : Consts) (bus : Bus σ) (bl : List block)
    (hblk : ∀ b ∈ bl, b.blockNum ≠ -1)
    (hload : ∀ b ∈ bl, ∀ (b256 : Buf) (cs : CacheState) (w : σ),
      (loadBlock K bus b b256 cs w).1 = true) (fuel : Nat) :
    ∀ (f : file) (cs : CacheState) (w : σ) (buf : Buf) (bytesRead len i : Nat) (buf_256 : Buf),
      f.blocks = bl → (f.garbage bl.length).blockNum = -1 → len < 2 ^ 39 → len < fuel →
      (len = 0 ∨ i = f.position / 256) → f.position ≤ 256 * bl.length →
      (lcreadLoop K bus fuel f cs w buf bytesRead len i buf_256).ret =
        ((bytesRead + min len (256 * bl.length - f.position) : Nat) : Int) ∧
      (lcreadLoop K bus fuel f cs w buf bytesRead len i buf_256).f.position =
        f.position + min len (256 * bl.length - f.position) := by
  induction fuel with
  | zero => intro f cs w buf bytesRead len i buf_256 _ h; omega
  | succ fuel ih =>
    intro f cs w buf bytesRead len i buf_256 hfb hmark hcap hfuel hi hp
    rw [lcreadLoop_small K bus fuel f cs w buf bytesRead len i buf_256 hcap]
    simp only [mark_ret, mark_f]
    by_cases hlen : len = 0
    · subst hlen
      rw [if_neg (by omega)]
      simp
    have hipos : i = f.position / 256 := by
      rcases hi with h | h
      · exact absurd h hlen
      · exact h
    by_cases hil : i < bl.length
    · have hmem : blockAt f i ∈ bl := by
        unfold blockAt
        rw [hfb, List.getD_eq_getElem _ _ hil]
        exact List.getElem_mem _
      have hok : ∀ (b256 : Buf) (cs : CacheState) (w : σ),
          (loadBlock K bus (blockAt f i) b256 cs w).1 = true := hload _ hmem
      rw [if_pos ⟨by omega, hblk _ hmem⟩]
      by_cases h2 : f.position % 256 ≠ 0 ∧ f.position % 256 + len > 256
      · rw [if_pos h2, hok]
        simp only [if_true]
        obtain ⟨r1, r2⟩ := ih { f with position := f.position + (256 - f.position % 256) } _ _ _
          _ (len - (256 - f.position % 256)) (i + 1) _ hfb hmark (by omega) (by omega)
          (Or.inr (by show i + 1 = (f.position + (256 - f.position % 256)) / 256; omega))
          (by show f.position + (256 - f.position % 256) ≤ _; omega)
        rw [r1, r2]
        simp only
        constructor
        · omega
        · omega
      · rw [if_neg h2]
        by_cases h4 : len / 256 > 0
        · have hl256 : 256 ≤ len := by omega
          rw [if_pos h4, hok]
          simp only [if_true]
          obtain ⟨r1, r2⟩ := ih { f with position := f.position + 256 } _ _ _ _ (len - 256)
            (i + 1) _ hfb hmark (by omega) (by omega)
            (Or.inr (by show i + 1 = (f.position + 256) / 256; omega))
            (by show f.position + 256 ≤ _; omega)
          rw [r1, r2]
          simp only
          constructor
          · omega
          · omega
        · have hl : len < 256 := by omega
          rw [if_neg h4, hok]
          simp only [if_true]
          obtain ⟨r1, r2⟩ := ih { f with position := f.position + len % 256 } _ _ _ _
            (len - len % 256) i _ hfb hmark (by omega) (by omega)
            (Or.inl (by rw [Nat.mod_eq_of_lt hl]; omega))
            (by show f.position + len % 256 ≤ _; rw [Nat.mod_eq_of_lt hl]; omega)
          rw [r1, r2]
          simp only
          rw [Nat.mod_eq_of_lt hl]
          constructor
          · omega
          · omega
    · have hi2 : i = bl.length := by omega
      have hnb : (blockAt f i).blockNum = -1 := by
        rw [blockAt_of_ge f i (by rw [hfb]; omega), hi2]
        exact hmark
      rw [if_neg (fun h => h.2 hnb)]
      have : 256 * bl.length - f.position = 0 := by omega
      rw [this]
      simp

/-- With a controller that answers every block transfer, the block load of `lcread` succeeds
for every block that fits the request frame, whatever the cache holds. -/
theorem loadBlock_ok {σ : Type} (K : Consts) (bus : Bus σ) (mem : σ → block → Buf)
    (hbus : StoringBus K bus mem) (b : block) (hb : Addressable b) (buf_256 : Buf)
    (cs : CacheState) (w : σ) : (loadBlock K bus b buf_256 cs w).1 = true := by
  have hok := hbus.read_ok w b buf_256 hb
  unfold xferFrame at hok
  unfold loadBlock
  dsimp only
  cases hg : (lcloud_getcache b.device b.sector b.blockNum cs).1 with
  | some data => rfl
  | none =>
    dsimp only
    rw [hok]
    rfl

/-- Return value and position of `lcread` of fewer than `2^39` bytes on an open descriptor
when every load of a block of the file succeeds and the entry of the array `blocks` after
the stored ones holds the end marker `blockNum = -1`: the read stops at the end of the last
block. -/
theorem readFile_count {σ : Type} (K : Consts) (bus : Bus σ) (junk : Buf) (f : file)
    (cs : CacheState) (w : σ) (buf : Buf) (len : Nat) (hopen : f.opened ≠ 0)
    (hmark : (f.garbage f.blocks.length).blockNum = -1) (hcap : len < 2 ^ 39)
    (hblk : ∀ b ∈ f.blocks, b.blockNum ≠ -1)
    (hload : ∀ b ∈ f.blocks, ∀ (b256 : Buf) (cs : CacheState) (w : σ),
      (loadBlock K bus b b256 cs w).1 = true)
    (hp : f.position ≤ 256 * f.blocks.length) :
    (readFile K bus junk f cs w buf len).ret =
      ((min len (256 * f.blocks.length - f.position) : Nat) : Int) ∧
    (readFile K bus junk f cs w buf len).f.position =
      f.position + min len (256 * f.blocks.length - f.position) := by
  unfold readFile
  rw [if_neg hopen]
  have := lcreadLoop_count K bus f.blocks hblk hload (len + 1) f cs w buf 0 len
    (f.position / 256) junk rfl hmark hcap (by omega) (Or.inr rfl) hp
  rw [Nat.zero_add] at this
  exact this

end LCloud

namespace LCloud

/-! ## Stamps of the occupied slots -/

theorem occupied_iff (e : cacheBlock) : occupied e = true ↔ e.block ≠ -1 := by
  unfold occupied
  simp

/-- In a cache that satisfies the invariant, an occupied slot is one of the first `k`, and its
stamp is below the access counter. -/
theorem occupied_stamp (s : CacheState) (k : Nat) (hf : CacheFill s k) (i : Nat)
    (e : cacheBlock) (hi : s.cache.get? i = some e) (ho : occupied e = true) :
    i < k ∧ 0 ≤ e.block ∧ 0 ≤ e.time ∧ e.time < s.cacheAccess := by
  obtain ⟨-, -, -, -, h5, h6, -⟩ := hf
  have hne := (occupied_iff e).1 ho
  have hik : i < k := by
    by_contra hge
    exact hne (h6 i e hi (by omega)).1
  exact ⟨hik, h5 i e hi hik⟩

/-- Storing an entry stamped with the access counter keeps the stamps distinct. -/
theorem stamps_after_set (s : CacheState) (k : Nat) (hf : CacheFill s k) (hst : StampsOK s)
    (v : Nat) (e1 : cacheBlock) (ht : e1.time = s.cacheAccess) (s2 : CacheState)
    (hc : s2.cache = s.cache.set v e1) : StampsOK s2 := by
  intro i j a b hi hj oa ob heq
  rw [hc] at hi hj
  rcases get?_set_cases _ _ _ _ _ hi with ⟨i1, i2⟩ | ⟨i1, i2⟩
  · rcases get?_set_cases _ _ _ _ _ hj with ⟨j1, j2⟩ | ⟨j1, j2⟩
    · omega
    · exfalso
      have := (occupied_stamp s k hf j b j2 ob).2.2.2
      rw [i2, ht] at heq
      omega
  · rcases get?_set_cases _ _ _ _ _ hj with ⟨j1, j2⟩ | ⟨j1, j2⟩
    · exfalso
      have := (occupied_stamp s k hf i a i2 oa).2.2.2
      rw [j2, ht] at heq
      omega
    · exact hst i j a b i2 j2 oa ob heq

/-- A call of the cache interface keeps the stamps of the occupied slots distinct. -/
theorem runCache_stamps (c : CacheCall) (s : CacheState) (k : Nat) (hf : CacheFill s k)
    (hst : StampsOK s) : StampsOK (runCache c s) := by
  cases c with
  | get did sec blk =>
    show StampsOK (lcloud_getcache did sec blk s).2
    cases hl : getcacheLoop did (u16 sec) (u16 blk) s.cache 0 with
    | none =>
      rw [lcloud_getcache_miss did sec blk s hl]
      exact hst
    | some j =>
      obtain ⟨e, he, -⟩ := getcacheLoop_slot did (u16 sec) (u16 blk) s j hl
      rw [lcloud_getcache_hit did sec blk s j e hl he]
      exact stamps_after_set s k hf hst j { e with time := s.cacheAccess } rfl _ rfl
  | put did sec blk data =>
    show StampsOK (lcloud_putcache did sec blk data s).2
    obtain ⟨c1, c2⟩ := lcloud_putcache_cases did sec blk data s k hf
    cases hl : getcacheLoop did (u16 sec) (u16 blk) s.cache 0 with
    | none =>
      obtain ⟨v, hv, -⟩ := c2 hl
      rw [hv]
      exact stamps_after_set s k hf hst v
        (newCacheBlock did (u16 sec) (u16 blk) data s.cacheAccess) rfl _ rfl
    | some j =>
      obtain ⟨e, he, -⟩ := getcacheLoop_slot did (u16 sec) (u16 blk) s j hl
      rw [(c1 j hl).1, restamp_eq s j e data he]
      exact stamps_after_set s k hf hst j
        { e with data := memcpy e.data 0 data 0 256, time := s.cacheAccess } rfl _ rfl

/-- No slot is occupied after `lcloud_initcache`. -/
theorem initcache_empty (maxblocks : Int) (e : cacheBlock)
    (he : e ∈ (lcloud_initcache maxblocks).cache) : e.block = -1 := by
  unfold lcloud_initcache at he
  rw [List.eq_of_mem_replicate he]
  rfl

/-- The stamps of the occupied slots of a reachable cache are pairwise distinct. -/
theorem cacheReachable_stamps (maxblocks : Int) (h : 1 ≤ maxblocks) (s : CacheState)
    (hs : CacheReachable maxblocks s) : StampsOK s := by
  induction hs with
  | init =>
    intro i j a b hi _ oa _ _
    exfalso
    exact (occupied_iff a).1 oa (initcache_empty maxblocks a (List.get?_mem hi))
  | @step s c hs ih =>
    obtain ⟨k, hf⟩ := cacheReachable_ok maxblocks h s hs
    exact runCache_stamps c s k hf ih

/-- A call of the cache interface keeps the number of slots. -/
theorem runCache_length (c : CacheCall) (s : CacheState) :
    (runCache c s).cache.length = s.cache.length := by
  cases c with
  | get did sec blk =>
    show (lcloud_getcache did sec blk s).2.cache.length = _
    unfold lcloud_getcache
    split
    · split
      · simp
      · rfl
    · rfl
  | put did sec blk data =>
    show (lcloud_putcache did sec blk data s).2.cache.length = _
    have hre : ∀ i, (restamp s i data).cache.length = s.cache.length := by
      intro i
      unfold restamp
      split
      · simp
      · rfl
    unfold lcloud_putcache
    split_ifs
    · split
      · exact hre _
      · dsimp only
        split
        · simp
        · rfl
    · split
      · exact hre _
      · simp
      · rfl

/-- A cache made with no slot has no slot. -/
theorem cacheReachable_no_slot (maxblocks : Int) (h : ¬ 1 ≤ maxblocks) (s : CacheState)
    (hs : CacheReachable maxblocks s) : s.cache = [] := by
  apply List.eq_nil_of_length_eq_zero
  induction hs with
  | init =>
    show (List.replicate maxblocks.toNat emptyCacheBlock).length = 0
    rw [List.length_replicate]
    omega
  | @step s c hs ih => rw [runCache_length, ih]

/-- A list of slots that is not empty has a slot whose stamp is smallest. -/
theorem exists_oldest : ∀ (l : List cacheBlock), l ≠ [] →
    ∃ v e, l.get? v = some e ∧ ∀ j e2, l.get? j = some e2 → e.time ≤ e2.time := by
  intro l
  induction l with
  | nil => intro h; exact absurd rfl h
  | cons a rest ih =>
    intro _
    by_cases hr : rest = []
    · subst hr
      refine ⟨0, a, rfl, ?_⟩
      intro j e2 hj
      cases j with
      | zero =>
        simp only [List.get?_cons_zero, Option.some.injEq] at hj
        rw [hj]
      | succ n => simp at hj
    · obtain ⟨v, e, hv, hmin⟩ := ih hr
      by_cases hae : a.time ≤ e.time
      · refine ⟨0, a, rfl, ?_⟩
        intro j e2 hj
        cases j with
        | zero =>
          simp only [List.get?_cons_zero, Option.some.injEq] at hj
          rw [hj]
        | succ n =>
          have := hmin n e2 (by simpa using hj)
          omega
      · refine ⟨v + 1, e, by simpa using hv, ?_⟩
        intro j e2 hj
        cases j with
        | zero =>
          simp only [List.get?_cons_zero, Option.some.injEq] at hj
          rw [← hj]
          omega
        | succ n => exact hmin n e2 (by simpa using hj)

end LCloud

namespace LCloud

/-! ## The device table that `lcopen` builds -/

/-- The device loop of `lcopen`, when it does not end in `return -1`: the entries already
made are kept, and entry `j` of the remaining ones is online exactly when bit `j` of the mask
is set; an online entry has the `d0` and `d1` of an accepted answer to its device-init
request as sectors and blocks, and a bitmap of `d0 * d1` zeros. -/
theorem initDevices_table {σ : Type} (K : Consts) (bus : Bus σ) :
    ∀ (l : List device) (i mask : Nat) (done : List device) (w : σ),
      (initDevices K bus l i mask done w).1 = true →
      (∀ j, j < done.length → (initDevices K bus l i mask done w).2.1.get? j = done.get? j) ∧
      ∀ j, j < l.length →
        ∃ d, (initDevices K bus l i mask done w).2.1.get? (done.length + j) = some d ∧
          (d.online = 1 ↔ (mask >>> j) &&& 1 = 1) ∧ (d.online = 1 ∨ d.online = 0) ∧
          (d.online = 1 → ∃ w2 : σ,
            respBad (create_lcloud_registers 0 0 K.LC_DEVINIT (i + j) 0 0 0)
              (bus w2 (create_lcloud_registers 0 0 K.LC_DEVINIT (i + j) 0 0 0) zeroBuf).1
              K.LC_DEVINIT = false ∧
            d.sectors = (extract_lcloud_registers
              (bus w2 (create_lcloud_registers 0 0 K.LC_DEVINIT (i + j) 0 0 0) zeroBuf).1).d0 ∧
            d.blocks = (extract_lcloud_registers
              (bus w2 (create_lcloud_registers 0 0 K.LC_DEVINIT (i + j) 0 0 0) zeroBuf).1).d1 ∧
            d.usedBlocks = List.replicate
              ((extract_lcloud_registers
                (bus w2 (create_lcloud_registers 0 0 K.LC_DEVINIT (i + j) 0 0 0)
                  zeroBuf).1).d0 *
               (extract_lcloud_registers
                (bus w2 (create_lcloud_registers 0 0 K.LC_DEVINIT (i + j) 0 0 0)
                  zeroBuf).1).d1) 0) := by
  intro l
  induction l with
  | nil =>
    intro i mask done w _
    refine ⟨fun j _ => rfl, fun j hj => ?_⟩
    simp at hj
  | cons d rest ih =>
    intro i mask done w
    -- the entry made for the head, and the recursive call, in both cases
    have key : ∀ (dnew : device) (w3 : σ),
        (initDevices K bus rest (i + 1) (mask >>> 1) (done ++ [dnew]) w3).1 = true →
        (dnew.online = 1 ↔ mask &&& 1 = 1) → (dnew.online = 1 ∨ dnew.online = 0) →
        (dnew.online = 1 → ∃ w2 : σ,
            respBad (create_lcloud_registers 0 0 K.LC_DEVINIT (i + 0) 0 0 0)
              (bus w2 (create_lcloud_registers 0 0 K.LC_DEVINIT (i + 0) 0 0 0) zeroBuf).1
              K.LC_DEVINIT = false ∧
            dnew.sectors = (extract_lcloud_registers
              (bus w2 (create_lcloud_registers 0 0 K.LC_DEVINIT (i + 0) 0 0 0) zeroBuf).1).d0 ∧
            dnew.blocks = (extract_lcloud_registers
              (bus w2 (create_lcloud_registers 0 0 K.LC_DEVINIT (i + 0) 0 0 0) zeroBuf).1).d1 ∧
            dnew.usedBlocks = List.replicate
              ((extract_lcloud_registers
                (bus w2 (create_lcloud_registers 0 0 K.LC_DEVINIT (i + 0) 0 0 0)
                  zeroBuf).1).d0 *
               (extract_lcloud_registers
                (bus w2 (create_lcloud_registers 0 0 K.LC_DEVINIT (i + 0) 0 0 0)
                  zeroBuf).1).d1) 0) →
        (∀ j, j < done.length →
          (initDevices K bus rest (i + 1) (mask >>> 1) (done ++ [dnew]) w3).2.1.get? j =
            done.get? j) ∧
        ∀ j, j < (d :: rest).length →
          ∃ e, (initDevices K bus rest (i + 1) (mask >>> 1) (done ++ [dnew]) w3).2.1.get?
              (done.length + j) = some e ∧
            (e.online = 1 ↔ (mask >>> j) &&& 1 = 1) ∧ (e.online = 1 ∨ e.online = 0) ∧
            (e.online = 1 → ∃ w2 : σ,
              respBad (create_lcloud_registers 0 0 K.LC_DEVINIT (i + j) 0 0 0)
                (bus w2 (create_lcloud_registers 0 0 K.LC_DEVINIT (i + j) 0 0 0) zeroBuf).1
                K.LC_DEVINIT = false ∧
              e.sectors = (extract_lcloud_registers
                (bus w2 (create_lcloud_registers 0 0 K.LC_DEVINIT (i + j) 0 0 0)
                  zeroBuf).1).d0 ∧
              e.blocks = (extract_lcloud_registers
                (bus w2 (create_lcloud_registers 0 0 K.LC_DEVINIT (i + j) 0 0 0)
                  zeroBuf).1).d1 ∧
              e.usedBlocks = List.replicate
                ((extract_lcloud_registers
                  (bus w2 (create_lcloud_registers 0 0 K.LC_DEVINIT (i + j) 0 0 0)
                    zeroBuf).1).d0 *
                 (extract_lcloud_registers
                  (bus w2 (create_lcloud_registers 0 0 K.LC_DEVINIT (i + j) 0 0 0)
                    zeroBuf).1).d1) 0) := by
      intro dnew w3 hok hon h01 hgeo
      obtain ⟨q1, q2⟩ := ih (i + 1) (mask >>> 1) (done ++ [dnew]) w3 hok
      have hlen : (done ++ [dnew]).length = done.length + 1 := by simp
      refine ⟨fun j hj => ?_, fun j hj => ?_⟩
      · rw [q1 j (by omega), List.get?_eq_getElem?, List.get?_eq_getElem?,
          List.getElem?_append_left hj]
      · cases j with
        | zero =>
          refine ⟨dnew, ?_, ?_, h01, hgeo⟩
          · have h0 := q1 done.length (by omega)
            rw [List.get?_eq_getElem?, List.get?_eq_getElem?,
              List.getElem?_append_right (le_refl _)] at h0
            simp only [Nat.sub_self, List.getElem?_cons_zero] at h0
            rw [List.get?_eq_getElem?]
            exact h0
          · rw [Nat.shiftRight_zero]
            exact hon
        | succ n =>
          obtain ⟨e, e1, e2, e3, e4⟩ := q2 n (by simp at hj; omega)
          refine ⟨e, ?_, ?_, e3, ?_⟩
          · rw [hlen] at e1
            rw [← e1]
            congr 1
            omega
          · rw [Nat.add_comm n 1, Nat.shiftRight_add]
            exact e2
          · have hidx : i + 1 + n = i + (n + 1) := by omega
            rw [hidx] at e4
            exact e4
    unfold initDevices
    dsimp only
    by_cases c1 : mask &&& 1 = 1
    · rw [if_pos c1]
      cases hbad : respBad (create_lcloud_registers 0 0 K.LC_DEVINIT i 0 0 0)
          (bus w (create_lcloud_registers 0 0 K.LC_DEVINIT i 0 0 0) zeroBuf).1 K.LC_DEVINIT with
      | true =>
        simp only [if_true]
        intro h
        simp at h
      | false =>
        simp only [Bool.false_eq_true, if_false]
        intro hok
        exact key _ _ hok ⟨fun _ => c1, fun _ => rfl⟩ (Or.inl rfl)
          (fun _ => ⟨w, hbad, rfl, rfl, rfl⟩)
    · rw [if_neg c1]
      intro hok
      refine key { d with online := 0 } w hok ⟨fun h => ?_, fun h => absurd h c1⟩ (Or.inr rfl)
        (fun h => ?_)
      · exact absurd h (by show ¬ (0 : Int) = 1; decide)
      · exact absurd h (by show ¬ (0 : Int) = 1; decide)

/-- The device table after the first successful `lcopen`: entry `j` is online exactly when bit
`j` of the `d0` that `extract_lcloud_registers` returns for the accepted probe answer is set,
and an online entry has the `d0` and `d1` of an accepted answer to its device-init request as
sectors and blocks, and a bitmap of `d0 * d1` zeros. -/
theorem lcopen_device_table {σ : Type} (K : Consts) (bus : Bus σ) (path : String)
    (garbage : Nat → block) (s : FsState σ) (hfo : s.firstOpen ≠ 0)
    (hok : 0 ≤ (lcopen K bus path garbage s).1) :
    ∃ w1 : σ,
      respBad (create_lcloud_registers 0 0 K.LC_DEVPROBE 0 0 0 0)
        (bus w1 (create_lcloud_registers 0 0 K.LC_DEVPROBE 0 0 0 0) zeroBuf).1 1 = false ∧
      ∀ j, j < s.devOn.length →
        ∃ d, (lcopen K bus path garbage s).2.devOn.get? j = some d ∧
          (d.online = 1 ↔
            ((extract_lcloud_registers
              (bus w1 (create_lcloud_registers 0 0 K.LC_DEVPROBE 0 0 0 0) zeroBuf).1).d0 >>> j)
                &&& 1 = 1) ∧
          (d.online = 1 ∨ d.online = 0) ∧
          (d.online = 1 → ∃ w2 : σ,
            respBad (create_lcloud_registers 0 0 K.LC_DEVINIT j 0 0 0)
              (bus w2 (create_lcloud_registers 0 0 K.LC_DEVINIT j 0 0 0) zeroBuf).1
              K.LC_DEVINIT = false ∧
            d.sectors = (extract_lcloud_registers
              (bus w2 (create_lcloud_registers 0 0 K.LC_DEVINIT j 0 0 0) zeroBuf).1).d0 ∧
            d.blocks = (extract_lcloud_registers
              (bus w2 (create_lcloud_registers 0 0 K.LC_DEVINIT j 0 0 0) zeroBuf).1).d1 ∧
            d.usedBlocks = List.replicate
              ((extract_lcloud_registers
                (bus w2 (create_lcloud_registers 0 0 K.LC_DEVINIT j 0 0 0) zeroBuf).1).d0 *
               (extract_lcloud_registers
                (bus w2 (create_lcloud_registers 0 0 K.LC_DEVINIT j 0 0 0) zeroBuf).1).d1)
              0) := by
  unfold lcopen at hok ⊢
  rw [if_pos hfo] at hok ⊢
  dsimp only at hok ⊢
  by_cases hinit : (lcopenInit K bus s).1 = true
  · rw [if_pos hinit]
    show ∃ w1 : σ, _ ∧ ∀ j, j < s.devOn.length →
      ∃ d, (lcopenInit K bus s).2.devOn.get? j = some d ∧ _
    unfold lcopenInit at hinit ⊢
    dsimp only at hinit ⊢
    split_ifs at hinit ⊢ with c1 c2 c3
    refine ⟨_, by simpa using c2, fun j hj => ?_⟩
    obtain ⟨-, t2⟩ := initDevices_table K bus s.devOn 0 _ [] _ c3
    obtain ⟨d, d1, d2, d3, d4⟩ := t2 j hj
    simp only [List.length_nil, Nat.zero_add] at d1 d4
    exact ⟨d, d1, d2, d3, d4⟩
  · rw [if_neg hinit] at hok
    exact absurd hok (by show ¬ (0 : Int) ≤ -1; decide)

end LCloud

namespace LCloud

/-! ## Claims on the error value, the scans, and the frame of a read -/

/-- C36: in every cache state reachable from `lcloud_initcache(n)` with `n >= 1` by calls of
`lcloud_getcache` and `lcloud_putcache`, `lcloud_putcache` returns 0. The array has `n`
slots; the scan of the first branch ends on the key or with the victim index assigned, in
both cases an index below `n`; and when the second branch is taken its scan ends on the key
or on an empty slot, at an index below `n`, so the `return -1` after it is not reached. -/
theorem C36_putcache_returns_zero (maxblocks : Int) (h : 1 ≤ maxblocks) (s : CacheState)
    (hs : CacheReachable maxblocks s) (did sec blk : Int) (block : Buf) :
    (lcloud_putcache did sec blk block s).1 = 0 ∧
    s.cache.length = maxblocks.toNat ∧
    ((∃ i, i < maxblocks.toNat ∧
        putcacheFullLoop did (u16 sec) (u16 blk) s.cache 0 s.cacheAccess none =
          FullScan.hit i) ∨
      (∃ v, v < maxblocks.toNat ∧
        putcacheFullLoop did (u16 sec) (u16 blk) s.cache 0 s.cacheAccess none =
          FullScan.victim (some v))) ∧
    (¬ s.cacheAccess ≥ s.cacheSize - 1 →
      (∃ i, i < maxblocks.toNat ∧
        putcacheFreeLoop did (u16 sec) (u16 blk) s.cache 0 = FreeScan.hit i) ∨
      (∃ i, i < maxblocks.toNat ∧
        putcacheFreeLoop did (u16 sec) (u16 blk) s.cache 0 = FreeScan.empty i)) := by
  obtain ⟨k, hf⟩ := cacheReachable_ok maxblocks h s hs
  have hlen := cacheReachable_length maxblocks h s hs
  obtain ⟨p1, p2⟩ := putcache_scans did sec blk s k hf
  rw [hlen] at p1 p2
  exact ⟨(lcloud_putcache_effect did sec blk block s k hf).1, hlen, p1, p2⟩

/-- Witness for C36: a `lcloud_putcache` of the key `(0, 0, 1)` into the cache of two slots
that holds the key `(0, 0, 0)`. -/
theorem C36_putcache_witness :
    (lcloud_putcache 0 0 1 (constBuf 66) demoCache).1 = 0 ∧
    demoCache.cache.length = (2 : Int).toNat ∧
    ((∃ i, i < (2 : Int).toNat ∧
        putcacheFullLoop 0 (u16 0) (u16 1) demoCache.cache 0 demoCache.cacheAccess none =
          FullScan.hit i) ∨
      (∃ v, v < (2 : Int).toNat ∧
        putcacheFullLoop 0 (u16 0) (u16 1) demoCache.cache 0 demoCache.cacheAccess none =
          FullScan.victim (some v))) ∧
    (¬ demoCache.cacheAccess ≥ demoCache.cacheSize - 1 →
      (∃ i, i < (2 : Int).toNat ∧
        putcacheFreeLoop 0 (u16 0) (u16 1) demoCache.cache 0 = FreeScan.hit i) ∨
      (∃ i, i < (2 : Int).toNat ∧
        putcacheFreeLoop 0 (u16 0) (u16 1) demoCache.cache 0 = FreeScan.empty i)) :=
  C36_putcache_returns_zero 2 (by decide) demoCache
    (CacheReachable.step (CacheCall.put 0 0 0 (constBuf 65)) CacheReachable.init) 0 0 1
    (constBuf 66)

/-- C37: for every device table whose online devices have at least one sector and one
block, when `get_Next_Block` returns a triple other than `(-1, -1, -1)`, the triple names a
device of the table that is online, a sector and a block inside its geometry, and the
allocation bit read for it is not 1; for every online device, every cell whose bit the scan
reads lies inside the geometry, so the index `sector * blocks + block` read is in
`[0, sectors * blocks)`, and the scan ends on the last cell read. -/
theorem C37_next_block_free_and_in_range (devOn : List device)
    (hgeo : ∀ d ∈ devOn, d.online = 1 → 1 ≤ d.sectors ∧ 1 ≤ d.blocks) :
    (get_Next_Block devOn ≠ noBlock →
      ∃ d, InRange devOn (get_Next_Block devOn) d ∧
        usedAt d (get_Next_Block devOn).sector (get_Next_Block devOn).blockNum ≠ 1) ∧
    (∀ d ∈ devOn, d.online = 1 → ∀ c ∈ scanCells d (d.sectors * d.blocks).toNat 0 0,
      0 ≤ c.1 ∧ c.1 < d.sectors ∧ 0 ≤ c.2 ∧ c.2 < d.blocks ∧
      0 ≤ c.1 * d.blocks + c.2 ∧ c.1 * d.blocks + c.2 < d.sectors * d.blocks) ∧
    (∀ d ∈ devOn, d.online = 1 →
      (scanCells d (d.sectors * d.blocks).toNat 0 0).getLast? =
        some (scanDevice d (d.sectors * d.blocks).toNat 0 0)) := by
  refine ⟨fun hne => ?_, fun d hd hon c hc => ?_, fun d hd hon => ?_⟩
  · unfold get_Next_Block at hne ⊢
    rcases nextBlockLoop_free devOn 0 hgeo with h | ⟨k, d, h1, h2, h3, h4, h5, h6, h7, h8⟩
    · exact absurd h hne
    · refine ⟨d, ⟨?_, ?_, h3, h4, h5, h6, h7⟩, h8⟩
      · rw [h2]; omega
      · rw [h2]
        simpa using h1
  · obtain ⟨hS, hB⟩ := hgeo d hd hon
    obtain ⟨a1, a2, a3, a4⟩ := scanCells_range d _ 0 0 (le_refl _) (by omega) (le_refl _)
      (by omega) c hc
    have := cell_lt d.sectors d.blocks c.1 c.2 a2 a3 a4 a1
    exact ⟨a1, a2, a3, a4, this.1, this.2⟩
  · obtain ⟨hS, hB⟩ := hgeo d hd hon
    apply scanCells_last d _ 0 0 (le_refl _) (by omega) (le_refl _) (by omega)
    have : 0 ≤ d.sectors * d.blocks := Int.mul_nonneg (by omega) (by omega)
    rw [Int.toNat_of_nonneg this]
    omega

/-- Witness for C37: one online device of 2 sectors by 2 blocks with the bits `1, 1, 0, 0`;
the block returned is `(0, 1, 0)`. -/
theorem C37_next_block_witness :
    (get_Next_Block [device.mk 1 2 2 [1, 1, 0, 0]] ≠ noBlock →
      ∃ d, InRange [device.mk 1 2 2 [1, 1, 0, 0]]
          (get_Next_Block [device.mk 1 2 2 [1, 1, 0, 0]]) d ∧
        usedAt d (get_Next_Block [device.mk 1 2 2 [1, 1, 0, 0]]).sector
          (get_Next_Block [device.mk 1 2 2 [1, 1, 0, 0]]).blockNum ≠ 1) ∧
    get_Next_Block [device.mk 1 2 2 [1, 1, 0, 0]] = block.mk 0 1 0 ∧
    scanCells (device.mk 1 2 2 [1, 1, 0, 0]) 4 0 0 = [(0, 0), (0, 1), (1, 0)] :=
  ⟨(C37_next_block_free_and_in_range [device.mk 1 2 2 [1, 1, 0, 0]]
      (by
        intro d hd _
        rw [List.mem_singleton] at hd
        rw [hd]
        decide)).1,
    by decide, by decide⟩

/-- In every state reached through `lcopen`, `lcwrite`, `lcseek`, `lcclose` and `lcread` calls
that end inside the stored blocks, whatever the calls return, every descriptor has its
position at most 256 times the number of blocks in its block list; so when the position is
not a multiple of 256, the block of index `position / 256` is in the block list. -/
theorem inBlocks_position_within_blocks {σ : Type} (K : Consts) (bus : Bus σ) (s : FsState σ)
    (fh : Nat) (f : file) (hs : InBlocks K bus s) (hf : s.fhTable.get? fh = some f) :
    f.position ≤ 256 * f.blocks.length ∧
    (f.position % 256 ≠ 0 →
      f.position / 256 < f.blocks.length ∧ blockAt f (f.position / 256) ∈ f.blocks) := by
  have hp := (inBlocks_fileOK K bus s hs f (List.get?_mem hf)).2
  refine ⟨hp, fun hu => ?_⟩
  have hidx : f.position / 256 < f.blocks.length := by omega
  refine ⟨hidx, ?_⟩
  unfold blockAt
  rw [List.getD_eq_getElem _ _ hidx]
  exact List.getElem_mem _

set_option maxRecDepth 8192 in
/-- C39: the position can pass the end of the stored blocks. With the array `blocks` all zero
at `lcopen`: after a write of 100 bytes `0x41` and `lcseek` to 0, a `lcread` of 300 bytes
returns 300, because the entry `blocks[1]` that ends its loop was never given the end
marker, and leaves the position at 300 with one block stored: `300 > 256 * 1`. The position
is not a multiple of 256 and `blocks[300 / 256]` is not in the block list; a `lcwrite` of 10
bytes `0x42` there takes that entry, which reads `(0, 0, 0)`, and sends the bytes to offset
44 of the first block of the file. -/
theorem C39_position_past_stored_blocks :
    Reachable simConsts demoBus demoRead300 ∧
    (lcread simConsts demoBus zeroBuf 0 zeroBuf 300 demoRewound).map (fun r => r.1) =
      some 300 ∧
    demoRead300.fhTable.map
        (fun f => (f.position, f.blocks.length, f.position % 256, f.position / 256)) =
      [(300, 1, 44, 1)] ∧
    simMem demoRead300.world { device := 0, sector := 0, blockNum := 0 } 44 = 65 ∧
    (lcwrite simConsts demoBus zeroBuf 0 (constBuf 66) 10 demoRead300).map (fun r => r.1) =
      some 10 ∧
    simMem demoGrown.world { device := 0, sector := 0, blockNum := 0 } 44 = 66 := by
  refine ⟨demoRead300_reachable, ?_, ?_, ?_, ?_, ?_⟩ <;> decide

end LCloud

namespace LCloud

/-! ## Claims on what a read changes and how far it goes -/

/-- C32: a `lcread` on handle `fh` that does not return a negative value returns a count `n`
and changes, of the file table and the device table, only the position of the descriptor of
`fh`, which becomes the old position plus `n`: the new file table is the old one with that
one field replaced, and the device table (with all allocation bits), `firstOpen` and the
handle counter are the old ones. -/
theorem C32_read_changes_only_position {σ : Type} (K : Consts) (bus : Bus σ) (junk : Buf)
    (fh : Nat) (buf : Buf) (len : Nat) (s : FsState σ) (f : file)
    (r : Int × Buf × FsState σ) (hf : s.fhTable.get? fh = some f)
    (hr : lcread K bus junk fh buf len s = some r) (hok : 0 ≤ r.1) :
    ∃ n : Nat, r.1 = (n : Int) ∧
      r.2.2.fhTable = s.fhTable.set fh { f with position := f.position + n } ∧
      r.2.2.devOn = s.devOn ∧ r.2.2.firstOpen = s.firstOpen ∧
      r.2.2.fileHandleCounter = s.fileHandleCounter := by
  obtain ⟨-, hr2⟩ := lcread_some hf hr
  subst hr2
  obtain ⟨n, h1, h2⟩ := readFile_moved K bus junk f s.cs s.world buf len hok
  refine ⟨n, h1, ?_, rfl, rfl, rfl⟩
  show s.fhTable.set fh (readFile K bus junk f s.cs s.world buf len).f = _
  rw [h2]

/-- Witness for C32: the read of 256 bytes from position 0 after `lcopen`, a write of 100
bytes and `lcseek` to 0. -/
theorem C32_read_witness :
    ∃ n : Nat, (256 : Int) = (n : Int) ∧
      demoOverRead.fhTable =
        demoRewound.fhTable.set 0
          { file.mk "x" 0 0 100 [block.mk 0 0 0] 1 zeroGarbage with position := 0 + n } ∧
      demoOverRead.devOn = demoRewound.devOn ∧ demoOverRead.firstOpen = demoRewound.firstOpen ∧
      demoOverRead.fileHandleCounter = demoRewound.fileHandleCounter :=
  C32_read_changes_only_position simConsts demoBus zeroBuf 0 zeroBuf 256 demoRewound
    (file.mk "x" 0 0 100 [block.mk 0 0 0] 1 zeroGarbage)
    (256,
      (readFile simConsts demoBus zeroBuf (file.mk "x" 0 0 100 [block.mk 0 0 0] 1 zeroGarbage)
        demoRewound.cs demoRewound.world zeroBuf 256).buf, demoOverRead)
    (by rfl) (by rfl) (by decide)

set_option maxRecDepth 8192 in
/-- C38: `lcread` does not stop at the end of the last block of the file. On the stand-in
controller, where the load of every block that fits the request frame succeeds, with the
array `blocks` all zero at `lcopen`: after a write of 100 bytes and `lcseek` to 0 the open
descriptor is at position 0 and has one block; `lcread` of 300 bytes returns 300, not
`min 300 (256 * 1 - 0) = 256`, and leaves the position at 300: the entry `blocks[1]` that
the loop tests after the first block was never given the end marker `blockNum = -1`. -/
theorem C38_read_goes_past_last_block :
    (∀ (b : block) (b256 : Buf) (cs : CacheState) (w : SimWorld), Addressable b →
      (loadBlock simConsts demoBus b b256 cs w).1 = true) ∧
    demoRewound.fhTable.map (fun f => (f.opened, f.position, f.blocks.length)) = [(1, 0, 1)] ∧
    (lcread simConsts demoBus zeroBuf 0 zeroBuf 300 demoRewound).map
        (fun r => (r.1, r.2.2.fhTable.map (fun f => f.position))) = some (300, [300]) ∧
    min 300 (256 * 1 - 0) = 256 := by
  refine ⟨fun b b256 cs w hb =>
    loadBlock_ok simConsts demoBus simMem (simBus_storing 3 2 3) b hb b256 cs w, ?_, ?_, ?_⟩ <;>
    decide

end LCloud

namespace LCloud

/-! ## Claim on the stamps of the cache -/

/-- C31: in every cache state reachable from `lcloud_initcache` by calls of
`lcloud_getcache` and `lcloud_putcache`, the stamps of the occupied slots are pairwise
distinct and all smaller than the access counter; so in a cache of at least one slot whose
slots are all occupied, exactly one slot has the smallest stamp: its stamp is smaller than
that of every other slot. -/
theorem C31_stamps_distinct_and_below_counter (maxblocks : Int) (s : CacheState)
    (hs : CacheReachable maxblocks s) :
    (∀ i j e1 e2, s.cache.get? i = some e1 → s.cache.get? j = some e2 →
      occupied e1 = true → occupied e2 = true → e1.time = e2.time → i = j) ∧
    (∀ i e, s.cache.get? i = some e → occupied e = true → e.time < s.cacheAccess) ∧
    (1 ≤ maxblocks → (∀ e ∈ s.cache, occupied e = true) →
      ∃ v e, s.cache.get? v = some e ∧
        ∀ j e2, s.cache.get? j = some e2 → j ≠ v → e.time < e2.time) := by
  by_cases h : 1 ≤ maxblocks
  · obtain ⟨k, hf⟩ := cacheReachable_ok maxblocks h s hs
    have hst := cacheReachable_stamps maxblocks h s hs
    refine ⟨hst, fun i e hi ho => (occupied_stamp s k hf i e hi ho).2.2.2, fun _ hfull => ?_⟩
    have hne : s.cache ≠ [] := by
      intro hnil
      have h1 := hf.1
      have h2 := hf.2.1
      rw [hnil] at h1
      simp only [List.length_nil] at h1
      omega
    obtain ⟨v, e, hv, hmin⟩ := exists_oldest s.cache hne
    refine ⟨v, e, hv, fun j e2 hj hjv => ?_⟩
    have hle := hmin j e2 hj
    have hneq : e.time ≠ e2.time := by
      intro heq
      exact hjv (hst v j e e2 hv hj (hfull e (List.get?_mem hv))
        (hfull e2 (List.get?_mem hj)) heq).symm
    omega
  · have hnil := cacheReachable_no_slot maxblocks h s hs
    refine ⟨?_, ?_, fun h1 => absurd h1 h⟩
    · intro i j e1 e2 hi
      rw [hnil] at hi
      simp at hi
    · intro i e hi
      rw [hnil] at hi
      simp at hi

/-- Witness for C31: the cache of two slots after the touches of the keys `(0, 0, 0)`,
`(0, 0, 1)`, `(0, 0, 0)`, `(0, 0, 2)`, whose two slots are occupied. -/
theorem C31_stamps_witness :
    ∃ v e, (runCacheCalls [CacheCall.put 0 0 0 (constBuf 65), CacheCall.put 0 0 1 (constBuf 66),
        CacheCall.get 0 0 0, CacheCall.put 0 0 2 (constBuf 67)]
        (lcloud_initcache 2)).cache.get? v = some e ∧
      ∀ j e2, (runCacheCalls [CacheCall.put 0 0 0 (constBuf 65),
        CacheCall.put 0 0 1 (constBuf 66), CacheCall.get 0 0 0,
        CacheCall.put 0 0 2 (constBuf 67)] (lcloud_initcache 2)).cache.get? j = some e2 →
        j ≠ v → e.time < e2.time :=
  (C31_stamps_distinct_and_below_counter 2 _
    (CacheReachable.step (CacheCall.put 0 0 2 (constBuf 67))
      (CacheReachable.step (CacheCall.get 0 0 0)
        (CacheReachable.step (CacheCall.put 0 0 1 (constBuf 66))
          (CacheReachable.step (CacheCall.put 0 0 0 (constBuf 65)) CacheReachable.init))))).2.2
    (by decide)
    (by
      intro e he
      have hc : (runCacheCalls [CacheCall.put 0 0 0 (constBuf 65),
          CacheCall.put 0 0 1 (constBuf 66), CacheCall.get 0 0 0,
          CacheCall.put 0 0 2 (constBuf 67)] (lcloud_initcache 2)).cache.map
            (fun x => x.block) = [0, 2] := by decide
      have hm : e.block ∈ [(0 : Int), 2] := by
        rw [← hc]
        exact List.mem_map_of_mem (fun x => x.block) he
      rw [occupied_iff]
      intro hneg
      rw [hneg] at hm
      revert hm
      decide)

end LCloud

namespace LCloud

/-! ## Claims on the device table of `lcopen` and on the transport -/

/-- C33: `lcopen` does not take the device mask and the geometry from the bit ranges of the
layout. The controller answers the probe with a frame whose bits 0-15 hold 1 and whose bits
16-31 hold 2, and every device-init with a frame whose bits 0-15 hold 2 and whose bits 16-31
hold 3. By the layout (`d0` = bits 0-15, `d1` = bits 16-31) device 0 alone is present, with 2
sectors of 3 blocks. The first `lcopen` succeeds and leaves device 0 offline and device 1
online with `sectors = 3`, `blocks = 2` and six zero bits: `extract_lcloud_registers` hands
`lcopen` bits 16-31 as `d0` and bits 0-15 as `d1`. -/
theorem C33_lcopen_reads_mask_and_geometry_from_exchanged_fields :
    bitsOf (simResponse 1 2 1) 0 16 = 1 ∧ bitsOf (simResponse 1 2 1) 16 16 = 2 ∧
    bitsOf (simResponse 2 3 2) 0 16 = 2 ∧ bitsOf (simResponse 2 3 2) 16 16 = 3 ∧
    (lcopen simConsts (replyBus simConsts (simResponse 1 2 1) (simResponse 2 3 2)) "x"
      zeroGarbage (bootState simWorld0)).1 = 0 ∧
    (lcopen simConsts (replyBus simConsts (simResponse 1 2 1) (simResponse 2 3 2)) "x"
      zeroGarbage (bootState simWorld0)).2.firstOpen = 0 ∧
    (lcopen simConsts (replyBus simConsts (simResponse 1 2 1) (simResponse 2 3 2)) "x"
      zeroGarbage (bootState simWorld0)).2.devOn.map (fun d => d.online) =
      [0, 1, 0, 0, 0, 0, 0, 0, 0, 0, 0, 0, 0, 0, 0, 0] ∧
    ((lcopen simConsts (replyBus simConsts (simResponse 1 2 1) (simResponse 2 3 2)) "x"
      zeroGarbage (bootState simWorld0)).2.devOn.get? 1).map
        (fun d => (d.sectors, d.blocks, d.usedBlocks)) =
      some (3, 2, [0, 0, 0, 0, 0, 0]) := by
  decide

/-- C34: a failed `client_lcloud_bus_request` does not leave `socket_handle` at `-1`. From
the disconnected state, with `socket` returning 3 and `connect` returning `-1`, the request
returns `-1` and `socket_handle` is 3; from the connected state with handle 3, when the
`write` of the frame sends 4 of its 8 bytes, the request returns `-1` and `socket_handle` is
still 3. With `socket_handle = 3` the next request makes no connection. -/
theorem C34_failed_request_leaves_socket_handle :
    (client_lcloud_bus_request simConsts connectRefused (-1)
      (create_lcloud_registers 0 0 simConsts.LC_POWER_ON 0 0 0 0) zeroBuf).1 = frameError ∧
    (client_lcloud_bus_request simConsts connectRefused (-1)
      (create_lcloud_registers 0 0 simConsts.LC_POWER_ON 0 0 0 0) zeroBuf).2.2 = 3 ∧
    (client_lcloud_bus_request simConsts shortWrite 3
      (create_lcloud_registers 0 0 simConsts.LC_DEVPROBE 0 0 0 0) zeroBuf).1 = frameError ∧
    (client_lcloud_bus_request simConsts shortWrite 3
      (create_lcloud_registers 0 0 simConsts.LC_DEVPROBE 0 0 0 0) zeroBuf).2.2 = 3 ∧
    connectIfClosed connectRefused 3 = (true, 3) := by
  decide

end LCloud

namespace LCloud

/-! ## Claim on cache coherence -/

/-- With a controller that stores what is written, answers every block transfer successfully
and reports no empty device, and a cache of at least one slot: after the first successful
`lcopen`, along every run of `lcopen`, successful `lcwrite`, `lcseek`, `lcclose` and `lcread`
inside the file, every occupied cache slot holds the 256 bytes that the controller holds for
the device, sector and block of the slot; so for a block that fits the request frame, the
bytes that `lcloud_getcache` returns are the bytes that a block-read request delivers. -/
theorem written_cache_holds_controller_bytes {σ : Type} (K : Consts) (bus : Bus σ)
    (mem : σ → block → Buf) (hg : GoodGeometry K bus) (hbus : StoringBus K bus mem)
    (hK : 1 ≤ K.LC_CACHE_MAXBLOCKS) (s : FsState σ) (g : List Buf) (hs : Written K bus s g)
    (hfo : s.firstOpen = 0) :
    (∀ i e, s.cs.cache.get? i = some e → occupied e = true →
      ∀ x, x < 256 → e.data x = mem s.world (slotKey e) x) ∧
    (∀ (b : block) (d buf_256 : Buf), Addressable b →
      (lcloud_getcache b.device b.sector b.blockNum s.cs).1 = some d →
      ∀ x, x < 256 → d x = (bus s.world (xferFrame K K.LC_XFER_READ b) buf_256).2.1 x) := by
  obtain ⟨-, -, -, i2⟩ := written_data K bus mem hg hbus hK hs
  obtain ⟨⟨⟨k, hf⟩, hc⟩, -⟩ := i2 hfo
  have part1 : ∀ i e, s.cs.cache.get? i = some e → occupied e = true →
      ∀ x, x < 256 → e.data x = mem s.world (slotKey e) x := by
    intro i e hi ho x hx
    exact (hc i e hi (occupied_stamp s.cs k hf i e hi ho).2.1).2 x hx
  refine ⟨part1, ?_⟩
  intro b d buf_256 hb hget x hx
  obtain ⟨i, e, h1, h2, h3⟩ := getcache_slot_of_some _ _ _ s.cs d hget
  have hkey := slotKey_of_match e b hb h2
  have hocc : occupied e = true := by
    rw [occupied_iff, ((keyMatch_iff _ _ _ _).1 h2).2.1]
    have := (u16_range b.blockNum).1
    omega
  rw [← h3, part1 i e h1 hocc x hx, hkey, hbus.read_buf s.world b buf_256 hb x hx]

set_option maxRecDepth 16384 in
/-- C40: a cache slot can hold other bytes than the controller holds for its block. The
controller is the stand-in one, which stores what is written, answers every request
successfully and has two devices of 2 sectors by 3 blocks; the cache has 4 slots; the memory
of the array `blocks` holds the triple `(0, 0, 65536)` in every entry at `lcopen`. A write of
1280 bytes, byte `j % 251` at offset `j`, stores 5 blocks and leaves the blocks `(0,1,1)`,
`(0,0,1)`, `(0,0,2)`, `(0,1,0)` in the cache. The `lcread` of 256 bytes at position 1280
tests the entry `blocks[5]`, which the program never assigned, looks up the key
`(0, 0, 65536 mod 2^16) = (0, 0, 0)`, misses, requests the frame whose low 32 bits are
`65536`, which the controller reads as sector 1, block 0, and puts the answer into the cache
under the key `(0, 0, 0)`; it returns 256. The slot of `(0, 0, 0)` then begins with the byte
15 of block `(0, 1, 0)`, while the controller holds the byte 0 there for block
`(0, 0, 0)`. -/
theorem C40_cache_slot_differs_from_controller :
    GoodGeometry simConsts demoBus ∧ StoringBus simConsts demoBus simMem ∧
    Reachable simConsts demoBus wideRead ∧
    wideWritten.fhTable.map (fun f => (f.position, f.size, f.blocks.length)) =
      [(1280, 1280, 5)] ∧
    wideWritten.cs.cache.map (fun e => (e.device, e.sector, e.block)) =
      [(0, 1, 1), (0, 0, 1), (0, 0, 2), (0, 1, 0)] ∧
    (lcread simConsts demoBus zeroBuf 0 zeroBuf 256 wideWritten).map (fun r => r.1) =
      some 256 ∧
    wideRead.cs.cache.map (fun e => (e.device, e.sector, e.block, e.data 0)) =
      [(0, 1, 1, 20), (0, 0, 0, 15), (0, 0, 2, 10), (0, 1, 0, 15)] ∧
    simMem wideRead.world { device := 0, sector := 0, blockNum := 0 } 0 = 0 ∧
    simMem wideRead.world { device := 0, sector := 1, blockNum := 0 } 0 = 15 := by
  refine ⟨demoBus_goodGeometry, simBus_storing 3 2 3, wideRead_reachable, ?_, ?_, ?_, ?_, ?_,
    ?_⟩ <;> decide

end LCloud
